import Mathlib

/-!
# AlgoViz: the trace-generating algorithms of `utils/mock.js`

A shallow embedding of `sortingAlgorithms` and `searchingAlgorithms`
(`frontend/src/utils/mock.js`) together with the properties of their traces.

Conventions of the embedding.

* JavaScript numbers that hold array values are mathematical integers (`Int`);
  array indices and counters are `Nat` unless the source lets them go below
  zero, in which case they are `Int` (or the model carries the index plus one
  and says so).
* A JavaScript array is a `List`.  `steps.push(x)` is `steps ++ [x]`.
* The locals that a sorting function mutates (`array`, `steps`, `comparisons`,
  `swaps`) are threaded through as a `SortState`.
* A counted `for` loop whose bound does not change is a fold over the list of
  the values its variable takes; a `while` loop or a recursive helper takes a
  fuel argument and yields `none` when the fuel is used up.
-/

namespace AlgoViz

/-! ## Data model -/

/-- One record pushed on `steps` by a sorting algorithm. `sorted` is `none`
when the record has no `sorted` field. -/
structure SortStep where
  array : List Int
  comparing : List Nat
  sorted : Option (List Nat)
  comparisons : Nat
  swaps : Nat
  deriving DecidableEq, Repr

/-- The mutable locals of a sorting function. -/
structure SortState where
  array : List Int
  steps : List SortStep
  comparisons : Nat
  swaps : Nat
  deriving DecidableEq, Repr

/-- The object `{ steps, comparisons, swaps }` returned by a sorting function. -/
structure SortResult where
  steps : List SortStep
  comparisons : Nat
  swaps : Nat
  deriving DecidableEq, Repr

/-- The state after `const array = [...arr]; const steps = []; let comparisons = 0;
let swaps = 0;`. -/
def SortState.init (arr : List Int) : SortState :=
  { array := arr, steps := [], comparisons := 0, swaps := 0 }

/-- The returned object `{ steps, comparisons, swaps }`. -/
def SortState.result (st : SortState) : SortResult :=
  { steps := st.steps, comparisons := st.comparisons, swaps := st.swaps }

/-- Read of `array[i]` at an index inside the array. -/
def rd (a : List Int) (i : Nat) : Int := a.getD i 0

/-- The destructuring swap `[array[i], array[j]] = [array[j], array[i]]`: the right-hand
side is evaluated first, then `array[i]` and `array[j]` are assigned in that order. -/
def swapAt (a : List Int) (i j : Nat) : List Int :=
  (a.set i (rd a j)).set j (rd a i)

/-- The call `steps.push({ array: [...array], comparing, comparisons, swaps })`, with a
`sorted` field when one is given. -/
def pushStep (st : SortState) (comparing : List Nat) (sorted : Option (List Nat)) : SortState :=
  { st with steps := st.steps ++
      [{ array := st.array, comparing := comparing, sorted := sorted,
         comparisons := st.comparisons, swaps := st.swaps }] }

/-- The value of `Array.from({ length: len }, (_, idx) => top - idx)`. -/
def countDown (len top : Nat) : List Nat := (List.range len).map (fun idx => top - idx)

/-- The value of `Array.from({ length: len }, (_, idx) => idx)`. -/
def countUp (len : Nat) : List Nat := List.range len

/-! ## Bubble sort (`mock.js` lines 9-47) -/

/-- Body of the inner loop of `bubble` for one value of `j` (lines 18-35). -/
def bubbleBody (st : SortState) (j : Nat) : SortState :=
  let st := { st with comparisons := st.comparisons + 1 }
  let st := pushStep st [j, j + 1] none
  if rd st.array j > rd st.array (j + 1) then
    let st := { st with array := swapAt st.array j (j + 1) }
    let st := { st with swaps := st.swaps + 1 }
    pushStep st [j, j + 1] none
  else st

/-- The inner loop `for (let j = 0; j < n - i - 1; j++)` (lines 17-36). -/
def bubbleInner (n i : Nat) (st : SortState) : SortState :=
  (List.range (n - i - 1)).foldl bubbleBody st

/-- Body of the outer loop of `bubble` for one value of `i` (lines 17-43). -/
def bubblePass (n : Nat) (st : SortState) (i : Nat) : SortState :=
  pushStep (bubbleInner n i st) [] (some (countDown (n - i) (n - 1)))

/-- The state of `bubble` when it reaches its `return` (lines 10-44). -/
def bubbleRun (arr : List Int) : SortState :=
  (List.range (arr.length - 1)).foldl (bubblePass arr.length) (SortState.init arr)

/-- `sortingAlgorithms.bubble`. -/
def bubble (arr : List Int) : SortResult := (bubbleRun arr).result

/-! ## Selection sort (`mock.js` lines 49-90) -/

/-- Body of the inner loop of `selection` for one value of `j` (lines 59-68); the loop
carries `minIdx`. -/
def selectionBody (s : Nat × SortState) (j : Nat) : Nat × SortState :=
  let minIdx := s.1
  let st := { s.2 with comparisons := s.2.comparisons + 1 }
  let st := pushStep st [minIdx, j] none
  if rd st.array j < rd st.array minIdx then (j, st) else (minIdx, st)

/-- The inner loop `for (let j = i + 1; j < n; j++)` started with `minIdx = i`
(lines 57-69). -/
def selectionInner (n i : Nat) (st : SortState) : Nat × SortState :=
  (List.range' (i + 1) (n - (i + 1))).foldl selectionBody (i, st)

/-- Body of the outer loop of `selection` for one value of `i` (lines 57-86). -/
def selectionPass (n : Nat) (st : SortState) (i : Nat) : SortState :=
  let r := selectionInner n i st
  let minIdx := r.1
  let st := r.2
  let st :=
    if minIdx ≠ i then
      let st := { st with array := swapAt st.array i minIdx }
      let st := { st with swaps := st.swaps + 1 }
      pushStep st [i, minIdx] none
    else st
  pushStep st [] (some (countUp (i + 1)))

/-- The state of `selection` when it reaches its `return`. -/
def selectionRun (arr : List Int) : SortState :=
  (List.range (arr.length - 1)).foldl (selectionPass arr.length) (SortState.init arr)

/-- `sortingAlgorithms.selection`. -/
def selection (arr : List Int) : SortResult := (selectionRun arr).result

/-! ## Insertion sort (`mock.js` lines 92-127) -/

/-- The loop `while (j >= 0 && array[j] > key)` (lines 103-114). The source variable `j`
runs from `i - 1` down to `-1`; the first argument is `j + 1`, so that `0` stands for
`j = -1`, where `j >= 0` fails. The result carries the final `j + 1`. -/
def insertionWhile (key : Int) : Nat → SortState → Nat × SortState
  | 0, st => (0, st)
  | j + 1, st =>
    if rd st.array j > key then
      let st := { st with comparisons := st.comparisons + 1 }
      let st := pushStep st [j, j + 1] none
      let st := { st with array := st.array.set (j + 1) (rd st.array j) }
      let st := { st with swaps := st.swaps + 1 }
      insertionWhile key j st
    else (j + 1, st)

/-- Body of the outer loop of `insertion` for one value of `i` (lines 100-123). -/
def insertionPass (st : SortState) (i : Nat) : SortState :=
  let key := rd st.array i
  let r := insertionWhile key i st
  let jp := r.1
  let st := r.2
  let st := if 1 ≤ jp then { st with comparisons := st.comparisons + 1 } else st
  let st := { st with array := st.array.set jp key }
  pushStep st [] (some (countUp (i + 1)))

/-- The state of `insertion` when it reaches its `return`; the outer loop is
`for (let i = 1; i < n; i++)`. -/
def insertionRun (arr : List Int) : SortState :=
  (List.range' 1 (arr.length - 1)).foldl insertionPass (SortState.init arr)

/-- `sortingAlgorithms.insertion`. -/
def insertion (arr : List Int) : SortResult := (insertionRun arr).result

/-! ## Merge sort (`mock.js` lines 129-186) -/

/-- The value of `array.slice(lo, hi)` for `lo <= hi` within the array. -/
def slice (a : List Int) (lo hi : Nat) : List Int := (a.drop lo).take (hi - lo)

/-- The first loop of `merge`, `while (i < leftArr.length && j < rightArr.length)`
(lines 139-157). The result carries the final `i`, `j`, `k`. -/
def mergeLoop (leftArr rightArr : List Int) (left mid : Nat) :
    Nat → Nat → Nat → Nat → SortState → Option (Nat × Nat × Nat × SortState)
  | fuel, i, j, k, st =>
    if i < leftArr.length ∧ j < rightArr.length then
      match fuel with
      | 0 => none
      | fuel + 1 =>
        let st := { st with comparisons := st.comparisons + 1 }
        let st := pushStep st [left + i, mid + 1 + j] none
        if rd leftArr i ≤ rd rightArr j then
          let st := { st with array := st.array.set k (rd leftArr i) }
          let st := { st with swaps := st.swaps + 1 }
          mergeLoop leftArr rightArr left mid fuel (i + 1) j (k + 1) st
        else
          let st := { st with array := st.array.set k (rd rightArr j) }
          let st := { st with swaps := st.swaps + 1 }
          mergeLoop leftArr rightArr left mid fuel i (j + 1) (k + 1) st
    else some (i, j, k, st)

/-- One iteration of a copy loop of `merge` (lines 160-163 and 167-170): `array[k] = src[i];
i++; k++; swaps++`. The loop carries `k`. -/
def copyBody (src : List Int) (s : Nat × SortState) (i : Nat) : Nat × SortState :=
  let k := s.1
  let st := { s.2 with array := s.2.array.set k (rd src i) }
  let st := { st with swaps := st.swaps + 1 }
  (k + 1, st)

/-- A copy loop `while (i < src.length)` of `merge`, from the current `i` and `k`. -/
def copyRest (src : List Int) (i k : Nat) (st : SortState) : Nat × SortState :=
  (List.range' i (src.length - i)).foldl (copyBody src) (k, st)

/-- The helper `merge(array, left, mid, right)` (lines 134-172). -/
def mergeStep (left mid right : Nat) (st : SortState) : Option SortState :=
  let leftArr := slice st.array left (mid + 1)
  let rightArr := slice st.array (mid + 1) (right + 1)
  match mergeLoop leftArr rightArr left mid (leftArr.length + rightArr.length) 0 0 left st with
  | none => none
  | some (i, j, k, st) =>
    let r := copyRest leftArr i k st
    let r := copyRest rightArr j r.1 r.2
    some r.2

/-- The helper `mergeSort(array, left, right)` (lines 174-181). -/
def mergeSort : Nat → Nat → Nat → SortState → Option SortState
  | fuel, left, right, st =>
    if left < right then
      match fuel with
      | 0 => none
      | fuel + 1 =>
        let mid := (left + right) / 2
        match mergeSort fuel left mid st with
        | none => none
        | some st =>
          match mergeSort fuel (mid + 1) right st with
          | none => none
          | some st => mergeStep left mid right st
    else some st

/-- The state of `merge` when it reaches its `return` (lines 183-184). For the empty
array the source passes `right = -1`; the model passes `0`, and `left < right` fails for
both. -/
def mergeRun (arr : List Int) : Option SortState :=
  mergeSort arr.length 0 (arr.length - 1) (SortState.init arr)

/-- `sortingAlgorithms.merge`. -/
def merge (arr : List Int) : Option SortResult := (mergeRun arr).map SortState.result

/-! ## Quick sort (`mock.js` lines 188-242) -/

/-- Body of the loop of `partition` for one value of `j` (lines 198-216). The source
variable `i` starts at `low - 1`; the loop carries `i + 1`, so `i++` followed by a use of
`i` is a use of the carried value followed by its increment. -/
def partitionBody (pivot : Int) (high : Nat) (s : Nat × SortState) (j : Nat) :
    Nat × SortState :=
  let ip := s.1
  let st := { s.2 with comparisons := s.2.comparisons + 1 }
  let st := pushStep st [j, high] none
  if rd st.array j < pivot then
    let st := { st with array := swapAt st.array ip j }
    let st := { st with swaps := st.swaps + 1 }
    let st := pushStep st [ip, j] none
    (ip + 1, st)
  else (ip, st)

/-- The helper `partition(array, low, high)` (lines 193-229); returns `i + 1` and the
state. -/
def partition (low high : Nat) (st : SortState) : Nat × SortState :=
  let pivot := rd st.array high
  let r := (List.range' low (high - low)).foldl (partitionBody pivot high) (low, st)
  let ip := r.1
  let st := { r.2 with array := swapAt r.2.array ip high }
  let st := { st with swaps := st.swaps + 1 }
  let st := pushStep st [ip, high] none
  (ip, st)

/-- The helper `quickSort(array, low, high)` (lines 231-237). The source can pass
`high = -1` (when `pi = 0`, or for the empty array); the model passes `0` instead, and
then `low < high` fails in both. -/
def quickSort : Nat → Nat → Nat → SortState → Option SortState
  | fuel, low, high, st =>
    if low < high then
      match fuel with
      | 0 => none
      | fuel + 1 =>
        let r := partition low high st
        let pi := r.1
        match quickSort fuel low (pi - 1) r.2 with
        | none => none
        | some st => quickSort fuel (pi + 1) high st
    else some st

/-- The state of `quick` when it reaches its `return` (lines 239-240). -/
def quickRun (arr : List Int) : Option SortState :=
  quickSort arr.length 0 (arr.length - 1) (SortState.init arr)

/-- `sortingAlgorithms.quick`. -/
def quick (arr : List Int) : Option SortResult := (quickRun arr).map SortState.result

/-! ## Heap sort (`mock.js` lines 244-314) -/

/-- The block `if (child < n) { ... }` of `heapify` (lines 254-265 and 267-278); returns
the new `largest` and the state. -/
def heapCheck (n child largest : Nat) (st : SortState) : Nat × SortState :=
  if child < n then
    let st := { st with comparisons := st.comparisons + 1 }
    let st := pushStep st [child, largest] none
    if rd st.array child > rd st.array largest then (child, st) else (largest, st)
  else (largest, st)

/-- The helper `heapify(array, n, i)` (lines 249-291). -/
def heapify (n : Nat) : Nat → Nat → SortState → Option SortState
  | 0, _, _ => none
  | fuel + 1, i, st =>
    let r := heapCheck n (2 * i + 1) i st
    let r := heapCheck n (2 * i + 2) r.1 r.2
    let largest := r.1
    let st := r.2
    if largest ≠ i then
      let st := { st with array := swapAt st.array i largest }
      let st := { st with swaps := st.swaps + 1 }
      let st := pushStep st [i, largest] none
      heapify n fuel largest st
    else some st

/-- Body of the loop `for (let i = Math.floor(n / 2) - 1; i >= 0; i--)` (line 297). -/
def heapBuildBody (n : Nat) (st : SortState) (i : Nat) : Option SortState :=
  heapify n (n + 1) i st

/-- Body of the loop `for (let i = n - 1; i > 0; i--)` (lines 301-310). -/
def heapExtractBody (n : Nat) (st : SortState) (i : Nat) : Option SortState :=
  let st := { st with array := swapAt st.array 0 i }
  let st := { st with swaps := st.swaps + 1 }
  let st := pushStep st [0, i] (some (countDown (n - i) (n - 1)))
  heapify i (n + 1) 0 st

/-- The state of `heap` when it reaches its `return` (lines 293-311): `i` takes the
values `floor(n/2) - 1, ..., 0` in the first loop and `n - 1, ..., 1` in the second. -/
def heapRun (arr : List Int) : Option SortState :=
  let n := arr.length
  match (List.range (n / 2)).reverse.foldlM (heapBuildBody n) (SortState.init arr) with
  | none => none
  | some st => (List.range' 1 (n - 1)).reverse.foldlM (heapExtractBody n) st

/-- `sortingAlgorithms.heap`. -/
def heap (arr : List Int) : Option SortResult := (heapRun arr).map SortState.result

/-! ## Searching (`mock.js` lines 317-462) -/

/-- One record pushed on `steps` by a search. `checking` is `none` when the source stores
there a number that is no integer, `NaN` or `Infinity`; `range` is `none` when the record
has no `range` field. -/
structure SearchStep where
  checking : Option Int
  range : Option (Int × Int)
  comparisons : Nat
  found : Int
  deriving DecidableEq, Repr

/-- The object returned by a search; `array` is `none` when the object has no `array`
field (linear search). -/
structure SearchResult where
  steps : List SearchStep
  found : Int
  comparisons : Nat
  array : Option (List Int)
  deriving DecidableEq, Repr

/-- The value of `[...arr].sort((a, b) => a - b)`: the entries of `arr` in ascending
order (for integers there is exactly one such arrangement). -/
def sortAsc (arr : List Int) : List Int := arr.insertionSort (· ≤ ·)

/-- Read of `a[i]` at an arbitrary integer index: `none` is `undefined`. -/
def at? (a : List Int) (i : Int) : Option Int := if 0 ≤ i then a[i.toNat]? else none

/-- The comparison `x < target` where `x` may be `undefined` (then it is false). -/
def ltTarget (x : Option Int) (target : Int) : Bool :=
  match x with
  | some v => decide (v < target)
  | none => false

/-- The comparison `x === target` where `x` may be `undefined` (then it is false). -/
def eqTarget (x : Option Int) (target : Int) : Bool :=
  match x with
  | some v => decide (v = target)
  | none => false

/-- The comparison `target >= x` where `x` may be `undefined` (then it is false). -/
def targetGe (target : Int) (x : Option Int) : Bool :=
  match x with
  | some v => decide (v ≤ target)
  | none => false

/-- The comparison `target <= x` where `x` may be `undefined` (then it is false). -/
def targetLe (target : Int) (x : Option Int) : Bool :=
  match x with
  | some v => decide (target ≤ v)
  | none => false

/-- The loop of `linear` (lines 323-333) from index `i`; the first argument is the number
of iterations left, `arr.length - i`. -/
def linearLoop (arr : List Int) (target : Int) :
    Nat → Nat → List SearchStep → Nat → SearchResult
  | 0, _, steps, comparisons =>
    { steps := steps, found := -1, comparisons := comparisons, array := none }
  | left + 1, i, steps, comparisons =>
    let comparisons := comparisons + 1
    let steps := steps ++
      [{ checking := some (i : Int), range := none, comparisons := comparisons,
         found := if eqTarget (at? arr i) target then (i : Int) else -1 }]
    if eqTarget (at? arr i) target then
      { steps := steps, found := (i : Int), comparisons := comparisons, array := none }
    else linearLoop arr target left (i + 1) steps comparisons

/-- `searchingAlgorithms.linear`. -/
def linear (arr : List Int) (target : Int) : SearchResult :=
  linearLoop arr target arr.length 0 [] 0

/-- The loop of `binary` (lines 345-364) on the sorted copy. -/
def binaryLoop (sortedArr : List Int) (target : Int) :
    Nat → Int → Int → List SearchStep → Nat → Option SearchResult
  | fuel, left, right, steps, comparisons =>
    if left ≤ right then
      match fuel with
      | 0 => none
      | fuel + 1 =>
        let mid := (left + right) / 2
        let comparisons := comparisons + 1
        let steps := steps ++
          [{ checking := some mid, range := some (left, right), comparisons := comparisons,
             found := if eqTarget (at? sortedArr mid) target then mid else -1 }]
        if eqTarget (at? sortedArr mid) target then
          some { steps := steps, found := mid, comparisons := comparisons,
                 array := some sortedArr }
        else if ltTarget (at? sortedArr mid) target then
          binaryLoop sortedArr target fuel (mid + 1) right steps comparisons
        else
          binaryLoop sortedArr target fuel left (mid - 1) steps comparisons
    else
      some { steps := steps, found := -1, comparisons := comparisons, array := some sortedArr }

/-- `searchingAlgorithms.binary`. -/
def binary (arr : List Int) (target : Int) : Option SearchResult :=
  let sortedArr := sortAsc arr
  binaryLoop sortedArr target (sortedArr.length + 1) 0 ((sortedArr.length : Int) - 1) [] 0

/-- The value of `Math.floor(Math.sqrt(n))`: the greatest `k` with `k * k <= n`. -/
def floorSqrt (n : Nat) : Nat := Nat.findGreatest (fun k => k * k ≤ n) n

/-- How a call of a function that can throw ends. -/
inductive Outcome (α : Type) where
  /-- The call returned this value. -/
  | returned (value : α)
  /-- The call threw `TypeError: Assignment to constant variable.` -/
  | constAssignError
  /-- The model ran out of fuel. -/
  | outOfFuel
  deriving DecidableEq, Repr

/-- The second loop of `jump`, `while (sortedArr[prev] < target)` (lines 389-400), followed
by the final check (lines 402-413). `bound` is `Math.min(jump, n)`. -/
def jumpScan (sortedArr : List Int) (target : Int) (bound : Int) :
    Nat → Int → List SearchStep → Nat → Outcome SearchResult
  | fuel, prev, steps, comparisons =>
    if ltTarget (at? sortedArr prev) target then
      match fuel with
      | 0 => Outcome.outOfFuel
      | fuel + 1 =>
        let comparisons := comparisons + 1
        let steps := steps ++
          [{ checking := some prev, range := none, comparisons := comparisons, found := -1 }]
        let prev := prev + 1
        if prev = bound then
          Outcome.returned
            { steps := steps, found := -1, comparisons := comparisons,
              array := some sortedArr }
        else jumpScan sortedArr target bound fuel prev steps comparisons
    else
      let comparisons := comparisons + 1
      let steps := steps ++
        [{ checking := some prev, range := none, comparisons := comparisons,
           found := if eqTarget (at? sortedArr prev) target then prev else -1 }]
      if eqTarget (at? sortedArr prev) target then
        Outcome.returned
          { steps := steps, found := prev, comparisons := comparisons,
            array := some sortedArr }
      else
        Outcome.returned
          { steps := steps, found := -1, comparisons := comparisons,
            array := some sortedArr }

/-- `searchingAlgorithms.jump` (lines 367-414). `jump` is declared with `const` (line 372),
so the statement `jump += Math.floor(Math.sqrt(n))` (line 383), which the first iteration
of the first loop reaches after `comparisons++`, `steps.push` and `prev = jump`, throws a
`TypeError`; when the condition of the first loop is false at once, the second loop runs
with `prev = 0` and `jump` unchanged. -/
def jump (arr : List Int) (target : Int) : Outcome SearchResult :=
  let sortedArr := sortAsc arr
  let n : Int := sortedArr.length
  let jump : Int := floorSqrt sortedArr.length
  if ltTarget (at? sortedArr (min jump n - 1)) target then
    Outcome.constAssignError
  else
    jumpScan sortedArr target (min jump n) (sortedArr.length + 1) 0 [] 0

/-! ### The arithmetic of the probe position

A JavaScript number is an IEEE 754 double: a number with 53 significant binary digits.
Every arithmetic operation returns the double nearest to its exact result (of two equally
near doubles the one whose last digit is even), and `Infinity` when the rounded result
reaches `2 ^ 1024`. The entries of the array and the target are integers that are doubles;
indices are below `2 ^ 32`, so index arithmetic is exact. -/

/-- The integer nearest to `a / b` (for `b > 0`); of two equally near integers, the even
one. -/
def roundHalfEven (a b : Nat) : Nat :=
  let q := a / b
  let r := a % b
  if 2 * r < b then q
  else if b < 2 * r then q + 1
  else if q % 2 = 0 then q else q + 1

/-- The number of times `x` can be halved (rounding down) before it is below 2; the first
argument bounds the number of halvings. -/
def halvings : Nat → Nat → Nat
  | 0, _ => 0
  | fuel + 1, x => if x < 2 then 0 else halvings fuel (x / 2) + 1

/-- The position of the leading binary digit of `x`: the `e` with
`2 ^ e <= x < 2 ^ (e + 1)` (and 0 for `x = 0`). -/
def floorLog2 (x : Nat) : Nat := halvings x x

/-- The double that an operation whose exact result is the integer `x >= 0` returns:
`x` rounded to 53 significant binary digits (`2 ^ s` is the weight of the last of them),
and `none`, standing for `Infinity`, when the rounded number is `2 ^ 1024` or more. -/
def toDouble (x : Nat) : Option Nat :=
  let s := floorLog2 x - 52
  let r := roundHalfEven x (2 ^ s) * 2 ^ s
  if floorLog2 r < 1024 then some r else none

/-- The value of `Math.floor(p / b)` for doubles `p >= 0` and `b > 0` that are integers.
With `lp` and `lb` the positions of the leading digits of `p` and `b`, the quotient has
its leading digit at `lq = lp - lb` when `b * 2 ^ (lp - lb) <= p`, and at `lp - lb - 1`
otherwise. The double nearest to `p / b` is `m * 2 ^ (lq - 52)` for the integer `m`
nearest to `p / (b * 2 ^ (lq - 52))`; below `2 ^ -1022` the doubles are the multiples of
`2 ^ -1074`. `e` is `lq + 1022`, or 0 when that is negative, so the double is
`m * 2 ^ (e - 1074)` (of the two powers of 2 below, one is 1), and `Math.floor` rounds it
down to an integer. -/
def floorQuotient (p b : Nat) : Nat :=
  let lp := floorLog2 p
  let lb := floorLog2 b
  let e := lp + 1022 - lb - (if b * 2 ^ (lp - lb) ≤ p * 2 ^ (lb - lp) then 0 else 1)
  let m := roundHalfEven (p * 2 ^ (1074 - e)) (b * 2 ^ (e - 1074))
  m * 2 ^ (e - 1074) / 2 ^ (1074 - e)

/-- The value of `pos` (lines 437-439),
`low + Math.floor(((target - vlow) * (high - low)) / (vhigh - vlow))` with
`vlow = sortedArr[low]` and `vhigh = sortedArr[high]`, where the loop condition gives
`vlow <= target <= vhigh` and line 424 gives `low < high`: the difference
`target - vlow`, its product with `high - low`, and the quotient are each rounded to a
double. The result is `none` when `pos` is no integer: `NaN` (from `0 / 0`, when
`vhigh - vlow` is 0, and from `Infinity / Infinity`) or `Infinity` (when the difference
or the product is `Infinity`); a finite dividend over the divisor `Infinity` is 0. -/
def interpolationPos (target vlow vhigh low high : Int) : Option Int :=
  match toDouble (target - vlow).toNat with
  | none => none
  | some a =>
    match toDouble (a * (high - low).toNat), toDouble (vhigh - vlow).toNat with
    | none, _ => none
    | some _, none => some low
    | some p, some b => if b = 0 then none else some (low + (floorQuotient p b : Int))

/-- The loop of `interpolation` (lines 423-460). When `pos` is `NaN` or `Infinity`, the
pushed step has that value as `checking` and `found: -1` (as `sortedArr[pos]` is
`undefined`), both comparisons of `sortedArr[pos]` with `target` are false, and `high`
becomes `pos - 1`, which is `NaN` or `Infinity` again: the loop condition is false
(`low <= NaN` is false, and `target <= sortedArr[Infinity]` compares with `undefined`),
and line 460 returns `found: -1`. -/
def interpolationLoop (sortedArr : List Int) (target : Int) :
    Nat → Int → Int → List SearchStep → Nat → Option SearchResult
  | fuel, low, high, steps, comparisons =>
    if low ≤ high ∧ targetGe target (at? sortedArr low) = true
        ∧ targetLe target (at? sortedArr high) = true then
      match fuel with
      | 0 => none
      | fuel + 1 =>
        if low = high then
          let comparisons := comparisons + 1
          let steps := steps ++
            [{ checking := some low, range := none, comparisons := comparisons,
               found := if eqTarget (at? sortedArr low) target then low else -1 }]
          if eqTarget (at? sortedArr low) target then
            some { steps := steps, found := low, comparisons := comparisons,
                   array := some sortedArr }
          else
            some { steps := steps, found := -1, comparisons := comparisons,
                   array := some sortedArr }
        else
          let vlow := (at? sortedArr low).getD 0
          let vhigh := (at? sortedArr high).getD 0
          match interpolationPos target vlow vhigh low high with
          | none =>
            let comparisons := comparisons + 1
            let steps := steps ++
              [{ checking := none, range := some (low, high), comparisons := comparisons,
                 found := -1 }]
            some { steps := steps, found := -1, comparisons := comparisons,
                   array := some sortedArr }
          | some pos =>
            let comparisons := comparisons + 1
            let steps := steps ++
              [{ checking := some pos, range := some (low, high), comparisons := comparisons,
                 found := if eqTarget (at? sortedArr pos) target then pos else -1 }]
            if eqTarget (at? sortedArr pos) target then
              some { steps := steps, found := pos, comparisons := comparisons,
                     array := some sortedArr }
            else if ltTarget (at? sortedArr pos) target then
              interpolationLoop sortedArr target fuel (pos + 1) high steps comparisons
            else
              interpolationLoop sortedArr target fuel low (pos - 1) steps comparisons
    else
      some { steps := steps, found := -1, comparisons := comparisons, array := some sortedArr }

/-- `searchingAlgorithms.interpolation`. -/
def interpolation (arr : List Int) (target : Int) : Option SearchResult :=
  let sortedArr := sortAsc arr
  interpolationLoop sortedArr target (sortedArr.length + 1) 0 ((sortedArr.length : Int) - 1) [] 0

/-! ## Vocabulary of the properties -/

/-- The last step pushed shows the array as it is now. -/
def LastIs (st : SortState) : Prop :=
  ∃ last, st.steps.getLast? = some last ∧ last.array = st.array

/-- In the binary heap laid out in `a[0 .. n-1]`, the children of node `k` that lie
inside the heap are not greater than node `k`. -/
def HeapAt (a : List Int) (n k : Nat) : Prop :=
  (2 * k + 1 < n → rd a (2 * k + 1) ≤ rd a k) ∧ (2 * k + 2 < n → rd a (2 * k + 2) ≤ rd a k)

/-! ## Graph traversal (`pages/GraphVisualizer.jsx` lines 89-177)

Node ids are natural numbers. A `Set` is the list of its members in insertion order; an
object used as a map is an association list in which a write puts the pair in front and a
read finds the first pair with the key. -/

/-- An edge `{ from, to, weight }` of the `edges` state; `from` and `to` are reserved
words of Lean, so the fields are `src` (for `from`) and `dst` (for `to`). -/
structure Edge where
  src : Nat
  dst : Nat
  weight : Nat
  deriving DecidableEq, Repr

/-- A distance held in `distances`: `none` is `Infinity`. -/
abbrev Dist := Option Nat

/-- One record pushed on `steps` by a graph traversal; `distances` is `none` when the
record has no `distances` field (BFS and DFS). -/
structure GraphStep where
  node : Nat
  visited : List Nat
  distances : Option (List (Nat × Dist))
  deriving DecidableEq, Repr

/-- The call `set.add(x)` on a `Set` held as the list of its members. -/
def setAdd {α : Type} [DecidableEq α] (s : List α) (x : α) : List α :=
  if x ∈ s then s else s ++ [x]

/-- The expression `edges.filter(e => e.from === current || e.dst === current)
.map(e => e.from === current ? e.dst : e.from).filter(n => !visited.has(n))`
(lines 99-102 and 124-127). -/
def unvisitedNeighbors (edges : List Edge) (current : Nat) (visited : List Nat) : List Nat :=
  ((edges.filter (fun e => decide (e.src = current) || decide (e.dst = current))).map
    (fun e => if e.src = current then e.dst else e.src)).filter
      (fun n => !decide (n ∈ visited))

/-- The locals `visited`, `queue`, `steps` of `runBFS`. -/
structure BfsState where
  visited : List Nat
  queue : List Nat
  steps : List GraphStep
  deriving DecidableEq, Repr

/-- Body of the loop `for (const neighbor of neighbors)` of `runBFS` (lines 105-109). -/
def bfsVisit (st : BfsState) (neighbor : Nat) : BfsState :=
  if neighbor ∉ st.visited then
    let visited := setAdd st.visited neighbor
    { visited := visited, queue := st.queue ++ [neighbor],
      steps := st.steps ++ [{ node := neighbor, visited := visited, distances := none }] }
  else st

/-- The loop `while (queue.length > 0)` of `runBFS` (lines 97-111). -/
def bfsLoop (edges : List Edge) : Nat → BfsState → Option BfsState
  | fuel, st =>
    match st.queue with
    | [] => some st
    | current :: rest =>
      match fuel with
      | 0 => none
      | fuel + 1 =>
        let st := { st with queue := rest }
        let neighbors := unvisitedNeighbors edges current st.visited
        bfsLoop edges fuel (neighbors.foldl bfsVisit st)

/-- The function `runBFS` of the graph page (lines 89-114). -/
def GraphVisualizer.runBFS (edges : List Edge) (startNode : Nat) : Option (List GraphStep) :=
  let visited := setAdd [] startNode
  (bfsLoop edges (2 * edges.length + 2)
    { visited := visited, queue := [startNode],
      steps := [{ node := startNode, visited := [startNode], distances := none }] }).map
    (·.steps)

/-- The locals `visited`, `steps` of `runDFS`. -/
structure DfsState where
  visited : List Nat
  steps : List GraphStep
  deriving DecidableEq, Repr

/-- The helper `dfsRecursive(node)` of `runDFS` (lines 120-134); the fuel bounds the depth
of the recursion. -/
def dfsRecursive (edges : List Edge) : Nat → Nat → DfsState → Option DfsState
  | 0, _, _ => none
  | fuel + 1, node, st =>
    let visited := setAdd st.visited node
    let st : DfsState :=
      { visited := visited,
        steps := st.steps ++ [{ node := node, visited := visited, distances := none }] }
    let neighbors := unvisitedNeighbors edges node st.visited
    neighbors.foldlM
      (fun st neighbor =>
        if neighbor ∉ st.visited then dfsRecursive edges fuel neighbor st else some st) st

/-- The function `runDFS` (lines 116-138). -/
def GraphVisualizer.runDFS (edges : List Edge) (startNode : Nat) : Option (List GraphStep) :=
  (dfsRecursive edges (2 * edges.length + 2) startNode { visited := [], steps := [] }).map
    (·.steps)

/-- Nodes `u` and `v` are joined by an edge, taken as undirected. -/
def Adj (edges : List Edge) (u v : Nat) : Prop :=
  ∃ e ∈ edges, (e.src = u ∧ e.dst = v) ∨ (e.dst = u ∧ e.src = v)

/-- Node `v` is reachable from `s` along edges taken as undirected: `v` lies in the
connected component of `s`. -/
def Reach (edges : List Edge) (s v : Nat) : Prop := Relation.ReflTransGen (Adj edges) s v

/-- The start node followed by the endpoints of all edges: every node a traversal can
meet. -/
def allNodes (edges : List Edge) (startNode : Nat) : List Nat :=
  startNode :: edges.flatMap (fun e => [e.src, e.dst])

/-- The invariant of the loop of `runBFS`: every visited node is reachable, and every
visited node that has left the queue, other than the node `cur` under expansion, has all
its neighbours visited. -/
structure BfsInv (edges : List Edge) (startNode : Nat) (cur : Option Nat) (st : BfsState) :
    Prop where
  start_mem : startNode ∈ st.visited
  reach : ∀ v ∈ st.visited, Reach edges startNode v
  queue_sub : ∀ q ∈ st.queue, q ∈ st.visited
  closed : ∀ v ∈ st.visited, some v ≠ cur → v ∉ st.queue →
    ∀ w, Adj edges v w → w ∈ st.visited
  nodup : st.visited.Nodup
  sub : ∀ v ∈ st.visited, v ∈ allNodes edges startNode
  last : ∃ l, st.steps.getLast? = some l ∧ l.visited = st.visited

/-- What a call of `dfsRecursive` (or a run of its loop) that turns the state `st` into
`st'` guarantees: nothing is forgotten, every visited node is reachable, and every node
visited in between has all its neighbours visited. -/
structure DfsPost (edges : List Edge) (startNode : Nat) (st st' : DfsState) : Prop where
  mono : ∀ v ∈ st.visited, v ∈ st'.visited
  len : st.visited.length ≤ st'.visited.length
  nodup : st'.visited.Nodup
  reach : ∀ v ∈ st'.visited, Reach edges startNode v
  closed : ∀ v ∈ st'.visited, v ∉ st.visited → ∀ w, Adj edges v w → w ∈ st'.visited

/-! ### Dijkstra (`pages/GraphVisualizer.jsx` lines 140-177) -/

/-- Read `m[k]` of an object used as a map, held as the list of its entries in insertion
order: `none` is `undefined`. -/
def mapGet {α β : Type} [DecidableEq α] : List (α × β) → α → Option β
  | [], _ => none
  | (k', v) :: m, k => if k' = k then some v else mapGet m k

/-- Write `m[k] = v` of an object used as a map: an existing entry keeps its place. -/
def mapSet {α β : Type} [DecidableEq α] : List (α × β) → α → β → List (α × β)
  | [], k, v => [(k, v)]
  | (k', v') :: m, k, v => if k' = k then (k, v) :: m else (k', v') :: mapSet m k v

/-- The comparison `a < b` of two distances, where `none` is `Infinity`. -/
def distLt (a b : Dist) : Bool :=
  match a, b with
  | some x, some y => decide (x < y)
  | some _, none => true
  | none, _ => false

/-- The comparison `a < b` where either side may be `undefined` (then it is false). -/
def undefLt (a b : Option Dist) : Bool :=
  match a, b with
  | some x, some y => distLt x y
  | _, _ => false

/-- The sum `d + weight` of a distance and an edge weight. -/
def distAdd (d : Dist) (weight : Nat) : Dist := d.map (· + weight)

/-- The locals `distances`, `visited`, `steps` of `runDijkstra`. -/
structure DijkstraState where
  distances : List (Nat × Dist)
  visited : List Nat
  steps : List GraphStep
  deriving DecidableEq, Repr

/-- Body of `nodes.forEach` (line 146): `distances[node.id] = node.id === startNode ? 0 :
Infinity`. -/
def initDistance (startNode : Nat) (distances : List (Nat × Dist)) (id : Nat) :
    List (Nat × Dist) :=
  mapSet distances id (if id = startNode then some 0 else none)

/-- Body of the loop `for (const node of nodes)` that selects the nearest unvisited node
(lines 154-157); the loop carries `minNode` (`none` is `-1`) and `minDist`. -/
def selectMin (distances : List (Nat × Dist)) (visited : List Nat)
    (s : Option Nat × Dist) (id : Nat) : Option Nat × Dist :=
  if id ∉ visited ∧ undefLt (mapGet distances id) (some s.2) = true then
    (some id, (mapGet distances id).getD none)
  else s

/-- Body of the loop `for (const edge of neighbors)` (lines 167-172). -/
def relax (minNode : Nat) (distances : List (Nat × Dist)) (edge : Edge) : List (Nat × Dist) :=
  let neighbor := if edge.src = minNode then edge.dst else edge.src
  let newDist := (mapGet distances minNode).map (fun d => distAdd d edge.weight)
  if undefLt newDist (mapGet distances neighbor) = true then
    mapSet distances neighbor (newDist.getD none)
  else distances

/-- The rest of an iteration of the outer loop once `minNode` is selected (lines
162-173): mark it visited, push a step, relax its edges. -/
def dijkstraVisit (edges : List Edge) (st : DijkstraState) (minNode : Nat) : DijkstraState :=
  let visited := setAdd st.visited minNode
  let steps := st.steps ++
    [{ node := minNode, visited := visited, distances := some st.distances }]
  let neighbors :=
    edges.filter (fun e => decide (e.src = minNode) || decide (e.dst = minNode))
  let distances := neighbors.foldl (relax minNode) st.distances
  { distances := distances, visited := visited, steps := steps }

/-- The loop `for (let i = 0; i < nodes.length; i++)` of `runDijkstra` (lines 149-174);
the first argument is the number of iterations left, and the `break` of line 160 ends the
loop. -/
def dijkstraLoop (nodes : List Nat) (edges : List Edge) : Nat → DijkstraState → DijkstraState
  | 0, st => st
  | left + 1, st =>
    match (nodes.foldl (selectMin st.distances st.visited) (none, none)).1 with
    | none => st
    | some minNode => dijkstraLoop nodes edges left (dijkstraVisit edges st minNode)

/-- The function `runDijkstra` (lines 140-177); `nodes` holds the ids of the `nodes`
state in order. -/
def GraphVisualizer.runDijkstra (nodes : List Nat) (edges : List Edge) (startNode : Nat) :
    List GraphStep :=
  (dijkstraLoop nodes edges nodes.length
    { distances := nodes.foldl (initDistance startNode) [], visited := [], steps := [] }).steps

/-- The value recorded for node `v` in the `distances` of a step (`none` when there is
none). -/
def GraphStep.distanceOf (step : GraphStep) (v : Nat) : Option Dist :=
  match step.distances with
  | some m => mapGet m v
  | none => none

/-- There is a walk from `u` to `v`, along edges taken as undirected, of total weight
`d`. -/
inductive Walk (edges : List Edge) (u : Nat) : Nat → Nat → Prop where
  | nil : Walk edges u u 0
  | cons {v w d : Nat} (e : Edge) : Walk edges u v d → e ∈ edges →
      ((e.src = v ∧ e.dst = w) ∨ (e.dst = v ∧ e.src = w)) → Walk edges u w (d + e.weight)

/-- The number `d` is the shortest-path distance from `u` to `v`. -/
def IsShortest (edges : List Edge) (u v d : Nat) : Prop :=
  Walk edges u v d ∧ ∀ d', Walk edges u v d' → d ≤ d'

/-- What the selection loop of `runDijkstra` has established after the nodes `seen`: the
carried `minNode` is an unvisited node of least finite distance among them (or `-1` when
there is none), and `minDist` is its distance. -/
def SelectInv (distances : List (Nat × Dist)) (visited seen : List Nat)
    (s : Option Nat × Dist) : Prop :=
  (s.1 = none ∧ s.2 = none ∧
    ∀ id ∈ seen, id ∉ visited → ∀ d, mapGet distances id ≠ some (some d)) ∨
  (∃ u du, s.1 = some u ∧ s.2 = some du ∧ u ∈ seen ∧ u ∉ visited ∧
    mapGet distances u = some (some du) ∧
    ∀ id ∈ seen, id ∉ visited → ∀ d, mapGet distances id = some (some d) → du ≤ d)

/-- The invariant of the outer loop of `runDijkstra` that holds for every graph: the keys
of `distances` are the node ids, every finite distance is the weight of a walk from the
start node, no visited node is farther than an unvisited one, and on the nodes a step
shows as visited its snapshot agrees with the current distances and with every later
snapshot. -/
structure DijInv (nodes : List Nat) (edges : List Edge) (s : Nat) (st : DijkstraState) :
    Prop where
  keys : ∀ k, (mapGet st.distances k).isSome = true ↔ k ∈ nodes
  vis_fin : ∀ v ∈ st.visited, ∃ d, mapGet st.distances v = some (some d)
  mono : ∀ v ∈ st.visited, ∀ dv, mapGet st.distances v = some (some dv) →
    ∀ x, x ∉ st.visited → ∀ dx, mapGet st.distances x = some (some dx) → dv ≤ dx
  walk : ∀ k d, mapGet st.distances k = some (some d) → Walk edges s k d
  steps_vis : ∀ step ∈ st.steps, ∀ v ∈ step.visited,
    v ∈ st.visited ∧ step.distanceOf v = mapGet st.distances v
  steps_pair : st.steps.Pairwise
    (fun a b => ∀ v ∈ a.visited, b.distanceOf v = a.distanceOf v)

/-- The further invariant of the outer loop of `runDijkstra` when the start node and the
endpoints of all edges are nodes: the distance of a visited node is the least weight of a
walk to it, the edges at a visited node are relaxed, and every step records the
shortest-path distance of its node. -/
structure DijShort (edges : List Edge) (s : Nat) (st : DijkstraState) : Prop where
  start0 : mapGet st.distances s = some (some 0)
  short : ∀ v ∈ st.visited, ∀ d, mapGet st.distances v = some (some d) →
    ∀ d', Walk edges s v d' → d ≤ d'
  relaxed : ∀ v ∈ st.visited, ∀ e ∈ edges, ∀ w,
    ((e.src = v ∧ e.dst = w) ∨ (e.dst = v ∧ e.src = w)) →
    ∀ dv, mapGet st.distances v = some (some dv) →
    ∃ dw, mapGet st.distances w = some (some dw) ∧ dw ≤ dv + e.weight
  steps_short : ∀ step ∈ st.steps, ∃ d,
    step.distanceOf step.node = some (some d) ∧ IsShortest edges s step.node d

/-! ## Grid pathfinding (`pages/PathfindingVisualizer.jsx` lines 11-226)

A cell position `{ row, col }` is a `Pos`. The keys `` `${row},${col}` `` of the sets and
maps are positions (the string determines the pair). The 20 x 35 matrix `grid` is read
only through `grid[r][c].isWall` at in-bounds indices, so it is the function that gives
this value. -/

/-- A position `{ row, col }`. -/
structure Pos where
  row : Int
  col : Int
  deriving DecidableEq, Repr

/-- The `grid` state: `grid r c` is `grid[r][c].isWall`. -/
abbrev Grid := Int → Int → Bool

/-- The constant `GRID_ROWS` (line 11). -/
def GRID_ROWS : Int := 20

/-- The constant `GRID_COLS` (line 12). -/
def GRID_COLS : Int := 35

/-- The function `heuristic` (lines 107-109). -/
def heuristic (pos1 pos2 : Pos) : Nat :=
  (pos1.row - pos2.row).natAbs + (pos1.col - pos2.col).natAbs

/-- The constant `directions` of `getNeighbors` (line 113). -/
def directions : List (Int × Int) := [(0, 1), (1, 0), (0, -1), (-1, 0)]

/-- Body of the loop of `getNeighbors` for one direction (lines 116-123). -/
def addNeighbor (grid : Grid) (pos : Pos) (neighbors : List Pos) (d : Int × Int) : List Pos :=
  let newRow := pos.row + d.1
  let newCol := pos.col + d.2
  if 0 ≤ newRow ∧ newRow < GRID_ROWS ∧ 0 ≤ newCol ∧ newCol < GRID_COLS then
    if grid newRow newCol = false then neighbors ++ [{ row := newRow, col := newCol }]
    else neighbors
  else neighbors

/-- The function `getNeighbors` (lines 111-127). -/
def getNeighbors (grid : Grid) (pos : Pos) : List Pos :=
  directions.foldl (addNeighbor grid pos) []

/-- One record pushed on `steps` by a grid search. -/
structure PathStep where
  current : Pos
  visited : List Pos
  deriving DecidableEq, Repr

/-- The object `{ steps, path }` returned by a grid search. -/
structure PathResult where
  steps : List PathStep
  path : List Pos
  deriving DecidableEq, Repr

/-- The loop `while (temp) { path.unshift(...); temp = cameFrom[temp]; }` (lines 158-162
and 207-211), entered with a defined `temp`. -/
def buildPath (cameFrom : List (Pos × Pos)) : Nat → Pos → List Pos → Option (List Pos)
  | 0, _, _ => none
  | fuel + 1, temp, path =>
    let path := temp :: path
    match mapGet cameFrom temp with
    | none => some path
    | some prev => buildPath cameFrom fuel prev path

/-- The fuel given to the loops of the grid searches: more than the number of cells. -/
def gridFuel : Nat := 20 * 35 + 2

/-- The locals `queue`, `visited`, `cameFrom`, `steps` of the grid `runBFS`. -/
structure GridBfsState where
  queue : List Pos
  visited : List Pos
  cameFrom : List (Pos × Pos)
  steps : List PathStep
  deriving DecidableEq, Repr

/-- Body of the loop `for (const neighbor of getNeighbors(current))` of the grid `runBFS`
(lines 216-221). -/
def gridBfsVisit (current : Pos) (st : GridBfsState) (neighbor : Pos) : GridBfsState :=
  if neighbor ∉ st.visited then
    { st with
      visited := setAdd st.visited neighbor
      cameFrom := mapSet st.cameFrom neighbor current
      queue := st.queue ++ [neighbor] }
  else st

/-- The loop `while (queue.length > 0)` of the grid `runBFS` with the final `return`
(lines 195-225). -/
def gridBfsLoop (grid : Grid) (endPos : Pos) : Nat → GridBfsState → Option PathResult
  | fuel, st =>
    match st.queue with
    | [] => some { steps := st.steps, path := [] }
    | current :: rest =>
      match fuel with
      | 0 => none
      | fuel + 1 =>
        let st : GridBfsState := { st with queue := rest }
        let st : GridBfsState := { st with
          steps := st.steps ++ [{ current := current, visited := st.visited }] }
        if current.row = endPos.row ∧ current.col = endPos.col then
          match buildPath st.cameFrom gridFuel current [] with
          | none => none
          | some path => some { steps := st.steps, path := path }
        else
          gridBfsLoop grid endPos fuel
            ((getNeighbors grid current).foldl (gridBfsVisit current) st)

/-- The function `runBFS` of the pathfinding page (lines 189-226). -/
def PathfindingVisualizer.runBFS (grid : Grid) (startPos endPos : Pos) : Option PathResult :=
  gridBfsLoop grid endPos gridFuel
    { queue := [startPos], visited := [startPos], cameFrom := [], steps := [] }

/-- The value `x || Infinity` of a score read from a map: `undefined` and `0` give
`Infinity` (`none`). -/
def orInfinity (x : Option Nat) : Dist :=
  match x with
  | none => none
  | some 0 => none
  | some (v + 1) => some (v + 1)

/-- The value `x || 0` of a score read from a map. -/
def orZero (x : Option Nat) : Nat := x.getD 0

/-- The comparator of line 141-145 does not put `b` before `a`: its value
`(fScore[keyA] || Infinity) - (fScore[keyB] || Infinity)` is not positive (it is negative,
zero or `NaN`). -/
def fScoreLe (fScore : List (Pos × Nat)) (a b : Pos) : Bool :=
  !distLt (orInfinity (mapGet fScore b)) (orInfinity (mapGet fScore a))

/-- The locals of `runAStar`. -/
structure AStarState where
  openSet : List Pos
  closedSet : List Pos
  gScore : List (Pos × Nat)
  fScore : List (Pos × Nat)
  cameFrom : List (Pos × Pos)
  steps : List PathStep
  deriving DecidableEq, Repr

/-- The assignments of lines 180-182. -/
def aStarRecord (endPos current : Pos) (tentativeGScore : Nat) (st : AStarState)
    (neighbor : Pos) : AStarState :=
  { st with
    cameFrom := mapSet st.cameFrom neighbor current
    gScore := mapSet st.gScore neighbor tentativeGScore
    fScore := mapSet st.fScore neighbor (tentativeGScore + heuristic neighbor endPos) }

/-- Body of the loop `for (const neighbor of getNeighbors(current))` of `runAStar`
(lines 169-182). -/
def aStarVisit (endPos current : Pos) (st : AStarState) (neighbor : Pos) : AStarState :=
  if neighbor ∈ st.closedSet then st
  else
    let tentativeGScore := orZero (mapGet st.gScore current) + 1
    if (st.openSet.find? (fun n => decide (n.row = neighbor.row ∧ n.col = neighbor.col)))
        = none then
      aStarRecord endPos current tentativeGScore
        { st with openSet := st.openSet ++ [neighbor] } neighbor
    else if distLt (some tentativeGScore) (orInfinity (mapGet st.gScore neighbor)) = false then
      st
    else aStarRecord endPos current tentativeGScore st neighbor

/-- The loop `while (openSet.length > 0)` of `runAStar` with the final `return` (lines
140-186). The sort of lines 141-145 orders the open set by the comparator and keeps the
order of entries the comparator does not separate. -/
def aStarLoop (grid : Grid) (endPos : Pos) : Nat → AStarState → Option PathResult
  | fuel, st =>
    match st.openSet.insertionSort (fun a b => fScoreLe st.fScore a b = true) with
    | [] => some { steps := st.steps, path := [] }
    | current :: rest =>
      match fuel with
      | 0 => none
      | fuel + 1 =>
        let st : AStarState := { st with openSet := rest }
        let st : AStarState := { st with
          steps := st.steps ++ [{ current := current, visited := st.closedSet }] }
        if current.row = endPos.row ∧ current.col = endPos.col then
          match buildPath st.cameFrom gridFuel current [] with
          | none => none
          | some path => some { steps := st.steps, path := path }
        else
          let st : AStarState := { st with closedSet := setAdd st.closedSet current }
          aStarLoop grid endPos fuel
            ((getNeighbors grid current).foldl (aStarVisit endPos current) st)

/-- The function `runAStar` (lines 129-187). -/
def runAStar (grid : Grid) (startPos endPos : Pos) : Option PathResult :=
  aStarLoop grid endPos gridFuel
    { openSet := [startPos], closedSet := [],
      gScore := mapSet [] startPos 0,
      fScore := mapSet [] startPos (heuristic startPos endPos),
      cameFrom := [], steps := [] }

/-- The cell is inside the grid and is not a wall. -/
def Passable (grid : Grid) (p : Pos) : Prop :=
  0 ≤ p.row ∧ p.row < GRID_ROWS ∧ 0 ≤ p.col ∧ p.col < GRID_COLS ∧ grid p.row p.col = false

/-- The cells are grid-adjacent: they differ by exactly 1 in exactly one of `row`, `col`. -/
def GridAdj (p q : Pos) : Prop :=
  (q.row = p.row ∧ q.col = p.col + 1) ∨ (q.row = p.row + 1 ∧ q.col = p.col) ∨
  (q.row = p.row ∧ q.col = p.col - 1) ∨ (q.row = p.row - 1 ∧ q.col = p.col)

/-- The list is a sequence of in-bounds non-wall cells leading from `a` to `b` by
4-directional moves. -/
def IsGridPath (grid : Grid) (a b : Pos) (path : List Pos) : Prop :=
  path.head? = some a ∧ path.getLast? = some b ∧ path.Chain' GridAdj ∧
    ∀ p ∈ path, Passable grid p

/-- There is a sequence of `k` 4-directional moves from `s` to `v` that enters only
in-bounds non-wall cells. -/
inductive GridWalk (grid : Grid) (s : Pos) : Pos → Nat → Prop where
  | nil : GridWalk grid s s 0
  | snoc {v w : Pos} {k : Nat} : GridWalk grid s v k → GridAdj v w → Passable grid w →
      GridWalk grid s w (k + 1)

/-- All cells of the grid. -/
def allCells : List Pos :=
  (List.range 20).flatMap
    (fun r : Nat => (List.range 35).map (fun c : Nat => { row := (r : Int), col := (c : Int) }))

/-- The invariant of the loop of the grid `runBFS`. The number `depth v` is the number of
moves of the recorded way back from `v` to the start cell; `cur` is the cell under
expansion, if any. -/
structure GridBfsInv (grid : Grid) (startPos endPos : Pos) (depth : Pos → Nat)
    (cur : Option Pos) (st : GridBfsState) : Prop where
  start_mem : startPos ∈ st.visited
  nodup : st.visited.Nodup
  sub : ∀ v ∈ st.visited, Passable grid v
  queue_sub : ∀ q ∈ st.queue, q ∈ st.visited
  depth_start : depth startPos = 0
  came_none : mapGet st.cameFrom startPos = none
  came : ∀ v ∈ st.visited, v ≠ startPos → ∃ p, mapGet st.cameFrom v = some p ∧
    p ∈ st.visited ∧ GridAdj p v ∧ depth v = depth p + 1
  depth_lt : ∀ v ∈ st.visited, depth v < st.visited.length
  closed : ∀ v ∈ st.visited, v ∉ st.queue → some v ≠ cur →
    ∀ w, Passable grid w → GridAdj v w → w ∈ st.visited
  not_end : ∀ v ∈ st.visited, v ∉ st.queue → some v ≠ cur → v ≠ endPos
  q_sorted : st.queue.Pairwise (fun a b => depth a ≤ depth b)
  q_spread : ∀ a ∈ st.queue, ∀ b ∈ st.queue, depth b ≤ depth a + 1
  q_cur : ∀ c, cur = some c → c ∈ st.visited ∧
    ∀ q ∈ st.queue, depth c ≤ depth q ∧ depth q ≤ depth c + 1
  minimal : ∀ v ∈ st.visited, ∀ k, GridWalk grid startPos v k → depth v ≤ k

/-- What a grid search guarantees about the `path` it returns: it is empty only when the
end cell cannot be reached, and otherwise it leads from the start cell to the end cell
with the least possible number of moves. -/
def PathPost (grid : Grid) (startPos endPos : Pos) (path : List Pos) : Prop :=
  (path = [] → ∀ k, ¬ GridWalk grid startPos endPos k) ∧
  (path ≠ [] → IsGridPath grid startPos endPos path ∧
    ∀ k, GridWalk grid startPos endPos k → path.length ≤ k + 1)

/-- The invariant of the loop of `runAStar` (for a start cell other than the end cell);
`cur` is the cell under expansion, if any. -/
structure AStarInv (grid : Grid) (s e : Pos) (cur : Option Pos) (st : AStarState) : Prop where
  o_nodup : st.openSet.Nodup
  k_nodup : st.closedSet.Nodup
  disj : ∀ v ∈ st.openSet, v ∉ st.closedSet
  pass : ∀ v, v ∈ st.openSet ∨ v ∈ st.closedSet → Passable grid v
  g_start : mapGet st.gScore s = some 0
  start_pos : s ∈ st.closedSet ∨ (st.closedSet = [] ∧ st.openSet = [s])
  f_def : ∀ v ∈ st.openSet, ∀ gv, mapGet st.gScore v = some gv →
    mapGet st.fScore v = some (gv + heuristic v e)
  came_none : mapGet st.cameFrom s = none
  came : ∀ v, v ∈ st.openSet ∨ v ∈ st.closedSet → v ≠ s → ∃ p gp,
    mapGet st.cameFrom v = some p ∧ p ∈ st.closedSet ∧ GridAdj p v ∧
    mapGet st.gScore p = some gp ∧ mapGet st.gScore v = some (gp + 1)
  g_le : ∀ v gv, v ∈ st.openSet ∨ v ∈ st.closedSet → mapGet st.gScore v = some gv →
    gv ≤ st.closedSet.length
  walk : ∀ v gv, v ∈ st.openSet ∨ v ∈ st.closedSet → mapGet st.gScore v = some gv →
    GridWalk grid s v gv
  k_opt : ∀ v ∈ st.closedSet, ∀ gv, mapGet st.gScore v = some gv →
    ∀ k, GridWalk grid s v k → gv ≤ k
  k_closed : ∀ v ∈ st.closedSet, some v ≠ cur → ∀ w, Passable grid w → GridAdj v w →
    (w ∈ st.closedSet ∨ w ∈ st.openSet) ∧
    ∀ gv gw, mapGet st.gScore v = some gv → mapGet st.gScore w = some gw → gw ≤ gv + 1
  not_end : ∀ v ∈ st.closedSet, v ≠ e
  cur_g : ∀ u, cur = some u → u ∈ st.closedSet ∧
    ∃ gu, mapGet st.gScore u = some gu ∧ gu + 1 ≤ st.closedSet.length
  g_dom : ∀ v gv, mapGet st.gScore v = some gv → v ∈ st.openSet ∨ v ∈ st.closedSet

/-- How a later state of the expansion of one cell extends an earlier one. -/
structure AStarGrow (st st' : AStarState) : Prop where
  closed_eq : st'.closedSet = st.closedSet
  steps_eq : st'.steps = st.steps
  open_sub : ∀ v ∈ st.openSet, v ∈ st'.openSet
  g_dec : ∀ v gv, mapGet st.gScore v = some gv →
    ∃ gv', mapGet st'.gScore v = some gv' ∧ gv' ≤ gv
  g_closed : ∀ v ∈ st.closedSet, mapGet st'.gScore v = mapGet st.gScore v

/-- The `switch (algorithm)` of `startPathfinding` (lines 232-243): the result that is
handed to `animateSteps`. The outer `none` is the default branch, which shows the
'Coming Soon' toast and returns. -/
def startPathfinding (algorithm : String) (grid : Grid) (startPos endPos : Pos) :
    Option (Option PathResult) :=
  match algorithm with
  | "astar" => some (runAStar grid startPos endPos)
  | "greedy" => some (runAStar grid startPos endPos)
  | "bfs" => some (PathfindingVisualizer.runBFS grid startPos endPos)
  | _ => none

/-! ## The pages: state and handlers

The `useState` values of a page are the fields of a record; a handler is a function on the
record. `toasts` holds the titles of the toasts raised so far, and `animation` holds the
arguments of the call of `animateSteps` that `setTimeout` has scheduled (`animationRef`),
if any. -/

/-- The state of the graph page (`GraphVisualizer.jsx` lines 13-22); `nodes` holds the
ids of the `nodes` state. -/
structure GraphPage where
  nodes : List Nat
  edges : List Edge
  algorithm : String
  startNode : Nat
  isPlaying : Bool
  visitedNodes : List Nat
  currentNode : Int
  pathDistance : List (Nat × Dist)
  animation : Option (Nat × List GraphStep)
  toasts : List String
  deriving DecidableEq, Repr

/-- The function `resetVisualization` of the graph page (lines 79-87). -/
def GraphVisualizer.resetVisualization (p : GraphPage) : GraphPage :=
  { p with isPlaying := false, visitedNodes := [], currentNode := -1, pathDistance := [],
           animation := none }

/-- One call of `animateSteps(stepIndex, steps)` of the graph page (lines 202-218); the
call it schedules with `setTimeout` is left pending in `animation`. -/
def GraphVisualizer.animateSteps (stepIndex : Nat) (steps : List GraphStep) (p : GraphPage) :
    GraphPage :=
  match steps[stepIndex]? with
  | none =>
    { p with isPlaying := false, currentNode := -1, toasts := p.toasts ++ ["Complete"] }
  | some step =>
    { p with currentNode := (step.node : Int), visitedNodes := step.visited,
             pathDistance := step.distances.getD p.pathDistance,
             animation := some (stepIndex + 1, steps) }

/-- The function `startVisualization` (lines 179-200); `none` when the model of the
traversal runs out of fuel. -/
def GraphVisualizer.startVisualization (p : GraphPage) : Option GraphPage :=
  let p := GraphVisualizer.resetVisualization p
  match p.algorithm with
  | "bfs" =>
    (GraphVisualizer.runBFS p.edges p.startNode).map
      (fun steps => GraphVisualizer.animateSteps 0 steps { p with isPlaying := true })
  | "dfs" =>
    (GraphVisualizer.runDFS p.edges p.startNode).map
      (fun steps => GraphVisualizer.animateSteps 0 steps { p with isPlaying := true })
  | "dijkstra" =>
    some (GraphVisualizer.animateSteps 0
      (GraphVisualizer.runDijkstra p.nodes p.edges p.startNode) { p with isPlaying := true })
  | _ => some { p with toasts := p.toasts ++ ["Coming Soon"] }

/-- A graph page in its initial state (lines 13-21) with the graph 0-1, 1-2 and the
given selection of the algorithm. -/
def GraphVisualizer.pathGraphPage (algorithm : String) : GraphPage :=
  { nodes := [0, 1, 2], edges := [⟨0, 1, 1⟩, ⟨1, 2, 1⟩], algorithm := algorithm,
    startNode := 0, isPlaying := false, visitedNodes := [], currentNode := -1,
    pathDistance := [], animation := none, toasts := [] }

/-- The state of the pathfinding page (`PathfindingVisualizer.jsx` lines 17-27);
`isPlacing` is `none` for `null`. -/
structure PathfindingPage where
  grid : Grid
  algorithm : String
  startPos : Pos
  endPos : Pos
  isPlacing : Option String
  isPlaying : Bool
  visitedCells : List Pos
  pathCells : List Pos
  currentCell : Option Pos
  animation : Option (Nat × List PathStep × List Pos)
  toasts : List String

/-- The function `resetVisualization` of the pathfinding page (lines 57-65). -/
def PathfindingVisualizer.resetVisualization (p : PathfindingPage) : PathfindingPage :=
  { p with isPlaying := false, visitedCells := [], pathCells := [], currentCell := none,
           animation := none }

/-- The function `initializeGrid` (lines 40-55). -/
def PathfindingVisualizer.initializeGrid (p : PathfindingPage) : PathfindingPage :=
  PathfindingVisualizer.resetVisualization { p with grid := fun _ _ => false }

/-- The page once it is mounted: the `useState` defaults (lines 17-26) followed by the
`initializeGrid` of the effect (lines 36-38). -/
def PathfindingVisualizer.mounted : PathfindingPage :=
  PathfindingVisualizer.initializeGrid
    { grid := fun _ _ => false, algorithm := "astar", startPos := { row := 5, col := 5 },
      endPos := { row := 15, col := 30 }, isPlacing := none, isPlaying := false,
      visitedCells := [], pathCells := [], currentCell := none, animation := none,
      toasts := [] }

/-- The function `clearWalls` (lines 67-73). -/
def PathfindingVisualizer.clearWalls (p : PathfindingPage) : PathfindingPage :=
  PathfindingVisualizer.resetVisualization { p with grid := fun _ _ => false }

/-- The function `generateMaze` (lines 75-86); `random r c` tells whether the call of
`Math.random()` for the cell gave a value below `0.25`. -/
def PathfindingVisualizer.generateMaze (random : Int → Int → Bool) (p : PathfindingPage) :
    PathfindingPage :=
  PathfindingVisualizer.resetVisualization
    { p with grid := fun r c =>
        random r c && !decide (r = p.startPos.row ∧ c = p.startPos.col) &&
          !decide (r = p.endPos.row ∧ c = p.endPos.col) }

/-- The handler `() => setIsPlacing('start')` or `() => setIsPlacing('end')` of the two
placing buttons (lines 365 and 372). -/
def PathfindingVisualizer.setIsPlacing (value : Option String) (p : PathfindingPage) :
    PathfindingPage :=
  { p with isPlacing := value }

/-- The function `handleCellClick` (lines 88-105), called with the indices of a cell of
the grid. -/
def PathfindingVisualizer.handleCellClick (row col : Int) (p : PathfindingPage) :
    PathfindingPage :=
  if p.isPlaying then p
  else if p.isPlacing = some "start" then
    { p with startPos := { row := row, col := col }, isPlacing := none }
  else if p.isPlacing = some "end" then
    { p with endPos := { row := row, col := col }, isPlacing := none }
  else if ¬ (row = p.startPos.row ∧ col = p.startPos.col) ∧
      ¬ (row = p.endPos.row ∧ col = p.endPos.col) then
    { p with grid := fun r c => if r = row ∧ c = col then !p.grid r c else p.grid r c }
  else p

/-- One call of `animateSteps(stepIndex, steps, finalPath)` of the pathfinding page (lines
249-269); the call it schedules with `setTimeout` is left pending in `animation`. -/
def PathfindingVisualizer.animateSteps (stepIndex : Nat) (steps : List PathStep)
    (finalPath : List Pos) (p : PathfindingPage) : PathfindingPage :=
  match steps[stepIndex]? with
  | none =>
    let p := { p with isPlaying := false, currentCell := none }
    if finalPath.length > 0 then
      { p with pathCells := finalPath, toasts := p.toasts ++ ["Path Found!"] }
    else { p with toasts := p.toasts ++ ["No Path"] }
  | some step =>
    { p with currentCell := some step.current, visitedCells := step.visited,
             animation := some (stepIndex + 1, steps, finalPath) }

/-- The function `startPathfinding` (lines 228-247) as a handler of the page; `none` when
the model of the search runs out of fuel. -/
def PathfindingVisualizer.startPathfinding (p : PathfindingPage) : Option PathfindingPage :=
  let p := PathfindingVisualizer.resetVisualization p
  match AlgoViz.startPathfinding p.algorithm p.grid p.startPos p.endPos with
  | none => some { p with toasts := p.toasts ++ ["Coming Soon"] }
  | some none => none
  | some (some result) =>
    some (PathfindingVisualizer.animateSteps 0 result.steps result.path
      { p with isPlaying := true })

/-- The `visited` of every step of a graph trace is the list of the `node` values of the
steps up to and including it, and no node is the `node` of two steps. -/
def VisitedTrace (steps : List GraphStep) : Prop :=
  (∀ k step, steps[k]? = some step → step.visited = (steps.take (k + 1)).map (·.node)) ∧
  (steps.map (·.node)).Nodup

/-- The `visited` set and the `steps` of a graph traversal agree: the set holds the nodes
of the steps in order, and the steps are as `VisitedTrace` says. -/
def TraceInv (visited : List Nat) (steps : List GraphStep) : Prop :=
  visited = steps.map (·.node) ∧ VisitedTrace steps

/-- What the `distances` snapshots of the steps of `runDijkstra` show: a value for every
node, a finite value only for nodes reachable from the start node, and as `node` only
reachable nodes. -/
structure DijSnap (nodes : List Nat) (edges : List Edge) (s : Nat) (st : DijkstraState) :
    Prop where
  keys : ∀ step ∈ st.steps, ∀ v ∈ nodes, ∃ x, step.distanceOf v = some x
  fin_reach : ∀ step ∈ st.steps, ∀ v d, step.distanceOf v = some (some d) → Reach edges s v
  node_reach : ∀ step ∈ st.steps, Reach edges s step.node

/-- There is a walk of `k` edges, taken as undirected, from `s` to `v`. -/
inductive HopWalk (edges : List Edge) (s : Nat) : Nat → Nat → Prop where
  | nil : HopWalk edges s s 0
  | snoc {v w k : Nat} : HopWalk edges s v k → Adj edges v w → HopWalk edges s w (k + 1)

/-- The number `d` is the hop distance from `s` to `v`: the least number of edges of a
walk from `s` to `v`. -/
def IsHopDist (edges : List Edge) (s v d : Nat) : Prop :=
  HopWalk edges s v d ∧ ∀ k, HopWalk edges s v k → d ≤ k

/-- The invariant of the loop of `runBFS` that gives the order of discovery. The number
`depth v` is the hop distance of the visited node `v`; `cur` is the node under expansion,
if any. -/
structure BfsLayerInv (edges : List Edge) (s : Nat) (depth : Nat → Nat) (cur : Option Nat)
    (st : BfsState) : Prop where
  start_mem : s ∈ st.visited
  depth_start : depth s = 0
  queue_sub : ∀ q ∈ st.queue, q ∈ st.visited
  hop : ∀ v ∈ st.visited, HopWalk edges s v (depth v)
  minimal : ∀ v ∈ st.visited, ∀ k, HopWalk edges s v k → depth v ≤ k
  closed : ∀ v ∈ st.visited, v ∉ st.queue → some v ≠ cur →
    ∀ w, Adj edges v w → w ∈ st.visited
  sorted : st.visited.Pairwise (fun a b => depth a ≤ depth b)
  q_sorted : st.queue.Pairwise (fun a b => depth a ≤ depth b)
  spread : ∀ a ∈ st.queue, ∀ b ∈ st.visited, depth b ≤ depth a + 1
  q_cur : ∀ c, cur = some c → c ∈ st.visited ∧ (∀ b ∈ st.visited, depth b ≤ depth c + 1) ∧
    ∀ q ∈ st.queue, depth c ≤ depth q
  pred : ∀ i v, st.visited[i]? = some v → v ≠ s → ∃ p ∈ st.visited.take i, Adj edges p v

/-- The trace of a search result has at most one step with `found != -1`: such a step is
the last step, its `found` equals its `checking` and the `found` of the result; and when
the target does not occur in the array, every step has `found = -1`. -/
def SearchTraceOk (arr : List Int) (target : Int) (r : SearchResult) : Prop :=
  (∀ i step, r.steps[i]? = some step → step.found ≠ -1 →
    i + 1 = r.steps.length ∧ step.checking = some step.found ∧ step.found = r.found) ∧
  (target ∉ arr → ∀ step ∈ r.steps, step.found = -1)

/-- Every step has `found = -1`, or every step but the last has, and the last step shows
as `found` the index it checked, which is the result `found`, and the target occurs in the
array searched. -/
def HitLast (sortedArr : List Int) (target : Int) (steps : List SearchStep) (found : Int) :
    Prop :=
  (∀ s ∈ steps, s.found = -1) ∨
  ∃ init last, steps = init ++ [last] ∧ (∀ s ∈ init, s.found = -1) ∧
    last.checking = some last.found ∧ last.found = found ∧ target ∈ sortedArr

/-- The window of a search step: its `range`, or the single index it checks when it has
no `range`. -/
def SearchStep.window (step : SearchStep) : Option (Int × Int) :=
  match step.range with
  | some w => some w
  | none => step.checking.map (fun c => (c, c))

/-- The window of the later step `b` lies inside the `range` of the step `a`, is smaller,
and does not hold the index that `a` probed. -/
def Narrows (a b : SearchStep) : Prop :=
  ∀ l h m l' h', a.range = some (l, h) → a.checking = some m → b.window = some (l', h') →
    l ≤ l' ∧ h' ≤ h ∧ (l < l' ∨ h' < h) ∧ (m < l' ∨ h' < m)

/-- The step of `binary` carries `range = [low, high]` and `checking = mid` with
`0 <= low <= mid <= high <= n - 1` and `mid = floor((low + high) / 2)`. -/
def BinaryStepOk (n : Nat) (step : SearchStep) : Prop :=
  ∃ low high mid : Int, step.range = some (low, high) ∧ step.checking = some mid ∧
    0 ≤ low ∧ low ≤ mid ∧ mid ≤ high ∧ high ≤ (n : Int) - 1 ∧ mid = (low + high) / 2

/-- A step of `interpolation` that carries a `range = [low, high]`: the window lies in the
array, `checking` is the value of `pos` for the values `vlow` and `vhigh` at its ends, and
when `vlow < vhigh` that is an integer with `low <= pos <= high`. -/
def ProbeStepOk (sortedArr : List Int) (target : Int) (step : SearchStep) : Prop :=
  ∀ low high, step.range = some (low, high) →
    ∃ vlow vhigh, at? sortedArr low = some vlow ∧ at? sortedArr high = some vhigh ∧
      0 ≤ low ∧ high ≤ (sortedArr.length : Int) - 1 ∧
      step.checking = interpolationPos target vlow vhigh low high ∧
      (vlow < vhigh → ∃ pos, step.checking = some pos ∧ low ≤ pos ∧ pos ≤ high)

/-- The current window `[low, high]` lies inside the `range` of every step pushed so far
and holds none of the indices probed so far. -/
def WindowInside (steps : List SearchStep) (low high : Int) : Prop :=
  ∀ a ∈ steps, ∀ l h m, a.range = some (l, h) → a.checking = some m →
    l ≤ m ∧ m ≤ h ∧ l ≤ low ∧ high ≤ h ∧ (m < low ∨ high < m)

/-- In the list of steps, whenever the node of a step has a neighbour that is not in the
step's `visited`, the next step exists and its node is the first such neighbour in the
order of the edge list. -/
def DfsOrder (edges : List Edge) (steps : List GraphStep) : Prop :=
  ∀ k a w, steps[k]? = some a →
    (unvisitedNeighbors edges a.node a.visited).head? = some w →
    ∃ b, steps[k + 1]? = some b ∧ b.node = w

/-- The `visited` of every step of a grid trace is the list of the `current` cells of the
steps before it, no cell is the `current` of two steps, and no step has its own
`current` in its `visited`. -/
def ClosedSnapshot (steps : List PathStep) : Prop :=
  (∀ k step, steps[k]? = some step → step.visited = (steps.take k).map (·.current)) ∧
  (steps.map (·.current)).Nodup ∧ ∀ step ∈ steps, step.current ∉ step.visited

/-- The part of the invariant of the loop of `runAStar` that holds for every start cell:
the closed set holds the `current` cells of the steps in order, the steps are as
`ClosedSnapshot` says, and the open set has no repetition and no closed cell. -/
structure AStarSnapInv (st : AStarState) : Prop where
  closed_eq : st.closedSet = st.steps.map (·.current)
  snap : ClosedSnapshot st.steps
  o_nodup : st.openSet.Nodup
  disj : ∀ v ∈ st.openSet, v ∉ st.closedSet

/-- The number of inversions of a list, that is of pairs of positions `i < j` with
`a[i] > a[j]`: the number of entries after the first that are below it, plus the number of
inversions among the entries after the first. -/
def inversions : List Int → Nat
  | [] => 0
  | x :: l => l.countP (fun y => decide (y < x)) + inversions l

/-- Every step pushed so far has the property `P`. -/
def AllSteps (P : SortStep → Prop) (st : SortState) : Prop := ∀ s ∈ st.steps, P s

/-- What a step of `selection` that carries `sorted` shows: the set is the prefix `0..i`
for a pass `i`, and every index in it holds the value it has in the sorted array. -/
def SelectionMark (arr : List Int) (step : SortStep) : Prop :=
  ∀ l, step.sorted = some l → ∃ i, i + 1 < arr.length ∧ l = List.range (i + 1) ∧
    ∀ x, x ≤ i → rd step.array x = rd (sortAsc arr) x

/-- What a step of `heap` that carries `sorted` shows: the set is the suffix `i..n-1` for
an index `i >= 1`, and every index in it holds the value it has in the sorted array. -/
def HeapMark (arr : List Int) (step : SortStep) : Prop :=
  ∀ l, step.sorted = some l → ∃ i, 1 ≤ i ∧ i < arr.length ∧
    l = countDown (arr.length - i) (arr.length - 1) ∧
    ∀ x, i ≤ x → x < arr.length → rd step.array x = rd (sortAsc arr) x

/-! # Properties -/

/-! ## Lemmas on reads, writes and swaps -/

theorem rd_eq_getElem (a : List Int) (i : Nat) (h : i < a.length) : rd a i = a[i] := by
  simp [rd, List.getD_eq_getElem?_getD, List.getElem?_eq_getElem h]

theorem rd_set (a : List Int) (i k : Nat) (v : Int) (h : i < a.length) :
    rd (a.set i v) k = if k = i then v else rd a k := by
  unfold rd
  simp only [List.getD_eq_getElem?_getD, List.getElem?_set]
  by_cases hk : k = i
  · subst hk; simp [h]
  · have : ¬ i = k := fun e => hk e.symm
    simp [hk, this]

theorem length_swapAt (a : List Int) (i j : Nat) : (swapAt a i j).length = a.length := by
  simp [swapAt]

theorem rd_swapAt (a : List Int) (i j k : Nat) (hi : i < a.length) (hj : j < a.length) :
    rd (swapAt a i j) k = if k = j then rd a i else if k = i then rd a j else rd a k := by
  unfold swapAt
  rw [rd_set _ _ _ _ (by simpa using hj), rd_set _ _ _ _ hi]

theorem count_set_of_lt (a : List Int) (i : Nat) (v x : Int) (h : i < a.length) :
    (a.set i v).count x + (if rd a i = x then 1 else 0)
      = a.count x + (if v = x then 1 else 0) := by
  have h1 := List.count_set v x a i h
  have h2 : (if a[i] = x then 1 else 0) ≤ a.count x := by
    split
    · rename_i e
      exact List.count_pos_iff.mpr (e ▸ List.getElem_mem h)
    · exact Nat.zero_le _
  rw [rd_eq_getElem a i h]
  simp only [beq_iff_eq] at h1
  omega

theorem swapAt_perm (a : List Int) (i j : Nat) (hi : i < a.length) (hj : j < a.length) :
    (swapAt a i j).Perm a := by
  rw [List.perm_iff_count]
  intro x
  unfold swapAt
  have h1 := count_set_of_lt (a.set i (rd a j)) j (rd a i) x (by simpa using hj)
  have h2 := count_set_of_lt a i (rd a j) x hi
  rw [rd_set _ _ _ _ hi] at h1
  by_cases hji : j = i
  · subst hji
    simp only [if_true] at h1
    omega
  · simp only [hji, if_false] at h1
    omega

/-- An array whose reads are non-decreasing in the index is sorted. -/
theorem sorted_of_rd_mono (a : List Int)
    (h : ∀ p q, p ≤ q → q < a.length → rd a p ≤ rd a q) : a.Sorted (· ≤ ·) := by
  unfold List.Sorted
  rw [List.pairwise_iff_getElem]
  intro i j hi hj hij
  have := h i j (Nat.le_of_lt hij) hj
  rwa [rd_eq_getElem a i hi, rd_eq_getElem a j hj] at this

theorem rd_mono_of_sorted (a : List Int) (h : a.Sorted (· ≤ ·)) :
    ∀ p q, p ≤ q → q < a.length → rd a p ≤ rd a q := by
  unfold List.Sorted at h
  rw [List.pairwise_iff_getElem] at h
  intro p q hpq hq
  rw [rd_eq_getElem a p (by omega), rd_eq_getElem a q hq]
  rcases Nat.lt_or_eq_of_le hpq with hlt | heq
  · exact h p q (by omega) hq hlt
  · subst heq; exact le_refl _

theorem pushStep_array (st : SortState) (c : List Nat) (s : Option (List Nat)) :
    (pushStep st c s).array = st.array := rfl

theorem pushStep_last (st : SortState) (c : List Nat) (s : Option (List Nat)) :
    ∃ last, (pushStep st c s).steps.getLast? = some last ∧ last.array = st.array := by
  refine ⟨_, List.getLast?_concat _, rfl⟩

/-! ## Bubble sort -/

theorem bubbleBody_array (st : SortState) (j : Nat) :
    (bubbleBody st j).array =
      if rd st.array j > rd st.array (j + 1) then swapAt st.array j (j + 1) else st.array := by
  unfold bubbleBody
  simp only [pushStep_array]
  split <;> rfl

/-- Effect of the first `m` iterations of the inner loop on the array: the largest of
the entries `0..m` has moved to index `m`, the entries above `m` are untouched. -/
theorem bubbleInner_spec (st : SortState) (m : Nat) (hm : m < st.array.length) :
    (((List.range m).foldl bubbleBody st).array.length = st.array.length) ∧
    (((List.range m).foldl bubbleBody st).array.Perm st.array) ∧
    (∀ p, p ≤ m → rd ((List.range m).foldl bubbleBody st).array p
        ≤ rd ((List.range m).foldl bubbleBody st).array m) ∧
    (∀ k, m < k → rd ((List.range m).foldl bubbleBody st).array k = rd st.array k) ∧
    (∀ p, p ≤ m → ∃ p', p' ≤ m ∧
        rd ((List.range m).foldl bubbleBody st).array p = rd st.array p') := by
  induction m with
  | zero =>
    simp only [List.range_zero, List.foldl_nil]
    refine ⟨trivial, List.Perm.refl _, ?_, fun _ _ => trivial, ?_⟩
    · intro p hp
      have : p = 0 := by omega
      subst this; exact le_refl _
    · intro p hp; exact ⟨p, hp, rfl⟩
  | succ m ih =>
    obtain ⟨hlen, hperm, hmax, hkeep, horig⟩ := ih (by omega)
    rw [List.range_succ, List.foldl_append]
    simp only [List.foldl_cons, List.foldl_nil]
    generalize ((List.range m).foldl bubbleBody st) = sb at hlen hperm hmax hkeep horig
    rw [bubbleBody_array]
    have hm1 : m < sb.array.length := by omega
    have hm2 : m + 1 < sb.array.length := by omega
    by_cases hc : rd sb.array m > rd sb.array (m + 1)
    · simp only [hc, if_true]
      refine ⟨by rw [length_swapAt, hlen], (swapAt_perm _ _ _ hm1 hm2).trans hperm, ?_, ?_, ?_⟩
      · intro p hp
        rw [rd_swapAt _ _ _ _ hm1 hm2, rd_swapAt _ _ _ _ hm1 hm2]
        simp only [if_true]
        by_cases h1 : p = m + 1
        · simp [h1]
        · by_cases h2 : p = m
          · subst h2; simp only [h1, if_false, if_true]; omega
          · simp only [h1, h2, if_false]; exact hmax p (by omega)
      · intro k hk
        rw [rd_swapAt _ _ _ _ hm1 hm2]
        have h1 : ¬ k = m + 1 := by omega
        have h2 : ¬ k = m := by omega
        simp only [h1, h2, if_false]
        exact hkeep k (by omega)
      · intro p hp
        rw [rd_swapAt _ _ _ _ hm1 hm2]
        by_cases h1 : p = m + 1
        · obtain ⟨p', hp', e⟩ := horig m (le_refl _)
          exact ⟨p', by omega, by simp only [h1, if_true]; exact e⟩
        · by_cases h2 : p = m
          · refine ⟨m + 1, le_refl _, ?_⟩
            have h3 : ¬ m = m + 1 := by omega
            simp only [h2, h3, if_false, if_true]
            exact hkeep (m + 1) (by omega)
          · obtain ⟨p', hp', e⟩ := horig p (by omega)
            exact ⟨p', by omega, by simp only [h1, h2, if_false]; exact e⟩
    · simp only [hc, if_false]
      refine ⟨hlen, hperm, ?_, fun k hk => hkeep k (by omega), ?_⟩
      · intro p hp
        by_cases h1 : p = m + 1
        · subst h1; exact le_refl _
        · have := hmax p (by omega)
          omega
      · intro p hp
        by_cases h1 : p = m + 1
        · exact ⟨m + 1, le_refl _, by rw [h1]; exact hkeep (m + 1) (by omega)⟩
        · obtain ⟨p', hp', e⟩ := horig p (by omega)
          exact ⟨p', by omega, e⟩

/-- After `k` outer passes the last `k` entries are in their final place. -/
theorem bubbleOuter_spec (arr : List Int) (k : Nat) (hk : k ≤ arr.length - 1) :
    (((List.range k).foldl (bubblePass arr.length) (SortState.init arr)).array.length
        = arr.length) ∧
    (((List.range k).foldl (bubblePass arr.length) (SortState.init arr)).array.Perm arr) ∧
    (∀ p q, p ≤ q → q < arr.length → arr.length - k ≤ q →
      rd ((List.range k).foldl (bubblePass arr.length) (SortState.init arr)).array p
        ≤ rd ((List.range k).foldl (bubblePass arr.length) (SortState.init arr)).array q) := by
  induction k with
  | zero =>
    simp only [List.range_zero, List.foldl_nil, SortState.init]
    refine ⟨trivial, List.Perm.refl _, ?_⟩
    intro p q _ h1 h2; omega
  | succ k ih =>
    obtain ⟨hlen, hperm, hinv⟩ := ih (by omega)
    rw [List.range_succ, List.foldl_append]
    simp only [List.foldl_cons, List.foldl_nil]
    generalize ((List.range k).foldl (bubblePass arr.length) (SortState.init arr)) = sb
      at hlen hperm hinv
    unfold bubblePass bubbleInner
    rw [pushStep_array]
    obtain ⟨ilen, iperm, imax, ikeep, iorig⟩ :=
      bubbleInner_spec sb (arr.length - k - 1) (by omega)
    refine ⟨by rw [ilen, hlen], iperm.trans hperm, ?_⟩
    intro p q hpq hq hq2
    by_cases hqm : q = arr.length - k - 1
    · subst hqm; exact imax p hpq
    · rw [ikeep q (by omega)]
      by_cases hpm : p ≤ arr.length - k - 1
      · obtain ⟨p', hp', e⟩ := iorig p hpm
        rw [e]; exact hinv p' q (by omega) hq (by omega)
      · rw [ikeep p (by omega)]; exact hinv p q hpq hq (by omega)

/-- C1: for every integer array of length at least 2, `bubble` returns a non-empty step
list whose last step's `array` is non-decreasing and is a permutation of the input. -/
theorem bubble_last_step_sorted (arr : List Int) (h : 2 ≤ arr.length) :
    ∃ last, (bubble arr).steps.getLast? = some last ∧
      last.array.Sorted (· ≤ ·) ∧ last.array.Perm arr := by
  obtain ⟨hlen, hperm, hinv⟩ := bubbleOuter_spec arr (arr.length - 1) (le_refl _)
  have hrun : bubbleRun arr = (List.range (arr.length - 1)).foldl (bubblePass arr.length)
      (SortState.init arr) := rfl
  rw [← hrun] at hlen hperm hinv
  have hlast : ∃ last, (bubbleRun arr).steps.getLast? = some last ∧
      last.array = (bubbleRun arr).array := by
    obtain ⟨k, hk⟩ : ∃ k, arr.length - 1 = k + 1 := ⟨arr.length - 2, by omega⟩
    rw [hrun, hk, List.range_succ, List.foldl_append]
    simp only [List.foldl_cons, List.foldl_nil]
    unfold bubblePass
    exact pushStep_last _ _ _
  obtain ⟨last, hl, ha⟩ := hlast
  refine ⟨last, hl, ?_, ?_⟩
  · rw [ha]
    apply sorted_of_rd_mono
    intro p q hpq hq
    rw [hlen] at hq
    by_cases hq0 : q = 0
    · have : p = 0 := by omega
      subst hq0; subst this; exact le_refl _
    · exact hinv p q hpq hq (by omega)
  · rw [ha]; exact hperm

theorem bubble_last_step_sorted_witness :
    ∃ last, (bubble [5, 3, 8, 1]).steps.getLast? = some last ∧
      last.array.Sorted (· ≤ ·) ∧ last.array.Perm [5, 3, 8, 1] :=
  bubble_last_step_sorted [5, 3, 8, 1] (by decide)

/-! ## Selection sort -/

theorem selectionBody_spec (a : List Int) (i m : Nat) (s : Nat × SortState)
    (ha : s.2.array = a) (h1 : i ≤ s.1) (h2 : s.1 < i + 1 + m)
    (h3 : ∀ q, i ≤ q → q < i + 1 + m → rd a s.1 ≤ rd a q) :
    (selectionBody s (i + 1 + m)).2.array = a ∧ i ≤ (selectionBody s (i + 1 + m)).1 ∧
      (selectionBody s (i + 1 + m)).1 < i + 1 + (m + 1) ∧
      ∀ q, i ≤ q → q < i + 1 + (m + 1) → rd a (selectionBody s (i + 1 + m)).1 ≤ rd a q := by
  obtain ⟨mi, st⟩ := s
  simp only at ha h1 h2 h3
  subst ha
  unfold selectionBody
  dsimp only [pushStep_array]
  by_cases hc : rd st.array (i + 1 + m) < rd st.array mi
  · simp only [hc, if_true]
    refine ⟨rfl, by omega, by omega, ?_⟩
    intro q hq1 hq2
    by_cases hq : q = i + 1 + m
    · subst hq; exact le_refl _
    · have := h3 q hq1 (by omega)
      omega
  · simp only [hc, if_false]
    refine ⟨rfl, h1, by omega, ?_⟩
    intro q hq1 hq2
    by_cases hq : q = i + 1 + m
    · subst hq; omega
    · exact h3 q hq1 (by omega)

/-- The inner loop of `selection` leaves the array alone and finds the index of a least
entry among the indices `i .. i + m`. -/
theorem selectionInner_spec (st : SortState) (i m : Nat) :
    ((List.range' (i + 1) m).foldl selectionBody (i, st)).2.array = st.array ∧
    i ≤ ((List.range' (i + 1) m).foldl selectionBody (i, st)).1 ∧
    ((List.range' (i + 1) m).foldl selectionBody (i, st)).1 < i + 1 + m ∧
    ∀ q, i ≤ q → q < i + 1 + m →
      rd st.array ((List.range' (i + 1) m).foldl selectionBody (i, st)).1 ≤ rd st.array q := by
  induction m with
  | zero =>
    simp only [List.range'_zero, List.foldl_nil]
    refine ⟨trivial, le_refl _, by omega, ?_⟩
    intro q h1 h2
    have : q = i := by omega
    subst this; exact le_refl _
  | succ m ih =>
    obtain ⟨h0, h1, h2, h3⟩ := ih
    rw [List.range'_1_concat, List.foldl_append]
    simp only [List.foldl_cons, List.foldl_nil]
    exact selectionBody_spec st.array i m _ h0 h1 h2 h3

theorem selectionPass_array (n : Nat) (st : SortState) (i : Nat) :
    (selectionPass n st i).array =
      if (selectionInner n i st).1 ≠ i then
        swapAt (selectionInner n i st).2.array i (selectionInner n i st).1
      else (selectionInner n i st).2.array := by
  unfold selectionPass
  simp only [pushStep_array]
  split <;> rfl

/-- After `k` outer passes of `selection` the first `k` entries are in their final place. -/
theorem selectionOuter_spec (arr : List Int) (k : Nat) (hk : k ≤ arr.length - 1) :
    (((List.range k).foldl (selectionPass arr.length) (SortState.init arr)).array.length
        = arr.length) ∧
    (((List.range k).foldl (selectionPass arr.length) (SortState.init arr)).array.Perm arr) ∧
    (∀ p q, p < k → p ≤ q → q < arr.length →
      rd ((List.range k).foldl (selectionPass arr.length) (SortState.init arr)).array p
        ≤ rd ((List.range k).foldl (selectionPass arr.length) (SortState.init arr)).array q) := by
  induction k with
  | zero =>
    simp only [List.range_zero, List.foldl_nil, SortState.init]
    refine ⟨trivial, List.Perm.refl _, ?_⟩
    intro p q h; omega
  | succ k ih =>
    obtain ⟨hlen, hperm, hinv⟩ := ih (by omega)
    rw [List.range_succ, List.foldl_append]
    simp only [List.foldl_cons, List.foldl_nil]
    generalize ((List.range k).foldl (selectionPass arr.length) (SortState.init arr)) = sb
      at hlen hperm hinv
    rw [selectionPass_array]
    obtain ⟨i0, i1, i2, i3⟩ := selectionInner_spec sb k (arr.length - (k + 1))
    have e : selectionInner arr.length k sb =
        (List.range' (k + 1) (arr.length - (k + 1))).foldl selectionBody (k, sb) := rfl
    rw [← e] at i0 i1 i2 i3
    generalize (selectionInner arr.length k sb) = r at i0 i1 i2 i3
    rw [i0]
    have hk1 : k < sb.array.length := by omega
    have hr1 : r.1 < sb.array.length := by omega
    obtain ⟨mi, sr⟩ := r
    dsimp only at i0 i1 i2 i3 hr1 ⊢
    by_cases hc : mi ≠ k
    · rw [if_pos hc]
      refine ⟨by rw [length_swapAt, hlen], (swapAt_perm _ _ _ hk1 hr1).trans hperm, ?_⟩
      intro p q hp hpq hq
      rw [rd_swapAt _ _ _ _ hk1 hr1, rd_swapAt _ _ _ _ hk1 hr1]
      have f1 := i3 q
      have f2 := i3 k
      have f3 := hinv p q
      have f4 := hinv p k
      have f5 := hinv p mi
      split_ifs <;> subst_vars <;> omega
    · rw [if_neg hc]
      have hrk : mi = k := by omega
      subst hrk
      refine ⟨hlen, hperm, ?_⟩
      intro p q hp hpq hq
      have f1 := i3 q
      have f3 := hinv p q
      by_cases hpk : p = mi
      · subst hpk; omega
      · omega

/-- C5: for every integer array of length at least 2, `selection` returns a non-empty step
list whose last step's `array` is non-decreasing and is a permutation of the input. -/
theorem selection_last_step_sorted (arr : List Int) (h : 2 ≤ arr.length) :
    ∃ last, (selection arr).steps.getLast? = some last ∧
      last.array.Sorted (· ≤ ·) ∧ last.array.Perm arr := by
  obtain ⟨hlen, hperm, hinv⟩ := selectionOuter_spec arr (arr.length - 1) (le_refl _)
  have hrun : selectionRun arr = (List.range (arr.length - 1)).foldl
      (selectionPass arr.length) (SortState.init arr) := rfl
  rw [← hrun] at hlen hperm hinv
  have hlast : ∃ last, (selectionRun arr).steps.getLast? = some last ∧
      last.array = (selectionRun arr).array := by
    obtain ⟨k, hk⟩ : ∃ k, arr.length - 1 = k + 1 := ⟨arr.length - 2, by omega⟩
    rw [hrun, hk, List.range_succ, List.foldl_append]
    simp only [List.foldl_cons, List.foldl_nil]
    unfold selectionPass
    exact pushStep_last _ _ _
  obtain ⟨last, hl, ha⟩ := hlast
  refine ⟨last, hl, ?_, ?_⟩
  · rw [ha]
    apply sorted_of_rd_mono
    intro p q hpq hq
    rw [hlen] at hq
    by_cases hp : p < arr.length - 1
    · exact hinv p q hp hpq hq
    · have : p = q := by omega
      subst this; exact le_refl _
  · rw [ha]; exact hperm

theorem selection_last_step_sorted_witness :
    ∃ last, (selection [5, 3, 8, 1]).steps.getLast? = some last ∧
      last.array.Sorted (· ≤ ·) ∧ last.array.Perm [5, 3, 8, 1] :=
  selection_last_step_sorted [5, 3, 8, 1] (by decide)

/-! ## Insertion sort -/

theorem set_rd_self (a : List Int) (i : Nat) (h : i < a.length) : a.set i (rd a i) = a := by
  rw [rd_eq_getElem a i h]
  apply List.ext_getElem (by simp)
  intro k h1 h2
  rw [List.getElem_set]
  split
  · rename_i e; subst e; rfl
  · rfl

theorem insertionWhile_zero (key : Int) (st : SortState) :
    insertionWhile key 0 st = (0, st) := by
  rw [insertionWhile]

theorem insertionWhile_succ_neg (key : Int) (j : Nat) (st : SortState)
    (hc : ¬ rd st.array j > key) : insertionWhile key (j + 1) st = (j + 1, st) := by
  rw [insertionWhile, if_neg hc]

theorem insertionWhile_succ_pos (key : Int) (j : Nat) (st : SortState)
    (hc : rd st.array j > key) :
    ∃ st2, insertionWhile key (j + 1) st = insertionWhile key j st2 ∧
      st2.array = st.array.set (j + 1) (rd st.array j) := by
  rw [insertionWhile, if_pos hc]
  exact ⟨_, rfl, rfl⟩

/-- Moving the entry at `j` one place up and putting `key` at `j` rearranges the list
that has `key` at `j + 1`. -/
theorem shift_perm (a : List Int) (j : Nat) (key : Int) (h : j + 1 < a.length) :
    ((a.set (j + 1) (rd a j)).set j key).Perm (a.set (j + 1) key) := by
  rw [List.perm_iff_count]
  intro x
  have h1 := count_set_of_lt (a.set (j + 1) (rd a j)) j key x (by simp; omega)
  have h2 := count_set_of_lt a (j + 1) (rd a j) x h
  have h3 := count_set_of_lt a (j + 1) key x h
  rw [rd_set _ _ _ _ h] at h1
  have hj : ¬ j = j + 1 := by omega
  simp only [hj, if_false] at h1
  omega

/-- The effect of the `while` loop of `insertion`, entered with `j + 1 = jp`: the entries
at `jp' .. jp - 1` (all greater than `key`) have moved one place up, where `jp'` is the
returned value. -/
theorem insertionWhile_spec (key : Int) (jp : Nat) (st : SortState)
    (h : jp < st.array.length) :
    (insertionWhile key jp st).1 ≤ jp ∧
    (insertionWhile key jp st).2.array.length = st.array.length ∧
    (((insertionWhile key jp st).2.array.set (insertionWhile key jp st).1 key).Perm
      (st.array.set jp key)) ∧
    (∀ k, k < (insertionWhile key jp st).1 →
      rd (insertionWhile key jp st).2.array k = rd st.array k) ∧
    (∀ k, (insertionWhile key jp st).1 < k → k ≤ jp →
      rd (insertionWhile key jp st).2.array k = rd st.array (k - 1)) ∧
    (∀ k, jp < k → rd (insertionWhile key jp st).2.array k = rd st.array k) ∧
    (∀ k, (insertionWhile key jp st).1 ≤ k → k < jp → key < rd st.array k) ∧
    ((insertionWhile key jp st).1 = 0 ∨
      rd st.array ((insertionWhile key jp st).1 - 1) ≤ key) := by
  induction jp generalizing st with
  | zero =>
    rw [insertionWhile_zero]
    refine ⟨le_refl _, rfl, List.Perm.refl _, fun _ _ => rfl, ?_, fun _ _ => rfl, ?_, Or.inl rfl⟩
    · intro k h1 h2; omega
    · intro k h1 h2; omega
  | succ j ih =>
    by_cases hc : rd st.array j > key
    · obtain ⟨st2, e2, ha2⟩ := insertionWhile_succ_pos key j st hc
      rw [e2]
      have hl2 : st2.array.length = st.array.length := by rw [ha2]; simp
      obtain ⟨g1, g2, g3, g4, g5, g6, g7, g8⟩ := ih st2 (by omega)
      have hrd : ∀ k, rd st2.array k = if k = j + 1 then rd st.array j else rd st.array k := by
        intro k; rw [ha2]; exact rd_set _ _ _ _ h
      generalize insertionWhile key j st2 = r at g1 g2 g3 g4 g5 g6 g7 g8
      obtain ⟨jp', sr⟩ := r
      dsimp only at g1 g2 g3 g4 g5 g6 g7 g8 ⊢
      refine ⟨by omega, by omega, ?_, ?_, ?_, ?_, ?_, ?_⟩
      · refine g3.trans ?_
        rw [ha2]; exact shift_perm _ _ _ h
      · intro k hk
        rw [g4 k hk, hrd]
        have : ¬ k = j + 1 := by omega
        rw [if_neg this]
      · intro k hk1 hk2
        by_cases hkj : k = j + 1
        · subst hkj
          rw [g6 (j + 1) (by omega), hrd]; simp
        · rw [g5 k hk1 (by omega), hrd]
          have : ¬ k - 1 = j + 1 := by omega
          rw [if_neg this]
      · intro k hk
        rw [g6 k (by omega), hrd]
        have : ¬ k = j + 1 := by omega
        rw [if_neg this]
      · intro k hk1 hk2
        by_cases hkj : k = j
        · subst hkj; exact hc
        · have := g7 k hk1 (by omega)
          rw [hrd] at this
          have h' : ¬ k = j + 1 := by omega
          rwa [if_neg h'] at this
      · rcases g8 with g8 | g8
        · exact Or.inl g8
        · right
          rw [hrd] at g8
          have h' : ¬ jp' - 1 = j + 1 := by omega
          rwa [if_neg h'] at g8
    · rw [insertionWhile_succ_neg key j st hc]
      refine ⟨le_refl _, rfl, List.Perm.refl _, fun _ _ => rfl, ?_, fun _ _ => rfl, ?_, ?_⟩
      · intro k h1 h2; omega
      · intro k h1 h2; omega
      · right
        simp only [Nat.add_sub_cancel]
        omega

theorem insertionPass_array (st : SortState) (i : Nat) :
    (insertionPass st i).array =
      (insertionWhile (rd st.array i) i st).2.array.set
        (insertionWhile (rd st.array i) i st).1 (rd st.array i) := by
  unfold insertionPass
  dsimp only [pushStep_array]
  split <;> rfl

/-- One outer pass of `insertion` extends the sorted prefix by one entry. -/
theorem insertionPass_spec (st : SortState) (i : Nat) (hi : i < st.array.length)
    (hs : ∀ p q, p ≤ q → q < i → rd st.array p ≤ rd st.array q) :
    (insertionPass st i).array.length = st.array.length ∧
    (insertionPass st i).array.Perm st.array ∧
    ∀ p q, p ≤ q → q ≤ i → rd (insertionPass st i).array p ≤ rd (insertionPass st i).array q := by
  rw [insertionPass_array]
  obtain ⟨g1, g2, g3, g4, g5, g6, g7, g8⟩ := insertionWhile_spec (rd st.array i) i st hi
  generalize insertionWhile (rd st.array i) i st = r at g1 g2 g3 g4 g5 g6 g7 g8
  obtain ⟨jp', sr⟩ := r
  dsimp only at g1 g2 g3 g4 g5 g6 g7 g8 ⊢
  rw [set_rd_self _ _ hi] at g3
  refine ⟨by simp [g2], g3, ?_⟩
  intro p q hpq hq
  have hj : jp' < sr.array.length := by omega
  rw [rd_set _ _ _ _ hj, rd_set _ _ _ _ hj]
  have a1 := g4 p
  have a2 := g4 q
  have a3 := g5 p
  have a4 := g5 q
  have a5 := g7 (q - 1)
  have a6 := hs p q
  have a7 := hs p (q - 1)
  have a8 := hs (p - 1) (q - 1)
  have a9 := hs p (jp' - 1)
  split_ifs <;> omega

/-- After the outer passes for `i = 1 .. m` of `insertion` the entries `0 .. m` are in
non-decreasing order. -/
theorem insertionOuter_spec (arr : List Int) (m : Nat) (hm : m ≤ arr.length - 1) :
    (((List.range' 1 m).foldl insertionPass (SortState.init arr)).array.length
        = arr.length) ∧
    (((List.range' 1 m).foldl insertionPass (SortState.init arr)).array.Perm arr) ∧
    (∀ p q, p ≤ q → q ≤ m →
      rd ((List.range' 1 m).foldl insertionPass (SortState.init arr)).array p
        ≤ rd ((List.range' 1 m).foldl insertionPass (SortState.init arr)).array q) := by
  induction m with
  | zero =>
    simp only [List.range'_zero, List.foldl_nil, SortState.init]
    refine ⟨trivial, List.Perm.refl _, ?_⟩
    intro p q h1 h2
    have h3 : q = 0 := by omega
    have h4 : p = 0 := by omega
    subst h3; subst h4; exact le_refl _
  | succ m ih =>
    obtain ⟨hlen, hperm, hinv⟩ := ih (by omega)
    rw [List.range'_1_concat, List.foldl_append]
    simp only [List.foldl_cons, List.foldl_nil]
    generalize ((List.range' 1 m).foldl insertionPass (SortState.init arr)) = sb
      at hlen hperm hinv
    obtain ⟨p1, p2, p3⟩ := insertionPass_spec sb (1 + m) (by omega)
      (fun p q hpq hq => hinv p q hpq (by omega))
    refine ⟨by rw [p1, hlen], p2.trans hperm, ?_⟩
    intro p q hpq hq
    exact p3 p q hpq (by omega)

/-- C6: for every integer array of length at least 2, `insertion` returns a non-empty step
list whose last step's `array` is non-decreasing and is a permutation of the input. -/
theorem insertion_last_step_sorted (arr : List Int) (h : 2 ≤ arr.length) :
    ∃ last, (insertion arr).steps.getLast? = some last ∧
      last.array.Sorted (· ≤ ·) ∧ last.array.Perm arr := by
  obtain ⟨hlen, hperm, hinv⟩ := insertionOuter_spec arr (arr.length - 1) (le_refl _)
  have hrun : insertionRun arr = (List.range' 1 (arr.length - 1)).foldl
      insertionPass (SortState.init arr) := rfl
  rw [← hrun] at hlen hperm hinv
  have hlast : ∃ last, (insertionRun arr).steps.getLast? = some last ∧
      last.array = (insertionRun arr).array := by
    obtain ⟨k, hk⟩ : ∃ k, arr.length - 1 = k + 1 := ⟨arr.length - 2, by omega⟩
    rw [hrun, hk, List.range'_1_concat, List.foldl_append]
    simp only [List.foldl_cons, List.foldl_nil]
    unfold insertionPass
    exact pushStep_last _ _ _
  obtain ⟨last, hl, ha⟩ := hlast
  refine ⟨last, hl, ?_, ?_⟩
  · rw [ha]
    apply sorted_of_rd_mono
    intro p q hpq hq
    rw [hlen] at hq
    exact hinv p q hpq (by omega)
  · rw [ha]; exact hperm

theorem insertion_last_step_sorted_witness :
    ∃ last, (insertion [5, 3, 8, 1]).steps.getLast? = some last ∧
      last.array.Sorted (· ≤ ·) ∧ last.array.Perm [5, 3, 8, 1] :=
  insertion_last_step_sorted [5, 3, 8, 1] (by decide)

/-! ## Linear search -/

theorem at?_natCast (a : List Int) (i : Nat) : at? a (i : Int) = a[i]? := by
  simp [at?]

theorem eqTarget_iff (x : Option Int) (target : Int) :
    eqTarget x target = true ↔ x = some target := by
  cases x <;> simp [eqTarget]

/-- The loop of `linear` from index `i`: it probes `i, i + 1, ...` and stops at the first
index that holds the target. -/
theorem linearLoop_spec (arr : List Int) (target : Int) (left i : Nat)
    (steps : List SearchStep) (comparisons : Nat) (h : i + left = arr.length) :
    (∃ idx, i ≤ idx ∧ arr[idx]? = some target ∧
        (∀ k, i ≤ k → k < idx → arr[k]? ≠ some target) ∧
        (linearLoop arr target left i steps comparisons).found = (idx : Int) ∧
        (linearLoop arr target left i steps comparisons).steps.map (·.checking) =
          steps.map (·.checking) ++
            (List.range' i (idx + 1 - i)).map (fun k => some (k : Int))) ∨
    ((∀ k, i ≤ k → arr[k]? ≠ some target) ∧
        (linearLoop arr target left i steps comparisons).found = -1 ∧
        (linearLoop arr target left i steps comparisons).steps.map (·.checking) =
          steps.map (·.checking) ++ (List.range' i left).map (fun k => some (k : Int))) := by
  induction left generalizing i steps comparisons with
  | zero =>
    right
    rw [linearLoop]
    refine ⟨?_, rfl, by simp⟩
    intro k hk
    rw [List.getElem?_eq_none (by omega)]
    simp
  | succ left ih =>
    rw [linearLoop]
    by_cases hc : eqTarget (at? arr (i : Int)) target = true
    · left
      simp only [hc, if_true]
      refine ⟨i, le_refl _, ?_, ?_, rfl, ?_⟩
      · rw [← at?_natCast]; exact (eqTarget_iff _ _).mp hc
      · intro k h1 h2; omega
      · simp [List.range'_succ]
    · simp only [hc]
      have hne : arr[i]? ≠ some target := by
        rw [← at?_natCast]; exact fun e => hc ((eqTarget_iff _ _).mpr e)
      rcases ih (i + 1) (steps ++
          [{ checking := some (i : Int), range := none, comparisons := comparisons + 1,
             found := -1 }]) (comparisons + 1) (by omega) with
        ⟨idx, h1, h2, h3, h4, h5⟩ | ⟨h1, h2, h3⟩
      · left
        refine ⟨idx, by omega, h2, ?_, ?_, ?_⟩
        · intro k hk1 hk2
          by_cases hki : k = i
          · subst hki; exact hne
          · exact h3 k (by omega) hk2
        · simpa using h4
        · have e : idx + 1 - i = (idx + 1 - (i + 1)) + 1 := by omega
          rw [e, List.range'_succ]
          simpa using h5
      · right
        refine ⟨?_, ?_, ?_⟩
        · intro k hk1
          by_cases hki : k = i
          · subst hki; exact hne
          · exact h1 k (by omega)
        · simpa using h2
        · rw [List.range'_succ]
          simpa using h3

/-- C8: `linear` returns the smallest index that holds the target when the target occurs,
and `-1` when it does not; the trace probes the indices `0, 1, 2, ...` in order and stops
at the first match. -/
theorem linear_first_match (arr : List Int) (target : Int) :
    (target ∈ arr → ∃ i : Nat, (linear arr target).found = (i : Int) ∧
        arr[i]? = some target ∧ (∀ k, k < i → arr[k]? ≠ some target) ∧
        (linear arr target).steps.map (·.checking) =
          (List.range (i + 1)).map (fun k => some (k : Int))) ∧
    (target ∉ arr → (linear arr target).found = -1 ∧
        (linear arr target).steps.map (·.checking) =
          (List.range arr.length).map (fun k => some (k : Int))) := by
  unfold linear
  rcases linearLoop_spec arr target arr.length 0 [] 0 (by omega) with
    ⟨idx, h1, h2, h3, h4, h5⟩ | ⟨h1, h2, h3⟩
  · constructor
    · intro _
      refine ⟨idx, h4, h2, fun k hk => h3 k (Nat.zero_le _) hk, ?_⟩
      rw [h5, List.range_eq_range']
      simp
    · intro hn
      exact absurd (List.getElem?_mem h2) hn
  · constructor
    · intro hm
      obtain ⟨k, hk, e⟩ := List.getElem_of_mem hm
      exact absurd (by rw [List.getElem?_eq_getElem hk, e]) (h1 k (Nat.zero_le _))
    · intro _
      refine ⟨h2, ?_⟩
      rw [h3, List.range_eq_range']
      simp

/-! ## Binary search -/

theorem at?_of_lt (a : List Int) (i : Int) (h0 : 0 ≤ i) (h1 : i < a.length) :
    at? a i = some (rd a i.toNat) := by
  have h2 : i.toNat < a.length := by omega
  simp [at?, h0, rd, List.getElem?_eq_getElem h2]

theorem sortAsc_sorted (arr : List Int) : (sortAsc arr).Sorted (· ≤ ·) :=
  List.sorted_insertionSort (· ≤ ·) arr

theorem sortAsc_perm (arr : List Int) : (sortAsc arr).Perm arr :=
  List.perm_insertionSort (· ≤ ·) arr

theorem mem_iff_rd (a : List Int) (x : Int) : x ∈ a ↔ ∃ k, k < a.length ∧ rd a k = x := by
  constructor
  · intro h
    obtain ⟨k, hk, e⟩ := List.getElem_of_mem h
    exact ⟨k, hk, by rw [rd_eq_getElem a k hk, e]⟩
  · rintro ⟨k, hk, e⟩
    rw [rd_eq_getElem a k hk] at e
    exact e ▸ List.getElem_mem hk

/-- The loop of `binary` on a sorted array, entered with a window that holds every
occurrence of the target: it returns, with `found` the index of an occurrence, or `-1`
when there is none. -/
theorem binaryLoop_spec (s : List Int) (target : Int)
    (hs : ∀ p q, p ≤ q → q < s.length → rd s p ≤ rd s q)
    (fuel : Nat) (left right : Int) (steps : List SearchStep) (comparisons : Nat)
    (h0 : 0 ≤ left) (h1 : right < s.length) (hf : right - left + 1 ≤ fuel)
    (hwin : ∀ k : Nat, k < s.length → rd s k = target → left ≤ k ∧ (k : Int) ≤ right) :
    ∃ r, binaryLoop s target fuel left right steps comparisons = some r ∧
      r.array = some s ∧
      ((r.found = -1 ∧ ∀ k : Nat, k < s.length → rd s k ≠ target) ∨
        (∃ i : Nat, r.found = (i : Int) ∧ i < s.length ∧ rd s i = target)) := by
  induction fuel generalizing left right steps comparisons with
  | zero =>
    rw [binaryLoop]
    have hlr : ¬ left ≤ right := by omega
    rw [if_neg hlr]
    refine ⟨_, rfl, rfl, Or.inl ⟨rfl, ?_⟩⟩
    intro k hk e
    have := hwin k hk e
    omega
  | succ fuel ih =>
    rw [binaryLoop]
    by_cases hlr : left ≤ right
    · rw [if_pos hlr]
      dsimp only
      have hm0 : 0 ≤ (left + right) / 2 := by omega
      have hm1 : (left + right) / 2 < s.length := by omega
      rw [at?_of_lt s _ hm0 hm1]
      by_cases heq : rd s ((left + right) / 2).toNat = target
      · have e1 : eqTarget (some (rd s ((left + right) / 2).toNat)) target = true := by
          simp [eqTarget, heq]
        simp only [e1, if_true]
        refine ⟨_, rfl, rfl, Or.inr ⟨((left + right) / 2).toNat, ?_, by omega, heq⟩⟩
        simp only [Int.toNat_of_nonneg hm0]
      · have e1 : eqTarget (some (rd s ((left + right) / 2).toNat)) target = false := by
          simp [eqTarget, heq]
        simp only [e1, Bool.false_eq_true, if_false]
        by_cases hlt : rd s ((left + right) / 2).toNat < target
        · have e2 : ltTarget (some (rd s ((left + right) / 2).toNat)) target = true := by
            simp [ltTarget, hlt]
          simp only [e2, if_true]
          apply ih _ _ _ _ (by omega) h1 (by omega)
          intro k hk e
          have hw := hwin k hk e
          refine ⟨?_, hw.2⟩
          by_contra hcon
          have := hs k ((left + right) / 2).toNat (by omega) (by omega)
          omega
        · have e2 : ltTarget (some (rd s ((left + right) / 2).toNat)) target = false := by
            simp [ltTarget, hlt]
          simp only [e2, Bool.false_eq_true, if_false]
          apply ih _ _ _ _ h0 (by omega) (by omega)
          intro k hk e
          have hw := hwin k hk e
          refine ⟨hw.1, ?_⟩
          by_contra hcon
          have := hs ((left + right) / 2).toNat k (by omega) hk
          omega
    · rw [if_neg hlr]
      refine ⟨_, rfl, rfl, Or.inl ⟨rfl, ?_⟩⟩
      intro k hk e
      have := hwin k hk e
      omega

/-- C7: `binary` terminates and returns as `array` the ascending-sorted copy `s` of the
input, with `found = -1` exactly when the target does not occur in the input and
otherwise an index `i` with `s[i] = target`; on `[1,2,3,5,8,13]` with target `8` it
returns `found = 4`. -/
theorem binary_correct (arr : List Int) (target : Int) :
    (sortAsc arr).Sorted (· ≤ ·) ∧ (sortAsc arr).Perm arr ∧
    (∃ r, binary arr target = some r ∧ r.array = some (sortAsc arr) ∧
      (r.found = -1 ↔ target ∉ arr) ∧
      (target ∈ arr → ∃ i : Nat, r.found = (i : Int) ∧ (sortAsc arr)[i]? = some target)) ∧
    (binary [1, 2, 3, 5, 8, 13] 8).map (·.found) = some 4 := by
  refine ⟨sortAsc_sorted arr, sortAsc_perm arr, ?_, by decide⟩
  have hmem : target ∈ arr ↔ target ∈ sortAsc arr := (sortAsc_perm arr).mem_iff.symm
  obtain ⟨r, hr, ha, hres⟩ := binaryLoop_spec (sortAsc arr) target
    (rd_mono_of_sorted _ (sortAsc_sorted arr)) ((sortAsc arr).length + 1) 0
    (((sortAsc arr).length : Int) - 1) [] 0 (le_refl _) (by omega) (by push_cast; omega)
    (fun k hk _ => ⟨by omega, by omega⟩)
  refine ⟨r, hr, ha, ?_, ?_⟩
  · rcases hres with ⟨hf, hno⟩ | ⟨i, hf, hi, e⟩
    · refine ⟨fun _ => ?_, fun _ => hf⟩
      rw [hmem, mem_iff_rd]
      rintro ⟨k, hk, e⟩
      exact hno k hk e
    · refine ⟨fun h => ?_, fun h => ?_⟩
      · rw [hf] at h; omega
      · exact absurd (hmem.mpr ((mem_iff_rd _ _).mpr ⟨i, hi, e⟩)) h
  · intro hin
    rcases hres with ⟨hf, hno⟩ | ⟨i, hf, hi, e⟩
    · obtain ⟨k, hk, e⟩ := (mem_iff_rd _ _).mp (hmem.mp hin)
      exact absurd e (hno k hk)
    · refine ⟨i, hf, ?_⟩
      rw [List.getElem?_eq_getElem hi, ← rd_eq_getElem _ _ hi, e]

/-! ## Quick sort -/

/-- Swapping two entries of the segment `low .. high` keeps every entry of the segment
an entry of the original segment. -/
theorem origin_swap (a b : List Int) (low high i j : Nat)
    (hi : i < b.length) (hj : j < b.length)
    (h1 : low ≤ i) (h2 : i ≤ high) (h3 : low ≤ j) (h4 : j ≤ high)
    (ho : ∀ k, low ≤ k → k ≤ high → ∃ k', low ≤ k' ∧ k' ≤ high ∧ rd b k = rd a k') :
    ∀ k, low ≤ k → k ≤ high →
      ∃ k', low ≤ k' ∧ k' ≤ high ∧ rd (swapAt b i j) k = rd a k' := by
  intro k hk1 hk2
  rw [rd_swapAt _ _ _ _ hi hj]
  split_ifs
  · exact ho i h1 h2
  · exact ho j h3 h4
  · exact ho k hk1 hk2

theorem partitionBody_fst (pivot : Int) (high : Nat) (s : Nat × SortState) (j : Nat) :
    (partitionBody pivot high s j).1 = if rd s.2.array j < pivot then s.1 + 1 else s.1 := by
  unfold partitionBody
  dsimp only [pushStep_array]
  split <;> rfl

theorem partitionBody_array (pivot : Int) (high : Nat) (s : Nat × SortState) (j : Nat) :
    (partitionBody pivot high s j).2.array =
      if rd s.2.array j < pivot then swapAt s.2.array s.1 j else s.2.array := by
  unfold partitionBody
  dsimp only [pushStep_array]
  split <;> rfl

/-- The loop of `partition` after `m` iterations: the entries `low .. i` are below the
pivot and the entries `i + 1 .. low + m - 1` are not, where the carried value is
`i + 1`. -/
theorem partitionLoop_spec (pivot : Int) (low high : Nat) (st : SortState) (m : Nat)
    (hm : low + m ≤ high) (hh : high < st.array.length) :
    low ≤ ((List.range' low m).foldl (partitionBody pivot high) (low, st)).1 ∧
    ((List.range' low m).foldl (partitionBody pivot high) (low, st)).1 ≤ low + m ∧
    ((List.range' low m).foldl (partitionBody pivot high) (low, st)).2.array.length
      = st.array.length ∧
    ((List.range' low m).foldl (partitionBody pivot high) (low, st)).2.array.Perm st.array ∧
    (∀ k, k < low ∨ low + m ≤ k →
      rd ((List.range' low m).foldl (partitionBody pivot high) (low, st)).2.array k
        = rd st.array k) ∧
    (∀ k, low ≤ k → k < ((List.range' low m).foldl (partitionBody pivot high) (low, st)).1 →
      rd ((List.range' low m).foldl (partitionBody pivot high) (low, st)).2.array k < pivot) ∧
    (∀ k, ((List.range' low m).foldl (partitionBody pivot high) (low, st)).1 ≤ k →
      k < low + m →
      pivot ≤ rd ((List.range' low m).foldl (partitionBody pivot high) (low, st)).2.array k) ∧
    (∀ k, low ≤ k → k ≤ high → ∃ k', low ≤ k' ∧ k' ≤ high ∧
      rd ((List.range' low m).foldl (partitionBody pivot high) (low, st)).2.array k
        = rd st.array k') := by
  induction m with
  | zero =>
    simp only [List.range'_zero, List.foldl_nil]
    refine ⟨le_refl _, le_refl _, trivial, List.Perm.refl _, fun _ _ => trivial, ?_, ?_, ?_⟩
    · intro k h1 h2; omega
    · intro k h1 h2; omega
    · intro k h1 h2; exact ⟨k, h1, h2, rfl⟩
  | succ m ih =>
    obtain ⟨g1, g2, g3, g4, g5, g6, g7, g8⟩ := ih (by omega)
    clear ih
    rw [List.range'_1_concat, List.foldl_append]
    simp only [List.foldl_cons, List.foldl_nil]
    generalize ((List.range' low m).foldl (partitionBody pivot high) (low, st)) = r
      at g1 g2 g3 g4 g5 g6 g7 g8
    obtain ⟨ip, sr⟩ := r
    dsimp only at g1 g2 g3 g4 g5 g6 g7 g8
    rw [partitionBody_fst, partitionBody_array]
    dsimp only
    have hip : ip < sr.array.length := by omega
    have hj : low + m < sr.array.length := by omega
    by_cases hc : rd sr.array (low + m) < pivot
    · simp only [hc, if_true]
      refine ⟨by omega, by omega, by rw [length_swapAt, g3],
        (swapAt_perm _ _ _ hip hj).trans g4, ?_, ?_, ?_, ?_⟩
      · intro k hk
        rw [rd_swapAt _ _ _ _ hip hj]
        have := g5 k
        split_ifs <;> omega
      · intro k hk1 hk2
        rw [rd_swapAt _ _ _ _ hip hj]
        have := g6 k
        have f3 : ip = low + m → rd sr.array ip = rd sr.array (low + m) := fun e => by rw [e]
        split_ifs <;> omega
      · intro k hk1 hk2
        rw [rd_swapAt _ _ _ _ hip hj]
        have f1 := g7 k
        have f2 := g7 ip
        split_ifs <;> omega
      · exact origin_swap _ _ _ _ _ _ hip hj g1 (by omega) (by omega) (by omega) g8
    · simp only [hc, if_false]
      refine ⟨g1, by omega, g3, g4, fun k hk => g5 k (by omega), g6, ?_, g8⟩
      intro k hk1 hk2
      by_cases hk : k = low + m
      · subst hk; omega
      · exact g7 k hk1 (by omega)

theorem partition_fst (low high : Nat) (st : SortState) :
    (partition low high st).1 =
      ((List.range' low (high - low)).foldl
        (partitionBody (rd st.array high) high) (low, st)).1 := rfl

theorem partition_array (low high : Nat) (st : SortState) :
    (partition low high st).2.array =
      swapAt ((List.range' low (high - low)).foldl
          (partitionBody (rd st.array high) high) (low, st)).2.array
        ((List.range' low (high - low)).foldl
          (partitionBody (rd st.array high) high) (low, st)).1 high := rfl

theorem partition_last (low high : Nat) (st : SortState) :
    ∃ last, (partition low high st).2.steps.getLast? = some last ∧
      last.array = (partition low high st).2.array := by
  unfold partition
  exact pushStep_last _ _ _

/-- The helper `partition` puts the pivot at the returned index, the smaller entries of
the segment before it and the others after it. -/
theorem partition_spec (low high : Nat) (st : SortState)
    (hlh : low < high) (hh : high < st.array.length) :
    low ≤ (partition low high st).1 ∧ (partition low high st).1 ≤ high ∧
    (partition low high st).2.array.length = st.array.length ∧
    (partition low high st).2.array.Perm st.array ∧
    (∀ k, k < low ∨ high < k → rd (partition low high st).2.array k = rd st.array k) ∧
    (∀ k, low ≤ k → k < (partition low high st).1 →
      rd (partition low high st).2.array k
        < rd (partition low high st).2.array (partition low high st).1) ∧
    (∀ k, (partition low high st).1 < k → k ≤ high →
      rd (partition low high st).2.array (partition low high st).1
        ≤ rd (partition low high st).2.array k) ∧
    (∀ k, low ≤ k → k ≤ high → ∃ k', low ≤ k' ∧ k' ≤ high ∧
      rd (partition low high st).2.array k = rd st.array k') := by
  rw [partition_fst, partition_array]
  obtain ⟨g1, g2, g3, g4, g5, g6, g7, g8⟩ :=
    partitionLoop_spec (rd st.array high) low high st (high - low) (by omega) hh
  generalize ((List.range' low (high - low)).foldl
    (partitionBody (rd st.array high) high) (low, st)) = r at g1 g2 g3 g4 g5 g6 g7 g8
  obtain ⟨ip, sr⟩ := r
  dsimp only at g1 g2 g3 g4 g5 g6 g7 g8 ⊢
  have hip : ip < sr.array.length := by omega
  have hhi : high < sr.array.length := by omega
  have hpv : rd sr.array high = rd st.array high := g5 high (by omega)
  refine ⟨g1, by omega, by rw [length_swapAt, g3], (swapAt_perm _ _ _ hip hhi).trans g4,
    ?_, ?_, ?_, ?_⟩
  · intro k hk
    rw [rd_swapAt _ _ _ _ hip hhi]
    have := g5 k
    split_ifs <;> omega
  · intro k hk1 hk2
    rw [rd_swapAt _ _ _ _ hip hhi, rd_swapAt _ _ _ _ hip hhi]
    have f1 := g6 k
    have f3 : ip = high → rd sr.array ip = rd sr.array high := fun e => by rw [e]
    split_ifs <;> omega
  · intro k hk1 hk2
    rw [rd_swapAt _ _ _ _ hip hhi, rd_swapAt _ _ _ _ hip hhi]
    have f1 := g7 k
    have f2 := g7 ip
    have f3 : ip = high → rd sr.array ip = rd sr.array high := fun e => by rw [e]
    split_ifs <;> omega
  · exact origin_swap _ _ _ _ _ _ hip hhi g1 (by omega) (by omega) (le_refl _) g8

theorem origin_trans (a b c : List Int) (low high : Nat)
    (h1 : ∀ k, low ≤ k → k ≤ high → ∃ k', low ≤ k' ∧ k' ≤ high ∧ rd b k = rd a k')
    (h2 : ∀ k, low ≤ k → k ≤ high → ∃ k', low ≤ k' ∧ k' ≤ high ∧ rd c k = rd b k') :
    ∀ k, low ≤ k → k ≤ high → ∃ k', low ≤ k' ∧ k' ≤ high ∧ rd c k = rd a k' := by
  intro k hk1 hk2
  obtain ⟨k1, a1, a2, a3⟩ := h2 k hk1 hk2
  obtain ⟨k2, b1, b2, b3⟩ := h1 k1 a1 a2
  exact ⟨k2, b1, b2, a3.trans b3⟩

theorem origin_widen (a b : List Int) (l h low high : Nat) (hl : low ≤ l) (hh : h ≤ high)
    (h1 : ∀ k, k < l ∨ h < k → rd b k = rd a k)
    (h2 : ∀ k, l ≤ k → k ≤ h → ∃ k', l ≤ k' ∧ k' ≤ h ∧ rd b k = rd a k') :
    ∀ k, low ≤ k → k ≤ high → ∃ k', low ≤ k' ∧ k' ≤ high ∧ rd b k = rd a k' := by
  intro k hk1 hk2
  by_cases hin : l ≤ k ∧ k ≤ h
  · obtain ⟨k', a1, a2, a3⟩ := h2 k hin.1 hin.2
    exact ⟨k', by omega, by omega, a3⟩
  · exact ⟨k, hk1, hk2, h1 k (by omega)⟩

theorem quickSort_noop (fuel low high : Nat) (st : SortState) (h : ¬ low < high) :
    quickSort fuel low high st = some st := by
  cases fuel <;> rw [quickSort, if_neg h]

/-- The helper `quickSort` returns, having sorted the segment `low .. high` in place: the
segment is in non-decreasing order and holds the same entries, the rest of the array is
untouched, and when the segment has at least two entries the last step pushed shows the
array as it is on return. -/
theorem quickSort_spec (fuel : Nat) : ∀ (low high : Nat) (st : SortState),
    high - low ≤ fuel → (low < high → high < st.array.length) →
    ∃ st', quickSort fuel low high st = some st' ∧
      st'.array.length = st.array.length ∧ st'.array.Perm st.array ∧
      (∀ k, k < low ∨ high < k → rd st'.array k = rd st.array k) ∧
      (∀ k, low ≤ k → k ≤ high → ∃ k', low ≤ k' ∧ k' ≤ high ∧
        rd st'.array k = rd st.array k') ∧
      (∀ p q, low ≤ p → p ≤ q → q ≤ high → rd st'.array p ≤ rd st'.array q) ∧
      (¬ low < high → st' = st) ∧
      (low < high → ∃ last, st'.steps.getLast? = some last ∧ last.array = st'.array) := by
  have noop : ∀ (fuel low high : Nat) (st : SortState), ¬ low < high →
      ∃ st', quickSort fuel low high st = some st' ∧
        st'.array.length = st.array.length ∧ st'.array.Perm st.array ∧
        (∀ k, k < low ∨ high < k → rd st'.array k = rd st.array k) ∧
        (∀ k, low ≤ k → k ≤ high → ∃ k', low ≤ k' ∧ k' ≤ high ∧
          rd st'.array k = rd st.array k') ∧
        (∀ p q, low ≤ p → p ≤ q → q ≤ high → rd st'.array p ≤ rd st'.array q) ∧
        (¬ low < high → st' = st) ∧
        (low < high → ∃ last, st'.steps.getLast? = some last ∧ last.array = st'.array) := by
    intro fuel low high st h
    refine ⟨st, quickSort_noop fuel low high st h, rfl, List.Perm.refl _, fun _ _ => rfl,
      fun k h1 h2 => ⟨k, h1, h2, rfl⟩, ?_, fun _ => rfl, fun h' => absurd h' h⟩
    intro p q h1 h2 h3
    have : p = q := by omega
    subst this; exact le_refl _
  induction fuel with
  | zero =>
    intro low high st hf _
    exact noop 0 low high st (by omega)
  | succ fuel ih =>
    intro low high st hf hb
    by_cases hlh : low < high
    · rw [quickSort, if_pos hlh]
      dsimp only
      have hh := hb hlh
      obtain ⟨p1, p2, p3, p4, p5, p6, p7, p8⟩ := partition_spec low high st hlh hh
      obtain ⟨l1, hl1, hl1a⟩ := partition_last low high st
      generalize partition low high st = r at p1 p2 p3 p4 p5 p6 p7 p8 hl1 hl1a
      obtain ⟨pi, st1⟩ := r
      dsimp only at p1 p2 p3 p4 p5 p6 p7 p8 hl1 hl1a ⊢
      obtain ⟨st2, e2, a1, a2, a3, a4, a5, a6, a7⟩ :=
        ih low (pi - 1) st1 (by omega) (by intro; omega)
      rw [e2]
      dsimp only
      obtain ⟨st3, e3, b1, b2, b3, b4, b5, b6, b7⟩ :=
        ih (pi + 1) high st2 (by omega) (by intro; omega)
      rw [e3]
      -- facts about the array after the first recursive call
      have c1 : rd st2.array pi = rd st1.array pi := by
        by_cases hc : low < pi - 1
        · exact a3 pi (by omega)
        · rw [a6 hc]
      have c2 : ∀ k, low ≤ k → k < pi → rd st2.array k < rd st1.array pi := by
        intro k hk1 hk2
        by_cases hc : low < pi - 1
        · obtain ⟨k', u1, u2, u3⟩ := a4 k hk1 (by omega)
          rw [u3]; exact p6 k' u1 (by omega)
        · rw [a6 hc]; exact p6 k hk1 hk2
      have c3 : ∀ k, pi < k → k ≤ high → rd st1.array pi ≤ rd st2.array k := by
        intro k hk1 hk2
        by_cases hc : low < pi - 1
        · rw [a3 k (by omega)]; exact p7 k hk1 hk2
        · rw [a6 hc]; exact p7 k hk1 hk2
      have c4 : ∀ k, k < low ∨ high < k → rd st2.array k = rd st1.array k := by
        intro k hk
        by_cases hc : low < pi - 1
        · exact a3 k (by omega)
        · rw [a6 hc]
      -- facts about the array after the second recursive call
      have d1 : ∀ k, k ≤ pi → rd st3.array k = rd st2.array k := fun k hk => b3 k (by omega)
      have d2 : ∀ k, pi < k → k ≤ high → rd st1.array pi ≤ rd st3.array k := by
        intro k hk1 hk2
        obtain ⟨k', u1, u2, u3⟩ := b4 k (by omega) hk2
        rw [u3]; exact c3 k' (by omega) u2
      refine ⟨st3, rfl, by omega, (b2.trans a2).trans p4, ?_, ?_, ?_,
        fun h => absurd hlh h, fun _ => ?_⟩
      · intro k hk
        rw [b3 k (by omega), c4 k hk, p5 k hk]
      · have o1 := origin_widen st1.array st2.array low (pi - 1) low high
          (le_refl _) (by omega) a3 a4
        have o2 := origin_widen st2.array st3.array (pi + 1) high low high
          (by omega) (le_refl _) b3 b4
        exact origin_trans _ _ _ _ _ p8 (origin_trans _ _ _ _ _ o1 o2)
      · intro p q hp hpq hq
        rcases Nat.lt_trichotomy q pi with hq1 | hq1 | hq1
        · rw [d1 p (by omega), d1 q (by omega)]
          exact a5 p q hp hpq (by omega)
        · subst hq1
          rcases Nat.lt_or_eq_of_le hpq with hp1 | hp1
          · rw [d1 p (by omega), d1 q (le_refl _), c1]
            exact le_of_lt (c2 p hp hp1)
          · subst hp1; exact le_refl _
        · rcases Nat.lt_trichotomy p pi with hp1 | hp1 | hp1
          · rw [d1 p (by omega)]
            exact le_trans (le_of_lt (c2 p hp hp1)) (d2 q hq1 hq)
          · subst hp1
            rw [d1 p (le_refl _), c1]
            exact d2 q hq1 hq
          · exact b5 p q (by omega) hpq hq
      · by_cases hc2 : pi + 1 < high
        · exact b7 hc2
        · rw [b6 hc2]
          by_cases hc1 : low < pi - 1
          · exact a7 hc1
          · rw [a6 hc1]
            exact ⟨l1, hl1, hl1a⟩
    · exact noop (fuel + 1) low high st hlh

/-- C2: for every integer array of length at least 2, `quick` terminates and returns a
non-empty step list whose last step's `array` is non-decreasing and is a permutation of
the input. -/
theorem quick_last_step_sorted (arr : List Int) (h : 2 ≤ arr.length) :
    ∃ r last, quick arr = some r ∧ r.steps.getLast? = some last ∧
      last.array.Sorted (· ≤ ·) ∧ last.array.Perm arr := by
  obtain ⟨st', e, g1, g2, _, _, g5, _, g7⟩ :=
    quickSort_spec arr.length 0 (arr.length - 1) (SortState.init arr) (by omega)
      (by intro _; simp only [SortState.init]; omega)
  obtain ⟨last, hl, ha⟩ := g7 (by omega)
  have hq : quick arr = some st'.result := by
    unfold quick quickRun
    rw [e]; rfl
  refine ⟨st'.result, last, hq, hl, ?_, ?_⟩
  · rw [ha]
    apply sorted_of_rd_mono
    intro p q hpq hq
    have : st'.array.length = arr.length := g1
    exact g5 p q (Nat.zero_le _) hpq (by omega)
  · rw [ha]; exact g2

theorem quick_last_step_sorted_witness :
    ∃ r last, quick [5, 3, 8, 1] = some r ∧ r.steps.getLast? = some last ∧
      last.array.Sorted (· ≤ ·) ∧ last.array.Perm [5, 3, 8, 1] :=
  quick_last_step_sorted [5, 3, 8, 1] (by decide)

/-! ## Heap sort -/

theorem lastIs_pushStep (st : SortState) (c : List Nat) (s : Option (List Nat)) :
    LastIs (pushStep st c s) := pushStep_last st c s

theorem heapCheck_array (n child largest : Nat) (st : SortState) :
    (heapCheck n child largest st).2.array = st.array := by
  unfold heapCheck
  split
  · dsimp only [pushStep_array]
    split <;> rfl
  · rfl

theorem heapCheck_fst (n child largest : Nat) (st : SortState) :
    (heapCheck n child largest st).1 =
      if child < n ∧ rd st.array child > rd st.array largest then child else largest := by
  unfold heapCheck
  by_cases h1 : child < n
  · rw [if_pos h1]
    dsimp only [pushStep_array]
    by_cases h2 : rd st.array child > rd st.array largest
    · rw [if_pos h2, if_pos ⟨h1, h2⟩]
    · rw [if_neg h2, if_neg (fun h => h2 h.2)]
  · rw [if_neg h1, if_neg (fun h => h1 h.1)]

theorem heapCheck_lastIs (n child largest : Nat) (st : SortState) (h : LastIs st) :
    LastIs (heapCheck n child largest st).2 := by
  unfold heapCheck
  split
  · dsimp only
    split <;> exact lastIs_pushStep _ _ _
  · exact h

/-- The two checks at the head of `heapify` leave the array alone and select in `largest`
the index of a greatest entry among node `i` and its children inside the heap. -/
theorem heapChecks_spec (n i : Nat) (st : SortState) :
    (heapCheck n (2 * i + 2) (heapCheck n (2 * i + 1) i st).1
      (heapCheck n (2 * i + 1) i st).2).2.array = st.array ∧
    ((heapCheck n (2 * i + 2) (heapCheck n (2 * i + 1) i st).1
        (heapCheck n (2 * i + 1) i st).2).1 = i ∨
      ((heapCheck n (2 * i + 2) (heapCheck n (2 * i + 1) i st).1
        (heapCheck n (2 * i + 1) i st).2).1 = 2 * i + 1 ∧ 2 * i + 1 < n) ∨
      ((heapCheck n (2 * i + 2) (heapCheck n (2 * i + 1) i st).1
        (heapCheck n (2 * i + 1) i st).2).1 = 2 * i + 2 ∧ 2 * i + 2 < n)) ∧
    rd st.array i ≤ rd st.array (heapCheck n (2 * i + 2) (heapCheck n (2 * i + 1) i st).1
        (heapCheck n (2 * i + 1) i st).2).1 ∧
    (2 * i + 1 < n → rd st.array (2 * i + 1) ≤
      rd st.array (heapCheck n (2 * i + 2) (heapCheck n (2 * i + 1) i st).1
        (heapCheck n (2 * i + 1) i st).2).1) ∧
    (2 * i + 2 < n → rd st.array (2 * i + 2) ≤
      rd st.array (heapCheck n (2 * i + 2) (heapCheck n (2 * i + 1) i st).1
        (heapCheck n (2 * i + 1) i st).2).1) ∧
    (LastIs st → LastIs (heapCheck n (2 * i + 2) (heapCheck n (2 * i + 1) i st).1
        (heapCheck n (2 * i + 1) i st).2).2) := by
  have e1 := heapCheck_fst n (2 * i + 1) i st
  have a1 := heapCheck_array n (2 * i + 1) i st
  have l1 := heapCheck_lastIs n (2 * i + 1) i st
  generalize heapCheck n (2 * i + 1) i st = r1 at e1 a1 l1 ⊢
  obtain ⟨c1, s1⟩ := r1
  dsimp only at e1 a1 l1 ⊢
  have e2 := heapCheck_fst n (2 * i + 2) c1 s1
  have a2 := heapCheck_array n (2 * i + 2) c1 s1
  have l2 := heapCheck_lastIs n (2 * i + 2) c1 s1
  generalize heapCheck n (2 * i + 2) c1 s1 = r2 at e2 a2 l2 ⊢
  obtain ⟨c2, s2⟩ := r2
  dsimp only at e2 a2 l2 ⊢
  rw [a1] at e2 a2
  refine ⟨a2, ?_, ?_, ?_, ?_, fun h => l2 (l1 h)⟩
  · split_ifs at e1 e2 <;> subst_vars <;> omega
  · split_ifs at e1 e2 <;> subst_vars <;> omega
  · split_ifs at e1 e2 <;> subst_vars <;> omega
  · split_ifs at e1 e2 <;> subst_vars <;> omega

theorem heapify_succ_stop (n fuel i : Nat) (st : SortState)
    (h : (heapCheck n (2 * i + 2) (heapCheck n (2 * i + 1) i st).1
      (heapCheck n (2 * i + 1) i st).2).1 = i) :
    heapify n (fuel + 1) i st =
      some (heapCheck n (2 * i + 2) (heapCheck n (2 * i + 1) i st).1
        (heapCheck n (2 * i + 1) i st).2).2 := by
  rw [heapify]
  dsimp only
  rw [if_neg (fun hne => hne h)]

theorem heapify_succ_swap (n fuel i : Nat) (st : SortState)
    (h : (heapCheck n (2 * i + 2) (heapCheck n (2 * i + 1) i st).1
      (heapCheck n (2 * i + 1) i st).2).1 ≠ i) :
    ∃ st1, heapify n (fuel + 1) i st =
        heapify n fuel (heapCheck n (2 * i + 2) (heapCheck n (2 * i + 1) i st).1
          (heapCheck n (2 * i + 1) i st).2).1 st1 ∧
      st1.array = swapAt st.array i (heapCheck n (2 * i + 2) (heapCheck n (2 * i + 1) i st).1
          (heapCheck n (2 * i + 1) i st).2).1 ∧
      LastIs st1 := by
  rw [heapify]
  dsimp only
  rw [if_pos h]
  refine ⟨_, rfl, ?_, lastIs_pushStep _ _ _⟩
  rw [pushStep_array]
  dsimp only
  rw [(heapChecks_spec n i st).1]

/-- The helper `heapify(array, n, i)` returns, having sifted node `i` down: when every
node from `lo` on other than `i` satisfies the heap condition, and the children of `i`
are not greater than the parent of `i`, every node from `lo` on satisfies the heap
condition afterwards; the entries from index `n` on are untouched. -/
theorem heapify_spec (n lo : Nat) (fuel : Nat) : ∀ (i : Nat) (st : SortState),
    n - i ≤ fuel → lo ≤ i → i < n → n ≤ st.array.length →
    (∀ k, lo ≤ k → k < n → k ≠ i → HeapAt st.array n k) →
    (∀ p, lo ≤ p → (i = 2 * p + 1 ∨ i = 2 * p + 2) →
      (2 * i + 1 < n → rd st.array (2 * i + 1) ≤ rd st.array p) ∧
      (2 * i + 2 < n → rd st.array (2 * i + 2) ≤ rd st.array p)) →
    ∃ st', heapify n fuel i st = some st' ∧
      st'.array.length = st.array.length ∧ st'.array.Perm st.array ∧
      (∀ k, n ≤ k → rd st'.array k = rd st.array k) ∧
      (∀ k, k < n → ∃ k', k' < n ∧ rd st'.array k = rd st.array k') ∧
      (∀ k, lo ≤ k → k < n → HeapAt st'.array n k) ∧
      (LastIs st → LastIs st') := by
  induction fuel with
  | zero =>
    intro i st hf _ hi
    omega
  | succ fuel ih =>
    intro i st hf hlo hi hn hheap hgp
    obtain ⟨ca, cc, cm0, cm1, cm2, cl⟩ := heapChecks_spec n i st
    by_cases hstop : (heapCheck n (2 * i + 2) (heapCheck n (2 * i + 1) i st).1
        (heapCheck n (2 * i + 1) i st).2).1 = i
    · rw [heapify_succ_stop n fuel i st hstop]
      rw [hstop] at cm0 cm1 cm2
      refine ⟨_, rfl, by rw [ca], by rw [ca], fun k _ => by rw [ca],
        fun k hk => ⟨k, hk, by rw [ca]⟩, ?_, cl⟩
      intro k hk1 hk2
      rw [ca]
      by_cases hki : k = i
      · subst hki; exact ⟨cm1, cm2⟩
      · exact hheap k hk1 hk2 hki
    · obtain ⟨st1, e1, ha1, hl1⟩ := heapify_succ_swap n fuel i st hstop
      rw [e1]
      generalize (heapCheck n (2 * i + 2) (heapCheck n (2 * i + 1) i st).1
        (heapCheck n (2 * i + 1) i st).2).1 = c at cc cm0 cm1 cm2 hstop ha1 ⊢
      have hc : c = 2 * i + 1 ∨ c = 2 * i + 2 := by omega
      have hcn : c < n := by omega
      have hil : i < st.array.length := by omega
      have hcl : c < st.array.length := by omega
      have hrd : ∀ x, rd st1.array x =
          if x = c then rd st.array i else if x = i then rd st.array c else rd st.array x := by
        intro x; rw [ha1]; exact rd_swapAt _ _ _ _ hil hcl
      have hlen1 : st1.array.length = st.array.length := by rw [ha1, length_swapAt]
      have hperm1 : st1.array.Perm st.array := by rw [ha1]; exact swapAt_perm _ _ _ hil hcl
      have hheap1 : ∀ k, lo ≤ k → k < n → k ≠ c → HeapAt st1.array n k := by
        intro k hk1 hk2 hk3
        by_cases hki : k = i
        · subst hki
          unfold HeapAt
          rw [hrd, hrd, hrd]
          constructor
          · intro h
            rcases hc with h' | h' <;> subst h' <;> split_ifs <;> omega
          · intro h
            rcases hc with h' | h' <;> subst h' <;> split_ifs <;> omega
        · have hk := hheap k hk1 hk2 hki
          unfold HeapAt at hk ⊢
          rw [hrd, hrd, hrd]
          constructor
          · intro h
            by_cases hx : 2 * k + 1 = i
            · subst hx
              have g := hgp k hk1 (Or.inl rfl)
              rcases hc with h' | h' <;> subst h' <;> split_ifs <;> omega
            · have g := hk.1 h
              rcases hc with h' | h' <;> subst h' <;> split_ifs <;> omega
          · intro h
            by_cases hx : 2 * k + 2 = i
            · subst hx
              have g := hgp k hk1 (Or.inr rfl)
              rcases hc with h' | h' <;> subst h' <;> split_ifs <;> omega
            · have g := hk.2 h
              rcases hc with h' | h' <;> subst h' <;> split_ifs <;> omega
      have hgp1 : ∀ p, lo ≤ p → (c = 2 * p + 1 ∨ c = 2 * p + 2) →
          (2 * c + 1 < n → rd st1.array (2 * c + 1) ≤ rd st1.array p) ∧
          (2 * c + 2 < n → rd st1.array (2 * c + 2) ≤ rd st1.array p) := by
        intro p hp hpc
        have hpi : p = i := by omega
        subst hpi
        have hk := hheap c (by omega) hcn hstop
        unfold HeapAt at hk
        rw [hrd, hrd, hrd]
        constructor
        · intro h
          have g := hk.1 h
          split_ifs <;> omega
        · intro h
          have g := hk.2 h
          split_ifs <;> omega
      obtain ⟨st', e', r1, r2, r3, r4, r5, r6⟩ :=
        ih c st1 (by omega) (by omega) hcn (by omega) hheap1 hgp1
      refine ⟨st', e', by omega, r2.trans hperm1, ?_, ?_, r5, fun _ => r6 hl1⟩
      · intro k hk
        rw [r3 k hk, hrd]
        split_ifs <;> omega
      · intro k hk
        obtain ⟨k', u1, u2⟩ := r4 k hk
        rw [u2, hrd]
        split_ifs
        · exact ⟨i, hi, rfl⟩
        · exact ⟨c, hcn, rfl⟩
        · exact ⟨k', u1, rfl⟩

/-- In a heap the root is a greatest entry. -/
theorem heap_root_max (a : List Int) (n : Nat) (h : ∀ k, k < n → HeapAt a n k) :
    ∀ k, k < n → rd a k ≤ rd a 0 := by
  intro k
  induction k using Nat.strong_induction_on with
  | _ k ih =>
    intro hk
    by_cases hk0 : k = 0
    · subst hk0; exact le_refl _
    · have hp : (k - 1) / 2 < k := by omega
      have h1 := ih ((k - 1) / 2) hp (by omega)
      have h2 := h ((k - 1) / 2) (by omega)
      unfold HeapAt at h2
      have hc : k = 2 * ((k - 1) / 2) + 1 ∨ k = 2 * ((k - 1) / 2) + 2 := by omega
      rcases hc with e | e
      · have := h2.1 (by omega)
        rw [← e] at this
        omega
      · have := h2.2 (by omega)
        rw [← e] at this
        omega

/-- The first loop of `heap`, for `i = j - 1, ..., 0`, returns and makes every node
satisfy the heap condition when the nodes from `j` on satisfy it. -/
theorem heapBuild_spec (n : Nat) (j : Nat) : ∀ st : SortState,
    n ≤ st.array.length → j ≤ n → (∀ k, j ≤ k → k < n → HeapAt st.array n k) →
    ∃ st', (List.range j).reverse.foldlM (heapBuildBody n) st = some st' ∧
      st'.array.length = st.array.length ∧ st'.array.Perm st.array ∧
      (∀ k, k < n → HeapAt st'.array n k) := by
  induction j with
  | zero =>
    intro st _ _ hh
    exact ⟨st, rfl, rfl, List.Perm.refl _, fun k hk => hh k (Nat.zero_le _) hk⟩
  | succ j ih =>
    intro st hn hj hh
    obtain ⟨st1, e1, r1, r2, _, _, r5, _⟩ := heapify_spec n j (n + 1) j st (by omega)
      (le_refl _) (by omega) hn (fun k h1 h2 h3 => hh k (by omega) h2)
      (fun p h1 h2 => by omega)
    obtain ⟨st', e', q1, q2, q3⟩ := ih st1 (by omega) (by omega) r5
    refine ⟨st', ?_, by omega, q2.trans r2, q3⟩
    rw [List.range_succ, List.reverse_append, List.reverse_singleton, List.singleton_append,
      List.foldlM_cons]
    unfold heapBuildBody at e' ⊢
    rw [e1]
    exact e'

theorem heapExtractBody_eq (n : Nat) (st : SortState) (i : Nat) :
    ∃ st1, heapExtractBody n st i = heapify i (n + 1) 0 st1 ∧
      st1.array = swapAt st.array 0 i ∧ LastIs st1 := by
  unfold heapExtractBody
  exact ⟨_, rfl, rfl, lastIs_pushStep _ _ _⟩

/-- The second loop of `heap`, for `i = k, ..., 1`, entered with a heap in the entries
`0 .. k` and the entries above `k` in their final place, returns with the whole array
from index 1 on in its final place. -/
theorem heapExtract_spec (N : Nat) (k : Nat) : ∀ st : SortState,
    st.array.length = N → k + 1 ≤ N →
    (∀ x, x < k + 1 → HeapAt st.array (k + 1) x) →
    (∀ p q, p ≤ q → k + 1 ≤ q → q < N → rd st.array p ≤ rd st.array q) →
    ∃ st', (List.range' 1 k).reverse.foldlM (heapExtractBody N) st = some st' ∧
      st'.array.length = N ∧ st'.array.Perm st.array ∧
      (∀ p q, p ≤ q → 1 ≤ q → q < N → rd st'.array p ≤ rd st'.array q) ∧
      (LastIs st ∨ 1 ≤ k → LastIs st') := by
  induction k with
  | zero =>
    intro st hl _ _ hs
    refine ⟨st, rfl, hl, List.Perm.refl _, hs, fun h => ?_⟩
    rcases h with h | h
    · exact h
    · omega
  | succ k ih =>
    intro st hl hk hheap hs
    obtain ⟨st1, e1, ha1, hl1⟩ := heapExtractBody_eq N st (1 + k)
    have h0 : 0 < st.array.length := by omega
    have hi : 1 + k < st.array.length := by omega
    have hrd : ∀ x, rd st1.array x =
        if x = 1 + k then rd st.array 0 else if x = 0 then rd st.array (1 + k)
          else rd st.array x := by
      intro x; rw [ha1]; exact rd_swapAt _ _ _ _ h0 hi
    have hlen1 : st1.array.length = st.array.length := by rw [ha1, length_swapAt]
    have hperm1 : st1.array.Perm st.array := by rw [ha1]; exact swapAt_perm _ _ _ h0 hi
    have hmax := heap_root_max st.array (k + 1 + 1) hheap
    obtain ⟨st2, e2, r1, r2, r3, r4, r5, r6⟩ := heapify_spec (1 + k) 0 (N + 1) 0 st1
      (by omega) (le_refl _) (by omega) (by omega)
      (by
        intro x _ hx1 hx2
        have hx := hheap x (by omega)
        unfold HeapAt at hx ⊢
        rw [hrd, hrd, hrd]
        constructor
        · intro h
          have := hx.1 (by omega)
          split_ifs <;> first | contradiction | omega
        · intro h
          have := hx.2 (by omega)
          split_ifs <;> first | contradiction | omega)
      (fun p _ h2 => by omega)
    obtain ⟨st', e', q1, q2, q3, q4⟩ := ih st2 (by omega) (by omega)
      (by
        intro x hx
        have := r5 x (Nat.zero_le _) (by omega)
        rw [show k + 1 = 1 + k by omega]
        exact this)
      (by
        intro p q hpq hq1 hq2
        have hq : rd st2.array q = rd st1.array q := r3 q (by omega)
        rw [hq, hrd]
        by_cases hp : p < 1 + k
        · obtain ⟨p', u1, u2⟩ := r4 p hp
          rw [u2, hrd]
          have f1 := hmax p' (by omega)
          have f2 := hmax (1 + k) (by omega)
          have f3 := hs p' q
          have f4 := hs (1 + k) q
          split_ifs <;> omega
        · rw [r3 p (by omega), hrd]
          have f3 := hs p q
          have f4 := hs 0 q
          split_ifs <;> omega)
    refine ⟨st', ?_, q1, (q2.trans r2).trans hperm1, q3, fun _ => q4 (Or.inl (r6 hl1))⟩
    rw [List.range'_1_concat, List.reverse_append, List.reverse_singleton,
      List.singleton_append, List.foldlM_cons, e1, e2]
    exact e'

/-- C3: for every integer array of length at least 2, `heap` terminates and returns a
non-empty step list whose last step's `array` is non-decreasing and is a permutation of
the input. -/
theorem heap_last_step_sorted (arr : List Int) (h : 2 ≤ arr.length) :
    ∃ r last, heap arr = some r ∧ r.steps.getLast? = some last ∧
      last.array.Sorted (· ≤ ·) ∧ last.array.Perm arr := by
  obtain ⟨st1, e1, b1, b2, b3⟩ := heapBuild_spec arr.length (arr.length / 2)
    (SortState.init arr) (le_refl _) (by omega)
    (by
      intro k hk1 hk2
      unfold HeapAt
      constructor <;> intro h' <;> omega)
  have b1' : st1.array.length = arr.length := b1
  have b2' : st1.array.Perm arr := b2
  obtain ⟨st2, e2, c1, c2, c3, c4⟩ := heapExtract_spec arr.length (arr.length - 1) st1
    b1' (by omega)
    (by
      intro x hx
      have := b3 x (by omega)
      rw [show arr.length - 1 + 1 = arr.length by omega]
      exact this)
    (by intro p q _ h1 h2; omega)
  obtain ⟨last, hl, ha⟩ := c4 (Or.inr (by omega))
  have hrun : heap arr = some st2.result := by
    unfold heap heapRun
    dsimp only
    rw [e1]
    dsimp only
    rw [e2]
    rfl
  refine ⟨st2.result, last, hrun, hl, ?_, ?_⟩
  · rw [ha]
    apply sorted_of_rd_mono
    intro p q hpq hq
    by_cases hq0 : q = 0
    · have : p = 0 := by omega
      subst hq0; subst this; exact le_refl _
    · exact c3 p q hpq (by omega) (by omega)
  · rw [ha]; exact c2.trans b2'

theorem heap_last_step_sorted_witness :
    ∃ r last, heap [5, 3, 8, 1] = some r ∧ r.steps.getLast? = some last ∧
      last.array.Sorted (· ≤ ·) ∧ last.array.Perm [5, 3, 8, 1] :=
  heap_last_step_sorted [5, 3, 8, 1] (by decide)

/-! ## Merge sort, jump search and interpolation search at concrete inputs -/

/-- C4 (the code departs from the claim): on `[2, 1]` the last step pushed by `merge`
shows `[2, 1]`, which is not in non-decreasing order, although the array itself ends as
`[1, 2]`; on `[3, 4, 1, 2]` the last step shows `[1, 4, 1, 2]`, which is not a
permutation of the input. The step is pushed before the write of the last comparison and
before the copy loops, and no step follows them. -/
theorem merge_last_step_not_sorted :
    ((merge [2, 1]).bind (fun r => r.steps.getLast?)).map (·.array) = some [2, 1] ∧
    ¬ ([2, 1] : List Int).Sorted (· ≤ ·) ∧
    (mergeRun [2, 1]).map (·.array) = some [1, 2] ∧
    ((merge [3, 4, 1, 2]).bind (fun r => r.steps.getLast?)).map (·.array)
      = some [1, 4, 1, 2] ∧
    ¬ ([1, 4, 1, 2] : List Int).Perm [3, 4, 1, 2] := by
  refine ⟨by decide, by decide, by decide, by decide!, ?_⟩
  intro h
  have h3 : (3 : Int) ∈ [(1 : Int), 4, 1, 2] := h.symm.subset (by simp)
  simp at h3

/-- C9 (the code departs from the claim): on `[1, 2]` with target `2`, which occurs in
the array, `jump` does not return: the first loop is entered and the assignment to the
constant `jump` throws. The same happens for the absent target `5` on `[1]`. -/
theorem jump_throws :
    (2 : Int) ∈ [(1 : Int), 2] ∧ jump [1, 2] 2 = Outcome.constAssignError ∧
    (5 : Int) ∉ [(1 : Int)] ∧ jump [1] 5 = Outcome.constAssignError := by
  refine ⟨by decide, by decide, by decide, by decide⟩

/-- C10 (the code departs from the claim): on `[5, 5]` with target `5`, which occurs in
the array, `interpolation` returns `found = -1` after one step whose `checking` is `NaN`:
the divisor `sortedArr[high] - sortedArr[low]` is `0` with `low < high`. -/
theorem interpolation_misses_duplicate :
    (5 : Int) ∈ [(5 : Int), 5] ∧
    interpolation [5, 5] 5 = some
      { steps := [{ checking := none, range := some (0, 1), comparisons := 1, found := -1 }],
        found := -1, comparisons := 1, array := some [5, 5] } := by
  refine ⟨by decide, by decide⟩

/-! ## The bubble scenario and the counters of the last step -/

/-- C19 (as stated, fails): `bubble` on `[5,3,8,1]` does not return `swaps = 3`. -/
theorem bubble_scenario_swaps_ne_three : (bubble [5, 3, 8, 1]).swaps ≠ 3 := by decide

/-- C19 (amended): `bubble` on `[5,3,8,1]` produces a last step whose array is
`[1,3,5,8]` and returns `comparisons = 6` and `swaps = 4` (one swap for each of the four
inversions of the input). -/
theorem bubble_scenario :
    (bubble [5, 3, 8, 1]).steps.getLast?.map (·.array) = some [1, 3, 5, 8] ∧
    (bubble [5, 3, 8, 1]).comparisons = 6 ∧ (bubble [5, 3, 8, 1]).swaps = 4 := by
  refine ⟨by decide, by decide, by decide⟩

/-- C20 (the code departs from the claim): on `[2, 1]` the last step of `merge` records
`swaps = 0` while the returned summary has `swaps = 2`: the only step is pushed before the
write of the comparison it shows, and the later writes push no step. -/
theorem merge_last_step_counters_stale :
    ((merge [2, 1]).bind (fun r => r.steps.getLast?)).map (fun s => (s.comparisons, s.swaps))
      = some (1, 0) ∧
    (merge [2, 1]).map (fun r => (r.comparisons, r.swaps)) = some (1, 2) := by
  refine ⟨by decide, by decide⟩

/-! ## Graph traversal -/

theorem mem_unvisitedNeighbors (edges : List Edge) (c : Nat) (visited : List Nat) (w : Nat) :
    w ∈ unvisitedNeighbors edges c visited ↔ Adj edges c w ∧ w ∉ visited := by
  unfold unvisitedNeighbors Adj
  simp only [List.mem_filter, List.mem_map, Bool.or_eq_true, decide_eq_true_eq,
    Bool.not_eq_true', decide_eq_false_iff_not]
  constructor
  · rintro ⟨⟨e, ⟨he, hc⟩, hw⟩, hv⟩
    refine ⟨⟨e, he, ?_⟩, hv⟩
    by_cases h1 : e.src = c
    · rw [if_pos h1] at hw
      exact Or.inl ⟨h1, hw⟩
    · rw [if_neg h1] at hw
      rcases hc with hc | hc
      · exact absurd hc h1
      · exact Or.inr ⟨hc, hw⟩
  · rintro ⟨⟨e, he, hc⟩, hv⟩
    refine ⟨⟨e, ⟨he, ?_⟩, ?_⟩, hv⟩
    · rcases hc with hc | hc
      · exact Or.inl hc.1
      · exact Or.inr hc.1
    · rcases hc with hc | hc
      · rw [if_pos hc.1]; exact hc.2
      · by_cases h1 : e.src = c
        · rw [if_pos h1, hc.1, ← hc.2, h1]
        · rw [if_neg h1]; exact hc.2

theorem adj_mem_allNodes (edges : List Edge) (s u v : Nat) (h : Adj edges u v) :
    v ∈ allNodes edges s := by
  obtain ⟨e, he, hc⟩ := h
  unfold allNodes
  refine List.mem_cons_of_mem _ (List.mem_flatMap.mpr ⟨e, he, ?_⟩)
  rcases hc with hc | hc
  · simp [hc.2]
  · simp [hc.2]

theorem length_allNodes (edges : List Edge) (s : Nat) :
    (allNodes edges s).length = 2 * edges.length + 1 := by
  unfold allNodes
  induction edges with
  | nil => simp
  | cons e es ih =>
    simp only [List.flatMap_cons, List.length_cons, List.length_append,
      List.length_nil] at ih ⊢
    omega

theorem nodup_length_le_allNodes (edges : List Edge) (s : Nat) (l : List Nat)
    (hn : l.Nodup) (hs : ∀ v ∈ l, v ∈ allNodes edges s) :
    l.length ≤ 2 * edges.length + 1 := by
  rw [← length_allNodes edges s]
  exact (List.subperm_of_subset hn hs).length_le

theorem bfsVisit_inv (edges : List Edge) (s cur : Nat) (st : BfsState) (w : Nat)
    (hinv : BfsInv edges s (some cur) st) (hcur : cur ∈ st.visited) (hadj : Adj edges cur w) :
    BfsInv edges s (some cur) (bfsVisit st w) ∧ w ∈ (bfsVisit st w).visited ∧
    (∀ v ∈ st.visited, v ∈ (bfsVisit st w).visited) ∧
    (bfsVisit st w).queue.length + st.visited.length
      = st.queue.length + (bfsVisit st w).visited.length := by
  unfold bfsVisit
  by_cases hw : w ∉ st.visited
  · rw [if_pos hw]
    have hset : setAdd st.visited w = st.visited ++ [w] := by
      unfold setAdd; rw [if_neg hw]
    dsimp only
    rw [hset]
    refine ⟨⟨?_, ?_, ?_, ?_, ?_, ?_, ?_⟩, by simp, fun v hv => by simp [hv],
      by simp only [List.length_append, List.length_singleton]; omega⟩
    · simp [hinv.start_mem]
    · intro v hv
      rcases List.mem_append.mp hv with h | h
      · exact hinv.reach v h
      · have : v = w := by simpa using h
        subst this
        exact Relation.ReflTransGen.tail (hinv.reach cur hcur) hadj
    · intro q hq
      rcases List.mem_append.mp hq with h | h
      · exact List.mem_append_left _ (hinv.queue_sub q h)
      · exact List.mem_append_right _ h
    · intro v hv hne hq x hx
      have hvw : v ≠ w := fun e => hq (by simp [e])
      have hv' : v ∈ st.visited := by
        rcases List.mem_append.mp hv with h | h
        · exact h
        · exact absurd (by simpa using h) hvw
      exact List.mem_append_left _
        (hinv.closed v hv' hne (fun h => hq (List.mem_append_left _ h)) x hx)
    · exact List.Nodup.append hinv.nodup (List.nodup_singleton w)
        (by simpa using hw)
    · intro v hv
      rcases List.mem_append.mp hv with h | h
      · exact hinv.sub v h
      · have : v = w := by simpa using h
        subst this
        exact adj_mem_allNodes edges s cur v hadj
    · exact ⟨_, List.getLast?_concat _, rfl⟩
  · rw [if_neg hw]
    exact ⟨hinv, not_not.mp hw, fun v hv => hv, rfl⟩

theorem bfsFold_inv (edges : List Edge) (s cur : Nat) (l : List Nat) :
    ∀ st : BfsState, BfsInv edges s (some cur) st → cur ∈ st.visited →
    (∀ w ∈ l, Adj edges cur w) →
    BfsInv edges s (some cur) (l.foldl bfsVisit st) ∧
    (∀ w ∈ l, w ∈ (l.foldl bfsVisit st).visited) ∧
    (∀ v ∈ st.visited, v ∈ (l.foldl bfsVisit st).visited) ∧
    (l.foldl bfsVisit st).queue.length + st.visited.length
      = st.queue.length + (l.foldl bfsVisit st).visited.length := by
  induction l with
  | nil =>
    intro st hinv _ _
    exact ⟨hinv, fun w hw => by simp at hw, fun v hv => hv, rfl⟩
  | cons w l ih =>
    intro st hinv hcur hadj
    obtain ⟨a1, a2, a3, a4⟩ := bfsVisit_inv edges s cur st w hinv hcur
      (hadj w (List.mem_cons_self _ _))
    obtain ⟨b1, b2, b3, b4⟩ := ih (bfsVisit st w) a1 (a3 cur hcur)
      (fun x hx => hadj x (List.mem_cons_of_mem _ hx))
    rw [List.foldl_cons]
    refine ⟨b1, ?_, fun v hv => b3 v (a3 v hv), by omega⟩
    intro x hx
    rcases List.mem_cons.mp hx with h | h
    · rw [h]; exact b3 w a2
    · exact b2 x h

theorem bfsLoop_nil (edges : List Edge) (fuel : Nat) (st : BfsState) (h : st.queue = []) :
    bfsLoop edges fuel st = some st := by
  cases fuel <;> rw [bfsLoop] <;> simp [h]

theorem bfsLoop_cons (edges : List Edge) (fuel : Nat) (st : BfsState) (cur : Nat)
    (rest : List Nat) (h : st.queue = cur :: rest) :
    bfsLoop edges (fuel + 1) st =
      bfsLoop edges fuel
        ((unvisitedNeighbors edges cur st.visited).foldl bfsVisit { st with queue := rest }) := by
  rw [bfsLoop]
  simp [h]

/-- The loop of `runBFS` returns with an empty queue, keeping its invariant. -/
theorem bfsLoop_spec (edges : List Edge) (s : Nat) (fuel : Nat) : ∀ st : BfsState,
    BfsInv edges s none st →
    st.queue.length + (2 * edges.length + 1 - st.visited.length) ≤ fuel →
    ∃ st', bfsLoop edges fuel st = some st' ∧ BfsInv edges s none st' ∧ st'.queue = [] := by
  induction fuel with
  | zero =>
    intro st hinv hm
    have hq : st.queue = [] := List.length_eq_zero.mp (by omega)
    exact ⟨st, bfsLoop_nil edges 0 st hq, hinv, hq⟩
  | succ fuel ih =>
    intro st hinv hm
    cases hq : st.queue with
    | nil => exact ⟨st, bfsLoop_nil edges _ st hq, hinv, hq⟩
    | cons cur rest =>
      rw [bfsLoop_cons edges fuel st cur rest hq]
      have hcur : cur ∈ st.visited := hinv.queue_sub cur (by rw [hq]; exact List.mem_cons_self _ _)
      have hinv0 : BfsInv edges s (some cur) { st with queue := rest } := by
        refine ⟨hinv.start_mem, hinv.reach, ?_, ?_, hinv.nodup, hinv.sub, hinv.last⟩
        · intro q hq'
          exact hinv.queue_sub q (by rw [hq]; exact List.mem_cons_of_mem _ hq')
        · intro v hv hne hnq w hw
          refine hinv.closed v hv (by simp) ?_ w hw
          rw [hq]
          intro hmem
          rcases List.mem_cons.mp hmem with h | h
          · exact hne (by rw [h])
          · exact hnq h
      obtain ⟨b1, b2, b3, b4⟩ := bfsFold_inv edges s cur
        (unvisitedNeighbors edges cur st.visited) { st with queue := rest } hinv0 hcur
        (fun w hw => ((mem_unvisitedNeighbors edges cur st.visited w).mp hw).1)
      generalize (unvisitedNeighbors edges cur st.visited).foldl bfsVisit
        { st with queue := rest } = st1 at b1 b2 b3 b4 ⊢
      dsimp only at b3 b4
      have hlen1 := nodup_length_le_allNodes edges s st1.visited b1.nodup b1.sub
      have hlen0 := nodup_length_le_allNodes edges s st.visited hinv.nodup hinv.sub
      have hql : st.queue.length = rest.length + 1 := by rw [hq]; simp
      apply ih st1
      · refine ⟨b1.start_mem, b1.reach, b1.queue_sub, ?_, b1.nodup, b1.sub, b1.last⟩
        intro v hv _ hnq w hw
        by_cases hvc : v = cur
        · subst hvc
          by_cases hwv : w ∈ st.visited
          · exact b3 w hwv
          · exact b2 w ((mem_unvisitedNeighbors edges v st.visited w).mpr ⟨hw, hwv⟩)
        · exact b1.closed v hv (by simpa using hvc) hnq w hw
      · omega

theorem reach_mem_allNodes (edges : List Edge) (s v : Nat) (h : Reach edges s v) :
    v ∈ allNodes edges s := by
  cases h with
  | refl => exact List.mem_cons_self _ _
  | tail _ hadj => exact adj_mem_allNodes edges s _ v hadj

/-- The loop of `runBFS`, started as `runBFS` starts it, ends with exactly the nodes
reachable from the start node visited, and the last step shows them. -/
theorem runBFS_component (edges : List Edge) (s : Nat) :
    ∃ steps last, GraphVisualizer.runBFS edges s = some steps ∧
      steps.getLast? = some last ∧ ∀ v, v ∈ last.visited ↔ Reach edges s v := by
  have hinit : BfsInv edges s none
      { visited := setAdd [] s, queue := [s],
        steps := [{ node := s, visited := [s], distances := none }] } := by
    have hset : setAdd ([] : List Nat) s = [s] := by simp [setAdd]
    rw [hset]
    refine ⟨by simp, ?_, by simp, ?_, by simp, ?_, ⟨_, rfl, rfl⟩⟩
    · intro v hv
      have : v = s := by simpa using hv
      subst this; exact Relation.ReflTransGen.refl
    · intro v hv _ hq
      exact absurd hv hq
    · intro v hv
      have : v = s := by simpa using hv
      subst this; exact List.mem_cons_self _ _
  obtain ⟨st', e, hinv, hq⟩ := bfsLoop_spec edges s (2 * edges.length + 2) _ hinit
    (by simp [setAdd]; omega)
  obtain ⟨last, hl, hv⟩ := hinv.last
  refine ⟨st'.steps, last, ?_, hl, ?_⟩
  · unfold GraphVisualizer.runBFS
    dsimp only
    rw [e]; rfl
  · intro v
    rw [hv]
    constructor
    · exact hinv.reach v
    · intro hr
      induction hr with
      | refl => exact hinv.start_mem
      | tail _ hadj ih => exact hinv.closed _ ih (by simp) (by rw [hq]; simp) _ hadj

theorem dfsLoop_spec (edges : List Edge) (s : Nat) (fuel : Nat) (node : Nat)
    (ih : ∀ (w : Nat) (st : DfsState), w ∉ st.visited → Reach edges s w →
      st.visited.Nodup → (∀ v ∈ st.visited, Reach edges s v) →
      2 * edges.length + 1 - st.visited.length ≤ fuel →
      ∃ st', dfsRecursive edges fuel w st = some st' ∧ DfsPost edges s st st' ∧
        w ∈ st'.visited ∧ ∃ l, st'.steps.getLast? = some l ∧ l.visited = st'.visited)
    (hnode : Reach edges s node) (l : List Nat) :
    ∀ st : DfsState, (∀ w ∈ l, Adj edges node w) → st.visited.Nodup →
      (∀ v ∈ st.visited, Reach edges s v) →
      (∃ l, st.steps.getLast? = some l ∧ l.visited = st.visited) →
      2 * edges.length + 1 - st.visited.length ≤ fuel →
      ∃ st', l.foldlM (fun st neighbor =>
          if neighbor ∉ st.visited then dfsRecursive edges fuel neighbor st else some st) st
          = some st' ∧
        DfsPost edges s st st' ∧ (∀ w ∈ l, w ∈ st'.visited) ∧
        ∃ l, st'.steps.getLast? = some l ∧ l.visited = st'.visited := by
  induction l with
  | nil =>
    intro st _ hn hr hl _
    exact ⟨st, rfl, ⟨fun v hv => hv, le_refl _, hn, hr, fun v hv hnv => absurd hv hnv⟩,
      fun w hw => by simp at hw, hl⟩
  | cons w l ihl =>
    intro st hadj hn hr hl hf
    rw [List.foldlM_cons]
    by_cases hw : w ∉ st.visited
    · rw [if_pos hw]
      obtain ⟨st1, e1, p1, hw1, hl1⟩ := ih w st hw
        (Relation.ReflTransGen.tail hnode (hadj w (List.mem_cons_self _ _))) hn hr hf
      rw [e1]
      have hlen := p1.len
      obtain ⟨st2, e2, p2, hw2, hl2⟩ := ihl st1
        (fun x hx => hadj x (List.mem_cons_of_mem _ hx)) p1.nodup p1.reach hl1 (by omega)
      refine ⟨st2, e2, ⟨fun v hv => p2.mono v (p1.mono v hv), le_trans p1.len p2.len,
        p2.nodup, p2.reach, ?_⟩, ?_, hl2⟩
      · intro v hv hnv x hx
        by_cases hv1 : v ∈ st1.visited
        · exact p2.mono x (p1.closed v hv1 hnv x hx)
        · exact p2.closed v hv hv1 x hx
      · intro x hx
        rcases List.mem_cons.mp hx with h | h
        · rw [h]; exact p2.mono w hw1
        · exact hw2 x h
    · rw [if_neg hw]
      obtain ⟨st2, e2, p2, hw2, hl2⟩ := ihl st
        (fun x hx => hadj x (List.mem_cons_of_mem _ hx)) hn hr hl hf
      refine ⟨st2, e2, p2, ?_, hl2⟩
      intro x hx
      rcases List.mem_cons.mp hx with h | h
      · rw [h]; exact p2.mono w (not_not.mp hw)
      · exact hw2 x h

/-- The helper `dfsRecursive`, called on an unvisited reachable node, returns, having
visited the node, with every node it has visited reachable and closed under adjacency. -/
theorem dfsRecursive_spec (edges : List Edge) (s : Nat) (fuel : Nat) :
    ∀ (node : Nat) (st : DfsState), node ∉ st.visited → Reach edges s node →
      st.visited.Nodup → (∀ v ∈ st.visited, Reach edges s v) →
      2 * edges.length + 1 - st.visited.length ≤ fuel →
      ∃ st', dfsRecursive edges fuel node st = some st' ∧ DfsPost edges s st st' ∧
        node ∈ st'.visited ∧ ∃ l, st'.steps.getLast? = some l ∧ l.visited = st'.visited := by
  induction fuel with
  | zero =>
    intro node st hnode hreach hn hr hf
    have hn' : (st.visited ++ [node]).Nodup :=
      List.Nodup.append hn (List.nodup_singleton node) (by simpa using hnode)
    have := nodup_length_le_allNodes edges s (st.visited ++ [node]) hn' (by
      intro v hv
      rcases List.mem_append.mp hv with h | h
      · exact reach_mem_allNodes edges s v (hr v h)
      · have : v = node := by simpa using h
        subst this; exact reach_mem_allNodes edges s v hreach)
    simp only [List.length_append, List.length_singleton] at this
    omega
  | succ fuel ih =>
    intro node st hnode hreach hn hr hf
    rw [dfsRecursive]
    dsimp only
    have hset : setAdd st.visited node = st.visited ++ [node] := by
      unfold setAdd; rw [if_neg hnode]
    rw [hset]
    have hn1 : (st.visited ++ [node]).Nodup :=
      List.Nodup.append hn (List.nodup_singleton node) (by simpa using hnode)
    have hr1 : ∀ v ∈ st.visited ++ [node], Reach edges s v := by
      intro v hv
      rcases List.mem_append.mp hv with h | h
      · exact hr v h
      · have : v = node := by simpa using h
        subst this; exact hreach
    have hlen1 := nodup_length_le_allNodes edges s (st.visited ++ [node]) hn1
      (fun v hv => reach_mem_allNodes edges s v (hr1 v hv))
    simp only [List.length_append, List.length_singleton] at hlen1
    obtain ⟨st', e, p, hall, hl⟩ := dfsLoop_spec edges s fuel node ih hreach
      (unvisitedNeighbors edges node (st.visited ++ [node]))
      { visited := st.visited ++ [node],
        steps := st.steps ++
          [{ node := node, visited := st.visited ++ [node], distances := none }] }
      (fun w hw => ((mem_unvisitedNeighbors edges node _ w).mp hw).1) hn1 hr1
      ⟨_, List.getLast?_concat _, rfl⟩
      (by simp only [List.length_append, List.length_singleton]; omega)
    refine ⟨st', e, ⟨fun v hv => p.mono v (List.mem_append_left _ hv), ?_, p.nodup, p.reach,
      ?_⟩, p.mono node (by simp), hl⟩
    · have := p.len
      simp only [List.length_append, List.length_singleton] at this
      omega
    · intro v hv hnv w hw
      by_cases hvn : v = node
      · subst hvn
        by_cases hwv : w ∈ st.visited ++ [v]
        · exact p.mono w hwv
        · exact hall w ((mem_unvisitedNeighbors edges v _ w).mpr ⟨hw, hwv⟩)
      · refine p.closed v hv ?_ w hw
        intro h
        rcases List.mem_append.mp h with h | h
        · exact hnv h
        · exact hvn (by simpa using h)

/-- The function `runDFS` ends with exactly the nodes reachable from the start node
visited, and the last step shows them. -/
theorem runDFS_component (edges : List Edge) (s : Nat) :
    ∃ steps last, GraphVisualizer.runDFS edges s = some steps ∧
      steps.getLast? = some last ∧ ∀ v, v ∈ last.visited ↔ Reach edges s v := by
  obtain ⟨st', e, p, hs, last, hl, hv⟩ := dfsRecursive_spec edges s (2 * edges.length + 2) s
    { visited := [], steps := [] } (by simp) Relation.ReflTransGen.refl (by simp)
    (by simp) (by simp)
  refine ⟨st'.steps, last, ?_, hl, ?_⟩
  · unfold GraphVisualizer.runDFS
    rw [e]; rfl
  · intro v
    rw [hv]
    constructor
    · exact p.reach v
    · intro hr
      induction hr with
      | refl => exact hs
      | tail _ hadj ih => exact p.closed _ ih (by simp) _ hadj

/-- C11: for every edge list and start node, the nodes in the last step's `visited` of
`runBFS`, and of `runDFS`, are exactly the nodes reachable from the start node along
edges taken as undirected; with the edges 0-1 and 1-2 and start node 0 the last `visited`
of `runBFS` is `[0, 1, 2]`. -/
theorem graph_traversal_visits_component (edges : List Edge) (startNode : Nat) :
    (∃ steps last, GraphVisualizer.runBFS edges startNode = some steps ∧
      steps.getLast? = some last ∧ ∀ v, v ∈ last.visited ↔ Reach edges startNode v) ∧
    (∃ steps last, GraphVisualizer.runDFS edges startNode = some steps ∧
      steps.getLast? = some last ∧ ∀ v, v ∈ last.visited ↔ Reach edges startNode v) ∧
    (GraphVisualizer.runBFS [⟨0, 1, 1⟩, ⟨1, 2, 1⟩] 0).map
      (fun steps => steps.getLast?.map (·.visited)) = some (some [0, 1, 2]) :=
  ⟨runBFS_component edges startNode, runDFS_component edges startNode, by decide⟩

/-! ## Dijkstra -/

theorem mapGet_mapSet {α β : Type} [DecidableEq α] (m : List (α × β)) (k k' : α) (v : β) :
    mapGet (mapSet m k v) k' = if k = k' then some v else mapGet m k' := by
  induction m with
  | nil =>
    simp only [mapSet, mapGet]
  | cons p m ih =>
    obtain ⟨a, b⟩ := p
    simp only [mapSet]
    by_cases h1 : a = k
    · rw [if_pos h1]
      simp only [mapGet]
      by_cases h2 : k = k'
      · simp [h2]
      · have h3 : ¬ a = k' := by rw [h1]; exact h2
        simp [h2, h3]
    · rw [if_neg h1]
      simp only [mapGet]
      by_cases h3 : a = k'
      · have h2 : ¬ k = k' := by rw [← h3]; exact fun e => h1 e.symm
        simp [h2, h3]
      · simp only [h3, if_false]
        exact ih

theorem mapGet_initDistances (s : Nat) (nodes : List Nat) :
    ∀ (m : List (Nat × Dist)) (k : Nat),
    mapGet (nodes.foldl (initDistance s) m) k =
      if k ∈ nodes then some (if k = s then some 0 else none) else mapGet m k := by
  induction nodes using List.reverseRecOn with
  | nil => intro m k; simp
  | append_singleton l a ih =>
    intro m k
    rw [List.foldl_append, List.foldl_cons, List.foldl_nil]
    have e : ∀ (d : List (Nat × Dist)) (id : Nat),
        initDistance s d id = mapSet d id (if id = s then some 0 else none) := fun _ _ => rfl
    rw [e, mapGet_mapSet, ih]
    by_cases h1 : a = k
    · subst h1; simp
    · have h2 : ¬ k = a := fun e => h1 e.symm
      simp [h1, h2]

theorem undefLt_some_iff (x : Option Dist) (b : Dist) :
    undefLt x (some b) = true ↔ ∃ d, x = some (some d) ∧ ∀ e, b = some e → d < e := by
  cases x with
  | none => simp [undefLt]
  | some a =>
    cases a with
    | none => simp [undefLt, distLt]
    | some d =>
      cases b with
      | none => simp [undefLt, distLt]
      | some e => simp [undefLt, distLt]

theorem selectMin_inv (distances : List (Nat × Dist)) (visited seen : List Nat)
    (s : Option Nat × Dist) (id : Nat) (h : SelectInv distances visited seen s) :
    SelectInv distances visited (seen ++ [id]) (selectMin distances visited s id) := by
  unfold selectMin
  by_cases hc : id ∉ visited ∧ undefLt (mapGet distances id) (some s.2) = true
  · rw [if_pos hc]
    obtain ⟨hv, hlt⟩ := hc
    obtain ⟨d, hd, hmin⟩ := (undefLt_some_iff _ _).mp hlt
    right
    refine ⟨id, d, rfl, by rw [hd]; rfl, by simp, hv, hd, ?_⟩
    intro x hx hxv dx hdx
    rcases List.mem_append.mp hx with hx | hx
    · rcases h with ⟨_, _, hnone⟩ | ⟨u, du, _, h2, _, _, _, hall⟩
      · exact absurd hdx (hnone x hx hxv dx)
      · have := hmin du h2
        have := hall x hx hxv dx hdx
        omega
    · have : x = id := by simpa using hx
      subst this
      rw [hd] at hdx
      have : d = dx := by simpa using hdx
      omega
  · rw [if_neg hc]
    rcases h with ⟨h1, h2, hnone⟩ | ⟨u, du, h1, h2, h3, h4, h5, hall⟩
    · left
      refine ⟨h1, h2, ?_⟩
      intro x hx hxv dx hdx
      rcases List.mem_append.mp hx with hx | hx
      · exact hnone x hx hxv dx hdx
      · have : x = id := by simpa using hx
        subst this
        apply hc
        refine ⟨hxv, (undefLt_some_iff _ _).mpr ⟨dx, hdx, ?_⟩⟩
        intro e he
        rw [h2] at he
        exact absurd he (by simp)
    · right
      refine ⟨u, du, h1, h2, List.mem_append_left _ h3, h4, h5, ?_⟩
      intro x hx hxv dx hdx
      rcases List.mem_append.mp hx with hx | hx
      · exact hall x hx hxv dx hdx
      · have : x = id := by simpa using hx
        subst this
        by_contra hlt
        apply hc
        refine ⟨hxv, (undefLt_some_iff _ _).mpr ⟨dx, hdx, ?_⟩⟩
        intro e he
        rw [h2] at he
        have : du = e := by simpa using he
        omega

theorem selectFold_inv (distances : List (Nat × Dist)) (visited : List Nat) (l : List Nat) :
    ∀ (seen : List Nat) (s : Option Nat × Dist), SelectInv distances visited seen s →
    SelectInv distances visited (seen ++ l) (l.foldl (selectMin distances visited) s) := by
  induction l with
  | nil => intro seen s h; simpa using h
  | cons a l ih =>
    intro seen s h
    have := ih (seen ++ [a]) _ (selectMin_inv distances visited seen s a h)
    simpa using this

/-- The selection loop of `runDijkstra` yields an unvisited node of least finite distance,
or `-1` when no unvisited node has a finite distance. -/
theorem select_spec (distances : List (Nat × Dist)) (visited nodes : List Nat) :
    SelectInv distances visited nodes
      (nodes.foldl (selectMin distances visited) (none, none)) := by
  have := selectFold_inv distances visited nodes [] (none, none)
    (Or.inl ⟨rfl, rfl, fun id hid => by simp at hid⟩)
  simpa using this

theorem undefLt_fin_iff (x : Nat) (y : Option Dist) :
    undefLt (some (some x)) y = true ↔
      y = some none ∨ ∃ dy, y = some (some dy) ∧ x < dy := by
  cases y with
  | none => simp [undefLt]
  | some b =>
    cases b with
    | none => simp [undefLt, distLt]
    | some e => simp [undefLt, distLt]

/-- The other endpoint of an edge incident to `u`, as line 167 computes it. -/
theorem relax_eq (u : Nat) (distances : List (Nat × Dist)) (e : Edge) (du : Nat)
    (hu : mapGet distances u = some (some du)) :
    relax u distances e =
      if undefLt (some (some (du + e.weight)))
          (mapGet distances (if e.src = u then e.dst else e.src)) = true then
        mapSet distances (if e.src = u then e.dst else e.src) (some (du + e.weight))
      else distances := by
  unfold relax
  simp only [hu, Option.map_some', distAdd, Option.getD_some]

/-- One relaxation: keys stay, values only decrease, a value not above that of `u` stays,
every new value is the value of `u` plus the weight of the edge, and afterwards the other
endpoint of the edge is within that bound. -/
theorem relax_spec (u : Nat) (distances : List (Nat × Dist)) (e : Edge) (du : Nat)
    (hu : mapGet distances u = some (some du)) :
    (∀ k, (mapGet (relax u distances e) k).isSome = (mapGet distances k).isSome) ∧
    (∀ k dk, mapGet distances k = some (some dk) →
      ∃ dk', mapGet (relax u distances e) k = some (some dk') ∧ dk' ≤ dk) ∧
    (∀ k dk, mapGet distances k = some (some dk) → dk ≤ du →
      mapGet (relax u distances e) k = some (some dk)) ∧
    (∀ k dk', mapGet (relax u distances e) k = some (some dk') →
      mapGet distances k = some (some dk') ∨
      ((if e.src = u then e.dst else e.src) = k ∧ dk' = du + e.weight)) ∧
    ((mapGet distances (if e.src = u then e.dst else e.src)).isSome →
      ∃ dw, mapGet (relax u distances e) (if e.src = u then e.dst else e.src)
        = some (some dw) ∧ dw ≤ du + e.weight) := by
  rw [relax_eq u distances e du hu]
  generalize (if e.src = u then e.dst else e.src) = w
  by_cases hc : undefLt (some (some (du + e.weight))) (mapGet distances w) = true
  · rw [if_pos hc]
    have hw := (undefLt_fin_iff _ _).mp hc
    refine ⟨?_, ?_, ?_, ?_, ?_⟩
    · intro k
      rw [mapGet_mapSet]
      by_cases hk : w = k
      · subst hk
        rcases hw with h | ⟨dy, h, _⟩ <;> simp [h]
      · simp [hk]
    · intro k dk hk
      rw [mapGet_mapSet]
      by_cases hwk : w = k
      · subst hwk
        rcases hw with h | ⟨dy, h, hlt⟩
        · rw [h] at hk; simp at hk
        · rw [h] at hk
          have : dy = dk := by simpa using hk
          exact ⟨du + e.weight, by simp, by omega⟩
      · exact ⟨dk, by simp [hwk, hk], le_refl _⟩
    · intro k dk hk hle
      rw [mapGet_mapSet]
      by_cases hwk : w = k
      · subst hwk
        rcases hw with h | ⟨dy, h, hlt⟩
        · rw [h] at hk; simp at hk
        · rw [h] at hk
          have : dy = dk := by simpa using hk
          omega
      · simp [hwk, hk]
    · intro k dk' hk
      rw [mapGet_mapSet] at hk
      by_cases hwk : w = k
      · right
        rw [if_pos hwk] at hk
        exact ⟨hwk, by simpa using hk.symm⟩
      · left
        rw [if_neg hwk] at hk
        exact hk
    · intro _
      exact ⟨du + e.weight, by rw [mapGet_mapSet]; simp, le_refl _⟩
  · rw [if_neg hc]
    refine ⟨fun _ => rfl, fun k dk hk => ⟨dk, hk, le_refl _⟩, fun k dk hk _ => hk,
      fun k dk' hk => Or.inl hk, ?_⟩
    intro hsome
    have hne := mt (undefLt_fin_iff (du + e.weight) (mapGet distances w)).mpr hc
    cases hv : mapGet distances w with
    | none => rw [hv] at hsome; simp at hsome
    | some b =>
      cases b with
      | none => exact absurd (Or.inl hv) hne
      | some dw =>
        refine ⟨dw, rfl, ?_⟩
        by_contra hlt
        exact hne (Or.inr ⟨dw, hv, by omega⟩)

/-- The relaxation loop for the selected node `u` over the edges `l`. -/
theorem relaxFold_spec (u du : Nat) (l : List Edge) : ∀ distances : List (Nat × Dist),
    mapGet distances u = some (some du) →
    (∀ k, (mapGet (l.foldl (relax u) distances) k).isSome = (mapGet distances k).isSome) ∧
    (∀ k dk, mapGet distances k = some (some dk) →
      ∃ dk', mapGet (l.foldl (relax u) distances) k = some (some dk') ∧ dk' ≤ dk) ∧
    (∀ k dk, mapGet distances k = some (some dk) → dk ≤ du →
      mapGet (l.foldl (relax u) distances) k = some (some dk)) ∧
    (∀ k dk', mapGet (l.foldl (relax u) distances) k = some (some dk') →
      mapGet distances k = some (some dk') ∨
      ∃ e ∈ l, (if e.src = u then e.dst else e.src) = k ∧ dk' = du + e.weight) ∧
    (∀ e ∈ l, (mapGet distances (if e.src = u then e.dst else e.src)).isSome →
      ∃ dw, mapGet (l.foldl (relax u) distances) (if e.src = u then e.dst else e.src)
        = some (some dw) ∧ dw ≤ du + e.weight) := by
  induction l with
  | nil =>
    intro distances _
    refine ⟨fun _ => rfl, fun k dk hk => ⟨dk, hk, le_refl _⟩, fun k dk hk _ => hk,
      fun k dk' hk => Or.inl hk, fun e he => by simp at he⟩
  | cons e l ih =>
    intro distances hu
    obtain ⟨s1, s2, s3, s4, s5⟩ := relax_spec u distances e du hu
    have hu1 := s3 u du hu (le_refl _)
    obtain ⟨f1, f2, f3, f4, f5⟩ := ih (relax u distances e) hu1
    rw [List.foldl_cons]
    refine ⟨fun k => (f1 k).trans (s1 k), ?_, ?_, ?_, ?_⟩
    · intro k dk hk
      obtain ⟨d1, h1, l1⟩ := s2 k dk hk
      obtain ⟨d2, h2, l2⟩ := f2 k d1 h1
      exact ⟨d2, h2, le_trans l2 l1⟩
    · intro k dk hk hle
      exact f3 k dk (s3 k dk hk hle) hle
    · intro k dk' hk
      rcases f4 k dk' hk with h | ⟨e', he', h1, h2⟩
      · rcases s4 k dk' h with h' | ⟨h1, h2⟩
        · exact Or.inl h'
        · exact Or.inr ⟨e, List.mem_cons_self _ _, h1, h2⟩
      · exact Or.inr ⟨e', List.mem_cons_of_mem _ he', h1, h2⟩
    · intro e' he' hsome
      rcases List.mem_cons.mp he' with h | h
      · subst h
        obtain ⟨dw, h1, l1⟩ := s5 hsome
        obtain ⟨d2, h2, l2⟩ := f2 _ dw h1
        exact ⟨d2, h2, le_trans l2 l1⟩
      · exact f5 e' h (by rw [s1]; exact hsome)

theorem dijkstraVisit_fields (edges : List Edge) (st : DijkstraState) (u : Nat)
    (hu : u ∉ st.visited) :
    (dijkstraVisit edges st u).visited = st.visited ++ [u] ∧
    (dijkstraVisit edges st u).steps = st.steps ++
      [{ node := u, visited := st.visited ++ [u], distances := some st.distances }] ∧
    (dijkstraVisit edges st u).distances =
      (edges.filter (fun e => decide (e.src = u) || decide (e.dst = u))).foldl
        (relax u) st.distances := by
  unfold dijkstraVisit
  have hset : setAdd st.visited u = st.visited ++ [u] := by
    unfold setAdd; rw [if_neg hu]
  simp only [hset, and_self]

/-- One iteration of the outer loop of `runDijkstra` keeps `DijInv`. -/
theorem dijkstraVisit_inv (nodes : List Nat) (edges : List Edge) (s : Nat)
    (st : DijkstraState) (u du : Nat) (hinv : DijInv nodes edges s st)
    (hu : u ∉ st.visited) (hdu : mapGet st.distances u = some (some du))
    (hmin : ∀ id ∈ nodes, id ∉ st.visited → ∀ d, mapGet st.distances id = some (some d) →
      du ≤ d) :
    DijInv nodes edges s (dijkstraVisit edges st u) := by
  obtain ⟨ev, es, ed⟩ := dijkstraVisit_fields edges st u hu
  obtain ⟨f1, f2, f3, f4, f5⟩ := relaxFold_spec u du
    (edges.filter (fun e => decide (e.src = u) || decide (e.dst = u))) st.distances hdu
  rw [← ed] at f1 f2 f3 f4 f5
  -- a node visited before or now keeps its distance
  have hkeep : ∀ v ∈ st.visited ++ [u], ∃ dv, mapGet st.distances v = some (some dv) ∧
      dv ≤ du ∧ mapGet (dijkstraVisit edges st u).distances v = some (some dv) := by
    intro v hv
    rcases List.mem_append.mp hv with h | h
    · obtain ⟨dv, hdv⟩ := hinv.vis_fin v h
      have hle := hinv.mono v h dv hdv u hu du hdu
      exact ⟨dv, hdv, hle, f3 v dv hdv hle⟩
    · have : v = u := by simpa using h
      subst this
      exact ⟨du, hdu, le_refl _, f3 v du hdu (le_refl _)⟩
  refine ⟨?_, ?_, ?_, ?_, ?_, ?_⟩
  · intro k
    rw [f1 k]
    exact hinv.keys k
  · intro v hv
    rw [ev] at hv
    obtain ⟨dv, _, _, h⟩ := hkeep v hv
    exact ⟨dv, h⟩
  · intro v hv dv hdv x hx dx hdx
    rw [ev] at hv hx
    obtain ⟨dv0, _, hle, h⟩ := hkeep v hv
    rw [h] at hdv
    have e0 : dv0 = dv := by simpa using hdv
    rcases f4 x dx hdx with h1 | ⟨e, _, _, h2⟩
    · have hxn : x ∈ nodes := (hinv.keys x).mp (by rw [h1]; rfl)
      have hxv : x ∉ st.visited := fun h' => hx (List.mem_append_left _ h')
      have := hmin x hxn hxv dx h1
      omega
    · omega
  · intro k d hk
    rcases f4 k d hk with h1 | ⟨e, he, h1, h2⟩
    · exact hinv.walk k d h1
    · have hw := hinv.walk u du hdu
      obtain ⟨hee, hinc⟩ := List.mem_filter.mp he
      rw [h2]
      refine Walk.cons e hw hee ?_
      by_cases hsrc : e.src = u
      · rw [if_pos hsrc] at h1
        exact Or.inl ⟨hsrc, h1⟩
      · rw [if_neg hsrc] at h1
        have hdst : e.dst = u := by simpa [hsrc] using hinc
        exact Or.inr ⟨hdst, h1⟩
  · intro step hstep v hv
    rw [es] at hstep
    rw [ev]
    rcases List.mem_append.mp hstep with h | h
    · obtain ⟨hvv, hd⟩ := hinv.steps_vis step h v hv
      obtain ⟨dv, h1, _, h2⟩ := hkeep v (List.mem_append_left _ hvv)
      exact ⟨List.mem_append_left _ hvv, by rw [hd, h1, h2]⟩
    · have : step = (⟨u, st.visited ++ [u], some st.distances⟩ : GraphStep) := by
        simpa using h
      subst this
      obtain ⟨dv, h1, _, h2⟩ := hkeep v hv
      exact ⟨hv, by rw [h2]; exact h1⟩
  · rw [es, List.pairwise_append]
    refine ⟨hinv.steps_pair, List.pairwise_singleton _ _, ?_⟩
    intro a ha b hb v hv
    have : b = (⟨u, st.visited ++ [u], some st.distances⟩ : GraphStep) := by
      simpa using hb
    subst this
    exact (hinv.steps_vis a ha v hv).2.symm

theorem dijkstraLoop_zero (nodes : List Nat) (edges : List Edge) (st : DijkstraState) :
    dijkstraLoop nodes edges 0 st = st := rfl

theorem dijkstraLoop_succ (nodes : List Nat) (edges : List Edge) (left : Nat)
    (st : DijkstraState) :
    dijkstraLoop nodes edges (left + 1) st =
      match (nodes.foldl (selectMin st.distances st.visited) (none, none)).1 with
      | none => st
      | some minNode => dijkstraLoop nodes edges left (dijkstraVisit edges st minNode) := rfl

/-- The outer loop of `runDijkstra` keeps `DijInv`. -/
theorem dijkstraLoop_inv (nodes : List Nat) (edges : List Edge) (s : Nat) (left : Nat) :
    ∀ st : DijkstraState, DijInv nodes edges s st →
      DijInv nodes edges s (dijkstraLoop nodes edges left st) := by
  induction left with
  | zero => intro st h; exact h
  | succ left ih =>
    intro st h
    rw [dijkstraLoop_succ]
    rcases select_spec st.distances st.visited nodes with
      ⟨h1, _, _⟩ | ⟨u, du, h1, _, h3, h4, h5, h6⟩
    · rw [h1]; exact h
    · rw [h1]
      exact ih _ (dijkstraVisit_inv nodes edges s st u du h h4 h5 h6)

theorem dijkstra_init_inv (nodes : List Nat) (edges : List Edge) (s : Nat) :
    DijInv nodes edges s
      { distances := nodes.foldl (initDistance s) [], visited := [], steps := [] } := by
  refine ⟨?_, by simp, by simp, ?_, by simp, by simp⟩
  · intro k
    rw [mapGet_initDistances]
    by_cases hk : k ∈ nodes <;> simp [hk, mapGet]
  · intro k d hk
    rw [mapGet_initDistances] at hk
    by_cases hkn : k ∈ nodes
    · rw [if_pos hkn] at hk
      by_cases hks : k = s
      · rw [if_pos hks] at hk
        have : d = 0 := by simpa using hk.symm
        rw [this, hks]
        exact Walk.nil
      · rw [if_neg hks] at hk
        simp at hk
    · rw [if_neg hkn] at hk
      simp [mapGet] at hk

/-- C13: for every graph (whatever the weights, so for positive weights), once a node is
in the `visited` of a step of `runDijkstra`, every later step records for that node the
same value in its `distances` as that step does. -/
theorem dijkstra_visited_distance_final (nodes : List Nat) (edges : List Edge)
    (startNode : Nat) :
    (GraphVisualizer.runDijkstra nodes edges startNode).Pairwise
      (fun a b => ∀ v ∈ a.visited, b.distanceOf v = a.distanceOf v) :=
  (dijkstraLoop_inv nodes edges startNode nodes.length _
    (dijkstra_init_inv nodes edges startNode)).steps_pair

/-- Every walk from the start node either ends at a visited node or passes an unvisited
node whose recorded distance is at most the weight of the walk. -/
theorem dijkstra_frontier (nodes : List Nat) (edges : List Edge) (s : Nat)
    (st : DijkstraState) (hinv : DijInv nodes edges s st) (hsh : DijShort edges s st)
    (hs : s ∈ nodes) (hend : ∀ e ∈ edges, e.src ∈ nodes ∧ e.dst ∈ nodes)
    (v d' : Nat) (hw : Walk edges s v d') :
    v ∈ st.visited ∨ ∃ x, x ∈ nodes ∧ x ∉ st.visited ∧
      ∃ dx, mapGet st.distances x = some (some dx) ∧ dx ≤ d' := by
  induction hw with
  | nil =>
    by_cases h : s ∈ st.visited
    · exact Or.inl h
    · exact Or.inr ⟨s, hs, h, 0, hsh.start0, le_refl _⟩
  | @cons v w d1 e hw1 he hinc ih =>
    rcases ih with hv | ⟨x, hx1, hx2, dx, hx3, hx4⟩
    · by_cases hwv : w ∈ st.visited
      · exact Or.inl hwv
      · obtain ⟨dv, hdv⟩ := hinv.vis_fin v hv
        have h1 := hsh.short v hv dv hdv d1 hw1
        obtain ⟨dw, hdw, hle⟩ := hsh.relaxed v hv e he w hinc dv hdv
        have hwn : w ∈ nodes := by
          rcases hinc with h | h
          · rw [← h.2]; exact (hend e he).2
          · rw [← h.2]; exact (hend e he).1
        exact Or.inr ⟨w, hwn, hwv, dw, hdw, by omega⟩
    · exact Or.inr ⟨x, hx1, hx2, dx, hx3, by omega⟩

/-- One iteration of the outer loop of `runDijkstra` keeps `DijShort`. -/
theorem dijkstraVisit_short (nodes : List Nat) (edges : List Edge) (s : Nat)
    (st : DijkstraState) (u du : Nat) (hinv : DijInv nodes edges s st)
    (hsh : DijShort edges s st)
    (hs : s ∈ nodes) (hend : ∀ e ∈ edges, e.src ∈ nodes ∧ e.dst ∈ nodes)
    (hu : u ∉ st.visited) (hdu : mapGet st.distances u = some (some du))
    (hmin : ∀ id ∈ nodes, id ∉ st.visited → ∀ d, mapGet st.distances id = some (some d) →
      du ≤ d) :
    DijShort edges s (dijkstraVisit edges st u) := by
  obtain ⟨ev, es, ed⟩ := dijkstraVisit_fields edges st u hu
  obtain ⟨f1, f2, f3, f4, f5⟩ := relaxFold_spec u du
    (edges.filter (fun e => decide (e.src = u) || decide (e.dst = u))) st.distances hdu
  rw [← ed] at f1 f2 f3 f4 f5
  have hushort : ∀ d', Walk edges s u d' → du ≤ d' := by
    intro d' hw
    rcases dijkstra_frontier nodes edges s st hinv hsh hs hend u d' hw with
      h | ⟨x, hx1, hx2, dx, hx3, hx4⟩
    · exact absurd h hu
    · have := hmin x hx1 hx2 dx hx3
      omega
  have hkeep : ∀ v ∈ st.visited ++ [u], ∃ dv, mapGet st.distances v = some (some dv) ∧
      dv ≤ du ∧ mapGet (dijkstraVisit edges st u).distances v = some (some dv) := by
    intro v hv
    rcases List.mem_append.mp hv with h | h
    · obtain ⟨dv, hdv⟩ := hinv.vis_fin v h
      have hle := hinv.mono v h dv hdv u hu du hdu
      exact ⟨dv, hdv, hle, f3 v dv hdv hle⟩
    · have : v = u := by simpa using h
      subst this
      exact ⟨du, hdu, le_refl _, f3 v du hdu (le_refl _)⟩
  refine ⟨f3 s 0 hsh.start0 (Nat.zero_le _), ?_, ?_, ?_⟩
  · intro v hv d hd d' hw
    rw [ev] at hv
    obtain ⟨dv, h1, _, h2⟩ := hkeep v hv
    rw [h2] at hd
    have e0 : dv = d := by simpa using hd
    rcases List.mem_append.mp hv with h | h
    · have := hsh.short v h dv h1 d' hw
      omega
    · have : v = u := by simpa using h
      subst this
      rw [hdu] at h1
      have e1 : du = dv := by simpa using h1
      have := hushort d' hw
      omega
  · intro v hv e he w hinc dv hdv
    rw [ev] at hv
    obtain ⟨dv0, h1, _, h2⟩ := hkeep v hv
    rw [h2] at hdv
    have e0 : dv0 = dv := by simpa using hdv
    rcases List.mem_append.mp hv with h | h
    · obtain ⟨dw, hdw, hle⟩ := hsh.relaxed v h e he w hinc dv0 h1
      obtain ⟨dw', hdw', hle'⟩ := f2 w dw hdw
      exact ⟨dw', hdw', by omega⟩
    · have hvu : v = u := by simpa using h
      subst hvu
      rw [hdu] at h1
      have e1 : du = dv0 := by simpa using h1
      have hother : (if e.src = v then e.dst else e.src) = w := by
        rcases hinc with hc | hc
        · rw [if_pos hc.1]; exact hc.2
        · by_cases h1 : e.src = v
          · rw [if_pos h1, hc.1, ← hc.2, h1]
          · rw [if_neg h1]; exact hc.2
      have hmemf : e ∈ edges.filter (fun e => decide (e.src = v) || decide (e.dst = v)) := by
        refine List.mem_filter.mpr ⟨he, ?_⟩
        rcases hinc with hc | hc
        · simp [hc.1]
        · simp [hc.1]
      have hwn : w ∈ nodes := by
        rcases hinc with hc | hc
        · rw [← hc.2]; exact (hend e he).2
        · rw [← hc.2]; exact (hend e he).1
      have := f5 e hmemf (by rw [hother]; exact (hinv.keys w).mpr hwn)
      rw [hother] at this
      obtain ⟨dw, hdw, hle⟩ := this
      exact ⟨dw, hdw, by omega⟩
  · intro step hstep
    rw [es] at hstep
    rcases List.mem_append.mp hstep with h | h
    · exact hsh.steps_short step h
    · have : step = (⟨u, st.visited ++ [u], some st.distances⟩ : GraphStep) := by
        simpa using h
      subst this
      exact ⟨du, hdu, hinv.walk u du hdu, hushort⟩

/-- The outer loop of `runDijkstra` keeps `DijInv` and `DijShort`. -/
theorem dijkstraLoop_short (nodes : List Nat) (edges : List Edge) (s : Nat)
    (hs : s ∈ nodes) (hend : ∀ e ∈ edges, e.src ∈ nodes ∧ e.dst ∈ nodes) (left : Nat) :
    ∀ st : DijkstraState, DijInv nodes edges s st → DijShort edges s st →
      DijShort edges s (dijkstraLoop nodes edges left st) := by
  induction left with
  | zero => intro st _ h; exact h
  | succ left ih =>
    intro st h hsh
    rw [dijkstraLoop_succ]
    rcases select_spec st.distances st.visited nodes with
      ⟨h1, _, _⟩ | ⟨u, du, h1, _, h3, h4, h5, h6⟩
    · rw [h1]; exact hsh
    · rw [h1]
      exact ih _ (dijkstraVisit_inv nodes edges s st u du h h4 h5 h6)
        (dijkstraVisit_short nodes edges s st u du h hsh hs hend h4 h5 h6)

/-- C12: when the start node and the endpoints of all edges are nodes (whether or not the
ids are distinct and the weights positive), every step of `runDijkstra` records for its
`node` the shortest-path distance from the start node to that node. -/
theorem dijkstra_step_distance_shortest (nodes : List Nat) (edges : List Edge)
    (startNode : Nat) (hs : startNode ∈ nodes)
    (hend : ∀ e ∈ edges, e.src ∈ nodes ∧ e.dst ∈ nodes) :
    ∀ step ∈ GraphVisualizer.runDijkstra nodes edges startNode,
      ∃ d, step.distanceOf step.node = some (some d) ∧
        IsShortest edges startNode step.node d := by
  have hinit : DijShort edges startNode
      { distances := nodes.foldl (initDistance startNode) [], visited := [], steps := [] } := by
    refine ⟨?_, by simp, by simp, by simp⟩
    rw [mapGet_initDistances]
    simp [hs]
  exact (dijkstraLoop_short nodes edges startNode hs hend nodes.length _
    (dijkstra_init_inv nodes edges startNode) hinit).steps_short

theorem dijkstra_step_distance_shortest_witness :
    0 ∈ [0, 1, 2, 3] ∧
    ∀ step ∈ GraphVisualizer.runDijkstra [0, 1, 2, 3]
        [⟨0, 1, 1⟩, ⟨1, 2, 2⟩, ⟨2, 3, 3⟩, ⟨3, 0, 4⟩] 0,
      ∃ d, step.distanceOf step.node = some (some d) ∧
        IsShortest [⟨0, 1, 1⟩, ⟨1, 2, 2⟩, ⟨2, 3, 3⟩, ⟨3, 0, 4⟩] 0 step.node d :=
  ⟨by decide,
    dijkstra_step_distance_shortest [0, 1, 2, 3]
      [⟨0, 1, 1⟩, ⟨1, 2, 2⟩, ⟨2, 3, 3⟩, ⟨3, 0, 4⟩] 0 (by decide) (by decide)⟩

/-! ## Grid pathfinding -/

theorem mem_addNeighbor (grid : Grid) (p : Pos) (acc : List Pos) (d : Int × Int) (q : Pos) :
    q ∈ addNeighbor grid p acc d ↔
      q ∈ acc ∨ (q = { row := p.row + d.1, col := p.col + d.2 } ∧ Passable grid q) := by
  unfold addNeighbor Passable
  dsimp only
  by_cases hb : 0 ≤ p.row + d.1 ∧ p.row + d.1 < GRID_ROWS ∧ 0 ≤ p.col + d.2 ∧
      p.col + d.2 < GRID_COLS
  · rw [if_pos hb]
    by_cases hw : grid (p.row + d.1) (p.col + d.2) = false
    · rw [if_pos hw]
      constructor
      · intro h
        rcases List.mem_append.mp h with h | h
        · exact Or.inl h
        · have e : q = { row := p.row + d.1, col := p.col + d.2 } := by simpa using h
          subst e
          exact Or.inr ⟨rfl, hb.1, hb.2.1, hb.2.2.1, hb.2.2.2, hw⟩
      · rintro (h | ⟨e, _⟩)
        · exact List.mem_append_left _ h
        · subst e; simp
    · rw [if_neg hw]
      constructor
      · exact fun h => Or.inl h
      · rintro (h | ⟨e, h⟩)
        · exact h
        · subst e; exact absurd h.2.2.2.2 hw
  · rw [if_neg hb]
    constructor
    · exact fun h => Or.inl h
    · rintro (h | ⟨e, h⟩)
      · exact h
      · subst e; exact absurd ⟨h.1, h.2.1, h.2.2.1, h.2.2.2.1⟩ hb

/-- The function `getNeighbors` returns exactly the in-bounds non-wall cells adjacent to
`p`. -/
theorem mem_getNeighbors (grid : Grid) (p q : Pos) :
    q ∈ getNeighbors grid p ↔ Passable grid q ∧ GridAdj p q := by
  unfold getNeighbors directions
  simp only [List.foldl_cons, List.foldl_nil, mem_addNeighbor, List.not_mem_nil, false_or]
  obtain ⟨qr, qc⟩ := q
  unfold GridAdj
  simp only [Pos.mk.injEq]
  constructor
  · rintro (((⟨⟨e1, e2⟩, h⟩ | ⟨⟨e1, e2⟩, h⟩) | ⟨⟨e1, e2⟩, h⟩) | ⟨⟨e1, e2⟩, h⟩)
    · exact ⟨h, Or.inl ⟨by omega, by omega⟩⟩
    · exact ⟨h, Or.inr (Or.inl ⟨by omega, by omega⟩)⟩
    · exact ⟨h, Or.inr (Or.inr (Or.inl ⟨by omega, by omega⟩))⟩
    · exact ⟨h, Or.inr (Or.inr (Or.inr ⟨by omega, by omega⟩))⟩
  · rintro ⟨h, ⟨e1, e2⟩ | ⟨e1, e2⟩ | ⟨e1, e2⟩ | ⟨e1, e2⟩⟩
    · exact Or.inl (Or.inl (Or.inl ⟨⟨by omega, by omega⟩, h⟩))
    · exact Or.inl (Or.inl (Or.inr ⟨⟨by omega, by omega⟩, h⟩))
    · exact Or.inl (Or.inr ⟨⟨by omega, by omega⟩, h⟩)
    · exact Or.inr ⟨⟨by omega, by omega⟩, h⟩

theorem length_allCells : allCells.length = 700 := by
  simp [allCells, List.length_flatMap, Function.comp_def]

theorem mem_allCells (grid : Grid) (p : Pos) (h : Passable grid p) : p ∈ allCells := by
  obtain ⟨r, c⟩ := p
  obtain ⟨h1, h2, h3, h4, _⟩ := h
  unfold GRID_ROWS at h2
  unfold GRID_COLS at h4
  dsimp only at h1 h2 h3 h4
  unfold allCells
  rw [List.mem_flatMap]
  refine ⟨r.toNat, ?_, ?_⟩
  · rw [List.mem_range]; omega
  · rw [List.mem_map]
    refine ⟨c.toNat, ?_, ?_⟩
    · rw [List.mem_range]; omega
    · simp only [Pos.mk.injEq]
      omega

/-- A duplicate-free list of in-bounds non-wall cells has at most 700 entries. -/
theorem nodup_passable_length (grid : Grid) (l : List Pos) (hn : l.Nodup)
    (hs : ∀ p ∈ l, Passable grid p) : l.length ≤ 700 := by
  rw [← length_allCells]
  exact (List.subperm_of_subset hn (fun p hp => mem_allCells grid p (hs p hp))).length_le

/-- A sequence of cells that leads from `a` to `b` is a walk of one move less than it has
cells. -/
theorem gridWalk_of_path (grid : Grid) (l : List Pos) :
    ∀ a b, IsGridPath grid a b l → GridWalk grid a b (l.length - 1) := by
  induction l using List.reverseRecOn with
  | nil => intro a b h; simp [IsGridPath] at h
  | append_singleton l x ih =>
    intro a b ⟨hh, hl, hc, hp⟩
    have hx : x = b := by simpa using hl
    subst hx
    cases hl' : l.getLast? with
    | none =>
      have : l = [] := List.getLast?_eq_none_iff.mp hl'
      subst this
      have : x = a := by simpa using hh
      subst this
      exact GridWalk.nil
    | some y =>
      have hne : l ≠ [] := by
        intro e; subst e; simp at hl'
      rw [List.chain'_append] at hc
      have hadj : GridAdj y x := hc.2.2 y (by simp [hl']) x (by simp)
      have hhead : l.head? = some a := by
        cases l with
        | nil => exact absurd rfl hne
        | cons z zs => simpa using hh
      have := ih a y ⟨hhead, hl', hc.1, fun p hp' => hp p (List.mem_append_left _ hp')⟩
      have hlen : (l ++ [x]).length - 1 = (l.length - 1) + 1 := by
        have : 0 < l.length := List.length_pos.mpr hne
        simp only [List.length_append, List.length_singleton]
        omega
      rw [hlen]
      exact GridWalk.snoc this hadj (hp x (by simp))

/-- While the cell `c` is expanded, a walk from the start cell that ends outside the
visited cells has more moves than the recorded way to `c`. -/
theorem gridBfs_frontier (grid : Grid) (s e : Pos) (depth : Pos → Nat) (c : Pos)
    (st : GridBfsState) (hinv : GridBfsInv grid s e depth (some c) st)
    (v : Pos) (k : Nat) (hw : GridWalk grid s v k) :
    v ∈ st.visited ∨ depth c + 1 ≤ k := by
  induction hw with
  | nil => exact Or.inl hinv.start_mem
  | @snoc v w k hw1 hadj hpass ih =>
    rcases ih with hv | hk
    · by_cases hwv : w ∈ st.visited
      · exact Or.inl hwv
      · right
        have hmin := hinv.minimal v hv k hw1
        by_cases hq : v ∈ st.queue
        · have := ((hinv.q_cur c rfl).2 v hq).1
          omega
        · by_cases hvc : v = c
          · subst hvc; omega
          · exact absurd (hinv.closed v hv hq (by simpa using hvc) w hpass hadj) hwv
    · exact Or.inr (by omega)

/-- One iteration of the neighbour loop of the grid `runBFS` keeps the invariant, for a
suitably extended `depth`. -/
theorem gridBfsVisit_inv (grid : Grid) (s e : Pos) (depth : Pos → Nat) (c : Pos)
    (st : GridBfsState) (w : Pos) (hinv : GridBfsInv grid s e depth (some c) st)
    (hpass : Passable grid w) (hadj : GridAdj c w) :
    ∃ depth', GridBfsInv grid s e depth' (some c) (gridBfsVisit c st w) ∧
      w ∈ (gridBfsVisit c st w).visited ∧
      (∀ v ∈ st.visited, v ∈ (gridBfsVisit c st w).visited) ∧
      (gridBfsVisit c st w).queue.length + st.visited.length
        = st.queue.length + (gridBfsVisit c st w).visited.length ∧
      (gridBfsVisit c st w).steps = st.steps := by
  unfold gridBfsVisit
  by_cases hw : w ∉ st.visited
  · rw [if_pos hw]
    have hset : setAdd st.visited w = st.visited ++ [w] := by
      unfold setAdd; rw [if_neg hw]
    rw [hset]
    have hc := (hinv.q_cur c rfl).1
    have hqc := (hinv.q_cur c rfl).2
    have hdep : ∀ v ∈ st.visited, Function.update depth w (depth c + 1) v = depth v := by
      intro v hv
      have : v ≠ w := fun h => hw (h ▸ hv)
      simp [Function.update, this]
    have hdw : Function.update depth w (depth c + 1) w = depth c + 1 := by simp
    have hws : w ≠ s := fun h => hw (h ▸ hinv.start_mem)
    refine ⟨Function.update depth w (depth c + 1), ⟨?_, ?_, ?_, ?_, ?_, ?_, ?_, ?_, ?_, ?_,
      ?_, ?_, ?_, ?_⟩, by simp, fun v hv => by simp [hv],
      by simp only [List.length_append, List.length_singleton]; omega, rfl⟩
    · simp [hinv.start_mem]
    · exact List.Nodup.append hinv.nodup (List.nodup_singleton w) (by simpa using hw)
    · intro v hv
      rcases List.mem_append.mp hv with h | h
      · exact hinv.sub v h
      · have : v = w := by simpa using h
        rw [this]; exact hpass
    · intro q hq
      rcases List.mem_append.mp hq with h | h
      · exact List.mem_append_left _ (hinv.queue_sub q h)
      · exact List.mem_append_right _ h
    · rw [hdep s hinv.start_mem]; exact hinv.depth_start
    · dsimp only
      rw [mapGet_mapSet, if_neg hws]
      exact hinv.came_none
    · intro v hv hvs
      dsimp only
      rw [mapGet_mapSet]
      rcases List.mem_append.mp hv with h | h
      · have hwv : ¬ w = v := fun h' => hw (h' ▸ h)
        rw [if_neg hwv]
        obtain ⟨p, h1, h2, h3, h4⟩ := hinv.came v h hvs
        exact ⟨p, h1, List.mem_append_left _ h2, h3, by rw [hdep v h, hdep p h2, h4]⟩
      · have hvw : v = w := by simpa using h
        subst hvw
        rw [if_pos rfl]
        exact ⟨c, rfl, List.mem_append_left _ hc, hadj, by rw [hdw, hdep c hc]⟩
    · intro v hv
      simp only [List.length_append, List.length_singleton]
      rcases List.mem_append.mp hv with h | h
      · rw [hdep v h]
        have := hinv.depth_lt v h
        omega
      · have hvw : v = w := by simpa using h
        rw [hvw, hdw]
        have := hinv.depth_lt c hc
        omega
    · intro v hv hq hne x hx1 hx2
      have hvw : v ≠ w := fun h => hq (by simp [h])
      have hv' : v ∈ st.visited := by
        rcases List.mem_append.mp hv with h | h
        · exact h
        · exact absurd (by simpa using h) hvw
      exact List.mem_append_left _
        (hinv.closed v hv' (fun h => hq (List.mem_append_left _ h)) hne x hx1 hx2)
    · intro v hv hq hne
      have hvw : v ≠ w := fun h => hq (by simp [h])
      have hv' : v ∈ st.visited := by
        rcases List.mem_append.mp hv with h | h
        · exact h
        · exact absurd (by simpa using h) hvw
      exact hinv.not_end v hv' (fun h => hq (List.mem_append_left _ h)) hne
    · rw [List.pairwise_append]
      refine ⟨?_, List.pairwise_singleton _ _, ?_⟩
      · refine hinv.q_sorted.imp_of_mem ?_
        intro a b ha hb hab
        rw [hdep a (hinv.queue_sub a ha), hdep b (hinv.queue_sub b hb)]
        exact hab
      · intro a ha b hb
        have : b = w := by simpa using hb
        rw [this, hdw, hdep a (hinv.queue_sub a ha)]
        exact (hqc a ha).2
    · have hrange : ∀ q ∈ st.queue ++ [w],
          depth c ≤ Function.update depth w (depth c + 1) q ∧
          Function.update depth w (depth c + 1) q ≤ depth c + 1 := by
        intro q hq
        rcases List.mem_append.mp hq with h | h
        · rw [hdep q (hinv.queue_sub q h)]
          exact hqc q h
        · have : q = w := by simpa using h
          rw [this, hdw]
          omega
      intro a ha b hb
      have := hrange a ha
      have := hrange b hb
      omega
    · intro c' hc'
      have : c' = c := by simpa using hc'.symm
      subst this
      refine ⟨List.mem_append_left _ hc, ?_⟩
      intro q hq
      rw [hdep c' hc]
      rcases List.mem_append.mp hq with h | h
      · rw [hdep q (hinv.queue_sub q h)]
        exact hqc q h
      · have : q = w := by simpa using h
        rw [this, hdw]
        omega
    · intro v hv k hk
      rcases List.mem_append.mp hv with h | h
      · rw [hdep v h]; exact hinv.minimal v h k hk
      · have hvw : v = w := by simpa using h
        rw [hvw, hdw]
        rw [hvw] at hk
        rcases gridBfs_frontier grid s e depth c st hinv w k hk with h' | h'
        · exact absurd h' hw
        · exact h'
  · rw [if_neg hw]
    exact ⟨depth, hinv, not_not.mp hw, fun v hv => hv, rfl, rfl⟩

theorem gridBfsFold_inv (grid : Grid) (s e : Pos) (c : Pos) (l : List Pos) :
    ∀ (depth : Pos → Nat) (st : GridBfsState), GridBfsInv grid s e depth (some c) st →
    (∀ w ∈ l, Passable grid w ∧ GridAdj c w) →
    ∃ depth', GridBfsInv grid s e depth' (some c) (l.foldl (gridBfsVisit c) st) ∧
      (∀ w ∈ l, w ∈ (l.foldl (gridBfsVisit c) st).visited) ∧
      (∀ v ∈ st.visited, v ∈ (l.foldl (gridBfsVisit c) st).visited) ∧
      (l.foldl (gridBfsVisit c) st).queue.length + st.visited.length
        = st.queue.length + (l.foldl (gridBfsVisit c) st).visited.length ∧
      (l.foldl (gridBfsVisit c) st).steps = st.steps := by
  induction l with
  | nil =>
    intro depth st hinv _
    exact ⟨depth, hinv, fun w hw => by simp at hw, fun v hv => hv, rfl, rfl⟩
  | cons w l ih =>
    intro depth st hinv hl
    obtain ⟨d1, a1, a2, a3, a4, a5⟩ := gridBfsVisit_inv grid s e depth c st w hinv
      (hl w (List.mem_cons_self _ _)).1 (hl w (List.mem_cons_self _ _)).2
    obtain ⟨d2, b1, b2, b3, b4, b5⟩ := ih d1 (gridBfsVisit c st w) a1
      (fun x hx => hl x (List.mem_cons_of_mem _ hx))
    rw [List.foldl_cons]
    refine ⟨d2, b1, ?_, fun v hv => b3 v (a3 v hv), by omega, by rw [b5, a5]⟩
    intro x hx
    rcases List.mem_cons.mp hx with h | h
    · rw [h]; exact b3 w a2
    · exact b2 x h

theorem buildPath_succ (cameFrom : List (Pos × Pos)) (fuel : Nat) (temp : Pos)
    (path : List Pos) :
    buildPath cameFrom (fuel + 1) temp path =
      match mapGet cameFrom temp with
      | none => some (temp :: path)
      | some prev => buildPath cameFrom fuel prev (temp :: path) := rfl

/-- The path reconstruction loop, started at a cell whose recorded way back to the start
cell has `n` moves, returns that way as a list of `n + 1` cells from the start cell. -/
theorem buildPath_spec (cameFrom : List (Pos × Pos)) (s : Pos) (S : Pos → Prop)
    (depth : Pos → Nat) (hnone : mapGet cameFrom s = none) (h0 : depth s = 0)
    (hcame : ∀ v, S v → v ≠ s → ∃ p, mapGet cameFrom v = some p ∧ S p ∧ GridAdj p v ∧
      depth v = depth p + 1) (n : Nat) :
    ∀ (v : Pos), S v → depth v = n → ∀ fuel, n < fuel → ∀ acc : List Pos,
      ∃ path, buildPath cameFrom fuel v acc = some (path ++ acc) ∧
        path.head? = some s ∧ path.getLast? = some v ∧ path.length = n + 1 ∧
        path.Chain' GridAdj ∧ ∀ p ∈ path, S p := by
  induction n with
  | zero =>
    intro v hv hd fuel hf acc
    have hvs : v = s := by
      by_contra hne
      obtain ⟨p, _, _, _, h4⟩ := hcame v hv hne
      omega
    subst hvs
    obtain ⟨f, rfl⟩ : ∃ f, fuel = f + 1 := ⟨fuel - 1, by omega⟩
    rw [buildPath_succ, hnone]
    exact ⟨[v], rfl, rfl, rfl, rfl, List.chain'_singleton _, by simpa using hv⟩
  | succ n ih =>
    intro v hv hd fuel hf acc
    have hvs : v ≠ s := by
      intro h; rw [h, h0] at hd; omega
    obtain ⟨p, h1, h2, h3, h4⟩ := hcame v hv hvs
    obtain ⟨f, rfl⟩ : ∃ f, fuel = f + 1 := ⟨fuel - 1, by omega⟩
    rw [buildPath_succ, h1]
    obtain ⟨path, e, p1, p2, p3, p4, p5⟩ := ih p h2 (by omega) f (by omega) (v :: acc)
    refine ⟨path ++ [v], by dsimp only; rw [e]; simp, ?_, by simp, by simp [p3], ?_, ?_⟩
    · cases path with
      | nil => simp at p3
      | cons z zs => simpa using p1
    · rw [List.chain'_append]
      refine ⟨p4, List.chain'_singleton _, ?_⟩
      intro x hx y hy
      have hx' : x = p := by
        rw [p2] at hx; simpa using hx.symm
      have hy' : y = v := by simpa using hy.symm
      rw [hx', hy']; exact h3
    · intro q hq
      rcases List.mem_append.mp hq with h | h
      · exact p5 q h
      · have : q = v := by simpa using h
        rw [this]; exact hv

theorem pos_eq_iff (a b : Pos) : (a.row = b.row ∧ a.col = b.col) ↔ a = b := by
  obtain ⟨r1, c1⟩ := a
  obtain ⟨r2, c2⟩ := b
  simp

theorem gridBfsLoop_nil (grid : Grid) (e : Pos) (fuel : Nat) (st : GridBfsState)
    (h : st.queue = []) :
    gridBfsLoop grid e fuel st = some { steps := st.steps, path := [] } := by
  cases fuel <;> rw [gridBfsLoop] <;> simp [h]

theorem gridBfsLoop_end (grid : Grid) (e : Pos) (fuel : Nat) (st : GridBfsState)
    (rest : List Pos) (h : st.queue = e :: rest) :
    gridBfsLoop grid e (fuel + 1) st =
      match buildPath st.cameFrom gridFuel e [] with
      | none => none
      | some path =>
        some { steps := st.steps ++ [{ current := e, visited := st.visited }],
               path := path } := by
  rw [gridBfsLoop]
  simp [h]

theorem gridBfsLoop_step (grid : Grid) (e : Pos) (fuel : Nat) (st : GridBfsState)
    (c : Pos) (rest : List Pos) (h : st.queue = c :: rest) (hce : c ≠ e) :
    gridBfsLoop grid e (fuel + 1) st =
      gridBfsLoop grid e fuel
        ((getNeighbors grid c).foldl (gridBfsVisit c)
          { st with queue := rest,
                    steps := st.steps ++ [{ current := c, visited := st.visited }] }) := by
  rw [gridBfsLoop]
  have : ¬ (c.row = e.row ∧ c.col = e.col) := fun h' => hce ((pos_eq_iff c e).mp h')
  simp [h, this]

/-- The loop of the grid `runBFS` returns, and the path it returns is as `PathPost`
says. -/
theorem gridBfsLoop_spec (grid : Grid) (s e : Pos) (fuel : Nat) :
    ∀ (depth : Pos → Nat) (st : GridBfsState), GridBfsInv grid s e depth none st →
    st.queue.length + (700 - st.visited.length) ≤ fuel →
    ∃ r, gridBfsLoop grid e fuel st = some r ∧ PathPost grid s e r.path := by
  have hnil : ∀ (fuel : Nat) (depth : Pos → Nat) (st : GridBfsState),
      GridBfsInv grid s e depth none st → st.queue = [] →
      ∃ r, gridBfsLoop grid e fuel st = some r ∧ PathPost grid s e r.path := by
    intro fuel depth st hinv hq
    refine ⟨_, gridBfsLoop_nil grid e fuel st hq, ?_, fun h => absurd rfl h⟩
    intro _ k hk
    have hclos : ∀ v k, GridWalk grid s v k → v ∈ st.visited := by
      intro v k hw
      induction hw with
      | nil => exact hinv.start_mem
      | snoc _ hadj hpass ih =>
        exact hinv.closed _ ih (by rw [hq]; simp) (by simp) _ hpass hadj
    exact hinv.not_end e (hclos e k hk) (by rw [hq]; simp) (by simp) rfl
  induction fuel with
  | zero =>
    intro depth st hinv hm
    exact hnil 0 depth st hinv (List.length_eq_zero.mp (by omega))
  | succ fuel ih =>
    intro depth st hinv hm
    cases hq : st.queue with
    | nil => exact hnil _ depth st hinv hq
    | cons c rest =>
      have hcv : c ∈ st.visited := hinv.queue_sub c (by rw [hq]; exact List.mem_cons_self _ _)
      have hlen := nodup_passable_length grid st.visited hinv.nodup hinv.sub
      by_cases hce : c = e
      · subst hce
        rw [gridBfsLoop_end grid c fuel st rest hq]
        obtain ⟨path, hp, p1, p2, p3, p4, p5⟩ := buildPath_spec st.cameFrom s
          (fun v => v ∈ st.visited) depth hinv.came_none hinv.depth_start hinv.came
          (depth c) c hcv rfl gridFuel
          (by have := hinv.depth_lt c hcv; unfold gridFuel; omega) []
        rw [hp]
        refine ⟨_, rfl, ?_⟩
        simp only [List.append_nil]
        refine ⟨fun h => ?_, fun _ => ⟨⟨p1, p2, p4, fun p hp' => hinv.sub p (p5 p hp')⟩, ?_⟩⟩
        · rw [h] at p3; simp at p3
        · intro k hk
          have := hinv.minimal c hcv k hk
          omega
      · rw [gridBfsLoop_step grid e fuel st c rest hq hce]
        have hrest : ∀ q ∈ rest, q ∈ st.queue := by
          intro q hq'; rw [hq]; exact List.mem_cons_of_mem _ hq'
        have hsorted : (c :: rest).Pairwise (fun a b => depth a ≤ depth b) := by
          rw [← hq]; exact hinv.q_sorted
        have hinv0 : GridBfsInv grid s e depth (some c)
            { st with queue := rest,
                      steps := st.steps ++ [{ current := c, visited := st.visited }] } := by
          refine ⟨hinv.start_mem, hinv.nodup, hinv.sub, fun q hq' => hinv.queue_sub q (hrest q hq'),
            hinv.depth_start, hinv.came_none, hinv.came, hinv.depth_lt, ?_, ?_,
            (List.pairwise_cons.mp hsorted).2, fun a ha b hb => hinv.q_spread a (hrest a ha) b
              (hrest b hb), ?_, hinv.minimal⟩
          · intro v hv hnq hne w hw1 hw2
            refine hinv.closed v hv ?_ (by simp) w hw1 hw2
            rw [hq]
            intro hmem
            rcases List.mem_cons.mp hmem with h | h
            · exact hne (by rw [h])
            · exact hnq h
          · intro v hv hnq hne
            refine hinv.not_end v hv ?_ (by simp)
            rw [hq]
            intro hmem
            rcases List.mem_cons.mp hmem with h | h
            · exact hne (by rw [h])
            · exact hnq h
          · intro c' hc'
            have : c' = c := by simpa using hc'.symm
            subst this
            refine ⟨hcv, fun q hq' => ⟨(List.pairwise_cons.mp hsorted).1 q hq', ?_⟩⟩
            exact hinv.q_spread c' (by rw [hq]; exact List.mem_cons_self _ _) q (hrest q hq')
        obtain ⟨d', b1, b2, b3, b4, _⟩ := gridBfsFold_inv grid s e c (getNeighbors grid c)
          depth _ hinv0 (fun w hw => (mem_getNeighbors grid c w).mp hw)
        generalize (getNeighbors grid c).foldl (gridBfsVisit c)
          { st with queue := rest,
                    steps := st.steps ++ [{ current := c, visited := st.visited }] } = st1
          at b1 b2 b3 b4 ⊢
        dsimp only at b3 b4
        have hlen1 := nodup_passable_length grid st1.visited b1.nodup b1.sub
        have hql : st.queue.length = rest.length + 1 := by rw [hq]; simp
        apply ih d' st1
        · refine ⟨b1.start_mem, b1.nodup, b1.sub, b1.queue_sub, b1.depth_start, b1.came_none,
            b1.came, b1.depth_lt, ?_, ?_, b1.q_sorted, b1.q_spread, by simp, b1.minimal⟩
          · intro v hv hnq _ w hw1 hw2
            by_cases hvc : v = c
            · subst hvc
              exact b2 w ((mem_getNeighbors grid v w).mpr ⟨hw1, hw2⟩)
            · exact b1.closed v hv hnq (by simpa using hvc) w hw1 hw2
          · intro v hv hnq _
            by_cases hvc : v = c
            · subst hvc; exact hce
            · exact b1.not_end v hv hnq (by simpa using hvc)
        · omega

/-- The grid `runBFS` returns, and the path it returns is empty only when the end cell
cannot be reached and otherwise is a shortest way from the start cell to the end cell. -/
theorem gridBfs_spec (grid : Grid) (s e : Pos) (hs : Passable grid s) :
    ∃ r, PathfindingVisualizer.runBFS grid s e = some r ∧ PathPost grid s e r.path := by
  unfold PathfindingVisualizer.runBFS
  apply gridBfsLoop_spec grid s e gridFuel (fun _ => 0)
  · refine ⟨by simp, by simp, ?_, by simp, rfl, rfl, ?_, by simp, ?_, ?_, by simp, by simp,
      by simp, by simp⟩
    · intro v hv
      have : v = s := by simpa using hv
      rw [this]; exact hs
    · intro v hv hne
      exact absurd (by simpa using hv) hne
    · intro v hv hnq
      exact absurd hv hnq
    · intro v hv hnq
      exact absurd hv hnq
  · simp [gridFuel]

/-! ### A* -/

theorem heuristic_adj (v w e : Pos) (h : GridAdj v w) : heuristic v e ≤ heuristic w e + 1 := by
  unfold heuristic
  unfold GridAdj at h
  omega

theorem heuristic_pos (v e : Pos) (h : v ≠ e) : 1 ≤ heuristic v e := by
  unfold heuristic
  have : ¬ (v.row = e.row ∧ v.col = e.col) := fun h' => h ((pos_eq_iff v e).mp h')
  omega

theorem find?_open_none (openSet : List Pos) (w : Pos) :
    openSet.find? (fun n => decide (n.row = w.row ∧ n.col = w.col)) = none ↔ w ∉ openSet := by
  rw [List.find?_eq_none]
  constructor
  · intro h hw
    have := h w hw
    simp at this
  · intro h x hx
    simp only [decide_eq_true_eq]
    intro hx'
    exact h ((pos_eq_iff x w).mp hx' ▸ hx)

theorem distLt_false_iff (a b : Nat) : distLt (some a) (some b) = false ↔ b ≤ a := by
  simp [distLt]

/-- Facts about the result of the sort of the open set: it is a rearrangement, and its
first entry is not put after any other by the comparator. -/
theorem sortOpen_cons (fScore : List (Pos × Nat)) (openSet : List Pos) (u : Pos)
    (rest : List Pos)
    (h : openSet.insertionSort (fun a b => fScoreLe fScore a b = true) = u :: rest) :
    (u :: rest).Perm openSet ∧ ∀ x ∈ rest, fScoreLe fScore u x = true := by
  haveI : IsTotal Pos (fun a b => fScoreLe fScore a b = true) := by
    constructor
    intro a b
    unfold fScoreLe
    cases ha : orInfinity (mapGet fScore a) <;> cases hb : orInfinity (mapGet fScore b) <;>
      simp [distLt]
    omega
  haveI : IsTrans Pos (fun a b => fScoreLe fScore a b = true) := by
    constructor
    intro a b c
    unfold fScoreLe
    cases ha : orInfinity (mapGet fScore a) <;> cases hb : orInfinity (mapGet fScore b) <;>
      cases hc : orInfinity (mapGet fScore c) <;> simp [distLt]
    omega
  have hs := List.sorted_insertionSort (fun a b => fScoreLe fScore a b = true) openSet
  have hp := List.perm_insertionSort (fun a b => fScoreLe fScore a b = true) openSet
  rw [h] at hs hp
  exact ⟨hp, fun x hx => List.rel_of_sorted_cons hs x hx⟩

theorem sortOpen_nil (fScore : List (Pos × Nat)) (openSet : List Pos)
    (h : openSet.insertionSort (fun a b => fScoreLe fScore a b = true) = []) :
    openSet = [] := by
  have hp := List.perm_insertionSort (fun a b => fScoreLe fScore a b = true) openSet
  rw [h] at hp
  exact hp.symm.eq_nil

theorem AStarInv.g_def {grid : Grid} {s e : Pos} {cur : Option Pos} {st : AStarState}
    (h : AStarInv grid s e cur st) (v : Pos) (hv : v ∈ st.openSet ∨ v ∈ st.closedSet) :
    ∃ gv, mapGet st.gScore v = some gv := by
  by_cases hvs : v = s
  · subst hvs
    exact ⟨0, h.g_start⟩
  · obtain ⟨p, gp, _, _, _, _, h5⟩ := h.came v hv hvs
    exact ⟨gp + 1, h5⟩

theorem AStarInv.g_pos {grid : Grid} {s e : Pos} {cur : Option Pos} {st : AStarState}
    (h : AStarInv grid s e cur st) (v : Pos) (hv : v ∈ st.openSet ∨ v ∈ st.closedSet)
    (hvs : v ≠ s) (gv : Nat) (hg : mapGet st.gScore v = some gv) : 1 ≤ gv := by
  obtain ⟨p, gp, _, _, _, _, h5⟩ := h.came v hv hvs
  rw [hg] at h5
  injection h5 with h5
  omega

/-- Recording a better way to a neighbour `w` of the cell under expansion keeps the
invariant. -/
theorem aStarRecord_inv (grid : Grid) (s e u w : Pos) (st : AStarState) (openSet : List Pos)
    (h : AStarInv grid s e (some u) st) (hO1 : openSet.Nodup)
    (hO2 : ∀ v, v ∈ openSet ↔ v ∈ st.openSet ∨ v = w) (hwK : w ∉ st.closedSet)
    (hw : Passable grid w) (hadj : GridAdj u w) (gu : Nat)
    (hgu : mapGet st.gScore u = some gu)
    (hlt : ∀ gw, mapGet st.gScore w = some gw → gu + 1 ≤ gw) :
    AStarInv grid s e (some u)
      (aStarRecord e u (gu + 1) { st with openSet := openSet } w) := by
  obtain ⟨huK, gu', hgu', hguK⟩ := h.cur_g u rfl
  rw [hgu] at hgu'
  injection hgu' with hgu'
  subst hgu'
  have hsK : s ∈ st.closedSet := by
    rcases h.start_pos with h1 | ⟨h1, _⟩
    · exact h1
    · rw [h1] at huK; simp at huK
  have hws : w ≠ s := fun e1 => hwK (e1 ▸ hsK)
  have hwu : w ≠ u := fun e1 => hwK (e1 ▸ huK)
  have hK : ∀ v ∈ st.closedSet, w ≠ v := fun v hv e1 => hwK (e1 ▸ hv)
  have hold : ∀ v, w ≠ v → v ∈ openSet ∨ v ∈ st.closedSet →
      v ∈ st.openSet ∨ v ∈ st.closedSet := by
    intro v hne hv
    rcases hv with hv | hv
    · rcases (hO2 v).mp hv with h1 | h1
      · exact Or.inl h1
      · exact absurd h1.symm hne
    · exact Or.inr hv
  unfold aStarRecord
  constructor <;> dsimp only
  · exact hO1
  · exact h.k_nodup
  · intro v hv
    rcases (hO2 v).mp hv with h1 | h1
    · exact h.disj v h1
    · rw [h1]; exact hwK
  · intro v hv
    by_cases hne : w = v
    · rw [← hne]; exact hw
    · exact h.pass v (hold v hne hv)
  · rw [mapGet_mapSet, if_neg hws]; exact h.g_start
  · exact Or.inl hsK
  · intro v hv gv hg
    rw [mapGet_mapSet] at hg ⊢
    by_cases hne : w = v
    · rw [if_pos hne] at hg ⊢
      injection hg with hg
      rw [← hg, hne]
    · rw [if_neg hne] at hg ⊢
      rcases (hO2 v).mp hv with h1 | h1
      · exact h.f_def v h1 gv hg
      · exact absurd h1.symm hne
  · rw [mapGet_mapSet, if_neg hws]; exact h.came_none
  · intro v hv hvs
    by_cases hne : w = v
    · refine ⟨u, gu, ?_, huK, hne ▸ hadj, ?_, ?_⟩
      · rw [mapGet_mapSet, if_pos hne]
      · rw [mapGet_mapSet, if_neg hwu]; exact hgu
      · rw [mapGet_mapSet, if_pos hne]
    · obtain ⟨p, gp, h1, h2, h3, h4, h5⟩ := h.came v (hold v hne hv) hvs
      refine ⟨p, gp, ?_, h2, h3, ?_, ?_⟩
      · rw [mapGet_mapSet, if_neg hne]; exact h1
      · rw [mapGet_mapSet, if_neg (hK p h2)]; exact h4
      · rw [mapGet_mapSet, if_neg hne]; exact h5
  · intro v gv hv hg
    rw [mapGet_mapSet] at hg
    by_cases hne : w = v
    · rw [if_pos hne] at hg
      injection hg with hg
      omega
    · rw [if_neg hne] at hg
      exact h.g_le v gv (hold v hne hv) hg
  · intro v gv hv hg
    rw [mapGet_mapSet] at hg
    by_cases hne : w = v
    · rw [if_pos hne] at hg
      injection hg with hg
      rw [← hg, ← hne]
      exact GridWalk.snoc (h.walk u gu (Or.inr huK) hgu) hadj hw
    · rw [if_neg hne] at hg
      exact h.walk v gv (hold v hne hv) hg
  · intro v hv gv hg k hk
    rw [mapGet_mapSet, if_neg (hK v hv)] at hg
    exact h.k_opt v hv gv hg k hk
  · intro v hv hvc x hx hvx
    obtain ⟨h1, h2⟩ := h.k_closed v hv hvc x hx hvx
    refine ⟨?_, ?_⟩
    · rcases h1 with h1 | h1
      · exact Or.inl h1
      · exact Or.inr ((hO2 x).mpr (Or.inl h1))
    · intro gv gx hgv hgx
      rw [mapGet_mapSet, if_neg (hK v hv)] at hgv
      rw [mapGet_mapSet] at hgx
      by_cases hne : w = x
      · rw [if_pos hne] at hgx
        injection hgx with hgx
        obtain ⟨gw, hgw⟩ := h.g_def x (h1.symm)
        have := h2 gv gw hgv hgw
        have := hlt gw (hne ▸ hgw)
        omega
      · rw [if_neg hne] at hgx
        exact h2 gv gx hgv hgx
  · exact h.not_end
  · intro u' hu'
    injection hu' with hu'
    subst hu'
    refine ⟨huK, gu, ?_, hguK⟩
    rw [mapGet_mapSet, if_neg hwu]; exact hgu
  · intro v gv hg
    rw [mapGet_mapSet] at hg
    by_cases hne : w = v
    · exact Or.inl ((hO2 v).mpr (Or.inr hne.symm))
    · rw [if_neg hne] at hg
      rcases h.g_dom v gv hg with h1 | h1
      · exact Or.inl ((hO2 v).mpr (Or.inl h1))
      · exact Or.inr h1

theorem AStarGrow.refl (st : AStarState) : AStarGrow st st :=
  ⟨rfl, rfl, fun _ h => h, fun _ gv h => ⟨gv, h, le_refl _⟩, fun _ _ => rfl⟩

theorem AStarGrow.trans {a b c : AStarState} (h1 : AStarGrow a b) (h2 : AStarGrow b c) :
    AStarGrow a c := by
  refine ⟨h2.closed_eq.trans h1.closed_eq, h2.steps_eq.trans h1.steps_eq,
    fun v hv => h2.open_sub v (h1.open_sub v hv), ?_, ?_⟩
  · intro v gv hg
    obtain ⟨g1, hg1, hle1⟩ := h1.g_dec v gv hg
    obtain ⟨g2, hg2, hle2⟩ := h2.g_dec v g1 hg1
    exact ⟨g2, hg2, by omega⟩
  · intro v hv
    rw [h2.g_closed v (h1.closed_eq ▸ hv), h1.g_closed v hv]

theorem aStarRecord_grow (e u w : Pos) (st : AStarState) (openSet : List Pos) (t : Nat)
    (hO : ∀ v ∈ st.openSet, v ∈ openSet) (hwK : w ∉ st.closedSet)
    (hlt : ∀ gw, mapGet st.gScore w = some gw → t ≤ gw) :
    AStarGrow st (aStarRecord e u t { st with openSet := openSet } w) := by
  unfold aStarRecord
  constructor <;> dsimp only
  · exact hO
  · intro v gv hg
    rw [mapGet_mapSet]
    by_cases hne : w = v
    · rw [if_pos hne]
      exact ⟨t, rfl, hlt gv (hne ▸ hg)⟩
    · rw [if_neg hne]
      exact ⟨gv, hg, le_refl _⟩
  · intro v hv
    rw [mapGet_mapSet, if_neg (fun (e1 : w = v) => hwK (e1 ▸ hv))]

theorem orInfinity_pos (n : Nat) (h : 1 ≤ n) : orInfinity (some n) = some n := by
  cases n with
  | zero => omega
  | succ n => rfl

/-- One pass of the body of the loop over the neighbours keeps the invariant, and leaves
the neighbour closed or open with a score of at most one more than that of the cell under
expansion. -/
theorem aStarVisit_inv (grid : Grid) (s e u w : Pos) (st : AStarState)
    (h : AStarInv grid s e (some u) st) (hw : Passable grid w) (hadj : GridAdj u w) :
    AStarInv grid s e (some u) (aStarVisit e u st w) ∧ AStarGrow st (aStarVisit e u st w) ∧
    (w ∈ (aStarVisit e u st w).closedSet ∨ w ∈ (aStarVisit e u st w).openSet) ∧
    ∀ gu gw, mapGet st.gScore u = some gu →
      mapGet (aStarVisit e u st w).gScore w = some gw → gw ≤ gu + 1 := by
  obtain ⟨huK, gu, hgu, hguK⟩ := h.cur_g u rfl
  have hsK : s ∈ st.closedSet := by
    rcases h.start_pos with h1 | ⟨h1, _⟩
    · exact h1
    · rw [h1] at huK; simp at huK
  unfold aStarVisit
  by_cases hwK : w ∈ st.closedSet
  · rw [if_pos hwK]
    refine ⟨h, AStarGrow.refl st, Or.inl hwK, ?_⟩
    intro gu' gw hgu' hgw
    rw [hgu] at hgu'
    injection hgu' with hgu'
    subst hgu'
    exact h.k_opt w hwK gw hgw (gu + 1)
      (GridWalk.snoc (h.walk u gu (Or.inr huK) hgu) hadj hw)
  · rw [if_neg hwK]
    have ht : orZero (mapGet st.gScore u) = gu := by rw [hgu]; rfl
    dsimp only
    rw [ht]
    by_cases hwO : w ∈ st.openSet
    · have hf : ¬ (st.openSet.find? (fun n => decide (n.row = w.row ∧ n.col = w.col))) = none :=
        fun h1 => ((find?_open_none st.openSet w).mp h1) hwO
      rw [if_neg hf]
      obtain ⟨gw, hgw⟩ := h.g_def w (Or.inl hwO)
      have hws : w ≠ s := fun e1 => h.disj w hwO (e1 ▸ hsK)
      have hpos := h.g_pos w (Or.inl hwO) hws gw hgw
      rw [hgw, orInfinity_pos gw hpos]
      by_cases hc : distLt (some (gu + 1)) (some gw) = false
      · rw [if_pos hc]
        refine ⟨h, AStarGrow.refl st, Or.inr hwO, ?_⟩
        intro gu' gw' hgu' hgw'
        rw [hgu] at hgu'
        injection hgu' with hgu'
        rw [hgw] at hgw'
        injection hgw' with hgw'
        have := (distLt_false_iff (gu + 1) gw).mp hc
        omega
      · rw [if_neg hc]
        have hlt : ∀ gw', mapGet st.gScore w = some gw' → gu + 1 ≤ gw' := by
          intro gw' hgw'
          rw [hgw] at hgw'
          injection hgw' with hgw'
          have : ¬ gw ≤ gu + 1 := fun h1 => hc ((distLt_false_iff (gu + 1) gw).mpr h1)
          omega
        have hst : ({ st with openSet := st.openSet } : AStarState) = st := rfl
        have h1 := aStarRecord_inv grid s e u w st st.openSet h h.o_nodup
          (fun v => ⟨fun hv => Or.inl hv,
            fun hv => hv.elim id (fun (e1 : v = w) => e1 ▸ hwO)⟩)
          hwK hw hadj gu hgu hlt
        have h2 := aStarRecord_grow e u w st st.openSet (gu + 1) (fun _ hv => hv) hwK hlt
        rw [hst] at h1 h2
        refine ⟨h1, h2, Or.inr ?_, ?_⟩
        · exact hwO
        · intro gu' gw' hgu' hgw'
          rw [hgu] at hgu'
          injection hgu' with hgu'
          unfold aStarRecord at hgw'
          dsimp only at hgw'
          rw [mapGet_mapSet, if_pos rfl] at hgw'
          injection hgw' with hgw'
          omega
    · have hf : (st.openSet.find? (fun n => decide (n.row = w.row ∧ n.col = w.col))) = none :=
        (find?_open_none st.openSet w).mpr hwO
      rw [if_pos hf]
      have hlt : ∀ gw', mapGet st.gScore w = some gw' → gu + 1 ≤ gw' := by
        intro gw' hgw'
        rcases h.g_dom w gw' hgw' with h1 | h1
        · exact absurd h1 hwO
        · exact absurd h1 hwK
      have h1 := aStarRecord_inv grid s e u w st (st.openSet ++ [w]) h
        (List.Nodup.append h.o_nodup (List.nodup_singleton w) (by
          intro x hx hx'
          rw [List.mem_singleton] at hx'
          exact hwO (hx' ▸ hx)))
        (fun v => by simp) hwK hw hadj gu hgu hlt
      have h2 := aStarRecord_grow e u w st (st.openSet ++ [w]) (gu + 1)
        (fun v hv => List.mem_append_left _ hv) hwK hlt
      refine ⟨h1, h2, Or.inr ?_, ?_⟩
      · unfold aStarRecord
        simp
      · intro gu' gw' hgu' hgw'
        rw [hgu] at hgu'
        injection hgu' with hgu'
        unfold aStarRecord at hgw'
        dsimp only at hgw'
        rw [mapGet_mapSet, if_pos rfl] at hgw'
        injection hgw' with hgw'
        omega

/-- The loop over the neighbours keeps the invariant and leaves every neighbour closed or
open with a score of at most one more than that of the cell under expansion. -/
theorem aStarFold_inv (grid : Grid) (s e u : Pos) (l : List Pos)
    (hl : ∀ w ∈ l, Passable grid w ∧ GridAdj u w) :
    ∀ st, AStarInv grid s e (some u) st →
      AStarInv grid s e (some u) (l.foldl (aStarVisit e u) st) ∧
      AStarGrow st (l.foldl (aStarVisit e u) st) ∧
      ∀ w ∈ l, (w ∈ (l.foldl (aStarVisit e u) st).closedSet ∨
          w ∈ (l.foldl (aStarVisit e u) st).openSet) ∧
        ∀ gu gw, mapGet st.gScore u = some gu →
          mapGet (l.foldl (aStarVisit e u) st).gScore w = some gw → gw ≤ gu + 1 := by
  induction l with
  | nil =>
    intro st h
    exact ⟨h, AStarGrow.refl st, fun w hw => absurd hw (List.not_mem_nil w)⟩
  | cons w l ih =>
    intro st h
    rw [List.foldl_cons]
    obtain ⟨hw, hadj⟩ := hl w (List.mem_cons_self w l)
    obtain ⟨h1, g1, m1, r1⟩ := aStarVisit_inv grid s e u w st h hw hadj
    obtain ⟨h2, g2, r2⟩ := ih (fun x hx => hl x (List.mem_cons_of_mem w hx)) _ h1
    obtain ⟨huK, _⟩ := h.cur_g u rfl
    refine ⟨h2, g1.trans g2, ?_⟩
    intro x hx
    rcases List.mem_cons.mp hx with hx | hx
    · subst hx
      refine ⟨?_, ?_⟩
      · rcases m1 with m1 | m1
        · exact Or.inl (g2.closed_eq ▸ m1)
        · exact Or.inr (g2.open_sub x m1)
      · intro gu gw hgu hgw
        obtain ⟨g1x, hg1x⟩ := h1.g_def x m1.symm
        obtain ⟨g2x, hg2x, hle⟩ := g2.g_dec x g1x hg1x
        rw [hgw] at hg2x
        injection hg2x with hg2x
        have := r1 gu g1x hgu hg1x
        omega
    · obtain ⟨m2, r2'⟩ := r2 x hx
      refine ⟨m2, ?_⟩
      intro gu gw hgu hgw
      exact r2' gu gw (by rw [g1.g_closed u huK]; exact hgu) hgw

theorem aStarLoop_nil (grid : Grid) (e : Pos) (fuel : Nat) (st : AStarState)
    (h : st.openSet.insertionSort (fun a b => fScoreLe st.fScore a b = true) = []) :
    aStarLoop grid e fuel st = some { steps := st.steps, path := [] } := by
  cases fuel <;> rw [aStarLoop] <;> simp [h]

theorem aStarLoop_end (grid : Grid) (e : Pos) (fuel : Nat) (st : AStarState)
    (rest : List Pos)
    (h : st.openSet.insertionSort (fun a b => fScoreLe st.fScore a b = true) = e :: rest) :
    aStarLoop grid e (fuel + 1) st =
      match buildPath st.cameFrom gridFuel e [] with
      | none => none
      | some path =>
        some { steps := st.steps ++ [{ current := e, visited := st.closedSet }],
               path := path } := by
  rw [aStarLoop]
  simp only [h, and_self, if_true]

theorem aStarLoop_step (grid : Grid) (e : Pos) (fuel : Nat) (st : AStarState)
    (c : Pos) (rest : List Pos)
    (h : st.openSet.insertionSort (fun a b => fScoreLe st.fScore a b = true) = c :: rest)
    (hce : c ≠ e) :
    aStarLoop grid e (fuel + 1) st =
      aStarLoop grid e fuel
        ((getNeighbors grid c).foldl (aStarVisit e c)
          { st with openSet := rest,
                    steps := st.steps ++ [{ current := c, visited := st.closedSet }],
                    closedSet := setAdd st.closedSet c }) := by
  rw [aStarLoop]
  have : ¬ (c.row = e.row ∧ c.col = e.col) := fun h' => hce ((pos_eq_iff c e).mp h')
  simp [h, this]

/-- Every cell that a walk from the start cell reaches is closed, or the walk passes an
open cell whose score and estimate do not exceed what the walk allows. -/
theorem aStar_frontier (grid : Grid) (s e : Pos) (st : AStarState)
    (h : AStarInv grid s e none st) (v : Pos) (k : Nat) (hw : GridWalk grid s v k) :
    v ∈ st.closedSet ∨ ∃ x ∈ st.openSet, ∃ gx j, mapGet st.gScore x = some gx ∧ gx ≤ j ∧
      j ≤ k ∧ heuristic x e + j ≤ k + heuristic v e := by
  induction hw with
  | nil =>
    rcases h.start_pos with h1 | ⟨_, h1⟩
    · exact Or.inl h1
    · exact Or.inr ⟨s, by rw [h1]; simp, 0, 0, h.g_start, le_refl _, le_refl _, by omega⟩
  | @snoc v w k hwalk hadj hpass ih =>
    rcases ih with hv | ⟨x, hx, gx, j, h1, h2, h3, h4⟩
    · obtain ⟨hm, hr⟩ := h.k_closed v hv (by simp) w hpass hadj
      rcases hm with hm | hm
      · exact Or.inl hm
      · obtain ⟨gv, hgv⟩ := h.g_def v (Or.inr hv)
        obtain ⟨gw, hgw⟩ := h.g_def w (Or.inl hm)
        have := hr gv gw hgv hgw
        have := h.k_opt v hv gv hgv k hwalk
        exact Or.inr ⟨w, hm, gw, k + 1, hgw, by omega, le_refl _, by omega⟩
    · have := heuristic_adj v w e hadj
      exact Or.inr ⟨x, hx, gx, j, h1, h2, by omega, by omega⟩

/-- The value that the comparator of the sort reads for an open cell is its score plus
its estimate. -/
theorem aStar_fvalue (grid : Grid) (s e : Pos) (hse : s ≠ e) (st : AStarState)
    (cur : Option Pos) (h : AStarInv grid s e cur st) (x : Pos) (hx : x ∈ st.openSet)
    (gx : Nat) (hgx : mapGet st.gScore x = some gx) :
    orInfinity (mapGet st.fScore x) = some (gx + heuristic x e) := by
  rw [h.f_def x hx gx hgx]
  apply orInfinity_pos
  by_cases hxs : x = s
  · have := heuristic_pos x e (by rw [hxs]; exact hse)
    omega
  · have := h.g_pos x (Or.inl hx) hxs gx hgx
    omega

/-- The cell that the loop takes from the open set has the least possible score. -/
theorem aStar_popped_opt (grid : Grid) (s e : Pos) (hse : s ≠ e) (st : AStarState)
    (h : AStarInv grid s e none st) (u : Pos) (rest : List Pos)
    (hsort : st.openSet.insertionSort (fun a b => fScoreLe st.fScore a b = true) = u :: rest)
    (gu : Nat) (hgu : mapGet st.gScore u = some gu) (k : Nat) (hw : GridWalk grid s u k) :
    gu ≤ k := by
  obtain ⟨hperm, hmin⟩ := sortOpen_cons st.fScore st.openSet u rest hsort
  have huO : u ∈ st.openSet := hperm.subset (List.mem_cons_self u rest)
  rcases aStar_frontier grid s e st h u k hw with hc | ⟨x, hx, gx, j, h1, h2, h3, h4⟩
  · exact absurd hc (h.disj u huO)
  · rcases List.mem_cons.mp (hperm.symm.subset hx) with hxu | hxr
    · subst hxu
      rw [hgu] at h1
      injection h1 with h1
      omega
    · have hle := hmin x hxr
      unfold fScoreLe at hle
      rw [aStar_fvalue grid s e hse st none h x hx gx h1,
        aStar_fvalue grid s e hse st none h u huO gu hgu] at hle
      simp [distLt] at hle
      omega

/-- Taking the first cell of the sorted open set and closing it gives a state that has the
invariant with that cell under expansion. -/
theorem aStar_close_inv (grid : Grid) (s e : Pos) (hse : s ≠ e) (st : AStarState)
    (h : AStarInv grid s e none st) (u : Pos) (rest : List Pos)
    (hsort : st.openSet.insertionSort (fun a b => fScoreLe st.fScore a b = true) = u :: rest)
    (hue : u ≠ e) :
    AStarInv grid s e (some u)
      { st with openSet := rest,
                steps := st.steps ++ [{ current := u, visited := st.closedSet }],
                closedSet := st.closedSet ++ [u] } := by
  obtain ⟨hperm, _⟩ := sortOpen_cons st.fScore st.openSet u rest hsort
  have huO : u ∈ st.openSet := hperm.subset (List.mem_cons_self u rest)
  have hnd : (u :: rest).Nodup := hperm.nodup_iff.mpr h.o_nodup
  have hur : u ∉ rest := (List.nodup_cons.mp hnd).1
  have hrO : ∀ v ∈ rest, v ∈ st.openSet := fun v hv => hperm.subset (List.mem_cons_of_mem u hv)
  have hmem : ∀ v, v ∈ rest ∨ v ∈ st.closedSet ++ [u] → v ∈ st.openSet ∨ v ∈ st.closedSet := by
    intro v hv
    rcases hv with hv | hv
    · exact Or.inl (hrO v hv)
    · rcases List.mem_append.mp hv with hv | hv
      · exact Or.inr hv
      · rw [List.mem_singleton] at hv
        rw [hv]; exact Or.inl huO
  have hmem' : ∀ v, v ∈ st.closedSet ∨ v ∈ st.openSet →
      v ∈ st.closedSet ++ [u] ∨ v ∈ rest := by
    intro v hv
    rcases hv with hv | hv
    · exact Or.inl (List.mem_append_left _ hv)
    · rcases List.mem_cons.mp (hperm.symm.subset hv) with h1 | h1
      · exact Or.inl (by rw [h1]; simp)
      · exact Or.inr h1
  constructor <;> dsimp only
  · exact (List.nodup_cons.mp hnd).2
  · refine List.Nodup.append h.k_nodup (List.nodup_singleton u) ?_
    intro x hx hx'
    rw [List.mem_singleton] at hx'
    exact h.disj u huO (hx' ▸ hx)
  · intro v hv hv'
    rcases List.mem_append.mp hv' with h1 | h1
    · exact h.disj v (hrO v hv) h1
    · rw [List.mem_singleton] at h1
      exact hur (h1 ▸ hv)
  · exact fun v hv => h.pass v (hmem v hv)
  · exact h.g_start
  · left
    rcases h.start_pos with h1 | ⟨_, h1⟩
    · exact List.mem_append_left _ h1
    · rw [h1, List.mem_singleton] at huO
      rw [huO]; simp
  · exact fun v hv => h.f_def v (hrO v hv)
  · exact h.came_none
  · intro v hv hvs
    obtain ⟨p, gp, h1, h2, h3⟩ := h.came v (hmem v hv) hvs
    exact ⟨p, gp, h1, List.mem_append_left _ h2, h3⟩
  · intro v gv hv hg
    have := h.g_le v gv (hmem v hv) hg
    rw [List.length_append]
    omega
  · exact fun v gv hv hg => h.walk v gv (hmem v hv) hg
  · intro v hv gv hg k hk
    rcases List.mem_append.mp hv with h1 | h1
    · exact h.k_opt v h1 gv hg k hk
    · rw [List.mem_singleton] at h1
      subst h1
      exact aStar_popped_opt grid s e hse st h v rest hsort gv hg k hk
  · intro v hv hvu w hw hadj
    have hvK : v ∈ st.closedSet := by
      rcases List.mem_append.mp hv with h1 | h1
      · exact h1
      · rw [List.mem_singleton] at h1
        exact absurd (by rw [h1]) hvu
    obtain ⟨h1, h2⟩ := h.k_closed v hvK (by simp) w hw hadj
    exact ⟨hmem' w h1, h2⟩
  · intro v hv
    rcases List.mem_append.mp hv with h1 | h1
    · exact h.not_end v h1
    · rw [List.mem_singleton] at h1
      rw [h1]; exact hue
  · intro u' hu'
    injection hu' with hu'
    subst hu'
    obtain ⟨gu, hgu⟩ := h.g_def u (Or.inl huO)
    have := h.g_le u gu (Or.inl huO) hgu
    exact ⟨by simp, gu, hgu, by rw [List.length_append]; simp; omega⟩
  · intro v gv hg
    exact (hmem' v (h.g_dom v gv hg).symm).symm

/-- The loop of `runAStar` returns, and the path it returns is as `PathPost` says. -/
theorem aStarLoop_spec (grid : Grid) (s e : Pos) (hse : s ≠ e) (fuel : Nat) :
    ∀ (st : AStarState), AStarInv grid s e none st →
    701 - st.closedSet.length ≤ fuel →
    ∃ r, aStarLoop grid e fuel st = some r ∧ PathPost grid s e r.path := by
  induction fuel with
  | zero =>
    intro st h hm
    cases hsort : st.openSet.insertionSort (fun a b => fScoreLe st.fScore a b = true) with
    | nil =>
      refine ⟨_, aStarLoop_nil grid e 0 st hsort, ?_, fun h1 => absurd rfl h1⟩
      intro _ k hk
      have hO := sortOpen_nil st.fScore st.openSet hsort
      rcases aStar_frontier grid s e st h e k hk with h1 | ⟨x, hx, _⟩
      · exact h.not_end e h1 rfl
      · rw [hO] at hx; simp at hx
    | cons u rest =>
      have := nodup_passable_length grid st.closedSet h.k_nodup
        (fun p hp => h.pass p (Or.inr hp))
      omega
  | succ fuel ih =>
    intro st h hm
    cases hsort : st.openSet.insertionSort (fun a b => fScoreLe st.fScore a b = true) with
    | nil =>
      refine ⟨_, aStarLoop_nil grid e _ st hsort, ?_, fun h1 => absurd rfl h1⟩
      intro _ k hk
      have hO := sortOpen_nil st.fScore st.openSet hsort
      rcases aStar_frontier grid s e st h e k hk with h1 | ⟨x, hx, _⟩
      · exact h.not_end e h1 rfl
      · rw [hO] at hx; simp at hx
    | cons u rest =>
      obtain ⟨hperm, _⟩ := sortOpen_cons st.fScore st.openSet u rest hsort
      have huO : u ∈ st.openSet := hperm.subset (List.mem_cons_self u rest)
      have hlen := nodup_passable_length grid st.closedSet h.k_nodup
        (fun p hp => h.pass p (Or.inr hp))
      by_cases hue : u = e
      · subst hue
        rw [aStarLoop_end grid u fuel st rest hsort]
        obtain ⟨gu, hgu⟩ := h.g_def u (Or.inl huO)
        obtain ⟨path, hp, p1, p2, p3, p4, p5⟩ := buildPath_spec st.cameFrom s
          (fun v => v ∈ st.openSet ∨ v ∈ st.closedSet)
          (fun v => (mapGet st.gScore v).getD 0) h.came_none (by dsimp only; rw [h.g_start]; rfl)
          (by
            intro v hv hvs
            obtain ⟨p, gp, h1, h2, h3, h4, h5⟩ := h.came v hv hvs
            exact ⟨p, h1, Or.inr h2, h3, by dsimp only; rw [h4, h5]; rfl⟩)
          gu u (Or.inl huO) (by dsimp only; rw [hgu]; rfl) gridFuel
          (by have := h.g_le u gu (Or.inl huO) hgu; unfold gridFuel; omega) []
        rw [hp]
        refine ⟨_, rfl, ?_⟩
        simp only [List.append_nil]
        refine ⟨fun h1 => ?_, fun _ => ⟨⟨p1, p2, p4, fun p hp' => h.pass p (p5 p hp')⟩, ?_⟩⟩
        · rw [h1] at p3; simp at p3
        · intro k hk
          have := aStar_popped_opt grid s u hse st h u rest hsort gu hgu k hk
          omega
      · rw [aStarLoop_step grid e fuel st u rest hsort hue]
        have huK : u ∉ st.closedSet := h.disj u huO
        have hset : setAdd st.closedSet u = st.closedSet ++ [u] := by
          unfold setAdd; rw [if_neg huK]
        rw [hset]
        have hinv0 := aStar_close_inv grid s e hse st h u rest hsort hue
        obtain ⟨b1, b2, b3⟩ := aStarFold_inv grid s e u (getNeighbors grid u)
          (fun w hw => (mem_getNeighbors grid u w).mp hw) _ hinv0
        obtain ⟨huK0, _⟩ := hinv0.cur_g u rfl
        have hg0 := b2.g_closed u huK0
        have hK := b2.closed_eq
        generalize (getNeighbors grid u).foldl (aStarVisit e u)
          { st with openSet := rest,
                    steps := st.steps ++ [{ current := u, visited := st.closedSet }],
                    closedSet := st.closedSet ++ [u] } = st1 at b1 b2 b3 hg0 hK ⊢
        dsimp only at hg0 hK
        apply ih st1
        · refine ⟨b1.o_nodup, b1.k_nodup, b1.disj, b1.pass, b1.g_start, b1.start_pos, b1.f_def,
            b1.came_none, b1.came, b1.g_le, b1.walk, b1.k_opt, ?_, b1.not_end, ?_, b1.g_dom⟩
          · intro v hv _ w hw hadj
            by_cases hvu : v = u
            · subst hvu
              obtain ⟨m, r⟩ := b3 w ((mem_getNeighbors grid v w).mpr ⟨hw, hadj⟩)
              refine ⟨m, ?_⟩
              intro gv gw hgv hgw
              rw [hg0] at hgv
              exact r gv gw hgv hgw
            · exact b1.k_closed v hv (by simpa using hvu) w hw hadj
          · intro u' hu'
            exact absurd hu' (by simp)
        · rw [hK, List.length_append]
          simp only [List.length_singleton]
          have := nodup_passable_length grid st1.closedSet b1.k_nodup
            (fun p hp => b1.pass p (Or.inr hp))
          rw [hK, List.length_append] at this
          simp only [List.length_singleton] at this
          omega

/-- The function `runAStar` returns, and the path it returns is empty only when the end
cell cannot be reached and otherwise is a shortest way from the start cell to the end
cell. -/
theorem aStar_spec (grid : Grid) (s e : Pos) (hs : Passable grid s) :
    ∃ r, runAStar grid s e = some r ∧ PathPost grid s e r.path := by
  unfold runAStar
  by_cases hse : s = e
  · subst hse
    have hsort : ([s] : List Pos).insertionSort
        (fun a b => fScoreLe (mapSet [] s (heuristic s s)) a b = true) = s :: [] := by
      simp
    rw [show gridFuel = 701 + 1 from rfl, aStarLoop_end grid s 701 _ [] hsort]
    dsimp only
    rw [show gridFuel = 701 + 1 from rfl, buildPath_succ]
    refine ⟨_, rfl, fun h1 => by simp at h1, fun _ => ⟨⟨rfl, rfl, List.chain'_singleton _, ?_⟩, ?_⟩⟩
    · intro p hp
      rw [List.mem_singleton] at hp
      rw [hp]; exact hs
    · intro k _
      simp
  · apply aStarLoop_spec grid s e hse gridFuel
    · constructor <;> dsimp only
      · simp
      · simp
      · simp
      · intro v hv
        simp at hv
        rw [hv]; exact hs
      · simp [mapSet, mapGet]
      · exact Or.inr ⟨rfl, rfl⟩
      · intro v hv gv hg
        simp at hv
        subst hv
        simp [mapSet, mapGet] at hg ⊢
        omega
      · rfl
      · intro v hv hvs
        simp at hv
        exact absurd hv hvs
      · intro v gv hv hg
        simp at hv
        subst hv
        simp [mapSet, mapGet] at hg
        omega
      · intro v gv hv hg
        simp at hv
        subst hv
        simp [mapSet, mapGet] at hg
        rw [← hg]
        exact GridWalk.nil
      · simp
      · simp
      · simp
      · simp
      · intro v gv hg
        simp [mapSet, mapGet] at hg
        left
        simp [hg.1]
    · unfold gridFuel
      simp

/-! ## The contracts of the grid searches -/

theorem pathPost_valid (grid : Grid) (s e : Pos) (path : List Pos)
    (h : PathPost grid s e path) (hne : path ≠ []) : IsGridPath grid s e path :=
  (h.2 hne).1

theorem pathPost_shortest (grid : Grid) (s e : Pos) (path : List Pos)
    (h : PathPost grid s e path) (hne : path ≠ []) (l : List Pos)
    (hl : IsGridPath grid s e l) : path.length - 1 ≤ l.length - 1 := by
  have := (h.2 hne).2 (l.length - 1) (gridWalk_of_path grid l s e hl)
  omega

theorem pathPost_empty_iff (grid : Grid) (s e : Pos) (path : List Pos)
    (h : PathPost grid s e path) : path = [] ↔ ¬ ∃ l, IsGridPath grid s e l := by
  constructor
  · rintro hp ⟨l, hl⟩
    exact h.1 hp (l.length - 1) (gridWalk_of_path grid l s e hl)
  · intro hn
    by_contra hne
    exact hn ⟨path, (h.2 hne).1⟩

/-- A walk cannot have fewer moves than the Manhattan distance it covers. -/
theorem gridWalk_heuristic_le (grid : Grid) (s e : Pos) (v : Pos) (k : Nat)
    (hw : GridWalk grid s v k) : heuristic s e ≤ k + heuristic v e := by
  induction hw with
  | nil => omega
  | snoc _ hadj _ ih =>
    have := heuristic_adj _ _ e hadj
    omega

theorem heuristic_self (e : Pos) : heuristic e e = 0 := by
  unfold heuristic
  omega

/-- In a grid without walls there is a walk between two in-bounds cells with as many
moves as their Manhattan distance. -/
theorem gridWalk_manhattan (grid : Grid) (hg : ∀ r c, grid r c = false) (s : Pos)
    (hs : Passable grid s) (n : Nat) :
    ∀ e, Passable grid e → heuristic s e = n → GridWalk grid s e n := by
  induction n with
  | zero =>
    intro e _ hn
    have : s = e := by
      by_contra hne
      have := heuristic_pos s e hne
      omega
    rw [← this]
    exact GridWalk.nil
  | succ n ih =>
    intro e he hn
    unfold Passable at hs he
    unfold heuristic at hn
    by_cases h1 : s.row < e.row
    · refine GridWalk.snoc (ih ⟨e.row - 1, e.col⟩ ?_ ?_) ?_ he
      · unfold Passable; dsimp only; refine ⟨?_, ?_, ?_, ?_, hg _ _⟩ <;> omega
      · unfold heuristic; dsimp only; omega
      · unfold GridAdj; dsimp only; omega
    · by_cases h2 : e.row < s.row
      · refine GridWalk.snoc (ih ⟨e.row + 1, e.col⟩ ?_ ?_) ?_ he
        · unfold Passable; dsimp only; refine ⟨?_, ?_, ?_, ?_, hg _ _⟩ <;> omega
        · unfold heuristic; dsimp only; omega
        · unfold GridAdj; dsimp only; omega
      · by_cases h3 : s.col < e.col
        · refine GridWalk.snoc (ih ⟨e.row, e.col - 1⟩ ?_ ?_) ?_ he
          · unfold Passable; dsimp only; refine ⟨?_, ?_, ?_, ?_, hg _ _⟩ <;> omega
          · unfold heuristic; dsimp only; omega
          · unfold GridAdj; dsimp only; omega
        · refine GridWalk.snoc (ih ⟨e.row, e.col + 1⟩ ?_ ?_) ?_ he
          · unfold Passable; dsimp only; refine ⟨?_, ?_, ?_, ?_, hg _ _⟩ <;> omega
          · unfold heuristic; dsimp only; omega
          · unfold GridAdj; dsimp only; omega

/-- In a grid without walls the path of `runAStar` between two in-bounds cells has one
cell more than the Manhattan distance of the cells. -/
theorem aStar_open_length (grid : Grid) (hg : ∀ r c, grid r c = false) (s e : Pos)
    (hs : Passable grid s) (he : Passable grid e) :
    ∃ r, runAStar grid s e = some r ∧ r.path.length = heuristic s e + 1 := by
  obtain ⟨r, hr, hpost⟩ := aStar_spec grid s e hs
  refine ⟨r, hr, ?_⟩
  have hwalk := gridWalk_manhattan grid hg s hs (heuristic s e) e he rfl
  have hne : r.path ≠ [] := fun h => hpost.1 h _ hwalk
  obtain ⟨hpath, hmin⟩ := hpost.2 hne
  have h1 := hmin _ hwalk
  have h2 := gridWalk_heuristic_le grid s e e _ (gridWalk_of_path grid r.path s e hpath)
  rw [heuristic_self] at h2
  have h3 : 0 < r.path.length := List.length_pos.mpr hne
  omega

/-- C14: for every grid and in-bounds non-wall start cell, `runAStar` and the grid `runBFS`
return, and a non-empty `path` they return has the start cell first and the end cell
last, holds only in-bounds non-wall cells, and every two consecutive cells of it are
grid-adjacent. -/
theorem grid_path_valid (grid : Grid) (s e : Pos) (hs : Passable grid s) :
    (∃ r, runAStar grid s e = some r ∧ (r.path ≠ [] → IsGridPath grid s e r.path)) ∧
    (∃ r, PathfindingVisualizer.runBFS grid s e = some r ∧
      (r.path ≠ [] → IsGridPath grid s e r.path)) := by
  obtain ⟨r1, h1, p1⟩ := aStar_spec grid s e hs
  obtain ⟨r2, h2, p2⟩ := gridBfs_spec grid s e hs
  exact ⟨⟨r1, h1, pathPost_valid grid s e r1.path p1⟩,
    ⟨r2, h2, pathPost_valid grid s e r2.path p2⟩⟩

theorem grid_path_valid_witness :
    (∃ r, runAStar (fun _ _ => false) ⟨5, 5⟩ ⟨15, 30⟩ = some r ∧
      (r.path ≠ [] → IsGridPath (fun _ _ => false) ⟨5, 5⟩ ⟨15, 30⟩ r.path)) ∧
    (∃ r, PathfindingVisualizer.runBFS (fun _ _ => false) ⟨5, 5⟩ ⟨15, 30⟩ = some r ∧
      (r.path ≠ [] → IsGridPath (fun _ _ => false) ⟨5, 5⟩ ⟨15, 30⟩ r.path)) :=
  grid_path_valid (fun _ _ => false) ⟨5, 5⟩ ⟨15, 30⟩
    (by unfold Passable; decide)

/-- C15: for every grid and in-bounds non-wall start cell, the grid `runBFS` returns, and
a non-empty `path` it returns leads from the start cell to the end cell with the least
number of moves (cells minus 1) among all sequences of in-bounds non-wall cells that lead
from the start cell to the end cell by 4-directional moves. -/
theorem gridBfs_shortest (grid : Grid) (s e : Pos) (hs : Passable grid s) :
    ∃ r, PathfindingVisualizer.runBFS grid s e = some r ∧
      (r.path ≠ [] → IsGridPath grid s e r.path ∧
        ∀ l, IsGridPath grid s e l → r.path.length - 1 ≤ l.length - 1) := by
  obtain ⟨r, h, p⟩ := gridBfs_spec grid s e hs
  exact ⟨r, h, fun hne => ⟨pathPost_valid grid s e r.path p hne,
    pathPost_shortest grid s e r.path p hne⟩⟩

theorem gridBfs_shortest_witness :
    ∃ r, PathfindingVisualizer.runBFS (fun r c => decide (c = 10 ∧ r ≠ 0)) ⟨5, 5⟩ ⟨15, 30⟩
        = some r ∧
      (r.path ≠ [] →
        IsGridPath (fun r c => decide (c = 10 ∧ r ≠ 0)) ⟨5, 5⟩ ⟨15, 30⟩ r.path ∧
        ∀ l, IsGridPath (fun r c => decide (c = 10 ∧ r ≠ 0)) ⟨5, 5⟩ ⟨15, 30⟩ l →
          r.path.length - 1 ≤ l.length - 1) :=
  gridBfs_shortest (fun r c => decide (c = 10 ∧ r ≠ 0)) ⟨5, 5⟩ ⟨15, 30⟩
    (by unfold Passable; decide)

/-- C16: for every grid (any placement of walls) and in-bounds non-wall start cell, the
selections 'astar' and 'greedy' both hand over the result of `runAStar`, which returns;
a non-empty `path` of it leads from the start cell to the end cell with the least number
of moves (cells minus 1) among all sequences of in-bounds non-wall cells that lead from
the start cell to the end cell by 4-directional moves. -/
theorem aStar_shortest (grid : Grid) (s e : Pos) (hs : Passable grid s) :
    ∃ r, runAStar grid s e = some r ∧
      startPathfinding "astar" grid s e = some (some r) ∧
      startPathfinding "greedy" grid s e = some (some r) ∧
      (r.path ≠ [] → IsGridPath grid s e r.path ∧
        ∀ l, IsGridPath grid s e l → r.path.length - 1 ≤ l.length - 1) := by
  obtain ⟨r, h, p⟩ := aStar_spec grid s e hs
  refine ⟨r, h, ?_, ?_, fun hne => ⟨pathPost_valid grid s e r.path p hne,
    pathPost_shortest grid s e r.path p hne⟩⟩
  · rw [← h]; rfl
  · rw [← h]; rfl

theorem aStar_shortest_witness :
    ∃ r, runAStar (fun r c => decide (c = 10 ∧ r ≠ 0)) ⟨5, 5⟩ ⟨15, 30⟩ = some r ∧
      startPathfinding "astar" (fun r c => decide (c = 10 ∧ r ≠ 0)) ⟨5, 5⟩ ⟨15, 30⟩
        = some (some r) ∧
      startPathfinding "greedy" (fun r c => decide (c = 10 ∧ r ≠ 0)) ⟨5, 5⟩ ⟨15, 30⟩
        = some (some r) ∧
      (r.path ≠ [] →
        IsGridPath (fun r c => decide (c = 10 ∧ r ≠ 0)) ⟨5, 5⟩ ⟨15, 30⟩ r.path ∧
        ∀ l, IsGridPath (fun r c => decide (c = 10 ∧ r ≠ 0)) ⟨5, 5⟩ ⟨15, 30⟩ l →
          r.path.length - 1 ≤ l.length - 1) :=
  aStar_shortest (fun r c => decide (c = 10 ∧ r ≠ 0)) ⟨5, 5⟩ ⟨15, 30⟩
    (by unfold Passable; decide)

/-- C17: for every grid and in-bounds non-wall start cell, `runAStar` and the grid
`runBFS` return, and the `path` each returns is empty exactly when no sequence of
in-bounds non-wall cells leads from the start cell to the end cell by 4-directional
moves. -/
theorem grid_path_empty_iff_unreachable (grid : Grid) (s e : Pos) (hs : Passable grid s) :
    (∃ r, runAStar grid s e = some r ∧ (r.path = [] ↔ ¬ ∃ l, IsGridPath grid s e l)) ∧
    (∃ r, PathfindingVisualizer.runBFS grid s e = some r ∧
      (r.path = [] ↔ ¬ ∃ l, IsGridPath grid s e l)) := by
  obtain ⟨r1, h1, p1⟩ := aStar_spec grid s e hs
  obtain ⟨r2, h2, p2⟩ := gridBfs_spec grid s e hs
  exact ⟨⟨r1, h1, pathPost_empty_iff grid s e r1.path p1⟩,
    ⟨r2, h2, pathPost_empty_iff grid s e r2.path p2⟩⟩

theorem grid_path_empty_iff_unreachable_witness :
    (∃ r, runAStar (fun _ c => decide (c = 10)) ⟨5, 5⟩ ⟨15, 30⟩ = some r ∧
      (r.path = [] ↔ ¬ ∃ l, IsGridPath (fun _ c => decide (c = 10)) ⟨5, 5⟩ ⟨15, 30⟩ l)) ∧
    (∃ r, PathfindingVisualizer.runBFS (fun _ c => decide (c = 10)) ⟨5, 5⟩ ⟨15, 30⟩
        = some r ∧
      (r.path = [] ↔ ¬ ∃ l, IsGridPath (fun _ c => decide (c = 10)) ⟨5, 5⟩ ⟨15, 30⟩ l)) :=
  grid_path_empty_iff_unreachable (fun _ c => decide (c = 10)) ⟨5, 5⟩ ⟨15, 30⟩
    (by unfold Passable; decide)

/-- C18 (as stated, fails): in the grid without walls the path of `runAStar` from the cell
(5, 5) to its neighbour (5, 6) has 2 cells, while the Manhattan distance of the two cells
is 1. -/
theorem aStar_open_cells_ne_manhattan :
    (runAStar (fun _ _ => false) ⟨5, 5⟩ ⟨5, 6⟩).map (fun r => r.path)
      = some [⟨5, 5⟩, ⟨5, 6⟩] ∧
    heuristic ⟨5, 5⟩ ⟨5, 6⟩ = 1 := by
  refine ⟨by decide, by decide⟩

/-- C18 (amended): for every grid with no walls and every in-bounds start and end cell,
`runAStar` returns and the number of cells of the returned `path` is the Manhattan
distance of the two cells plus 1 (the path holds both the start and the end cell, so its
number of moves is the Manhattan distance). -/
theorem aStar_open_cells_eq_manhattan_succ (grid : Grid) (hg : ∀ r c, grid r c = false)
    (s e : Pos) (hs : Passable grid s) (he : Passable grid e) :
    ∃ r, runAStar grid s e = some r ∧
      r.path.length = (s.row - e.row).natAbs + (s.col - e.col).natAbs + 1 ∧
      r.path.length = heuristic s e + 1 := by
  obtain ⟨r, h, p⟩ := aStar_open_length grid hg s e hs he
  exact ⟨r, h, p, p⟩

theorem aStar_open_cells_eq_manhattan_succ_witness :
    ∃ r, runAStar (fun _ _ => false) ⟨5, 5⟩ ⟨15, 30⟩ = some r ∧
      r.path.length = ((5 : Int) - 15).natAbs + ((5 : Int) - 30).natAbs + 1 ∧
      r.path.length = heuristic ⟨5, 5⟩ ⟨15, 30⟩ + 1 :=
  aStar_open_cells_eq_manhattan_succ (fun _ _ => false) (fun _ _ => rfl) ⟨5, 5⟩ ⟨15, 30⟩
    (by unfold Passable; decide) (by unfold Passable; decide)

/-! ## Edge cases -/

/-- C21: for each of the six sorting algorithms and every array of length 0 or 1, the call
returns, with an empty step list, `comparisons = 0` and `swaps = 0`. -/
theorem sort_short_input (arr : List Int) (h : arr.length ≤ 1) :
    bubble arr = { steps := [], comparisons := 0, swaps := 0 } ∧
    selection arr = { steps := [], comparisons := 0, swaps := 0 } ∧
    insertion arr = { steps := [], comparisons := 0, swaps := 0 } ∧
    merge arr = some { steps := [], comparisons := 0, swaps := 0 } ∧
    quick arr = some { steps := [], comparisons := 0, swaps := 0 } ∧
    heap arr = some { steps := [], comparisons := 0, swaps := 0 } := by
  match arr, h with
  | [], _ => exact ⟨rfl, rfl, rfl, rfl, rfl, rfl⟩
  | [x], _ =>
    refine ⟨rfl, rfl, rfl, rfl, rfl, ?_⟩
    simp [heap, heapRun, SortState.init, SortState.result]

theorem sort_short_input_witness :
    bubble [7] = { steps := [], comparisons := 0, swaps := 0 } ∧
    selection [7] = { steps := [], comparisons := 0, swaps := 0 } ∧
    insertion [7] = { steps := [], comparisons := 0, swaps := 0 } ∧
    merge [7] = some { steps := [], comparisons := 0, swaps := 0 } ∧
    quick [7] = some { steps := [], comparisons := 0, swaps := 0 } ∧
    heap [7] = some { steps := [], comparisons := 0, swaps := 0 } :=
  sort_short_input [7] (by decide)

/-- C22 (the code departs from the claim): on the empty array `linear`, `binary` and
`interpolation` return zero steps and `found = -1`, but `jump` returns one step, which
records a check of index 0 and `comparisons = 1`. -/
theorem jump_empty_pushes_step (target : Int) :
    linear [] target = { steps := [], found := -1, comparisons := 0, array := none } ∧
    binary [] target =
      some { steps := [], found := -1, comparisons := 0, array := some [] } ∧
    interpolation [] target =
      some { steps := [], found := -1, comparisons := 0, array := some [] } ∧
    jump [] target = Outcome.returned
      { steps := [{ checking := some 0, range := none, comparisons := 1, found := -1 }],
        found := -1, comparisons := 1, array := some [] } := by
  refine ⟨rfl, rfl, rfl, rfl⟩

/-- C27: for every grid and cell `c`, `runAStar` and the grid `runBFS` with start = end =
`c` return `path = [c]` and exactly one step, which has `c` as `current`. -/
theorem start_eq_end_single_step (grid : Grid) (c : Pos) :
    runAStar grid c c =
      some { steps := [{ current := c, visited := [] }], path := [c] } ∧
    PathfindingVisualizer.runBFS grid c c =
      some { steps := [{ current := c, visited := [c] }], path := [c] } := by
  constructor
  · unfold runAStar
    have hsort : ([c] : List Pos).insertionSort
        (fun a b => fScoreLe (mapSet [] c (heuristic c c)) a b = true) = c :: [] := by
      simp
    rw [show gridFuel = 701 + 1 from rfl, aStarLoop_end grid c 701 _ [] hsort]
    dsimp only
    rw [show gridFuel = 701 + 1 from rfl, buildPath_succ]
    rfl
  · unfold PathfindingVisualizer.runBFS
    rw [show gridFuel = 701 + 1 from rfl, gridBfsLoop_end grid c 701 _ [] rfl]
    dsimp only
    rw [show gridFuel = 701 + 1 from rfl, buildPath_succ]
    rfl

/-- C30 (the code departs from the claim): `insertion` on `[1, 2]` returns
`comparisons = 1`, but its only step is the trailing step of the pass, whose `comparing`
is empty: the comparison `array[j] > key` that ends the `while` loop is counted (line 115)
and no step shows the two indices compared. -/
theorem insertion_counts_comparison_without_step :
    (insertion [1, 2]).comparisons = 1 ∧
    (insertion [1, 2]).steps =
      [{ array := [1, 2], comparing := [], sorted := some [0, 1], comparisons := 1,
         swaps := 0 }] := by
  refine ⟨by decide, by decide⟩

/-! ## The dispatchers and the grid operations -/

theorem startVisualization_default (p : GraphPage) (h1 : p.algorithm ≠ "bfs")
    (h2 : p.algorithm ≠ "dfs") (h3 : p.algorithm ≠ "dijkstra") :
    GraphVisualizer.startVisualization p =
      some { GraphVisualizer.resetVisualization p with
        toasts := p.toasts ++ ["Coming Soon"] } := by
  unfold GraphVisualizer.startVisualization
  have e : (GraphVisualizer.resetVisualization p).algorithm = p.algorithm := rfl
  dsimp only
  split
  · next h => exact absurd (e ▸ h) h1
  · next h => exact absurd (e ▸ h) h2
  · next h => exact absurd (e ▸ h) h3
  · rfl

theorem startPathfinding_switch_default (algorithm : String) (grid : Grid) (s e : Pos)
    (h1 : algorithm ≠ "astar") (h2 : algorithm ≠ "greedy") (h3 : algorithm ≠ "bfs") :
    startPathfinding algorithm grid s e = none := by
  unfold startPathfinding
  split
  · exact absurd rfl h1
  · exact absurd rfl h2
  · exact absurd rfl h3
  · rfl

/-- C28: the graph dispatcher for 'prim' or 'kruskal' and the pathfinding dispatcher for
'dfs' hand no trace to the playback: they leave the page as `resetVisualization` leaves
it (`isPlaying = false`, no call of `animateSteps` pending) and raise the toast
'Coming Soon'. For 'bfs', 'dfs', 'dijkstra' on the graph page, and for 'astar', 'greedy',
'bfs' on the pathfinding page with an in-bounds non-wall start cell, the trace of the
algorithm is produced and handed to `animateSteps` with `isPlaying = true`. -/
theorem unsupported_algorithm_coming_soon (p p' : GraphPage) (q q' : PathfindingPage)
    (hp : p.algorithm = "prim" ∨ p.algorithm = "kruskal") (hq : q.algorithm = "dfs")
    (hp' : p'.algorithm = "bfs" ∨ p'.algorithm = "dfs" ∨ p'.algorithm = "dijkstra")
    (hq' : q'.algorithm = "astar" ∨ q'.algorithm = "greedy" ∨ q'.algorithm = "bfs")
    (hs : Passable q'.grid q'.startPos) :
    (∃ r, GraphVisualizer.startVisualization p = some r ∧
      r = { GraphVisualizer.resetVisualization p with
        toasts := p.toasts ++ ["Coming Soon"] } ∧
      r.isPlaying = false ∧ r.animation = none) ∧
    (∃ r, PathfindingVisualizer.startPathfinding q = some r ∧
      r.isPlaying = false ∧ r.animation = none ∧ r.visitedCells = [] ∧ r.pathCells = [] ∧
      r.currentCell = none ∧ r.toasts = q.toasts ++ ["Coming Soon"]) ∧
    (∃ steps, GraphVisualizer.startVisualization p' =
      some (GraphVisualizer.animateSteps 0 steps
        { GraphVisualizer.resetVisualization p' with isPlaying := true }) ∧
      (p'.algorithm = "bfs" → GraphVisualizer.runBFS p'.edges p'.startNode = some steps) ∧
      (p'.algorithm = "dfs" → GraphVisualizer.runDFS p'.edges p'.startNode = some steps) ∧
      (p'.algorithm = "dijkstra" →
        GraphVisualizer.runDijkstra p'.nodes p'.edges p'.startNode = steps)) ∧
    (∃ result, PathfindingVisualizer.startPathfinding q' =
      some (PathfindingVisualizer.animateSteps 0 result.steps result.path
        { PathfindingVisualizer.resetVisualization q' with isPlaying := true }) ∧
      (q'.algorithm = "astar" ∨ q'.algorithm = "greedy" →
        runAStar q'.grid q'.startPos q'.endPos = some result) ∧
      (q'.algorithm = "bfs" →
        PathfindingVisualizer.runBFS q'.grid q'.startPos q'.endPos = some result)) := by
  refine ⟨?_, ?_, ?_, ?_⟩
  · refine ⟨_, startVisualization_default p ?_ ?_ ?_, rfl, rfl, rfl⟩ <;>
      rcases hp with h | h <;> rw [h] <;> decide
  · have e : (PathfindingVisualizer.resetVisualization q).algorithm = "dfs" := hq
    have h := startPathfinding_switch_default "dfs"
      (PathfindingVisualizer.resetVisualization q).grid
      (PathfindingVisualizer.resetVisualization q).startPos
      (PathfindingVisualizer.resetVisualization q).endPos (by decide) (by decide) (by decide)
    refine ⟨{ PathfindingVisualizer.resetVisualization q with
      toasts := q.toasts ++ ["Coming Soon"] }, ?_, ?_⟩
    · unfold PathfindingVisualizer.startPathfinding
      dsimp only
      rw [e, h]
      rfl
    · exact ⟨rfl, rfl, rfl, rfl, rfl, rfl⟩
  · have e : (GraphVisualizer.resetVisualization p').algorithm = p'.algorithm := rfl
    rcases hp' with h | h | h
    · obtain ⟨steps, _, hr, _⟩ := runBFS_component p'.edges p'.startNode
      refine ⟨steps, ?_, fun _ => hr, fun h' => ?_, fun h' => ?_⟩
      · unfold GraphVisualizer.startVisualization
        dsimp only
        rw [e, h]
        show Option.map _ (GraphVisualizer.runBFS p'.edges p'.startNode) = _
        rw [hr]; rfl
      · rw [h] at h'; exact absurd h' (by decide)
      · rw [h] at h'; exact absurd h' (by decide)
    · obtain ⟨steps, _, hr, _⟩ := runDFS_component p'.edges p'.startNode
      refine ⟨steps, ?_, fun h' => ?_, fun _ => hr, fun h' => ?_⟩
      · unfold GraphVisualizer.startVisualization
        dsimp only
        rw [e, h]
        show Option.map _ (GraphVisualizer.runDFS p'.edges p'.startNode) = _
        rw [hr]; rfl
      · rw [h] at h'; exact absurd h' (by decide)
      · rw [h] at h'; exact absurd h' (by decide)
    · refine ⟨GraphVisualizer.runDijkstra p'.nodes p'.edges p'.startNode, ?_, fun h' => ?_,
        fun h' => ?_, fun _ => rfl⟩
      · unfold GraphVisualizer.startVisualization
        dsimp only
        rw [e, h]
        rfl
      · rw [h] at h'; exact absurd h' (by decide)
      · rw [h] at h'; exact absurd h' (by decide)
  · have e : (PathfindingVisualizer.resetVisualization q').algorithm = q'.algorithm := rfl
    have eg : (PathfindingVisualizer.resetVisualization q').grid = q'.grid := rfl
    have es : (PathfindingVisualizer.resetVisualization q').startPos = q'.startPos := rfl
    have ee : (PathfindingVisualizer.resetVisualization q').endPos = q'.endPos := rfl
    rcases hq' with h | h | h
    · obtain ⟨r, hr, _⟩ := aStar_spec q'.grid q'.startPos q'.endPos hs
      refine ⟨r, ?_, fun _ => hr, fun h' => ?_⟩
      · unfold PathfindingVisualizer.startPathfinding
        dsimp only
        rw [e, eg, es, ee, h]
        have : startPathfinding "astar" q'.grid q'.startPos q'.endPos = some (some r) := by
          rw [← hr]; rfl
        rw [this]
      · rw [h] at h'; exact absurd h' (by decide)
    · obtain ⟨r, hr, _⟩ := aStar_spec q'.grid q'.startPos q'.endPos hs
      refine ⟨r, ?_, fun _ => hr, fun h' => ?_⟩
      · unfold PathfindingVisualizer.startPathfinding
        dsimp only
        rw [e, eg, es, ee, h]
        have : startPathfinding "greedy" q'.grid q'.startPos q'.endPos = some (some r) := by
          rw [← hr]; rfl
        rw [this]
      · rw [h] at h'; exact absurd h' (by decide)
    · obtain ⟨r, hr, _⟩ := gridBfs_spec q'.grid q'.startPos q'.endPos hs
      refine ⟨r, ?_, fun h' => ?_, fun _ => hr⟩
      · unfold PathfindingVisualizer.startPathfinding
        dsimp only
        rw [e, eg, es, ee, h]
        have : startPathfinding "bfs" q'.grid q'.startPos q'.endPos = some (some r) := by
          rw [← hr]; rfl
        rw [this]
      · rw [h] at h'
        rcases h' with h' | h' <;> exact absurd h' (by decide)

theorem unsupported_algorithm_coming_soon_witness :
    (∃ r, GraphVisualizer.startVisualization (GraphVisualizer.pathGraphPage "prim") = some r ∧
      r = { GraphVisualizer.resetVisualization (GraphVisualizer.pathGraphPage "prim") with
        toasts := (GraphVisualizer.pathGraphPage "prim").toasts ++ ["Coming Soon"] } ∧
      r.isPlaying = false ∧ r.animation = none) ∧
    (∃ r, PathfindingVisualizer.startPathfinding
        { PathfindingVisualizer.mounted with algorithm := "dfs" } = some r ∧
      r.isPlaying = false ∧ r.animation = none ∧ r.visitedCells = [] ∧ r.pathCells = [] ∧
      r.currentCell = none ∧
      r.toasts = ({ PathfindingVisualizer.mounted with algorithm := "dfs" } :
        PathfindingPage).toasts ++ ["Coming Soon"]) ∧
    (∃ steps, GraphVisualizer.startVisualization (GraphVisualizer.pathGraphPage "bfs") =
      some (GraphVisualizer.animateSteps 0 steps
        { GraphVisualizer.resetVisualization (GraphVisualizer.pathGraphPage "bfs") with
          isPlaying := true }) ∧
      ((GraphVisualizer.pathGraphPage "bfs").algorithm = "bfs" →
        GraphVisualizer.runBFS (GraphVisualizer.pathGraphPage "bfs").edges
          (GraphVisualizer.pathGraphPage "bfs").startNode = some steps) ∧
      ((GraphVisualizer.pathGraphPage "bfs").algorithm = "dfs" →
        GraphVisualizer.runDFS (GraphVisualizer.pathGraphPage "bfs").edges
          (GraphVisualizer.pathGraphPage "bfs").startNode = some steps) ∧
      ((GraphVisualizer.pathGraphPage "bfs").algorithm = "dijkstra" →
        GraphVisualizer.runDijkstra (GraphVisualizer.pathGraphPage "bfs").nodes
          (GraphVisualizer.pathGraphPage "bfs").edges
          (GraphVisualizer.pathGraphPage "bfs").startNode = steps)) ∧
    (∃ result, PathfindingVisualizer.startPathfinding PathfindingVisualizer.mounted =
      some (PathfindingVisualizer.animateSteps 0 result.steps result.path
        { PathfindingVisualizer.resetVisualization PathfindingVisualizer.mounted with
          isPlaying := true }) ∧
      (PathfindingVisualizer.mounted.algorithm = "astar" ∨
          PathfindingVisualizer.mounted.algorithm = "greedy" →
        runAStar PathfindingVisualizer.mounted.grid PathfindingVisualizer.mounted.startPos
          PathfindingVisualizer.mounted.endPos = some result) ∧
      (PathfindingVisualizer.mounted.algorithm = "bfs" →
        PathfindingVisualizer.runBFS PathfindingVisualizer.mounted.grid
          PathfindingVisualizer.mounted.startPos PathfindingVisualizer.mounted.endPos
          = some result)) :=
  unsupported_algorithm_coming_soon (GraphVisualizer.pathGraphPage "prim")
    (GraphVisualizer.pathGraphPage "bfs")
    { PathfindingVisualizer.mounted with algorithm := "dfs" } PathfindingVisualizer.mounted
    (Or.inl rfl) rfl (Or.inl rfl) (Or.inl rfl) (by unfold Passable; decide)

/-- C29 (the code departs from the claim): on the mounted page, a click on the cell (0, 0)
makes it a wall, and after the button 'Set Start' a click on the same cell places the
start there, so the start cell is a wall: `handleCellClick` does not look at `isWall`
when it places the start (lines 91-93), nor when it places the end (lines 94-96). -/
theorem start_placed_on_wall :
    (PathfindingVisualizer.handleCellClick 0 0
      (PathfindingVisualizer.setIsPlacing (some "start")
        (PathfindingVisualizer.handleCellClick 0 0 PathfindingVisualizer.mounted))).startPos
      = { row := 0, col := 0 } ∧
    (PathfindingVisualizer.handleCellClick 0 0
      (PathfindingVisualizer.setIsPlacing (some "start")
        (PathfindingVisualizer.handleCellClick 0 0 PathfindingVisualizer.mounted))).grid 0 0
      = true := by
  refine ⟨by decide, by decide⟩

/-! ## The `visited` of the steps of a graph traversal -/

theorem traceInv_nil : TraceInv [] [] := by
  refine ⟨rfl, ?_, by simp⟩
  intro k step h
  simp at h

/-- Adding an unvisited node to `visited` and pushing a step that shows the new set keeps
`TraceInv`. -/
theorem traceInv_push (visited : List Nat) (steps : List GraphStep) (n : Nat)
    (d : Option (List (Nat × Dist))) (h : TraceInv visited steps) (hn : n ∉ visited) :
    TraceInv (visited ++ [n])
      (steps ++ [{ node := n, visited := visited ++ [n], distances := d }]) := by
  obtain ⟨h1, h2, h3⟩ := h
  refine ⟨by simp [h1], ?_, ?_⟩
  · intro k step hk
    by_cases hlt : k < steps.length
    · rw [List.getElem?_append_left hlt] at hk
      rw [h2 k step hk, List.take_append_of_le_length (by omega)]
    · have hk' : k = steps.length := by
        by_contra hne
        have : steps.length + 1 ≤ k := by omega
        rw [List.getElem?_eq_none (by simp; omega)] at hk
        simp at hk
      subst hk'
      simp at hk
      subst hk
      simp [h1]
  · rw [List.map_append, ← h1]
    exact List.Nodup.append (h1 ▸ h3) (List.nodup_singleton n) (by simpa using hn)

theorem setAdd_of_not_mem (visited : List Nat) (n : Nat) (hn : n ∉ visited) :
    setAdd visited n = visited ++ [n] := by
  unfold setAdd
  rw [if_neg hn]

theorem bfsVisit_trace (st : BfsState) (w : Nat) (h : TraceInv st.visited st.steps) :
    TraceInv (bfsVisit st w).visited (bfsVisit st w).steps := by
  unfold bfsVisit
  by_cases hw : w ∉ st.visited
  · rw [if_pos hw]
    dsimp only
    rw [setAdd_of_not_mem st.visited w hw]
    exact traceInv_push st.visited st.steps w none h hw
  · rw [if_neg hw]
    exact h

theorem bfsFold_trace (l : List Nat) : ∀ st : BfsState, TraceInv st.visited st.steps →
    TraceInv (l.foldl bfsVisit st).visited (l.foldl bfsVisit st).steps := by
  induction l with
  | nil => intro st h; exact h
  | cons w l ih =>
    intro st h
    rw [List.foldl_cons]
    exact ih _ (bfsVisit_trace st w h)

theorem bfsLoop_trace (edges : List Edge) (fuel : Nat) : ∀ st st' : BfsState,
    TraceInv st.visited st.steps → bfsLoop edges fuel st = some st' →
    TraceInv st'.visited st'.steps := by
  induction fuel with
  | zero =>
    intro st st' h e
    cases hq : st.queue with
    | nil =>
      rw [bfsLoop_nil edges 0 st hq] at e
      injection e with e
      rw [← e]; exact h
    | cons c rest =>
      rw [bfsLoop] at e
      simp [hq] at e
  | succ fuel ih =>
    intro st st' h e
    cases hq : st.queue with
    | nil =>
      rw [bfsLoop_nil edges _ st hq] at e
      injection e with e
      rw [← e]; exact h
    | cons c rest =>
      rw [bfsLoop_cons edges fuel st c rest hq] at e
      exact ih _ st' (bfsFold_trace (unvisitedNeighbors edges c st.visited)
        { visited := st.visited, queue := rest, steps := st.steps } h) e

theorem runBFS_trace (edges : List Edge) (s : Nat) :
    ∃ steps, GraphVisualizer.runBFS edges s = some steps ∧ VisitedTrace steps := by
  obtain ⟨steps, _, hr, _⟩ := runBFS_component edges s
  refine ⟨steps, hr, ?_⟩
  unfold GraphVisualizer.runBFS at hr
  dsimp only at hr
  cases hl : bfsLoop edges (2 * edges.length + 2)
      { visited := setAdd [] s, queue := [s],
        steps := [{ node := s, visited := [s], distances := none }] } with
  | none => rw [hl] at hr; simp at hr
  | some st' =>
    rw [hl] at hr
    have e : st'.steps = steps := by simpa using hr
    rw [← e]
    refine (bfsLoop_trace edges _ _ st' ?_ hl).2
    have := traceInv_push [] [] s none traceInv_nil (by simp)
    simpa [setAdd] using this

theorem dfsFold_trace (edges : List Edge) (fuel : Nat)
    (ih : ∀ (node : Nat) (st st' : DfsState), node ∉ st.visited →
      TraceInv st.visited st.steps → dfsRecursive edges fuel node st = some st' →
      TraceInv st'.visited st'.steps) (l : List Nat) :
    ∀ st st' : DfsState, TraceInv st.visited st.steps →
      l.foldlM (fun st neighbor =>
          if neighbor ∉ st.visited then dfsRecursive edges fuel neighbor st else some st) st
        = some st' →
      TraceInv st'.visited st'.steps := by
  induction l with
  | nil =>
    intro st st' h e
    simp at e
    rw [← e]; exact h
  | cons w l ihl =>
    intro st st' h e
    rw [List.foldlM_cons] at e
    by_cases hw : w ∉ st.visited
    · rw [if_pos hw] at e
      cases hr : dfsRecursive edges fuel w st with
      | none => rw [hr] at e; simp at e
      | some st1 =>
        rw [hr] at e
        exact ihl st1 st' (ih w st st1 hw h hr) e
    · rw [if_neg hw] at e
      exact ihl st st' h e

theorem dfsRecursive_trace (edges : List Edge) (fuel : Nat) :
    ∀ (node : Nat) (st st' : DfsState), node ∉ st.visited →
      TraceInv st.visited st.steps → dfsRecursive edges fuel node st = some st' →
      TraceInv st'.visited st'.steps := by
  induction fuel with
  | zero =>
    intro node st st' _ _ e
    simp [dfsRecursive] at e
  | succ fuel ih =>
    intro node st st' hn h e
    rw [dfsRecursive] at e
    dsimp only at e
    rw [setAdd_of_not_mem st.visited node hn] at e
    exact dfsFold_trace edges fuel ih _ _ st'
      (traceInv_push st.visited st.steps node none h hn) e

theorem runDFS_trace (edges : List Edge) (s : Nat) :
    ∃ steps, GraphVisualizer.runDFS edges s = some steps ∧ VisitedTrace steps := by
  obtain ⟨steps, _, hr, _⟩ := runDFS_component edges s
  refine ⟨steps, hr, ?_⟩
  unfold GraphVisualizer.runDFS at hr
  cases hl : dfsRecursive edges (2 * edges.length + 2) s { visited := [], steps := [] } with
  | none => rw [hl] at hr; simp at hr
  | some st' =>
    rw [hl] at hr
    have e : st'.steps = steps := by simpa using hr
    rw [← e]
    exact (dfsRecursive_trace edges _ s _ st' (by simp) traceInv_nil hl).2

theorem dijkstraLoop_trace (nodes : List Nat) (edges : List Edge) (left : Nat) :
    ∀ st : DijkstraState, TraceInv st.visited st.steps →
      TraceInv (dijkstraLoop nodes edges left st).visited
        (dijkstraLoop nodes edges left st).steps := by
  induction left with
  | zero => intro st h; exact h
  | succ left ih =>
    intro st h
    rw [dijkstraLoop_succ]
    rcases select_spec st.distances st.visited nodes with
      ⟨h1, _, _⟩ | ⟨u, du, h1, _, _, h4, _, _⟩
    · rw [h1]; exact h
    · rw [h1]
      apply ih
      obtain ⟨ev, es, _⟩ := dijkstraVisit_fields edges st u h4
      rw [ev, es]
      exact traceInv_push st.visited st.steps u _ h h4

/-- C25: for every graph and start node, in the traces of `runBFS`, `runDFS` (which both
return) and `runDijkstra` the `visited` of step `k` is the list of the `node` values of
the steps 0..k in order, and no node is the `node` of two different steps. -/
theorem graph_visited_is_nodes_so_far (nodes : List Nat) (edges : List Edge)
    (startNode : Nat) :
    (∃ steps, GraphVisualizer.runBFS edges startNode = some steps ∧
      (∀ k step, steps[k]? = some step →
        step.visited = (steps.take (k + 1)).map (·.node)) ∧
      (steps.map (·.node)).Nodup) ∧
    (∃ steps, GraphVisualizer.runDFS edges startNode = some steps ∧
      (∀ k step, steps[k]? = some step →
        step.visited = (steps.take (k + 1)).map (·.node)) ∧
      (steps.map (·.node)).Nodup) ∧
    (∀ k step, (GraphVisualizer.runDijkstra nodes edges startNode)[k]? = some step →
      step.visited =
        ((GraphVisualizer.runDijkstra nodes edges startNode).take (k + 1)).map (·.node)) ∧
    ((GraphVisualizer.runDijkstra nodes edges startNode).map (·.node)).Nodup := by
  refine ⟨runBFS_trace edges startNode, runDFS_trace edges startNode, ?_⟩
  exact (dijkstraLoop_trace nodes edges nodes.length _ traceInv_nil).2

/-! ## Dijkstra and the nodes out of reach -/

theorem walk_reach (edges : List Edge) (s v d : Nat) (h : Walk edges s v d) :
    Reach edges s v := by
  induction h with
  | nil => exact Relation.ReflTransGen.refl
  | cons e _ he hinc ih => exact Relation.ReflTransGen.tail ih ⟨e, he, hinc⟩

theorem reach_walk (edges : List Edge) (s v : Nat) (h : Reach edges s v) :
    ∃ d, Walk edges s v d := by
  induction h with
  | refl => exact ⟨0, Walk.nil⟩
  | tail _ hadj ih =>
    obtain ⟨d, hd⟩ := ih
    obtain ⟨e, he, hinc⟩ := hadj
    exact ⟨d + e.weight, Walk.cons e hd he hinc⟩

theorem reach_mem_nodes (nodes : List Nat) (edges : List Edge) (s v : Nat) (hs : s ∈ nodes)
    (hend : ∀ e ∈ edges, e.src ∈ nodes ∧ e.dst ∈ nodes) (h : Reach edges s v) :
    v ∈ nodes := by
  induction h with
  | refl => exact hs
  | tail _ hadj _ =>
    obtain ⟨e, he, hinc⟩ := hadj
    rcases hinc with h | h
    · rw [← h.2]; exact (hend e he).2
    · rw [← h.2]; exact (hend e he).1

/-- The outer loop of `runDijkstra` keeps `DijSnap`. -/
theorem dijkstraLoop_snap (nodes : List Nat) (edges : List Edge) (s : Nat) (left : Nat) :
    ∀ st : DijkstraState, DijInv nodes edges s st → DijSnap nodes edges s st →
      DijSnap nodes edges s (dijkstraLoop nodes edges left st) := by
  induction left with
  | zero => intro st _ h; exact h
  | succ left ih =>
    intro st h hsn
    rw [dijkstraLoop_succ]
    rcases select_spec st.distances st.visited nodes with
      ⟨h1, _, _⟩ | ⟨u, du, h1, _, h3, h4, h5, h6⟩
    · rw [h1]; exact hsn
    · rw [h1]
      refine ih _ (dijkstraVisit_inv nodes edges s st u du h h4 h5 h6) ?_
      obtain ⟨_, es, _⟩ := dijkstraVisit_fields edges st u h4
      constructor
      · intro step hstep v hv
        rw [es] at hstep
        rcases List.mem_append.mp hstep with h' | h'
        · exact hsn.keys step h' v hv
        · rw [List.mem_singleton] at h'
          rw [h']
          have := (h.keys v).mpr hv
          cases hm : mapGet st.distances v with
          | none => rw [hm] at this; simp at this
          | some x => exact ⟨x, hm⟩
      · intro step hstep v d hd
        rw [es] at hstep
        rcases List.mem_append.mp hstep with h' | h'
        · exact hsn.fin_reach step h' v d hd
        · rw [List.mem_singleton] at h'
          rw [h'] at hd
          exact walk_reach edges s v d (h.walk v d hd)
      · intro step hstep
        rw [es] at hstep
        rcases List.mem_append.mp hstep with h' | h'
        · exact hsn.node_reach step h'
        · rw [List.mem_singleton] at h'
          rw [h']
          exact walk_reach edges s u du (h.walk u du h5)

/-- The outer loop of `runDijkstra` ends because no unvisited node has a finite distance,
or after it has visited a node in each of its iterations. -/
theorem dijkstraLoop_done (nodes : List Nat) (edges : List Edge) (left : Nat) :
    ∀ st : DijkstraState,
      (nodes.foldl (selectMin (dijkstraLoop nodes edges left st).distances
        (dijkstraLoop nodes edges left st).visited) (none, none)).1 = none ∨
      (dijkstraLoop nodes edges left st).visited.length = st.visited.length + left := by
  induction left with
  | zero => intro st; exact Or.inr rfl
  | succ left ih =>
    intro st
    rw [dijkstraLoop_succ]
    rcases select_spec st.distances st.visited nodes with
      ⟨h1, _, _⟩ | ⟨u, du, h1, _, h3, h4, h5, h6⟩
    · rw [h1]; exact Or.inl h1
    · rw [h1]
      rcases ih (dijkstraVisit edges st u) with h | h
      · exact Or.inl h
      · right
        dsimp only
        rw [h, (dijkstraVisit_fields edges st u h4).1, List.length_append]
        simp only [List.length_singleton]
        omega

/-- When the start node and the endpoints of all edges are nodes, the nodes that
`runDijkstra` has visited when its loop ends are the nodes reachable from the start
node. -/
theorem dijkstra_visited_eq_reach (nodes : List Nat) (edges : List Edge) (s : Nat)
    (hs : s ∈ nodes) (hend : ∀ e ∈ edges, e.src ∈ nodes ∧ e.dst ∈ nodes) (v : Nat) :
    v ∈ (GraphVisualizer.runDijkstra nodes edges s).map (·.node) ↔ Reach edges s v := by
  have hinit := dijkstra_init_inv nodes edges s
  have hshort0 : DijShort edges s
      { distances := nodes.foldl (initDistance s) [], visited := [], steps := [] } := by
    refine ⟨?_, by simp, by simp, by simp⟩
    rw [mapGet_initDistances]
    simp [hs]
  have hsnap0 : DijSnap nodes edges s
      { distances := nodes.foldl (initDistance s) [], visited := [], steps := [] } :=
    ⟨by simp, by simp, by simp⟩
  have hinv := dijkstraLoop_inv nodes edges s nodes.length _ hinit
  have hshort := dijkstraLoop_short nodes edges s hs hend nodes.length _ hinit hshort0
  have hsnap := dijkstraLoop_snap nodes edges s nodes.length _ hinit hsnap0
  have htrace := dijkstraLoop_trace nodes edges nodes.length
    { distances := nodes.foldl (initDistance s) [], visited := [], steps := [] } traceInv_nil
  have hdone := dijkstraLoop_done nodes edges nodes.length
    { distances := nodes.foldl (initDistance s) [], visited := [], steps := [] }
  unfold GraphVisualizer.runDijkstra
  generalize dijkstraLoop nodes edges nodes.length
    { distances := nodes.foldl (initDistance s) [], visited := [], steps := [] } = st'
    at hinv hshort hsnap htrace hdone ⊢
  constructor
  · intro hv
    obtain ⟨step, hstep, hn⟩ := List.mem_map.mp hv
    rw [← hn]
    exact hsnap.node_reach step hstep
  · intro hr
    rw [← htrace.1]
    obtain ⟨d, hw⟩ := reach_walk edges s v hr
    rcases hdone with hsel | hlen
    · rcases dijkstra_frontier nodes edges s st' hinv hshort hs hend v d hw with
        h | ⟨x, hx1, hx2, dx, hx3, _⟩
      · exact h
      · exfalso
        rcases select_spec st'.distances st'.visited nodes with
          ⟨_, _, h3⟩ | ⟨u, du, h1, _⟩
        · exact h3 x hx1 hx2 dx hx3
        · rw [hsel] at h1; simp at h1
    · have hsub : ∀ x ∈ st'.visited, x ∈ nodes := by
        intro x hx
        obtain ⟨dx, hdx⟩ := hinv.vis_fin x hx
        exact (hinv.keys x).mp (by rw [hdx]; rfl)
      have hnd : st'.visited.Nodup := by
        rw [htrace.1]; exact htrace.2.2
      have hperm := (List.subperm_of_subset hnd hsub).perm_of_length_le (by
        simp only [List.length_nil, Nat.zero_add] at hlen
        omega)
      exact hperm.symm.subset (reach_mem_nodes nodes edges s v hs hend hr)

/-- C26: when the start node and the endpoints of all edges are nodes (whatever the
weights, so for positive weights), a node that is not reachable from the start node has
distance `Infinity` in the `distances` of every step of `runDijkstra`; the `node` values of
the steps are exactly the nodes reachable from the start node (so an unreachable node is
never the `node` of a step), and no node is the `node` of two steps. -/
theorem dijkstra_unreachable_infinite (nodes : List Nat) (edges : List Edge)
    (startNode : Nat) (hs : startNode ∈ nodes)
    (hend : ∀ e ∈ edges, e.src ∈ nodes ∧ e.dst ∈ nodes) :
    (∀ step ∈ GraphVisualizer.runDijkstra nodes edges startNode, ∀ v ∈ nodes,
      ¬ Reach edges startNode v → step.distanceOf v = some none ∧ step.node ≠ v) ∧
    (∀ v, v ∈ (GraphVisualizer.runDijkstra nodes edges startNode).map (·.node) ↔
      Reach edges startNode v) ∧
    ((GraphVisualizer.runDijkstra nodes edges startNode).map (·.node)).Nodup := by
  have hsnap0 : DijSnap nodes edges startNode
      { distances := nodes.foldl (initDistance startNode) [], visited := [], steps := [] } :=
    ⟨by simp, by simp, by simp⟩
  have hsnap := dijkstraLoop_snap nodes edges startNode nodes.length _
    (dijkstra_init_inv nodes edges startNode) hsnap0
  refine ⟨?_, dijkstra_visited_eq_reach nodes edges startNode hs hend,
    (dijkstraLoop_trace nodes edges nodes.length _ traceInv_nil).2.2⟩
  intro step hstep v hv hnr
  refine ⟨?_, fun h => hnr (h ▸ hsnap.node_reach step hstep)⟩
  obtain ⟨x, hx⟩ := hsnap.keys step hstep v hv
  cases x with
  | none => exact hx
  | some d => exact absurd (hsnap.fin_reach step hstep v d hx) hnr

theorem dijkstra_unreachable_infinite_witness :
    (∀ step ∈ GraphVisualizer.runDijkstra [0, 1, 2, 3] [⟨0, 1, 4⟩, ⟨2, 3, 1⟩] 0,
      ∀ v ∈ [0, 1, 2, 3], ¬ Reach [⟨0, 1, 4⟩, ⟨2, 3, 1⟩] 0 v →
        step.distanceOf v = some none ∧ step.node ≠ v) ∧
    (∀ v, v ∈ (GraphVisualizer.runDijkstra [0, 1, 2, 3] [⟨0, 1, 4⟩, ⟨2, 3, 1⟩] 0).map
        (·.node) ↔ Reach [⟨0, 1, 4⟩, ⟨2, 3, 1⟩] 0 v) ∧
    ((GraphVisualizer.runDijkstra [0, 1, 2, 3] [⟨0, 1, 4⟩, ⟨2, 3, 1⟩] 0).map
      (·.node)).Nodup :=
  dijkstra_unreachable_infinite [0, 1, 2, 3] [⟨0, 1, 4⟩, ⟨2, 3, 1⟩] 0 (by decide) (by decide)

/-! ## The order of discovery of `runBFS` -/

/-- While the node `c` is expanded, a walk from the start node that ends outside the
visited nodes has more edges than the hop distance of `c`. -/
theorem bfsLayer_frontier (edges : List Edge) (s : Nat) (depth : Nat → Nat) (c : Nat)
    (st : BfsState) (hinv : BfsLayerInv edges s depth (some c) st)
    (v k : Nat) (hw : HopWalk edges s v k) :
    v ∈ st.visited ∨ depth c + 1 ≤ k := by
  induction hw with
  | nil => exact Or.inl hinv.start_mem
  | @snoc v w k hw1 hadj ih =>
    rcases ih with hv | hk
    · by_cases hwv : w ∈ st.visited
      · exact Or.inl hwv
      · right
        have hmin := hinv.minimal v hv k hw1
        by_cases hq : v ∈ st.queue
        · have := (hinv.q_cur c rfl).2.2 v hq
          omega
        · by_cases hvc : v = c
          · subst hvc; omega
          · exact absurd (hinv.closed v hv hq (by simpa using hvc) w hadj) hwv
    · exact Or.inr (by omega)

/-- One iteration of the neighbour loop of `runBFS` keeps the invariant, for a suitably
extended `depth`. -/
theorem bfsVisit_layer (edges : List Edge) (s : Nat) (depth : Nat → Nat) (c : Nat)
    (st : BfsState) (w : Nat) (hinv : BfsLayerInv edges s depth (some c) st)
    (hadj : Adj edges c w) :
    ∃ depth', BfsLayerInv edges s depth' (some c) (bfsVisit st w) ∧
      w ∈ (bfsVisit st w).visited ∧ ∀ v ∈ st.visited, v ∈ (bfsVisit st w).visited := by
  unfold bfsVisit
  by_cases hw : w ∉ st.visited
  · rw [if_pos hw]
    dsimp only
    rw [setAdd_of_not_mem st.visited w hw]
    obtain ⟨hc, hcb, hcq⟩ := hinv.q_cur c rfl
    have hdep : ∀ v ∈ st.visited, Function.update depth w (depth c + 1) v = depth v := by
      intro v hv
      have : v ≠ w := fun h => hw (h ▸ hv)
      simp [Function.update, this]
    have hdw : Function.update depth w (depth c + 1) w = depth c + 1 := by simp
    have hall : ∀ b ∈ st.visited ++ [w],
        Function.update depth w (depth c + 1) b ≤ depth c + 1 := by
      intro b hb
      rcases List.mem_append.mp hb with h | h
      · rw [hdep b h]; exact hcb b h
      · rw [List.mem_singleton] at h
        rw [h, hdw]
    have hqall : ∀ q ∈ st.queue ++ [w],
        depth c ≤ Function.update depth w (depth c + 1) q := by
      intro q hq
      rcases List.mem_append.mp hq with h | h
      · rw [hdep q (hinv.queue_sub q h)]; exact hcq q h
      · rw [List.mem_singleton] at h
        rw [h, hdw]; omega
    refine ⟨Function.update depth w (depth c + 1), ⟨?_, ?_, ?_, ?_, ?_, ?_, ?_, ?_, ?_, ?_,
      ?_⟩, by simp, fun v hv => by simp [hv]⟩
    · simp [hinv.start_mem]
    · rw [hdep s hinv.start_mem]; exact hinv.depth_start
    · intro q hq
      rcases List.mem_append.mp hq with h | h
      · exact List.mem_append_left _ (hinv.queue_sub q h)
      · exact List.mem_append_right _ h
    · intro v hv
      rcases List.mem_append.mp hv with h | h
      · rw [hdep v h]; exact hinv.hop v h
      · rw [List.mem_singleton] at h
        rw [h, hdw]
        exact HopWalk.snoc (hinv.hop c hc) hadj
    · intro v hv k hk
      rcases List.mem_append.mp hv with h | h
      · rw [hdep v h]; exact hinv.minimal v h k hk
      · rw [List.mem_singleton] at h
        rw [h, hdw]
        rw [h] at hk
        rcases bfsLayer_frontier edges s depth c st hinv w k hk with h1 | h1
        · exact absurd h1 hw
        · exact h1
    · intro v hv hq hne x hx
      have hvw : v ≠ w := fun h => hq (by simp [h])
      have hv' : v ∈ st.visited := by
        rcases List.mem_append.mp hv with h | h
        · exact h
        · exact absurd (by simpa using h) hvw
      exact List.mem_append_left _
        (hinv.closed v hv' (fun h => hq (List.mem_append_left _ h)) hne x hx)
    · rw [List.pairwise_append]
      refine ⟨?_, List.pairwise_singleton _ _, ?_⟩
      · refine hinv.sorted.imp_of_mem ?_
        intro a b ha hb hab
        rw [hdep a ha, hdep b hb]
        exact hab
      · intro a ha b hb
        rw [List.mem_singleton] at hb
        rw [hb, hdw, hdep a ha]
        exact hcb a ha
    · rw [List.pairwise_append]
      refine ⟨?_, List.pairwise_singleton _ _, ?_⟩
      · refine hinv.q_sorted.imp_of_mem ?_
        intro a b ha hb hab
        rw [hdep a (hinv.queue_sub a ha), hdep b (hinv.queue_sub b hb)]
        exact hab
      · intro a ha b hb
        rw [List.mem_singleton] at hb
        rw [hb, hdw, hdep a (hinv.queue_sub a ha)]
        exact hcb a (hinv.queue_sub a ha)
    · intro a ha b hb
      have := hall b hb
      have := hqall a ha
      omega
    · intro c' hc'
      have : c' = c := by simpa using hc'.symm
      subst this
      rw [hdep c' hc]
      exact ⟨List.mem_append_left _ hc, hall, hqall⟩
    · intro i v hi hvs
      by_cases hlt : i < st.visited.length
      · rw [List.getElem?_append_left hlt] at hi
        obtain ⟨p, hp, hpa⟩ := hinv.pred i v hi hvs
        refine ⟨p, ?_, hpa⟩
        rw [List.take_append_of_le_length (by omega)]
        exact hp
      · have hi' : i = st.visited.length := by
          by_contra hne
          rw [List.getElem?_eq_none (by simp; omega)] at hi
          simp at hi
        subst hi'
        simp at hi
        subst hi
        exact ⟨c, by simp [hc], hadj⟩
  · rw [if_neg hw]
    exact ⟨depth, hinv, by simpa using hw, fun v hv => hv⟩

/-- The neighbour loop of `runBFS` keeps the invariant, for a suitably extended `depth`,
and leaves every neighbour visited. -/
theorem bfsFold_layer (edges : List Edge) (s c : Nat) (l : List Nat) :
    ∀ (depth : Nat → Nat) (st : BfsState), BfsLayerInv edges s depth (some c) st →
      (∀ w ∈ l, Adj edges c w) →
      ∃ depth', BfsLayerInv edges s depth' (some c) (l.foldl bfsVisit st) ∧
        (∀ w ∈ l, w ∈ (l.foldl bfsVisit st).visited) ∧
        ∀ v ∈ st.visited, v ∈ (l.foldl bfsVisit st).visited := by
  induction l with
  | nil =>
    intro depth st hinv _
    exact ⟨depth, hinv, fun w hw => absurd hw (List.not_mem_nil w), fun v hv => hv⟩
  | cons w l ih =>
    intro depth st hinv hl
    rw [List.foldl_cons]
    obtain ⟨d1, h1, m1, s1⟩ := bfsVisit_layer edges s depth c st w hinv
      (hl w (List.mem_cons_self w l))
    obtain ⟨d2, h2, m2, s2⟩ := ih d1 _ h1 (fun x hx => hl x (List.mem_cons_of_mem w hx))
    refine ⟨d2, h2, ?_, fun v hv => s2 v (s1 v hv)⟩
    intro x hx
    rcases List.mem_cons.mp hx with h | h
    · rw [h]; exact s2 w m1
    · exact m2 x h

/-- When the loop of `runBFS` returns, the invariant holds for the state it returns. -/
theorem bfsLoop_layer (edges : List Edge) (s : Nat) (fuel : Nat) :
    ∀ (depth : Nat → Nat) (st st' : BfsState), BfsLayerInv edges s depth none st →
      bfsLoop edges fuel st = some st' →
      ∃ depth', BfsLayerInv edges s depth' none st' := by
  induction fuel with
  | zero =>
    intro depth st st' h e
    cases hq : st.queue with
    | nil =>
      rw [bfsLoop_nil edges 0 st hq] at e
      injection e with e
      rw [← e]; exact ⟨depth, h⟩
    | cons c rest =>
      rw [bfsLoop] at e
      simp [hq] at e
  | succ fuel ih =>
    intro depth st st' h e
    cases hq : st.queue with
    | nil =>
      rw [bfsLoop_nil edges _ st hq] at e
      injection e with e
      rw [← e]; exact ⟨depth, h⟩
    | cons c rest =>
      rw [bfsLoop_cons edges fuel st c rest hq] at e
      have hcq : c ∈ st.queue := by rw [hq]; exact List.mem_cons_self _ _
      have hrest : ∀ q ∈ rest, q ∈ st.queue := by
        intro q hq'; rw [hq]; exact List.mem_cons_of_mem _ hq'
      have hsorted : (c :: rest).Pairwise (fun a b => depth a ≤ depth b) := by
        rw [← hq]; exact h.q_sorted
      have hinv0 : BfsLayerInv edges s depth (some c)
          { visited := st.visited, queue := rest, steps := st.steps } := by
        refine ⟨h.start_mem, h.depth_start, fun q hq' => h.queue_sub q (hrest q hq'), h.hop,
          h.minimal, ?_, h.sorted, (List.pairwise_cons.mp hsorted).2,
          fun a ha b hb => h.spread a (hrest a ha) b hb, ?_, h.pred⟩
        · intro v hv hnq hne w hw
          refine h.closed v hv ?_ (by simp) w hw
          rw [hq]
          intro hmem
          rcases List.mem_cons.mp hmem with h' | h'
          · exact hne (by rw [h'])
          · exact hnq h'
        · intro c' hc'
          have : c' = c := by simpa using hc'.symm
          subst this
          exact ⟨h.queue_sub c' hcq, fun b hb => h.spread c' hcq b hb,
            (List.pairwise_cons.mp hsorted).1⟩
      obtain ⟨d1, b1, b2, b3⟩ := bfsFold_layer edges s c
        (unvisitedNeighbors edges c st.visited) depth _ hinv0
        (fun w hw => ((mem_unvisitedNeighbors edges c st.visited w).mp hw).1)
      refine ih d1 _ st' ?_ e
      generalize (unvisitedNeighbors edges c st.visited).foldl bfsVisit
        { visited := st.visited, queue := rest, steps := st.steps } = st1 at b1 b2 b3 ⊢
      dsimp only at b3
      obtain ⟨hc1, hcb, hcq1⟩ := b1.q_cur c rfl
      refine ⟨b1.start_mem, b1.depth_start, b1.queue_sub, b1.hop, b1.minimal, ?_, b1.sorted,
        b1.q_sorted, b1.spread, by simp, b1.pred⟩
      intro v hv hnq _ w hw
      by_cases hvc : v = c
      · subst hvc
        by_cases hwv : w ∈ st.visited
        · exact b3 w hwv
        · exact b2 w ((mem_unvisitedNeighbors edges v st.visited w).mpr ⟨hw, hwv⟩)
      · exact b1.closed v hv hnq (by simpa using hvc) w hw

/-- C24: for every edge list and start node, `runBFS` returns a trace whose nodes appear in
non-decreasing order of hop distance from the start node (`depth` gives the hop distance
of every node of the trace), and every node of the trace other than the start node comes
after a node of the trace that it shares an edge with. -/
theorem bfs_layer_order (edges : List Edge) (startNode : Nat) :
    ∃ steps, GraphVisualizer.runBFS edges startNode = some steps ∧
      ∃ depth : Nat → Nat,
        (∀ step ∈ steps, IsHopDist edges startNode step.node (depth step.node)) ∧
        steps.Pairwise (fun a b => depth a.node ≤ depth b.node) ∧
        ∀ i step, steps[i]? = some step → step.node ≠ startNode →
          ∃ p ∈ steps.take i, Adj edges p.node step.node := by
  obtain ⟨steps, _, hr, _⟩ := runBFS_component edges startNode
  refine ⟨steps, hr, ?_⟩
  unfold GraphVisualizer.runBFS at hr
  dsimp only at hr
  have hset : setAdd ([] : List Nat) startNode = [startNode] := by simp [setAdd]
  rw [hset] at hr
  cases hl : bfsLoop edges (2 * edges.length + 2)
      { visited := [startNode], queue := [startNode],
        steps := [{ node := startNode, visited := [startNode], distances := none }] } with
  | none => rw [hl] at hr; simp at hr
  | some st' =>
    rw [hl] at hr
    have e : st'.steps = steps := by simpa using hr
    have htrace := bfsLoop_trace edges _ _ st'
      (by simpa using traceInv_push [] [] startNode none traceInv_nil (by simp)) hl
    have hinit : BfsLayerInv edges startNode (fun _ => 0) none
        { visited := [startNode], queue := [startNode],
          steps := [{ node := startNode, visited := [startNode], distances := none }] } := by
      refine ⟨by simp, rfl, by simp, ?_, by simp, ?_, by simp, by simp, by simp, by simp, ?_⟩
      · intro v hv
        have : v = startNode := by simpa using hv
        rw [this]; exact HopWalk.nil
      · intro v hv hq
        exact absurd hv hq
      · intro i v hi hvs
        cases i with
        | zero =>
          simp at hi
          exact absurd hi.symm hvs
        | succ i => simp at hi
    obtain ⟨depth, hinv⟩ := bfsLoop_layer edges startNode _ _ _ st' hinit hl
    have hvis : st'.visited = steps.map (·.node) := by rw [← e]; exact htrace.1
    refine ⟨depth, ?_, ?_, ?_⟩
    · intro step hstep
      have hm : step.node ∈ st'.visited := by
        rw [hvis]; exact List.mem_map_of_mem _ hstep
      exact ⟨hinv.hop _ hm, hinv.minimal _ hm⟩
    · have := hinv.sorted
      rw [hvis, List.pairwise_map] at this
      exact this
    · intro i step hi hne
      have hi' : st'.visited[i]? = some step.node := by
        rw [hvis, List.getElem?_map, hi]; rfl
      obtain ⟨p, hp, hpa⟩ := hinv.pred i step.node hi' hne
      rw [hvis, ← List.map_take] at hp
      obtain ⟨p', hp', hpn⟩ := List.mem_map.mp hp
      exact ⟨p', hp', by rw [hpn]; exact hpa⟩

/-! ## The `found` values of the steps of a search -/

theorem searchTraceOk_of_hitLast (arr sortedArr : List Int) (target : Int)
    (r : SearchResult) (hmem : target ∈ sortedArr → target ∈ arr)
    (h : HitLast sortedArr target r.steps r.found) : SearchTraceOk arr target r := by
  rcases h with h | ⟨init, last, e, hinit, hc, hf, ht⟩
  · refine ⟨?_, fun _ => h⟩
    intro i step hi hne
    exact absurd (h step (List.getElem?_mem hi)) hne
  · refine ⟨?_, fun hn => absurd (hmem ht) hn⟩
    intro i step hi hne
    rw [e] at hi
    by_cases hlt : i < init.length
    · rw [List.getElem?_append_left hlt] at hi
      exact absurd (hinit step (List.getElem?_mem hi)) hne
    · have hi' : i = init.length := by
        by_contra hne'
        rw [List.getElem?_eq_none (by simp; omega)] at hi
        simp at hi
      subst hi'
      simp at hi
      subst hi
      refine ⟨by rw [e]; simp, hc, hf⟩

theorem at?_mem (a : List Int) (i : Int) (x : Int) (h : at? a i = some x) : x ∈ a := by
  unfold at? at h
  by_cases h0 : 0 ≤ i
  · rw [if_pos h0] at h
    exact List.getElem?_mem h
  · rw [if_neg h0] at h
    simp at h

theorem at?_some_bounds (a : List Int) (i : Int) (x : Int) (h : at? a i = some x) :
    0 ≤ i ∧ i < a.length := by
  unfold at? at h
  by_cases h0 : 0 ≤ i
  · rw [if_pos h0] at h
    have := (List.getElem?_eq_some_iff.mp h).1
    omega
  · rw [if_neg h0] at h
    simp at h

theorem hitLast_hit (sortedArr : List Int) (target : Int) (steps : List SearchStep)
    (idx : Int) (range : Option (Int × Int)) (comparisons : Nat)
    (hall : ∀ s ∈ steps, s.found = -1)
    (he : eqTarget (at? sortedArr idx) target = true) :
    HitLast sortedArr target
      (steps ++ [{ checking := some idx, range := range, comparisons := comparisons,
                   found := if eqTarget (at? sortedArr idx) target then idx else -1 }])
      idx := by
  right
  refine ⟨steps, _, rfl, hall, ?_, ?_, ?_⟩
  · simp [he]
  · simp [he]
  · exact at?_mem sortedArr idx target ((eqTarget_iff _ _).mp he)

theorem allMiss_push (sortedArr : List Int) (target : Int) (steps : List SearchStep)
    (idx : Int) (range : Option (Int × Int)) (comparisons : Nat)
    (hall : ∀ s ∈ steps, s.found = -1)
    (he : ¬ eqTarget (at? sortedArr idx) target = true) :
    ∀ s ∈ steps ++ [(⟨some idx, range, comparisons,
        if eqTarget (at? sortedArr idx) target then idx else -1⟩ : SearchStep)],
      s.found = -1 := by
  intro s hs
  rcases List.mem_append.mp hs with h | h
  · exact hall s h
  · rw [List.mem_singleton] at h
    rw [h]
    simp [he]

theorem allMiss_push_miss (steps : List SearchStep) (checking : Option Int)
    (range : Option (Int × Int)) (comparisons : Nat) (hall : ∀ s ∈ steps, s.found = -1) :
    ∀ s ∈ steps ++ [(⟨checking, range, comparisons, -1⟩ : SearchStep)],
      s.found = -1 := by
  intro s hs
  rcases List.mem_append.mp hs with h | h
  · exact hall s h
  · rw [List.mem_singleton] at h
    rw [h]

theorem linearLoop_hitLast (arr : List Int) (target : Int) (left : Nat) :
    ∀ (i : Nat) (steps : List SearchStep) (comparisons : Nat),
      (∀ s ∈ steps, s.found = -1) →
      HitLast arr target (linearLoop arr target left i steps comparisons).steps
        (linearLoop arr target left i steps comparisons).found := by
  induction left with
  | zero =>
    intro i steps comparisons hall
    exact Or.inl hall
  | succ left ih =>
    intro i steps comparisons hall
    rw [linearLoop]
    by_cases he : eqTarget (at? arr i) target = true
    · rw [if_pos he]
      exact hitLast_hit arr target steps i none (comparisons + 1) hall he
    · rw [if_neg he]
      exact ih _ _ _ (allMiss_push arr target steps i none (comparisons + 1) hall he)

theorem binaryLoop_hitLast (sortedArr : List Int) (target : Int) (fuel : Nat) :
    ∀ (left right : Int) (steps : List SearchStep) (comparisons : Nat) (r : SearchResult),
      (∀ s ∈ steps, s.found = -1) →
      binaryLoop sortedArr target fuel left right steps comparisons = some r →
      HitLast sortedArr target r.steps r.found := by
  induction fuel with
  | zero =>
    intro left right steps comparisons r hall e
    rw [binaryLoop] at e
    by_cases hlr : left ≤ right
    · rw [if_pos hlr] at e
      simp at e
    · rw [if_neg hlr] at e
      injection e with e
      rw [← e]
      exact Or.inl hall
  | succ fuel ih =>
    intro left right steps comparisons r hall e
    rw [binaryLoop] at e
    by_cases hlr : left ≤ right
    · rw [if_pos hlr] at e
      dsimp only at e
      by_cases he : eqTarget (at? sortedArr ((left + right) / 2)) target = true
      · rw [if_pos he] at e
        injection e with e
        rw [← e]
        exact hitLast_hit sortedArr target steps _ _ _ hall he
      · rw [if_neg he] at e
        have hall' := allMiss_push sortedArr target steps ((left + right) / 2)
          (some (left, right)) (comparisons + 1) hall he
        by_cases hl : ltTarget (at? sortedArr ((left + right) / 2)) target = true
        · rw [if_pos hl] at e
          exact ih _ _ _ _ r hall' e
        · rw [if_neg hl] at e
          exact ih _ _ _ _ r hall' e
    · rw [if_neg hlr] at e
      injection e with e
      rw [← e]
      exact Or.inl hall

theorem ltTarget_bounds (a : List Int) (i target : Int)
    (h : ltTarget (at? a i) target = true) : 0 ≤ i ∧ i < a.length := by
  cases hx : at? a i with
  | none => rw [hx] at h; simp [ltTarget] at h
  | some x => exact at?_some_bounds a i x hx

/-- The second loop of `jump` with the final check returns, and the trace it returns is as
`HitLast` says. -/
theorem jumpScan_hitLast (sortedArr : List Int) (target : Int) (bound : Int) (fuel : Nat) :
    ∀ (prev : Int) (steps : List SearchStep) (comparisons : Nat),
      (∀ s ∈ steps, s.found = -1) → (sortedArr.length : Int) - prev < fuel →
      ∃ r, jumpScan sortedArr target bound fuel prev steps comparisons = Outcome.returned r ∧
        HitLast sortedArr target r.steps r.found := by
  induction fuel with
  | zero =>
    intro prev steps comparisons hall hf
    rw [jumpScan]
    by_cases hl : ltTarget (at? sortedArr prev) target = true
    · have := ltTarget_bounds sortedArr prev target hl
      omega
    · rw [if_neg hl]
      dsimp only
      by_cases he : eqTarget (at? sortedArr prev) target = true
      · rw [if_pos he]
        exact ⟨_, rfl, hitLast_hit sortedArr target steps prev none _ hall he⟩
      · rw [if_neg he]
        exact ⟨_, rfl, Or.inl (allMiss_push sortedArr target steps prev none _ hall he)⟩
  | succ fuel ih =>
    intro prev steps comparisons hall hf
    rw [jumpScan]
    by_cases hl : ltTarget (at? sortedArr prev) target = true
    · rw [if_pos hl]
      dsimp only
      have hall' := allMiss_push_miss steps (some prev) none (comparisons + 1) hall
      by_cases hb : prev + 1 = bound
      · rw [if_pos hb]
        exact ⟨_, rfl, Or.inl hall'⟩
      · rw [if_neg hb]
        exact ih _ _ _ hall' (by push_cast at hf ⊢; omega)
    · rw [if_neg hl]
      dsimp only
      by_cases he : eqTarget (at? sortedArr prev) target = true
      · rw [if_pos he]
        exact ⟨_, rfl, hitLast_hit sortedArr target steps prev none _ hall he⟩
      · rw [if_neg he]
        exact ⟨_, rfl, Or.inl (allMiss_push sortedArr target steps prev none _ hall he)⟩

theorem targetGe_some (target : Int) (x : Option Int) (h : targetGe target x = true) :
    ∃ v, x = some v ∧ v ≤ target := by
  cases x with
  | none => simp [targetGe] at h
  | some v => exact ⟨v, rfl, by simpa [targetGe] using h⟩

theorem targetLe_some (target : Int) (x : Option Int) (h : targetLe target x = true) :
    ∃ v, x = some v ∧ target ≤ v := by
  cases x with
  | none => simp [targetLe] at h
  | some v => exact ⟨v, rfl, by simpa [targetLe] using h⟩

/-! ## The arithmetic of the probe position of `interpolation` -/

/-- The result of `roundHalfEven a b` is within one half of `a / b`. -/
theorem roundHalfEven_bounds (a b : Nat) (hb : 0 < b) :
    2 * (b * roundHalfEven a b) ≤ 2 * a + b ∧ 2 * a ≤ 2 * (b * roundHalfEven a b) + b := by
  have h1 := Nat.div_add_mod a b
  have h2 := Nat.mod_lt a hb
  unfold roundHalfEven
  dsimp only
  split_ifs <;> constructor <;> first | omega | (rw [Nat.mul_add, Nat.mul_one]; omega)

theorem roundHalfEven_one (a : Nat) : roundHalfEven a 1 = a := by
  simp [roundHalfEven, Nat.mod_one]

theorem halvings_spec : ∀ (fuel x : Nat), x ≤ fuel → 1 ≤ x →
    2 ^ halvings fuel x ≤ x ∧ x < 2 ^ (halvings fuel x + 1)
  | 0, x, h, h1 => by omega
  | fuel + 1, x, h, h1 => by
    rw [halvings]
    by_cases hx : x < 2
    · rw [if_pos hx]
      constructor <;> simp <;> omega
    · rw [if_neg hx]
      have ih := halvings_spec fuel (x / 2) (by omega) (by omega)
      rw [pow_succ, pow_succ]
      rw [pow_succ] at ih
      constructor <;> omega

theorem floorLog2_zero : floorLog2 0 = 0 := rfl

theorem pow_floorLog2_le (x : Nat) (hx : 1 ≤ x) : 2 ^ floorLog2 x ≤ x :=
  (halvings_spec x x (le_refl _) hx).1

theorem lt_pow_floorLog2 (x : Nat) : x < 2 ^ (floorLog2 x + 1) := by
  by_cases hx : 1 ≤ x
  · exact (halvings_spec x x (le_refl _) hx).2
  · have : x = 0 := by omega
    subst this
    simp

theorem floorLog2_lt (x k : Nat) (hk : 0 < k) (h : x < 2 ^ k) : floorLog2 x < k := by
  by_cases hx : 1 ≤ x
  · have h1 := pow_floorLog2_le x hx
    exact (Nat.pow_lt_pow_iff_right (by norm_num : 1 < 2)).mp (lt_of_le_of_lt h1 h)
  · have : x = 0 := by omega
    subst this
    rw [floorLog2_zero]
    exact hk

theorem le_of_floorLog2_lt (x k : Nat) (h : floorLog2 x < k) : x < 2 ^ k :=
  lt_of_lt_of_le (lt_pow_floorLog2 x) (Nat.pow_le_pow_right (by norm_num) h)

/-- The double nearest to `x` differs from `x` by at most `x / 2 ^ 53`. -/
theorem toDouble_bounds (x r : Nat) (h : toDouble x = some r) :
    r * 9007199254740992 ≤ x * 9007199254740993 ∧
    x * 9007199254740991 ≤ r * 9007199254740992 := by
  unfold toDouble at h
  dsimp only at h
  split_ifs at h
  have hr := Option.some.inj h
  by_cases hs : floorLog2 x ≤ 52
  · have h0 : floorLog2 x - 52 = 0 := by omega
    rw [h0, pow_zero, roundHalfEven_one, Nat.mul_one] at hr
    subst hr
    constructor <;> omega
  · have hx : 1 ≤ x := by
      by_contra hx'
      have : x = 0 := by omega
      rw [this, floorLog2_zero] at hs
      omega
    have hp := pow_floorLog2_le x hx
    have he : floorLog2 x = (floorLog2 x - 52) + 52 := by omega
    rw [he, pow_add] at hp
    have hW : 0 < 2 ^ (floorLog2 x - 52) := Nat.pow_pos (by norm_num)
    have hb := roundHalfEven_bounds x (2 ^ (floorLog2 x - 52)) hW
    rw [← hr, Nat.mul_comm (roundHalfEven x (2 ^ (floorLog2 x - 52)))]
    norm_num at hp
    constructor <;> omega

/-- A result below `2 ^ 1023` is rounded to a double, not to `Infinity`. -/
theorem toDouble_finite (x : Nat) (hx : x < 2 ^ 1023) : ∃ r, toDouble x = some r := by
  unfold toDouble
  dsimp only
  have hW : 0 < 2 ^ (floorLog2 x - 52) := Nat.pow_pos (by norm_num)
  have hb := roundHalfEven_bounds x (2 ^ (floorLog2 x - 52)) hW
  have hWx : 2 ^ (floorLog2 x - 52) ≤ 2 ^ 1023 := by
    apply Nat.pow_le_pow_right (by norm_num)
    have := floorLog2_lt x 1023 (by norm_num) hx
    omega
  have hlt : roundHalfEven x (2 ^ (floorLog2 x - 52)) * 2 ^ (floorLog2 x - 52) < 2 ^ 1024 := by
    rw [Nat.mul_comm, pow_succ]
    omega
  rw [if_pos (floorLog2_lt _ 1024 (by norm_num) hlt)]
  exact ⟨_, rfl⟩

theorem toDouble_zero : toDouble 0 = some 0 := by decide

theorem toDouble_eq_zero (x : Nat) (h : toDouble x = some 0) : x = 0 := by
  have := (toDouble_bounds x 0 h).2
  omega

theorem toDouble_pos (x r : Nat) (h : toDouble x = some r) (hx : 1 ≤ x) : 1 ≤ r := by
  have := (toDouble_bounds x r h).2
  omega

/-- When the exponent of the quotient is 53 or more, the quotient is at least `2 ^ 53`. -/
theorem quotient_large (p b k : Nat)
    (h : k + floorLog2 b + (if b * 2 ^ (floorLog2 p - floorLog2 b)
      ≤ p * 2 ^ (floorLog2 b - floorLog2 p) then 0 else 1) ≤ floorLog2 p) :
    b * 2 ^ k ≤ p := by
  split_ifs at h with hc
  · have h1 : floorLog2 b - floorLog2 p = 0 := by omega
    rw [h1, pow_zero, Nat.mul_one] at hc
    refine le_trans (Nat.mul_le_mul_left b (Nat.pow_le_pow_right (by norm_num) ?_)) hc
    omega
  · have hp1 : 1 ≤ p := by
      by_contra hp'
      have : p = 0 := by omega
      rw [this, floorLog2_zero] at h
      omega
    have h1 := pow_floorLog2_le p hp1
    have h2 := lt_pow_floorLog2 b
    have h3 : 2 ^ (floorLog2 b + 1) * 2 ^ k ≤ 2 ^ floorLog2 p := by
      rw [← pow_add]
      exact Nat.pow_le_pow_right (by norm_num) (by omega)
    have h4 : b * 2 ^ k ≤ 2 ^ (floorLog2 b + 1) * 2 ^ k :=
      Nat.mul_le_mul_right _ (le_of_lt h2)
    omega

/-- The quotient of `p` by `b`, rounded to a double and then down to an integer, is at
most `d`, when `p / b` exceeds `d` by no more than three roundings allow and `d` is
below `2 ^ 32`. -/
theorem floorQuotient_le (p b d : Nat) (hb : 0 < b) (hd : d < 2 ^ 32)
    (hp : p * (9007199254740992 * 9007199254740991)
      ≤ d * b * (9007199254740993 * 9007199254740993)) :
    floorQuotient p b ≤ d := by
  have hdb : d * b ≤ 4294967295 * b := Nat.mul_le_mul_right b (by omega)
  have hsmall : ¬ b * 2 ^ 53 ≤ p := by
    intro h
    have h1 := Nat.mul_le_mul_right (9007199254740992 * 9007199254740991) h
    norm_num at h1 hp hdb
    omega
  unfold floorQuotient
  dsimp only
  have he : floorLog2 p + 1022 - floorLog2 b - (if b * 2 ^ (floorLog2 p - floorLog2 b)
      ≤ p * 2 ^ (floorLog2 b - floorLog2 p) then 0 else 1) ≤ 1074 := by
    by_contra hc
    exact hsmall (quotient_large p b 53 (by omega))
  generalize floorLog2 p + 1022 - floorLog2 b - (if b * 2 ^ (floorLog2 p - floorLog2 b)
      ≤ p * 2 ^ (floorLog2 b - floorLog2 p) then 0 else 1) = e at he
  have h0 : e - 1074 = 0 := by omega
  rw [h0, pow_zero, Nat.mul_one, Nat.mul_one]
  have hW : 0 < 2 ^ (1074 - e) := Nat.pow_pos (by norm_num)
  generalize 2 ^ (1074 - e) = W at hW
  have hb2 := (roundHalfEven_bounds (p * W) b hb).1
  generalize roundHalfEven (p * W) b = m at hb2
  apply Nat.le_of_lt_succ
  rw [Nat.div_lt_iff_lt_mul hW, Nat.succ_eq_add_one]
  by_contra hm
  have hm1 : (d + 1) * W ≤ m := not_lt.mp hm
  have f1 := Nat.mul_le_mul_left b hm1
  have f2 := Nat.mul_le_mul_right W hp
  have f3 := Nat.mul_le_mul_right W hdb
  have f4 : b * 1 ≤ b * W := Nat.mul_le_mul_left b hW
  nlinarith

/-- A probe position that is an integer lies inside the window, whatever the values. -/
theorem interpolationPos_bounds (target vlow vhigh low high pos : Int)
    (h2 : target ≤ vhigh) (h3 : low < high) (hd : high - low < 2 ^ 32)
    (h : interpolationPos target vlow vhigh low high = some pos) :
    low ≤ pos ∧ pos ≤ high := by
  unfold interpolationPos at h
  cases ha : toDouble (target - vlow).toNat with
  | none => rw [ha] at h; simp at h
  | some a =>
    rw [ha] at h
    dsimp only at h
    cases hp : toDouble (a * (high - low).toNat) with
    | none => rw [hp] at h; simp at h
    | some p =>
      cases hb : toDouble (vhigh - vlow).toNat with
      | none =>
        rw [hp, hb] at h
        dsimp only at h
        have := Option.some.inj h
        omega
      | some b =>
        rw [hp, hb] at h
        dsimp only at h
        by_cases hb0 : b = 0
        · rw [if_pos hb0] at h
          simp at h
        · rw [if_neg hb0] at h
          have hpos := Option.some.inj h
          have ea := (toDouble_bounds _ _ ha).1
          have ep := (toDouble_bounds _ _ hp).1
          have eb := (toDouble_bounds _ _ hb).2
          have hAB : (target - vlow).toNat ≤ (vhigh - vlow).toNat := by omega
          have hdn : (high - low).toNat < 2 ^ 32 := by omega
          generalize (target - vlow).toNat = A at ea hAB
          generalize (vhigh - vlow).toNat = B at eb hAB
          have f1 := Nat.mul_le_mul_right (high - low).toNat ea
          have f2 := Nat.mul_le_mul_right (high - low).toNat hAB
          have f3 := Nat.mul_le_mul_right (high - low).toNat eb
          have hq := floorQuotient_le p b (high - low).toNat (by omega) hdn (by nlinarith)
          omega

/-- When the values are not too large, the probe position is an integer. -/
theorem interpolationPos_isSome (target vlow vhigh low high : Int)
    (h2 : target ≤ vhigh) (h3 : vlow < vhigh) (hd : high - low < 2 ^ 32)
    (hv : vhigh - vlow < 2 ^ 990) :
    ∃ pos, interpolationPos target vlow vhigh low high = some pos := by
  have hA : (target - vlow).toNat < 2 ^ 990 := by omega
  obtain ⟨a, ha⟩ := toDouble_finite (target - vlow).toNat
    (lt_trans hA (by norm_num))
  have ea := (toDouble_bounds _ _ ha).1
  have hdn : (high - low).toNat ≤ 2 ^ 32 := by omega
  have ha2 : a < 2 ^ 991 := by
    norm_num at hA ⊢
    omega
  have hprod : a * (high - low).toNat < 2 ^ 1023 := by
    calc a * (high - low).toNat ≤ a * 2 ^ 32 := Nat.mul_le_mul_left a hdn
      _ < 2 ^ 991 * 2 ^ 32 := Nat.mul_lt_mul_of_pos_right ha2 (by norm_num)
      _ = 2 ^ 1023 := by rw [← pow_add]
  obtain ⟨p, hp⟩ := toDouble_finite _ hprod
  obtain ⟨b, hb⟩ := toDouble_finite (vhigh - vlow).toNat
    (lt_trans (by omega : (vhigh - vlow).toNat < 2 ^ 990) (by norm_num))
  have hb1 := toDouble_pos _ _ hb (by omega)
  unfold interpolationPos
  rw [ha]
  dsimp only
  rw [hp, hb]
  dsimp only
  rw [if_neg (by omega)]
  exact ⟨_, rfl⟩

/-- When the values at the ends of the window are equal, the probe position is `NaN`. -/
theorem interpolationPos_eq_none (target v low high : Int) :
    interpolationPos target v v low high = none := by
  unfold interpolationPos
  cases ha : toDouble (target - v).toNat with
  | none => rfl
  | some a =>
    dsimp only
    cases hp : toDouble (a * (high - low).toNat) with
    | none => rfl
    | some p =>
      rw [sub_self, Int.toNat_zero, toDouble_zero]
      simp

/-- On `[0, 1, 2, 2 ^ 53 - 2]` with target `2 ^ 53 - 2` the product `(2 ^ 53 - 2) * 3` is
rounded to `3 * 2 ^ 53 - 8` and its quotient by `2 ^ 53 - 2` to the double next below 3:
`pos` is 2, where the exact quotient is 3, and the search takes a second step. -/
theorem interpolation_rounded_probe :
    toDouble (9007199254740990 * 3) = some 27021597764222968 ∧
    floorQuotient 27021597764222968 9007199254740990 = 2 ∧
    (interpolation [0, 1, 2, 9007199254740990] 9007199254740990).map
      (fun r => (r.steps.map (fun s => (s.checking, s.range)), r.found))
      = some ([(some 2, some (0, 3)), (some 3, none)], 3) := by decide

/-! ## The trace of `interpolation` -/

/-- The loop of `interpolation` with no iteration left. -/
theorem interpolationLoop_zero (sortedArr : List Int) (target : Int)
    (low high : Int) (steps : List SearchStep) (comparisons : Nat) :
    interpolationLoop sortedArr target 0 low high steps comparisons =
    if low ≤ high ∧ targetGe target (at? sortedArr low) = true
        ∧ targetLe target (at? sortedArr high) = true then none
    else some ⟨steps, -1, comparisons, some sortedArr⟩ := rfl

/-- One iteration of the loop of `interpolation`. -/
theorem interpolationLoop_succ (sortedArr : List Int) (target : Int) (fuel : Nat)
    (low high : Int) (steps : List SearchStep) (comparisons : Nat) :
    interpolationLoop sortedArr target (fuel + 1) low high steps comparisons =
    if low ≤ high ∧ targetGe target (at? sortedArr low) = true
        ∧ targetLe target (at? sortedArr high) = true then
      if low = high then
        if eqTarget (at? sortedArr low) target then
          some ⟨steps ++ [⟨some low, none, comparisons + 1,
            if eqTarget (at? sortedArr low) target then low else -1⟩],
            low, comparisons + 1, some sortedArr⟩
        else
          some ⟨steps ++ [⟨some low, none, comparisons + 1,
            if eqTarget (at? sortedArr low) target then low else -1⟩],
            -1, comparisons + 1, some sortedArr⟩
      else
        match interpolationPos target ((at? sortedArr low).getD 0)
            ((at? sortedArr high).getD 0) low high with
        | none =>
          some ⟨steps ++ [⟨none, some (low, high), comparisons + 1, -1⟩],
            -1, comparisons + 1, some sortedArr⟩
        | some pos =>
          if eqTarget (at? sortedArr pos) target then
            some ⟨steps ++ [⟨some pos, some (low, high), comparisons + 1,
              if eqTarget (at? sortedArr pos) target then pos else -1⟩],
              pos, comparisons + 1, some sortedArr⟩
          else if ltTarget (at? sortedArr pos) target then
            interpolationLoop sortedArr target fuel (pos + 1) high
              (steps ++ [⟨some pos, some (low, high), comparisons + 1,
                if eqTarget (at? sortedArr pos) target then pos else -1⟩])
              (comparisons + 1)
          else
            interpolationLoop sortedArr target fuel low (pos - 1)
              (steps ++ [⟨some pos, some (low, high), comparisons + 1,
                if eqTarget (at? sortedArr pos) target then pos else -1⟩])
              (comparisons + 1)
    else
      some ⟨steps, -1, comparisons, some sortedArr⟩ := rfl

/-- In every result of the loop of `interpolation`, the steps are as `HitLast` says. -/
theorem interpolationLoop_hitLast (s : List Int) (target : Int) (fuel : Nat) :
    ∀ (low high : Int) (steps : List SearchStep) (comparisons : Nat) (r : SearchResult),
      (∀ st ∈ steps, st.found = -1) →
      interpolationLoop s target fuel low high steps comparisons = some r →
      HitLast s target r.steps r.found := by
  induction fuel with
  | zero =>
    intro low high steps comparisons r hall e
    rw [interpolationLoop_zero] at e
    by_cases hc : low ≤ high ∧ targetGe target (at? s low) = true
        ∧ targetLe target (at? s high) = true
    · rw [if_pos hc] at e
      simp at e
    · rw [if_neg hc] at e
      injection e with e
      rw [← e]
      exact Or.inl hall
  | succ fuel ih =>
    intro low high steps comparisons r hall e
    rw [interpolationLoop_succ] at e
    by_cases hc : low ≤ high ∧ targetGe target (at? s low) = true
        ∧ targetLe target (at? s high) = true
    · rw [if_pos hc] at e
      by_cases heq : low = high
      · rw [if_pos heq] at e
        by_cases he : eqTarget (at? s low) target = true
        · rw [if_pos he] at e
          injection e with e
          rw [← e]
          exact hitLast_hit s target steps low none _ hall he
        · rw [if_neg he] at e
          injection e with e
          rw [← e]
          exact Or.inl (allMiss_push s target steps low none _ hall he)
      · rw [if_neg heq] at e
        cases hpos : interpolationPos target ((at? s low).getD 0) ((at? s high).getD 0)
            low high with
        | none =>
          rw [hpos] at e
          dsimp only at e
          injection e with e
          rw [← e]
          exact Or.inl (allMiss_push_miss steps none _ _ hall)
        | some pos =>
          rw [hpos] at e
          dsimp only at e
          by_cases he : eqTarget (at? s pos) target = true
          · rw [if_pos he] at e
            injection e with e
            rw [← e]
            exact hitLast_hit s target steps _ _ _ hall he
          · rw [if_neg he] at e
            have hall' := allMiss_push s target steps pos (some (low, high))
              (comparisons + 1) hall he
            by_cases hl : ltTarget (at? s pos) target = true
            · rw [if_pos hl] at e
              exact ih _ _ _ _ r hall' e
            · rw [if_neg hl] at e
              exact ih _ _ _ _ r hall' e
    · rw [if_neg hc] at e
      injection e with e
      rw [← e]
      exact Or.inl hall

/-- On an array of length below `2 ^ 32` the loop of `interpolation` returns: a probe
position that is an integer lies in the window, so the window shrinks. -/
theorem interpolationLoop_returns (s : List Int) (target : Int) (hlen : s.length < 2 ^ 32)
    (fuel : Nat) :
    ∀ (low high : Int) (steps : List SearchStep) (comparisons : Nat),
      high - low + 1 ≤ fuel →
      ∃ r, interpolationLoop s target fuel low high steps comparisons = some r := by
  induction fuel with
  | zero =>
    intro low high steps comparisons hf
    rw [interpolationLoop_zero]
    have hc : ¬ (low ≤ high ∧ targetGe target (at? s low) = true
        ∧ targetLe target (at? s high) = true) := by
      intro h
      have := h.1
      omega
    rw [if_neg hc]
    exact ⟨_, rfl⟩
  | succ fuel ih =>
    intro low high steps comparisons hf
    rw [interpolationLoop_succ]
    by_cases hc : low ≤ high ∧ targetGe target (at? s low) = true
        ∧ targetLe target (at? s high) = true
    · rw [if_pos hc]
      obtain ⟨hlh, hge, hle⟩ := hc
      obtain ⟨vl, hvl, hvl'⟩ := targetGe_some target _ hge
      obtain ⟨vh, hvh, hvh'⟩ := targetLe_some target _ hle
      have hbl := at?_some_bounds s low vl hvl
      have hbh := at?_some_bounds s high vh hvh
      by_cases heq : low = high
      · rw [if_pos heq]
        by_cases he : eqTarget (at? s low) target = true
        · rw [if_pos he]
          exact ⟨_, rfl⟩
        · rw [if_neg he]
          exact ⟨_, rfl⟩
      · rw [if_neg heq]
        rw [hvl, hvh]
        simp only [Option.getD_some]
        cases hpos : interpolationPos target vl vh low high with
        | none => exact ⟨_, rfl⟩
        | some pos =>
          dsimp only
          have hb := interpolationPos_bounds target vl vh low high pos hvh' (by omega)
            (by omega) hpos
          by_cases he : eqTarget (at? s pos) target = true
          · rw [if_pos he]
            exact ⟨_, rfl⟩
          · rw [if_neg he]
            by_cases hl : ltTarget (at? s pos) target = true
            · rw [if_pos hl]
              exact ih _ _ _ _ (by push_cast at hf ⊢; omega)
            · rw [if_neg hl]
              exact ih _ _ _ _ (by push_cast at hf ⊢; omega)
    · rw [if_neg hc]
      exact ⟨_, rfl⟩

/-- C23: `linear` and `binary` return, `jump` returns or throws (it never runs on), and
`interpolation` returns on every array of length below `2 ^ 32` (which the length of a
JavaScript array is); in the trace of every result returned at most one step has
`found != -1`, such a step is the last step and its `found` equals its `checking` and the
result's `found`, and when the target does not occur in the array every step has
`found = -1`. -/
theorem search_found_step_last (arr : List Int) (target : Int) :
    SearchTraceOk arr target (linear arr target) ∧
    (∃ r, binary arr target = some r ∧ SearchTraceOk arr target r) ∧
    (jump arr target = Outcome.constAssignError ∨
      ∃ r, jump arr target = Outcome.returned r ∧ SearchTraceOk arr target r) ∧
    (∀ r, interpolation arr target = some r → SearchTraceOk arr target r) ∧
    (arr.length < 2 ^ 32 → ∃ r, interpolation arr target = some r) := by
  have hmem : target ∈ sortAsc arr → target ∈ arr := (sortAsc_perm arr).mem_iff.mp
  refine ⟨?_, ?_, ?_, ?_, ?_⟩
  · exact searchTraceOk_of_hitLast arr arr target _ id
      (linearLoop_hitLast arr target arr.length 0 [] 0 (by simp))
  · obtain ⟨r, hr, _⟩ := binaryLoop_spec (sortAsc arr) target
      (rd_mono_of_sorted _ (sortAsc_sorted arr)) ((sortAsc arr).length + 1) 0
      (((sortAsc arr).length : Int) - 1) [] 0 (le_refl _) (by omega) (by push_cast; omega)
      (fun k hk _ => ⟨by omega, by omega⟩)
    exact ⟨r, hr, searchTraceOk_of_hitLast arr (sortAsc arr) target r hmem
      (binaryLoop_hitLast (sortAsc arr) target _ _ _ _ _ r (by simp) hr)⟩
  · unfold jump
    dsimp only
    by_cases hl : ltTarget (at? (sortAsc arr)
        (min ((floorSqrt (sortAsc arr).length : Nat) : Int) ((sortAsc arr).length : Int) - 1))
        target = true
    · left
      rw [if_pos hl]
    · right
      rw [if_neg hl]
      obtain ⟨r, hr, h⟩ := jumpScan_hitLast (sortAsc arr) target
        (min ((floorSqrt (sortAsc arr).length : Nat) : Int) ((sortAsc arr).length : Int))
        ((sortAsc arr).length + 1) 0 [] 0 (by simp) (by push_cast; omega)
      exact ⟨r, hr, searchTraceOk_of_hitLast arr (sortAsc arr) target r hmem h⟩
  · intro r hr
    exact searchTraceOk_of_hitLast arr (sortAsc arr) target r hmem
      (interpolationLoop_hitLast (sortAsc arr) target _ _ _ _ _ r (by simp) hr)
  · intro hlen
    have hlen2 : (sortAsc arr).length = arr.length := (sortAsc_perm arr).length_eq
    exact interpolationLoop_returns (sortAsc arr) target (by omega)
      ((sortAsc arr).length + 1) 0 (((sortAsc arr).length : Int) - 1) [] 0
      (by push_cast; omega)

theorem search_found_step_last_witness :
    ∃ r, interpolation [1, 2, 3, 5, 8, 13] 8 = some r :=
  (search_found_step_last [1, 2, 3, 5, 8, 13] 8).2.2.2.2 (by decide)

/-! ## Markers, guards and counts at concrete inputs -/

/-- C31 (the code departs from the claim): on `[3, 2, 1]` the trailing step of the first
pass of `bubble` shows the array `[2, 1, 3]` with `sorted = [2, 1, 0]`, although only
index 2 holds its final value (the sorted array is `[1, 2, 3]`), and the trailing step of
the second pass has the smaller set `sorted = [2, 1]`: line 40 builds the set with
`length: n - i`, which counts down from all `n` indices instead of up from one. -/
theorem bubble_sorted_marker_wrong :
    ((bubble [3, 2, 1]).steps.filter (fun s => decide (s.comparing = []))).map
      (fun s => (s.array, s.sorted)) =
      [([2, 1, 3], some [2, 1, 0]), ([1, 2, 3], some [2, 1])] := by
  decide

/-- C33 (the code departs from the claim): on `[4, 4, 4]` with target `4` the loop of
`interpolation` is entered with `low = 0`, `high = 2`, where `sortedArr[low]` and
`sortedArr[high]` are both `4`: the divisor `sortedArr[high] - sortedArr[low]` is `0`, and
the step pushed for the probe has `checking: NaN` with `range: [0, 2]`. The guard of line
424 compares the indices `low` and `high`, not the two values. -/
theorem interpolation_divisor_zero :
    at? (sortAsc [4, 4, 4]) 0 = some 4 ∧ at? (sortAsc [4, 4, 4]) 2 = some 4 ∧
    (interpolation [4, 4, 4] 4).map (fun r => r.steps.map (fun s => (s.checking, s.range)))
      = some [(none, some (0, 2))] := by
  refine ⟨by decide, by decide, by decide⟩

/-! ## Neighbour generation -/

theorem addNeighbor_eq (grid : Grid) (p : Pos) (acc : List Pos) (d : Int × Int) :
    addNeighbor grid p acc d = acc ++
      [({ row := p.row + d.1, col := p.col + d.2 } : Pos)].filter
        (fun q => decide (0 ≤ q.row ∧ q.row ≤ 19 ∧ 0 ≤ q.col ∧ q.col ≤ 34) &&
          !grid q.row q.col) := by
  unfold addNeighbor GRID_ROWS GRID_COLS
  dsimp only
  by_cases hb : 0 ≤ p.row + d.1 ∧ p.row + d.1 < 20 ∧ 0 ≤ p.col + d.2 ∧ p.col + d.2 < 35
  · have hb' : 0 ≤ p.row + d.1 ∧ p.row + d.1 ≤ 19 ∧ 0 ≤ p.col + d.2 ∧ p.col + d.2 ≤ 34 := by
      omega
    rw [if_pos hb]
    by_cases hw : grid (p.row + d.1) (p.col + d.2) = false
    · rw [if_pos hw]
      simp [hb', hw]
    · rw [if_neg hw]
      simp [hw]
  · have hb' : ¬ (0 ≤ p.row + d.1 ∧ p.row + d.1 ≤ 19 ∧ 0 ≤ p.col + d.2 ∧
        p.col + d.2 ≤ 34) := by omega
    rw [if_neg hb]
    simp [hb']

theorem foldl_addNeighbor (grid : Grid) (p : Pos) (ds : List (Int × Int)) :
    ∀ acc : List Pos, ds.foldl (addNeighbor grid p) acc = acc ++
      (ds.map (fun d => ({ row := p.row + d.1, col := p.col + d.2 } : Pos))).filter
        (fun q => decide (0 ≤ q.row ∧ q.row ≤ 19 ∧ 0 ≤ q.col ∧ q.col ≤ 34) &&
          !grid q.row q.col) := by
  induction ds with
  | nil => intro acc; simp
  | cons d ds ih =>
    intro acc
    rw [List.foldl_cons, ih, addNeighbor_eq, List.map_cons, List.append_assoc,
      ← List.filter_append, List.singleton_append]

/-- C37: for every grid and cell, `getNeighbors` returns those of the cells (r, c+1),
(r+1, c), (r, c-1), (r-1, c), in that order, that lie within rows 0..19 and columns 0..34
and are not walls; it returns at most 4 cells and never the cell itself. -/
theorem getNeighbors_four_directions (grid : Grid) (p : Pos) :
    getNeighbors grid p =
      [({ row := p.row, col := p.col + 1 } : Pos), { row := p.row + 1, col := p.col },
        { row := p.row, col := p.col - 1 }, { row := p.row - 1, col := p.col }].filter
        (fun q => decide (0 ≤ q.row ∧ q.row ≤ 19 ∧ 0 ≤ q.col ∧ q.col ≤ 34) &&
          !grid q.row q.col) ∧
    (getNeighbors grid p).length ≤ 4 ∧ p ∉ getNeighbors grid p := by
  have e : getNeighbors grid p =
      [({ row := p.row, col := p.col + 1 } : Pos), { row := p.row + 1, col := p.col },
        { row := p.row, col := p.col - 1 }, { row := p.row - 1, col := p.col }].filter
        (fun q => decide (0 ≤ q.row ∧ q.row ≤ 19 ∧ 0 ≤ q.col ∧ q.col ≤ 34) &&
          !grid q.row q.col) := by
    unfold getNeighbors
    rw [foldl_addNeighbor, List.nil_append]
    have hl : directions.map
        (fun d => ({ row := p.row + d.1, col := p.col + d.2 } : Pos)) =
        [({ row := p.row, col := p.col + 1 } : Pos), { row := p.row + 1, col := p.col },
          { row := p.row, col := p.col - 1 }, { row := p.row - 1, col := p.col }] := by
      unfold directions
      simp only [List.map_cons, List.map_nil, add_zero]
      rfl
    rw [hl]
  refine ⟨e, ?_, ?_⟩
  · rw [e]
    exact (List.length_filter_le _ _).trans (by simp)
  · intro h
    have := ((mem_getNeighbors grid p p).mp h).2
    unfold GridAdj at this
    omega

/-! ## The comparison counts of bubble and selection -/

theorem bubbleBody_comparisons (st : SortState) (j : Nat) :
    (bubbleBody st j).comparisons = st.comparisons + 1 := by
  unfold bubbleBody pushStep
  dsimp only
  split <;> rfl

theorem bubbleInner_comparisons (m : Nat) (st : SortState) :
    ((List.range m).foldl bubbleBody st).comparisons = st.comparisons + m := by
  induction m with
  | zero => rfl
  | succ m ih =>
    rw [List.range_succ, List.foldl_append]
    simp only [List.foldl_cons, List.foldl_nil]
    rw [bubbleBody_comparisons, ih]
    omega

theorem bubbleOuter_comparisons (arr : List Int) (k : Nat) (hk : k + 1 ≤ arr.length ∨ k = 0) :
    2 * ((List.range k).foldl (bubblePass arr.length) (SortState.init arr)).comparisons
      + k * k + k = 2 * k * arr.length := by
  induction k with
  | zero => simp [SortState.init]
  | succ k ih =>
    have hk' : k + 2 ≤ arr.length := by omega
    have ih' := ih (Or.inl (by omega))
    rw [List.range_succ, List.foldl_append]
    simp only [List.foldl_cons, List.foldl_nil]
    generalize ((List.range k).foldl (bubblePass arr.length) (SortState.init arr)) = sb at ih'
    have e : (bubblePass arr.length sb k).comparisons
        = sb.comparisons + (arr.length - k - 1) := by
      unfold bubblePass bubbleInner pushStep
      dsimp only
      exact bubbleInner_comparisons _ sb
    rw [e]
    obtain ⟨m, hm⟩ : ∃ m, arr.length = k + 2 + m := ⟨arr.length - (k + 2), by omega⟩
    rw [hm] at ih' ⊢
    have : k + 2 + m - k - 1 = m + 1 := by omega
    rw [this]
    nlinarith [ih']

theorem selectionBody_counts (s : Nat × SortState) (j : Nat) :
    (selectionBody s j).2.comparisons = s.2.comparisons + 1 ∧
    (selectionBody s j).2.swaps = s.2.swaps := by
  unfold selectionBody pushStep
  dsimp only
  split <;> exact ⟨rfl, rfl⟩

theorem selectionInner_counts (i m : Nat) (s : Nat × SortState) :
    ((List.range' (i + 1) m).foldl selectionBody s).2.comparisons = s.2.comparisons + m ∧
    ((List.range' (i + 1) m).foldl selectionBody s).2.swaps = s.2.swaps := by
  induction m with
  | zero => exact ⟨rfl, rfl⟩
  | succ m ih =>
    rw [List.range'_1_concat, List.foldl_append]
    simp only [List.foldl_cons, List.foldl_nil]
    obtain ⟨h1, h2⟩ := selectionBody_counts ((List.range' (i + 1) m).foldl selectionBody s)
      (i + 1 + m)
    rw [h1, h2, ih.1, ih.2]
    exact ⟨by omega, rfl⟩

theorem selectionPass_counts (n : Nat) (st : SortState) (i : Nat) :
    (selectionPass n st i).comparisons = st.comparisons + (n - (i + 1)) ∧
    (selectionPass n st i).swaps ≤ st.swaps + 1 := by
  obtain ⟨h1, h2⟩ := selectionInner_counts i (n - (i + 1)) (i, st)
  have e : selectionInner n i st =
      (List.range' (i + 1) (n - (i + 1))).foldl selectionBody (i, st) := rfl
  rw [← e] at h1 h2
  unfold selectionPass pushStep
  dsimp only at h1 h2 ⊢
  split
  · dsimp only
    rw [h1, h2]
    exact ⟨rfl, le_refl _⟩
  · rw [h1, h2]
    exact ⟨rfl, by omega⟩

theorem selectionOuter_counts (arr : List Int) (k : Nat) (hk : k + 1 ≤ arr.length ∨ k = 0) :
    2 * ((List.range k).foldl (selectionPass arr.length) (SortState.init arr)).comparisons
      + k * k + k = 2 * k * arr.length ∧
    ((List.range k).foldl (selectionPass arr.length) (SortState.init arr)).swaps ≤ k := by
  induction k with
  | zero => simp [SortState.init]
  | succ k ih =>
    have hk' : k + 2 ≤ arr.length := by omega
    obtain ⟨ih1, ih2⟩ := ih (Or.inl (by omega))
    rw [List.range_succ, List.foldl_append]
    simp only [List.foldl_cons, List.foldl_nil]
    generalize ((List.range k).foldl (selectionPass arr.length) (SortState.init arr)) = sb
      at ih1 ih2
    obtain ⟨e1, e2⟩ := selectionPass_counts arr.length sb k
    rw [e1]
    refine ⟨?_, by omega⟩
    obtain ⟨m, hm⟩ : ∃ m, arr.length = k + 2 + m := ⟨arr.length - (k + 2), by omega⟩
    rw [hm] at ih1 ⊢
    have : k + 2 + m - (k + 1) = m + 1 := by omega
    rw [this]
    nlinarith [ih1]

theorem gauss_half (n c : Nat) (h : 2 * c + (n - 1) * (n - 1) + (n - 1) = 2 * (n - 1) * n) :
    c = n * (n - 1) / 2 := by
  cases n with
  | zero => simp at h ⊢; omega
  | succ m =>
    simp only [Nat.add_sub_cancel] at h ⊢
    have : (m + 1) * m = 2 * c := by nlinarith [h]
    rw [this]
    omega

/-- C39: for every integer array of length `n`, `bubble` and `selection` both return
`comparisons = n (n - 1) / 2`, whatever the entries, and `selection` returns
`swaps <= n - 1`. -/
theorem bubble_selection_comparison_count (arr : List Int) :
    (bubble arr).comparisons = arr.length * (arr.length - 1) / 2 ∧
    (selection arr).comparisons = arr.length * (arr.length - 1) / 2 ∧
    (selection arr).swaps ≤ arr.length - 1 := by
  have hk : arr.length - 1 + 1 ≤ arr.length ∨ arr.length - 1 = 0 := by omega
  have hb := bubbleOuter_comparisons arr (arr.length - 1) hk
  obtain ⟨hs1, hs2⟩ := selectionOuter_counts arr (arr.length - 1) hk
  exact ⟨gauss_half arr.length _ hb, gauss_half arr.length _ hs1, hs2⟩

/-! ## The windows of binary and interpolation search -/

theorem windowInside_narrows (steps : List SearchStep) (low high : Int) (b : SearchStep)
    (h : WindowInside steps low high)
    (hb : ∀ l' h', b.window = some (l', h') → low ≤ l' ∧ h' ≤ high) :
    ∀ a ∈ steps, Narrows a b := by
  intro a ha l h' m l' h'' hr hc hw
  obtain ⟨h1, h2, h3, h4, h5⟩ := h a ha l h' m hr hc
  obtain ⟨h6, h7⟩ := hb l' h'' hw
  refine ⟨by omega, by omega, by omega, by omega⟩

theorem windowInside_push (steps : List SearchStep) (low high low' high' : Int)
    (step : SearchStep) (h : WindowInside steps low high) (h1 : low ≤ low')
    (h2 : high' ≤ high)
    (hs : ∀ l h m, step.range = some (l, h) → step.checking = some m →
      l ≤ m ∧ m ≤ h ∧ l ≤ low' ∧ high' ≤ h ∧ (m < low' ∨ high' < m)) :
    WindowInside (steps ++ [step]) low' high' := by
  intro a ha l h' m hr hc
  rcases List.mem_append.mp ha with ha | ha
  · obtain ⟨g1, g2, g3, g4, g5⟩ := h a ha l h' m hr hc
    refine ⟨g1, g2, by omega, by omega, by omega⟩
  · rw [List.mem_singleton] at ha
    rw [ha] at hr hc
    exact hs l h' m hr hc

theorem pairwise_push (steps : List SearchStep) (step : SearchStep)
    (h : steps.Pairwise Narrows) (hn : ∀ a ∈ steps, Narrows a step) :
    (steps ++ [step]).Pairwise Narrows := by
  rw [List.pairwise_append]
  refine ⟨h, List.pairwise_singleton _ _, ?_⟩
  intro a ha b hb
  rw [List.mem_singleton] at hb
  rw [hb]
  exact hn a ha

theorem binaryLoop_window (s : List Int) (target : Int) (fuel : Nat) :
    ∀ (left right : Int) (steps : List SearchStep) (comparisons : Nat) (r : SearchResult),
      0 ≤ left → right ≤ (s.length : Int) - 1 →
      (∀ step ∈ steps, BinaryStepOk s.length step) → steps.Pairwise Narrows →
      WindowInside steps left right →
      binaryLoop s target fuel left right steps comparisons = some r →
      (∀ step ∈ r.steps, BinaryStepOk s.length step) ∧ r.steps.Pairwise Narrows := by
  induction fuel with
  | zero =>
    intro left right steps comparisons r _ _ hok hp _ e
    rw [binaryLoop] at e
    by_cases hlr : left ≤ right
    · rw [if_pos hlr] at e
      simp at e
    · rw [if_neg hlr] at e
      injection e with e
      rw [← e]
      exact ⟨hok, hp⟩
  | succ fuel ih =>
    intro left right steps comparisons r h0 h1 hok hp hw e
    rw [binaryLoop] at e
    by_cases hlr : left ≤ right
    · rw [if_pos hlr] at e
      dsimp only at e
      have hmid1 : left ≤ (left + right) / 2 := by omega
      have hmid2 : (left + right) / 2 ≤ right := by omega
      have hok' : ∀ step ∈ steps ++ [(⟨some ((left + right) / 2), some (left, right),
          comparisons + 1,
          if eqTarget (at? s ((left + right) / 2)) target then (left + right) / 2 else -1⟩ :
            SearchStep)], BinaryStepOk s.length step := by
        intro step hst
        rcases List.mem_append.mp hst with h | h
        · exact hok step h
        · rw [List.mem_singleton] at h
          rw [h]
          exact ⟨left, right, (left + right) / 2, rfl, rfl, h0, hmid1, hmid2, h1, rfl⟩
      have hp' : (steps ++ [(⟨some ((left + right) / 2), some (left, right),
          comparisons + 1,
          if eqTarget (at? s ((left + right) / 2)) target then (left + right) / 2 else -1⟩ :
            SearchStep)]).Pairwise Narrows := by
        apply pairwise_push steps _ hp
        apply windowInside_narrows steps left right _ hw
        intro l' h' hwin
        simp [SearchStep.window] at hwin
        omega
      by_cases he : eqTarget (at? s ((left + right) / 2)) target = true
      · rw [if_pos he] at e
        injection e with e
        rw [← e]
        exact ⟨hok', hp'⟩
      · rw [if_neg he] at e
        by_cases hl : ltTarget (at? s ((left + right) / 2)) target = true
        · rw [if_pos hl] at e
          refine ih _ _ _ _ r (by omega) h1 hok' hp' ?_ e
          apply windowInside_push steps left right _ _ _ hw (by omega) (le_refl _)
          intro l h m hr hc
          simp at hr hc
          omega
        · rw [if_neg hl] at e
          refine ih _ _ _ _ r h0 (by omega) hok' hp' ?_ e
          apply windowInside_push steps left right _ _ _ hw (le_refl _) (by omega)
          intro l h m hr hc
          simp at hr hc
          omega
    · rw [if_neg hlr] at e
      injection e with e
      rw [← e]
      exact ⟨hok, hp⟩

/-- C34: for every array and target, `binary` returns, every step of its trace carries
`range = [low, high]` with `0 <= low <= checking <= high <= n - 1` and
`checking = floor((low + high) / 2)`, and the range of each later step lies inside the
range of the earlier step, is strictly smaller and does not hold the index probed
earlier. -/
theorem binary_window (arr : List Int) (target : Int) :
    ∃ r, binary arr target = some r ∧
      (∀ step ∈ r.steps, ∃ low high mid : Int, step.range = some (low, high) ∧
        step.checking = some mid ∧ 0 ≤ low ∧ low ≤ mid ∧ mid ≤ high ∧
        high ≤ (arr.length : Int) - 1 ∧ mid = (low + high) / 2) ∧
      r.steps.Pairwise (fun a b => ∀ l h m l' h', a.range = some (l, h) →
        a.checking = some m → b.range = some (l', h') →
        l ≤ l' ∧ h' ≤ h ∧ (l < l' ∨ h' < h) ∧ (m < l' ∨ h' < m)) := by
  obtain ⟨r, hr, _⟩ := binaryLoop_spec (sortAsc arr) target
    (rd_mono_of_sorted _ (sortAsc_sorted arr)) ((sortAsc arr).length + 1) 0
    (((sortAsc arr).length : Int) - 1) [] 0 (le_refl _) (by omega) (by push_cast; omega)
    (fun k hk _ => ⟨by omega, by omega⟩)
  have hlen : (sortAsc arr).length = arr.length := (sortAsc_perm arr).length_eq
  obtain ⟨h1, h2⟩ := binaryLoop_window (sortAsc arr) target _ _ _ _ _ r (le_refl _)
    (le_refl _) (by simp) List.Pairwise.nil (by intro a ha; simp at ha) hr
  refine ⟨r, hr, ?_, ?_⟩
  · intro step hs
    have := h1 step hs
    rw [hlen] at this
    exact this
  · refine h2.imp ?_
    intro a b hab l h m l' h' hr' hc hb
    exact hab l h m l' h' hr' hc (by simp [SearchStep.window, hb])

/-- On an array of length below `2 ^ 32` with entries below `2 ^ 989` in absolute value,
every step of a result of the loop of `interpolation` is as `ProbeStepOk` says, and each
later step narrows the window. -/
theorem interpolationLoop_window (s : List Int) (target : Int) (hlen : s.length < 2 ^ 32)
    (hval : ∀ x ∈ s, x.natAbs < 2 ^ 989) (fuel : Nat) :
    ∀ (low high : Int) (steps : List SearchStep) (comparisons : Nat) (r : SearchResult),
      (∀ step ∈ steps, ProbeStepOk s target step) → steps.Pairwise Narrows →
      WindowInside steps low high →
      interpolationLoop s target fuel low high steps comparisons = some r →
      (∀ step ∈ r.steps, ProbeStepOk s target step) ∧ r.steps.Pairwise Narrows := by
  induction fuel with
  | zero =>
    intro low high steps comparisons r hok hp _ e
    rw [interpolationLoop_zero] at e
    by_cases hc : low ≤ high ∧ targetGe target (at? s low) = true
        ∧ targetLe target (at? s high) = true
    · rw [if_pos hc] at e
      simp at e
    · rw [if_neg hc] at e
      injection e with e
      rw [← e]
      exact ⟨hok, hp⟩
  | succ fuel ih =>
    intro low high steps comparisons r hok hp hw e
    rw [interpolationLoop_succ] at e
    by_cases hc : low ≤ high ∧ targetGe target (at? s low) = true
        ∧ targetLe target (at? s high) = true
    · rw [if_pos hc] at e
      obtain ⟨hlh, hge, hle⟩ := hc
      obtain ⟨vl, hvl, hvl'⟩ := targetGe_some target _ hge
      obtain ⟨vh, hvh, hvh'⟩ := targetLe_some target _ hle
      have hbl := at?_some_bounds s low vl hvl
      have hbh := at?_some_bounds s high vh hvh
      have hpush : ∀ step : SearchStep, ProbeStepOk s target step →
          (∀ l' h', step.window = some (l', h') → low ≤ l' ∧ h' ≤ high) →
          (∀ st ∈ steps ++ [step], ProbeStepOk s target st) ∧
          (steps ++ [step]).Pairwise Narrows := by
        intro step h1 h2
        refine ⟨?_, pairwise_push steps step hp
          (windowInside_narrows steps low high step hw h2)⟩
        intro st hst
        rcases List.mem_append.mp hst with h | h
        · exact hok st h
        · rw [List.mem_singleton] at h
          rw [h]; exact h1
      by_cases heq : low = high
      · rw [if_pos heq] at e
        have hres := hpush (⟨some low, none, comparisons + 1,
            if eqTarget (at? s low) target then low else -1⟩ : SearchStep)
          (by intro l h hr; simp at hr)
          (by intro l' h' hwin; simp [SearchStep.window] at hwin; omega)
        by_cases he : eqTarget (at? s low) target = true
        · rw [if_pos he] at e
          injection e with e
          rw [← e]; exact hres
        · rw [if_neg he] at e
          injection e with e
          rw [← e]; exact hres
      · rw [if_neg heq] at e
        rw [hvl, hvh] at e
        simp only [Option.getD_some] at e
        have hvl2 := hval vl (at?_mem s low vl hvl)
        have hvh2 := hval vh (at?_mem s high vh hvh)
        have hsome := interpolationPos_isSome target vl vh low high hvh'
        cases hpos : interpolationPos target vl vh low high with
        | none =>
          rw [hpos] at e
          dsimp only at e
          injection e with e
          rw [← e]
          refine hpush (⟨none, some (low, high), comparisons + 1, -1⟩ : SearchStep) ?_
            (by intro l' h' hwin; simp [SearchStep.window] at hwin; omega)
          intro l h hr
          simp at hr
          obtain ⟨rfl, rfl⟩ := hr
          refine ⟨vl, vh, hvl, hvh, hbl.1, by omega, hpos.symm, ?_⟩
          intro hlt
          obtain ⟨pos, hp'⟩ := hsome hlt (by omega) (by
            norm_num at hvl2 hvh2 ⊢
            omega)
          rw [hpos] at hp'
          simp at hp'
        | some pos =>
          rw [hpos] at e
          dsimp only at e
          have hb := interpolationPos_bounds target vl vh low high pos hvh' (by omega)
            (by omega) hpos
          have hres := hpush (⟨some pos, some (low, high), comparisons + 1,
              if eqTarget (at? s pos) target then pos else -1⟩ : SearchStep)
            (by
              intro l h hr
              simp at hr
              obtain ⟨rfl, rfl⟩ := hr
              exact ⟨vl, vh, hvl, hvh, hbl.1, by omega, hpos.symm,
                fun _ => ⟨pos, rfl, hb.1, hb.2⟩⟩)
            (by intro l' h' hwin; simp [SearchStep.window] at hwin; omega)
          by_cases he : eqTarget (at? s pos) target = true
          · rw [if_pos he] at e
            injection e with e
            rw [← e]; exact hres
          · rw [if_neg he] at e
            by_cases hl : ltTarget (at? s pos) target = true
            · rw [if_pos hl] at e
              refine ih _ _ _ _ r hres.1 hres.2 ?_ e
              apply windowInside_push steps low high _ _ _ hw (by omega) (le_refl _)
              intro l h m hr hc
              simp at hr hc
              omega
            · rw [if_neg hl] at e
              refine ih _ _ _ _ r hres.1 hres.2 ?_ e
              apply windowInside_push steps low high _ _ _ hw (le_refl _) (by omega)
              intro l h m hr hc
              simp at hr hc
              omega
    · rw [if_neg hc] at e
      injection e with e
      rw [← e]
      exact ⟨hok, hp⟩

/-- C40 (the claim as stated does not hold): on `[0, 1, 2 ^ 1023]` with target `2 ^ 1023`
the loop of `interpolation` is entered with `low = 0` and `high = 2`, where
`sortedArr[low] = 0` is less than `sortedArr[high] = 2 ^ 1023`; the product
`(target - sortedArr[low]) * (high - low)` is `2 ^ 1024`, which as a JavaScript number is
`Infinity`, so `pos` is `Infinity`: the one step of the trace has `range = [0, 2]` and a
`checking` that is no index, and the result is `found = -1` although the target is at
index 2. -/
theorem interpolation_probe_overflow :
    at? (sortAsc [0, 1, 2 ^ 1023]) 0 = some 0 ∧
    at? (sortAsc [0, 1, 2 ^ 1023]) 2 = some (2 ^ 1023) ∧
    interpolationPos (2 ^ 1023) 0 (2 ^ 1023) 0 2 = none ∧
    (interpolation [0, 1, 2 ^ 1023] (2 ^ 1023)).map
      (fun r => (r.steps.map (fun s => (s.checking, s.range)), r.found))
      = some ([(none, some (0, 2))], -1) := by decide!

/-- C40, amended: for every integer array of length below `2 ^ 32` whose entries are
below `2 ^ 989` in absolute value, and every target, `interpolation` returns; every step
of its trace that carries a `range = [low, high]` has `0 <= low` and `high <= n - 1` and
as `checking` the value of `pos` that lines 437-439 compute, and when
`sortedArr[low] < sortedArr[high]` that value is an integer with `low <= pos <= high`;
and the window of each later step (its `range`, or the index it checks when it has none)
lies inside that range, is strictly smaller and does not hold `pos`. -/
theorem interpolation_probe_in_window (arr : List Int) (target : Int)
    (hlen : arr.length < 2 ^ 32) (hval : ∀ x ∈ arr, x.natAbs < 2 ^ 989) :
    ∃ r, interpolation arr target = some r ∧
      (∀ step ∈ r.steps, ∀ low high, step.range = some (low, high) →
        ∃ vlow vhigh, at? (sortAsc arr) low = some vlow ∧
          at? (sortAsc arr) high = some vhigh ∧
          0 ≤ low ∧ high ≤ (arr.length : Int) - 1 ∧
          step.checking = interpolationPos target vlow vhigh low high ∧
          (vlow < vhigh → ∃ pos, step.checking = some pos ∧ low ≤ pos ∧ pos ≤ high)) ∧
      r.steps.Pairwise (fun a b => ∀ l h m l' h', a.range = some (l, h) →
        a.checking = some m → b.window = some (l', h') →
        l ≤ l' ∧ h' ≤ h ∧ (l < l' ∨ h' < h) ∧ (m < l' ∨ h' < m)) := by
  have hlen2 : (sortAsc arr).length = arr.length := (sortAsc_perm arr).length_eq
  obtain ⟨r, hr⟩ := interpolationLoop_returns (sortAsc arr) target (by omega)
    ((sortAsc arr).length + 1) 0 (((sortAsc arr).length : Int) - 1) [] 0
    (by push_cast; omega)
  obtain ⟨h1, h2⟩ := interpolationLoop_window (sortAsc arr) target (by omega)
    (fun x hx => hval x ((sortAsc_perm arr).mem_iff.mp hx)) _ _ _ _ _ r (by simp)
    List.Pairwise.nil (by intro a ha; simp at ha) hr
  refine ⟨r, hr, ?_, h2⟩
  intro step hs low high hrange
  have := h1 step hs low high hrange
  rw [hlen2] at this
  exact this

theorem interpolation_probe_in_window_witness :
    ∃ r, interpolation [1, 2, 3, 5, 8, 13] 8 = some r ∧
      (∀ step ∈ r.steps, ∀ low high, step.range = some (low, high) →
        ∃ vlow vhigh, at? (sortAsc [1, 2, 3, 5, 8, 13]) low = some vlow ∧
          at? (sortAsc [1, 2, 3, 5, 8, 13]) high = some vhigh ∧
          0 ≤ low ∧ high ≤ (([1, 2, 3, 5, 8, 13] : List Int).length : Int) - 1 ∧
          step.checking = interpolationPos 8 vlow vhigh low high ∧
          (vlow < vhigh → ∃ pos, step.checking = some pos ∧ low ≤ pos ∧ pos ≤ high)) ∧
      r.steps.Pairwise (fun a b => ∀ l h m l' h', a.range = some (l, h) →
        a.checking = some m → b.window = some (l', h') →
        l ≤ l' ∧ h' ≤ h ∧ (l < l' ∨ h' < h) ∧ (m < l' ∨ h' < m)) :=
  interpolation_probe_in_window [1, 2, 3, 5, 8, 13] 8 (by decide) (by decide!)

/-! ## The order of the steps of `runDFS` -/

theorem dfsOrder_nil (edges : List Edge) : DfsOrder edges [] := by
  intro k a w h
  simp at h

theorem dfsOrder_append (edges : List Edge) (l1 l2 : List GraphStep)
    (h1 : DfsOrder edges l1) (h2 : DfsOrder edges l2) : DfsOrder edges (l1 ++ l2) := by
  intro k a w hk hw
  by_cases hlt : k < l1.length
  · rw [List.getElem?_append_left hlt] at hk
    obtain ⟨b, hb, hn⟩ := h1 k a w hk hw
    have hlt' : k + 1 < l1.length := (List.getElem?_eq_some_iff.mp hb).1
    exact ⟨b, by rw [List.getElem?_append_left hlt']; exact hb, hn⟩
  · rw [List.getElem?_append_right (by omega)] at hk
    obtain ⟨b, hb, hn⟩ := h2 (k - l1.length) a w hk hw
    refine ⟨b, ?_, hn⟩
    rw [List.getElem?_append_right (by omega)]
    rw [show k + 1 - l1.length = k - l1.length + 1 by omega]
    exact hb

theorem dfsOrder_cons (edges : List Edge) (first : GraphStep) (more : List GraphStep)
    (h1 : ∀ w, (unvisitedNeighbors edges first.node first.visited).head? = some w →
      ∃ b, more[0]? = some b ∧ b.node = w)
    (h2 : DfsOrder edges more) : DfsOrder edges (first :: more) := by
  intro k a w hk hw
  cases k with
  | zero =>
    simp at hk
    subst hk
    obtain ⟨b, hb, hn⟩ := h1 w hw
    exact ⟨b, by simpa using hb, hn⟩
  | succ k =>
    simp at hk
    obtain ⟨b, hb, hn⟩ := h2 k a w hk hw
    exact ⟨b, by simpa using hb, hn⟩

theorem dfsFold_order (edges : List Edge) (fuel : Nat)
    (ih : ∀ (node : Nat) (st st' : DfsState), dfsRecursive edges fuel node st = some st' →
      ∃ more, st'.steps = st.steps ++
          ((⟨node, setAdd st.visited node, none⟩ : GraphStep) :: more) ∧
        DfsOrder edges ((⟨node, setAdd st.visited node, none⟩ : GraphStep) :: more))
    (l : List Nat) :
    ∀ st st' : DfsState,
      l.foldlM (fun st neighbor =>
          if neighbor ∉ st.visited then dfsRecursive edges fuel neighbor st else some st) st
        = some st' →
      ∃ more, st'.steps = st.steps ++ more ∧ DfsOrder edges more ∧
        ∀ w rest, l = w :: rest → w ∉ st.visited → ∃ b, more[0]? = some b ∧ b.node = w := by
  induction l with
  | nil =>
    intro st st' e
    simp at e
    rw [← e]
    exact ⟨[], by simp, dfsOrder_nil edges, fun w rest h => by simp at h⟩
  | cons w l ihl =>
    intro st st' e
    rw [List.foldlM_cons] at e
    by_cases hw : w ∉ st.visited
    · rw [if_pos hw] at e
      cases hr : dfsRecursive edges fuel w st with
      | none => rw [hr] at e; simp at e
      | some st1 =>
        rw [hr] at e
        obtain ⟨m1, e1, d1⟩ := ih w st st1 hr
        obtain ⟨m2, e2, d2, _⟩ := ihl st1 st' e
        refine ⟨((⟨w, setAdd st.visited w, none⟩ : GraphStep) :: m1) ++ m2, ?_,
          dfsOrder_append edges _ _ d1 d2, ?_⟩
        · rw [e2, e1, List.append_assoc]
        · intro w' rest hl _
          have : w' = w := by
            injection hl with h1 _
            exact h1.symm
          rw [this]
          exact ⟨⟨w, setAdd st.visited w, none⟩, by simp, rfl⟩
    · rw [if_neg hw] at e
      obtain ⟨m2, e2, d2, _⟩ := ihl st st' e
      refine ⟨m2, e2, d2, ?_⟩
      intro w' rest hl hw'
      have : w' = w := by
        injection hl with h1 _
        exact h1.symm
      rw [this] at hw'
      exact absurd hw' hw

theorem dfsRecursive_order (edges : List Edge) (fuel : Nat) :
    ∀ (node : Nat) (st st' : DfsState), dfsRecursive edges fuel node st = some st' →
      ∃ more, st'.steps = st.steps ++
          ((⟨node, setAdd st.visited node, none⟩ : GraphStep) :: more) ∧
        DfsOrder edges ((⟨node, setAdd st.visited node, none⟩ : GraphStep) :: more) := by
  induction fuel with
  | zero =>
    intro node st st' e
    simp [dfsRecursive] at e
  | succ fuel ih =>
    intro node st st' e
    rw [dfsRecursive] at e
    dsimp only at e
    obtain ⟨more, e1, d1, hd⟩ := dfsFold_order edges fuel ih _ _ st' e
    dsimp only at e1 hd
    refine ⟨more, by rw [e1, List.append_assoc, List.singleton_append], ?_⟩
    apply dfsOrder_cons edges _ more _ d1
    intro w hw
    dsimp only at hw
    cases hn : unvisitedNeighbors edges node (setAdd st.visited node) with
    | nil => rw [hn] at hw; simp at hw
    | cons w' rest =>
      rw [hn] at hw
      have hww : w' = w := by simpa using hw
      have hmem : w' ∈ unvisitedNeighbors edges node (setAdd st.visited node) := by
        rw [hn]; exact List.mem_cons_self _ _
      have hnv := ((mem_unvisitedNeighbors edges node _ w').mp hmem).2
      rw [← hww]
      exact hd w' rest hn hnv

/-- C35: for every edge list and start node, `runDFS` returns a trace in which no node is
recorded twice, and whenever the node of step `k` has a neighbour that is not in the
`visited` of step `k` (the set right after the node is added), the node of step `k + 1`
is the first such neighbour in the order of the edge list. -/
theorem dfs_goes_deeper_first (edges : List Edge) (startNode : Nat) :
    ∃ steps, GraphVisualizer.runDFS edges startNode = some steps ∧
      (steps.map (·.node)).Nodup ∧
      ∀ k a w, steps[k]? = some a →
        (unvisitedNeighbors edges a.node a.visited).head? = some w →
        ∃ b, steps[k + 1]? = some b ∧ b.node = w := by
  obtain ⟨steps, hr, htr⟩ := runDFS_trace edges startNode
  refine ⟨steps, hr, htr.2, ?_⟩
  unfold GraphVisualizer.runDFS at hr
  cases hl : dfsRecursive edges (2 * edges.length + 2) startNode
      { visited := [], steps := [] } with
  | none => rw [hl] at hr; simp at hr
  | some st' =>
    rw [hl] at hr
    have e : st'.steps = steps := by simpa using hr
    obtain ⟨more, e1, d1⟩ := dfsRecursive_order edges _ startNode _ st' hl
    rw [← e, e1, List.nil_append]
    exact d1

/-! ## The closed-set snapshots of `runAStar` -/

theorem closedSnapshot_push (steps : List PathStep) (closedSet : List Pos) (u : Pos)
    (hc : closedSet = steps.map (·.current)) (h : ClosedSnapshot steps)
    (hu : u ∉ closedSet) :
    closedSet ++ [u] = (steps ++ [(⟨u, closedSet⟩ : PathStep)]).map (·.current) ∧
    ClosedSnapshot (steps ++ [(⟨u, closedSet⟩ : PathStep)]) := by
  obtain ⟨h1, h2, h3⟩ := h
  refine ⟨by simp [hc], ?_, ?_, ?_⟩
  · intro k step hk
    by_cases hlt : k < steps.length
    · rw [List.getElem?_append_left hlt] at hk
      rw [h1 k step hk, List.take_append_of_le_length (by omega)]
    · have hk' : k = steps.length := by
        by_contra hne
        rw [List.getElem?_eq_none (by simp; omega)] at hk
        simp at hk
      subst hk'
      simp at hk
      subst hk
      simp [hc]
  · rw [List.map_append, ← hc]
    exact List.Nodup.append (hc ▸ h2) (List.nodup_singleton u) (by simpa using hu)
  · intro step hs
    rcases List.mem_append.mp hs with h | h
    · exact h3 step h
    · rw [List.mem_singleton] at h
      rw [h]; exact hu

theorem aStarVisit_snap (e c : Pos) (st : AStarState) (w : Pos) (h : AStarSnapInv st) :
    AStarSnapInv (aStarVisit e c st w) := by
  unfold aStarVisit
  by_cases hwK : w ∈ st.closedSet
  · rw [if_pos hwK]; exact h
  · rw [if_neg hwK]
    dsimp only
    by_cases hf : (st.openSet.find? (fun n => decide (n.row = w.row ∧ n.col = w.col))) = none
    · rw [if_pos hf]
      have hwO := (find?_open_none st.openSet w).mp hf
      unfold aStarRecord
      refine ⟨h.closed_eq, h.snap, ?_, ?_⟩
      · exact List.Nodup.append h.o_nodup (List.nodup_singleton w) (by simpa using hwO)
      · intro v hv
        dsimp only at hv ⊢
        rcases List.mem_append.mp hv with h1 | h1
        · exact h.disj v h1
        · rw [List.mem_singleton] at h1
          rw [h1]; exact hwK
    · rw [if_neg hf]
      split
      · exact h
      · unfold aStarRecord
        exact ⟨h.closed_eq, h.snap, h.o_nodup, h.disj⟩

theorem aStarFold_snap (e c : Pos) (l : List Pos) : ∀ st : AStarState, AStarSnapInv st →
    AStarSnapInv (l.foldl (aStarVisit e c) st) := by
  induction l with
  | nil => intro st h; exact h
  | cons w l ih =>
    intro st h
    rw [List.foldl_cons]
    exact ih _ (aStarVisit_snap e c st w h)

/-- When the loop of `runAStar` returns, the steps it returns are as `ClosedSnapshot`
says. -/
theorem aStarLoop_snapshot (grid : Grid) (e : Pos) (fuel : Nat) :
    ∀ (st : AStarState) (r : PathResult), AStarSnapInv st →
      aStarLoop grid e fuel st = some r → ClosedSnapshot r.steps := by
  induction fuel with
  | zero =>
    intro st r h hr
    cases hsort : st.openSet.insertionSort (fun a b => fScoreLe st.fScore a b = true) with
    | nil =>
      rw [aStarLoop_nil grid e 0 st hsort] at hr
      injection hr with hr
      rw [← hr]; exact h.snap
    | cons u rest =>
      rw [aStarLoop] at hr
      simp [hsort] at hr
  | succ fuel ih =>
    intro st r h hr
    cases hsort : st.openSet.insertionSort (fun a b => fScoreLe st.fScore a b = true) with
    | nil =>
      rw [aStarLoop_nil grid e _ st hsort] at hr
      injection hr with hr
      rw [← hr]; exact h.snap
    | cons u rest =>
      obtain ⟨hperm, _⟩ := sortOpen_cons st.fScore st.openSet u rest hsort
      have huO : u ∈ st.openSet := hperm.subset (List.mem_cons_self u rest)
      have huK : u ∉ st.closedSet := h.disj u huO
      have hnd : (u :: rest).Nodup := hperm.nodup_iff.mpr h.o_nodup
      obtain ⟨p1, p2⟩ := closedSnapshot_push st.steps st.closedSet u h.closed_eq h.snap huK
      by_cases hue : u = e
      · subst hue
        rw [aStarLoop_end grid u fuel st rest hsort] at hr
        cases hb : buildPath st.cameFrom gridFuel u [] with
        | none => rw [hb] at hr; simp at hr
        | some path =>
          rw [hb] at hr
          injection hr with hr
          rw [← hr]; exact p2
      · rw [aStarLoop_step grid e fuel st u rest hsort hue] at hr
        refine ih _ r (aStarFold_snap e u _ _ ?_) hr
        have hset : setAdd st.closedSet u = st.closedSet ++ [u] := by
          unfold setAdd; rw [if_neg huK]
        refine ⟨?_, p2, (List.nodup_cons.mp hnd).2, ?_⟩
        · dsimp only
          rw [hset]; exact p1
        · intro v hv
          dsimp only at hv ⊢
          rw [hset]
          intro hmem
          rcases List.mem_append.mp hmem with h1 | h1
          · exact h.disj v (hperm.subset (List.mem_cons_of_mem u hv)) h1
          · rw [List.mem_singleton] at h1
            exact (List.nodup_cons.mp hnd).1 (h1 ▸ hv)

/-- C36: for every grid, start and end cell, in every result that `runAStar` returns (and
it returns whenever the start cell is in bounds and not a wall) the `visited` of step `k`
is the list of the `current` cells of the steps 0..k-1 in order, no cell is the `current`
of two steps, and no step has its own `current` in its `visited`. -/
theorem aStar_visited_is_closed_before (grid : Grid) (startPos endPos : Pos) :
    (Passable grid startPos → ∃ r, runAStar grid startPos endPos = some r) ∧
    ∀ r, runAStar grid startPos endPos = some r →
      (∀ k step, r.steps[k]? = some step →
        step.visited = (r.steps.take k).map (·.current)) ∧
      (r.steps.map (·.current)).Nodup ∧
      ∀ step ∈ r.steps, step.current ∉ step.visited := by
  constructor
  · intro hs
    obtain ⟨r, hr, _⟩ := aStar_spec grid startPos endPos hs
    exact ⟨r, hr⟩
  · intro r hr
    unfold runAStar at hr
    refine aStarLoop_snapshot grid endPos gridFuel _ r ?_ hr
    refine ⟨rfl, ⟨?_, by simp, by simp⟩, by simp, by simp⟩
    intro k step hk
    simp at hk

/-! ## The swap counts of bubble and insertion -/

theorem rd_cons_succ (x : Int) (l : List Int) (k : Nat) : rd (x :: l) (k + 1) = rd l k := by
  simp [rd]

theorem rd_cons_zero (x : Int) (l : List Int) : rd (x :: l) 0 = x := by
  simp [rd]

theorem swapAt_cons_succ (x : Int) (l : List Int) (i j : Nat) :
    swapAt (x :: l) (i + 1) (j + 1) = x :: swapAt l i j := by
  simp [swapAt, rd_cons_succ]

/-- Swapping two adjacent entries that are out of order removes exactly one inversion. -/
theorem inversions_swap_adj (a : List Int) : ∀ j, j + 1 < a.length →
    rd a (j + 1) < rd a j → inversions (swapAt a j (j + 1)) + 1 = inversions a := by
  induction a with
  | nil => intro j h; simp at h
  | cons x l ih =>
    intro j hj hlt
    cases j with
    | zero =>
      cases l with
      | nil => simp at hj
      | cons y post =>
        have hyx : y < x := by simpa [rd] using hlt
        have e : swapAt (x :: y :: post) 0 1 = y :: x :: post := by
          simp [swapAt, rd]
        rw [e]
        have hxy : ¬ x < y := by omega
        simp only [inversions, List.countP_cons, hyx, hxy, decide_True, decide_False, if_true]
        simp
        omega
    | succ j =>
      rw [swapAt_cons_succ]
      have hl : j + 1 < l.length := by simpa using hj
      have hlt' : rd l (j + 1) < rd l j := by
        rwa [rd_cons_succ, rd_cons_succ] at hlt
      have hp := swapAt_perm l j (j + 1) (by omega) hl
      simp only [inversions]
      rw [hp.countP_eq]
      have := ih j hl hlt'
      omega

theorem inversions_sorted (a : List Int) (h : a.Sorted (· ≤ ·)) : inversions a = 0 := by
  induction a with
  | nil => rfl
  | cons x l ih =>
    have h1 := List.rel_of_sorted_cons h
    have h2 := ih (List.Sorted.of_cons h)
    simp only [inversions, h2, add_zero]
    rw [List.countP_eq_zero]
    intro y hy
    have := h1 y hy
    simp
    omega

theorem bubbleBody_swaps (st : SortState) (j : Nat) (hj : j + 1 < st.array.length) :
    (bubbleBody st j).swaps + inversions (bubbleBody st j).array
      = st.swaps + inversions st.array ∧
    (bubbleBody st j).array.length = st.array.length := by
  unfold bubbleBody pushStep
  dsimp only
  by_cases hc : rd st.array j > rd st.array (j + 1)
  · rw [if_pos hc]
    dsimp only
    have := inversions_swap_adj st.array j hj hc
    exact ⟨by omega, length_swapAt _ _ _⟩
  · rw [if_neg hc]
    exact ⟨rfl, rfl⟩

theorem bubbleInner_swaps (m : Nat) (st : SortState) (hm : m < st.array.length ∨ m = 0) :
    ((List.range m).foldl bubbleBody st).swaps
        + inversions ((List.range m).foldl bubbleBody st).array
      = st.swaps + inversions st.array ∧
    ((List.range m).foldl bubbleBody st).array.length = st.array.length := by
  induction m with
  | zero => exact ⟨rfl, rfl⟩
  | succ m ih =>
    have hm' : m + 1 < st.array.length := by omega
    obtain ⟨h1, h2⟩ := ih (Or.inl (by omega))
    rw [List.range_succ, List.foldl_append]
    simp only [List.foldl_cons, List.foldl_nil]
    obtain ⟨b1, b2⟩ := bubbleBody_swaps ((List.range m).foldl bubbleBody st) m (by omega)
    exact ⟨by omega, by omega⟩

theorem bubbleOuter_swaps (arr : List Int) (k : Nat) :
    ((List.range k).foldl (bubblePass arr.length) (SortState.init arr)).swaps
        + inversions ((List.range k).foldl (bubblePass arr.length) (SortState.init arr)).array
      = inversions arr ∧
    ((List.range k).foldl (bubblePass arr.length) (SortState.init arr)).array.length
      = arr.length := by
  induction k with
  | zero => simp [SortState.init]
  | succ k ih =>
    obtain ⟨h1, h2⟩ := ih
    rw [List.range_succ, List.foldl_append]
    simp only [List.foldl_cons, List.foldl_nil]
    generalize ((List.range k).foldl (bubblePass arr.length) (SortState.init arr)) = sb
      at h1 h2
    obtain ⟨b1, b2⟩ := bubbleInner_swaps (arr.length - k - 1) sb (by omega)
    unfold bubblePass bubbleInner pushStep
    dsimp only
    exact ⟨by omega, by omega⟩

theorem bubbleRun_sorted (arr : List Int) : (bubbleRun arr).array.Sorted (· ≤ ·) := by
  obtain ⟨hlen, _, hinv⟩ := bubbleOuter_spec arr (arr.length - 1) (le_refl _)
  have hrun : bubbleRun arr = (List.range (arr.length - 1)).foldl (bubblePass arr.length)
      (SortState.init arr) := rfl
  rw [← hrun] at hlen hinv
  apply sorted_of_rd_mono
  intro p q hpq hq
  rw [hlen] at hq
  by_cases hq0 : q = 0
  · have : p = 0 := by omega
    subst hq0; subst this; exact le_refl _
  · exact hinv p q hpq hq (by omega)

theorem set_shift (a : List Int) (j : Nat) (key : Int) (h : j + 1 < a.length) :
    swapAt (a.set (j + 1) key) j (j + 1) = (a.set (j + 1) (rd a j)).set j key := by
  have hj : j < a.length := by omega
  have hne : j ≠ j + 1 := by omega
  unfold swapAt
  rw [rd_set _ _ _ _ h, rd_set _ _ _ _ h, if_pos rfl, if_neg hne]
  apply List.ext_getElem (by simp)
  intro k h1 h2
  simp only [List.getElem_set]
  split_ifs <;> first | rfl | omega

/-- The `while` loop of `insertion` counts one swap for each inversion it removes from the
array that has `key` in the place under consideration. -/
theorem insertionWhile_swaps (key : Int) (jp : Nat) : ∀ st : SortState,
    jp < st.array.length →
    (insertionWhile key jp st).2.swaps
        + inversions ((insertionWhile key jp st).2.array.set (insertionWhile key jp st).1 key)
      = st.swaps + inversions (st.array.set jp key) := by
  induction jp with
  | zero =>
    intro st _
    rw [insertionWhile_zero]
  | succ j ih =>
    intro st h
    by_cases hc : rd st.array j > key
    · rw [insertionWhile, if_pos hc]
      dsimp only
      have hl : j < (pushStep { st with comparisons := st.comparisons + 1 } [j, j + 1]
          none).array.length := by
        rw [pushStep_array]; dsimp only; omega
      have := ih
        { array := (pushStep { st with comparisons := st.comparisons + 1 } [j, j + 1]
            none).array.set (j + 1)
            (rd (pushStep { st with comparisons := st.comparisons + 1 } [j, j + 1]
              none).array j),
          steps := (pushStep { st with comparisons := st.comparisons + 1 } [j, j + 1]
            none).steps,
          comparisons := (pushStep { st with comparisons := st.comparisons + 1 } [j, j + 1]
            none).comparisons,
          swaps := (pushStep { st with comparisons := st.comparisons + 1 } [j, j + 1]
            none).swaps + 1 } (by simpa using hl)
      rw [this]
      simp only [pushStep_array]
      have hg1 : rd (st.array.set (j + 1) key) (j + 1) < rd (st.array.set (j + 1) key) j := by
        rw [rd_set _ _ _ _ h, rd_set _ _ _ _ h, if_pos rfl, if_neg (by omega)]
        exact hc
      have := inversions_swap_adj (st.array.set (j + 1) key) j (by simpa using h) hg1
      rw [set_shift st.array j key h] at this
      show st.swaps + 1 + inversions ((st.array.set (j + 1) (rd st.array j)).set j key) = _
      omega
    · rw [insertionWhile_succ_neg key j st hc]

theorem insertionPass_swaps (st : SortState) (i : Nat) (hi : i < st.array.length) :
    (insertionPass st i).swaps + inversions (insertionPass st i).array
      = st.swaps + inversions st.array ∧
    (insertionPass st i).array.length = st.array.length := by
  have h1 := insertionWhile_swaps (rd st.array i) i st hi
  have h2 := (insertionWhile_spec (rd st.array i) i st hi).2.1
  rw [set_rd_self _ _ hi] at h1
  unfold insertionPass pushStep
  dsimp only
  generalize insertionWhile (rd st.array i) i st = r at h1 h2
  obtain ⟨jp, sr⟩ := r
  dsimp only at h1 h2 ⊢
  split
  · exact ⟨h1, by simp [h2]⟩
  · exact ⟨h1, by simp [h2]⟩

theorem insertionOuter_swaps (arr : List Int) (m : Nat) (hm : m + 1 ≤ arr.length ∨ m = 0) :
    ((List.range' 1 m).foldl insertionPass (SortState.init arr)).swaps
        + inversions ((List.range' 1 m).foldl insertionPass (SortState.init arr)).array
      = inversions arr ∧
    ((List.range' 1 m).foldl insertionPass (SortState.init arr)).array.length
      = arr.length := by
  induction m with
  | zero => simp [SortState.init]
  | succ m ih =>
    obtain ⟨h1, h2⟩ := ih (Or.inl (by omega))
    rw [List.range'_1_concat, List.foldl_append]
    simp only [List.foldl_cons, List.foldl_nil]
    generalize ((List.range' 1 m).foldl insertionPass (SortState.init arr)) = sb at h1 h2
    obtain ⟨p1, p2⟩ := insertionPass_swaps sb (1 + m) (by omega)
    exact ⟨by omega, by omega⟩

theorem insertionRun_sorted (arr : List Int) : (insertionRun arr).array.Sorted (· ≤ ·) := by
  obtain ⟨hlen, _, hinv⟩ := insertionOuter_spec arr (arr.length - 1) (le_refl _)
  have hrun : insertionRun arr = (List.range' 1 (arr.length - 1)).foldl
      insertionPass (SortState.init arr) := rfl
  rw [← hrun] at hlen hinv
  apply sorted_of_rd_mono
  intro p q hpq hq
  rw [hlen] at hq
  exact hinv p q hpq (by omega)

/-- C38: for every integer array, the `swaps` that `bubble` returns is the number of
inversions of the input, and `insertion` returns the same `swaps`. -/
theorem bubble_insertion_swaps_eq_inversions (arr : List Int) :
    (bubble arr).swaps = inversions arr ∧ (insertion arr).swaps = inversions arr ∧
    (insertion arr).swaps = (bubble arr).swaps := by
  have hb := (bubbleOuter_swaps arr (arr.length - 1)).1
  have hrb : bubbleRun arr = (List.range (arr.length - 1)).foldl (bubblePass arr.length)
      (SortState.init arr) := rfl
  rw [← hrb, inversions_sorted _ (bubbleRun_sorted arr)] at hb
  have hi := (insertionOuter_swaps arr (arr.length - 1) (by omega)).1
  have hri : insertionRun arr = (List.range' 1 (arr.length - 1)).foldl
      insertionPass (SortState.init arr) := rfl
  rw [← hri, inversions_sorted _ (insertionRun_sorted arr)] at hi
  have e1 : (bubble arr).swaps = inversions arr := by
    show (bubbleRun arr).swaps = _
    omega
  have e2 : (insertion arr).swaps = inversions arr := by
    show (insertionRun arr).swaps = _
    omega
  exact ⟨e1, e2, by rw [e1, e2]⟩

/-! ## The `sorted` markers of selection and heap sort -/

theorem rd_take (a : List Int) (k x : Nat) (h : x < k) : rd (a.take k) x = rd a x := by
  simp [rd, List.getD_eq_getElem?_getD, List.getElem?_take, h]

theorem rd_drop (a : List Int) (m x : Nat) : rd (a.drop m) x = rd a (m + x) := by
  simp [rd, List.getD_eq_getElem?_getD, List.getElem?_drop]

theorem rd_append_left (l1 l2 : List Int) (x : Nat) (h : x < l1.length) :
    rd (l1 ++ l2) x = rd l1 x := by
  simp [rd, List.getD_eq_getElem?_getD, List.getElem?_append_left h]

theorem rd_append_right (l1 l2 : List Int) (x : Nat) (h : l1.length ≤ x) :
    rd (l1 ++ l2) x = rd l2 (x - l1.length) := by
  simp [rd, List.getD_eq_getElem?_getD, List.getElem?_append_right h]

theorem sortAsc_congr (a b : List Int) (h : a.Perm b) : sortAsc a = sortAsc b := by
  exact @List.eq_of_perm_of_sorted Int (· ≤ ·) _ _ _
    (((sortAsc_perm a).trans h).trans (sortAsc_perm b).symm) (sortAsc_sorted a)
    (sortAsc_sorted b)

/-- Sorting a list whose first part is below its second part sorts the two parts. -/
theorem sortAsc_append (l1 l2 : List Int) (h : ∀ x ∈ l1, ∀ y ∈ l2, x ≤ y) :
    sortAsc (l1 ++ l2) = sortAsc l1 ++ sortAsc l2 := by
  refine @List.eq_of_perm_of_sorted Int (· ≤ ·) _ _ _ ?_ (sortAsc_sorted _) ?_
  · exact (sortAsc_perm _).trans
      (List.Perm.append (sortAsc_perm l1).symm (sortAsc_perm l2).symm)
  · unfold List.Sorted
    rw [List.pairwise_append]
    refine ⟨sortAsc_sorted l1, sortAsc_sorted l2, ?_⟩
    intro x hx y hy
    exact h x ((sortAsc_perm l1).mem_iff.mp hx) y ((sortAsc_perm l2).mem_iff.mp hy)

theorem sortAsc_of_sorted (l : List Int) (h : l.Sorted (· ≤ ·)) : sortAsc l = l :=
  List.Sorted.insertionSort_eq h

/-- The entries of a prefix that is in order and below everything after it are the
entries of the sorted array. -/
theorem prefix_final (arr a : List Int) (k : Nat) (hperm : a.Perm arr) (hk : k ≤ a.length)
    (h : ∀ p q, p < k → p ≤ q → q < a.length → rd a p ≤ rd a q) :
    ∀ x, x < k → rd a x = rd (sortAsc arr) x := by
  intro x hx
  have hs1 : (a.take k).Sorted (· ≤ ·) := by
    apply sorted_of_rd_mono
    intro p q hpq hq
    have hq' : q < k := by simp at hq; omega
    rw [rd_take a k p (by omega), rd_take a k q hq']
    exact h p q (by omega) hpq (by omega)
  have hcross : ∀ u ∈ a.take k, ∀ v ∈ a.drop k, u ≤ v := by
    intro u hu v hv
    obtain ⟨p, hp, e1⟩ := (mem_iff_rd _ u).mp hu
    obtain ⟨q, hq, e2⟩ := (mem_iff_rd _ v).mp hv
    have hp' : p < k := by simp at hp; omega
    have hq' : k + q < a.length := by simp at hq; omega
    rw [rd_take a k p hp'] at e1
    rw [rd_drop] at e2
    rw [← e1, ← e2]
    exact h p (k + q) hp' (by omega) hq'
  have e : sortAsc arr = a.take k ++ sortAsc (a.drop k) := by
    rw [← sortAsc_congr a arr hperm]
    conv_lhs => rw [← List.take_append_drop k a]
    rw [sortAsc_append _ _ hcross, sortAsc_of_sorted _ hs1]
  rw [e, rd_append_left _ _ x (by simp; omega), rd_take a k x hx]

/-- The entries of a suffix that is in order and above everything before it are the
entries of the sorted array. -/
theorem suffix_final (arr a : List Int) (m : Nat) (hperm : a.Perm arr)
    (h : ∀ p q, p ≤ q → m ≤ q → q < a.length → rd a p ≤ rd a q) :
    ∀ x, m ≤ x → x < a.length → rd a x = rd (sortAsc arr) x := by
  intro x hx1 hx2
  have hs2 : (a.drop m).Sorted (· ≤ ·) := by
    apply sorted_of_rd_mono
    intro p q hpq hq
    have hq' : m + q < a.length := by simp at hq; omega
    rw [rd_drop, rd_drop]
    exact h (m + p) (m + q) (by omega) (by omega) hq'
  have hcross : ∀ u ∈ a.take m, ∀ v ∈ a.drop m, u ≤ v := by
    intro u hu v hv
    obtain ⟨p, hp, e1⟩ := (mem_iff_rd _ u).mp hu
    obtain ⟨q, hq, e2⟩ := (mem_iff_rd _ v).mp hv
    have hp' : p < m := by simp at hp; omega
    have hq' : m + q < a.length := by simp at hq; omega
    rw [rd_take a m p hp'] at e1
    rw [rd_drop] at e2
    rw [← e1, ← e2]
    exact h p (m + q) (by omega) (by omega) hq'
  have e : sortAsc arr = sortAsc (a.take m) ++ a.drop m := by
    rw [← sortAsc_congr a arr hperm]
    conv_lhs => rw [← List.take_append_drop m a]
    rw [sortAsc_append _ _ hcross, sortAsc_of_sorted _ hs2]
  have hl : (sortAsc (a.take m)).length = m := by
    rw [(sortAsc_perm _).length_eq]
    simp
    omega
  rw [e, rd_append_right _ _ x (by omega), hl, rd_drop]
  congr 1
  omega

theorem allSteps_pushStep (P : SortStep → Prop) (st : SortState) (c : List Nat)
    (s : Option (List Nat)) (h : AllSteps P st)
    (hp : P ⟨st.array, c, s, st.comparisons, st.swaps⟩) : AllSteps P (pushStep st c s) := by
  intro x hx
  unfold pushStep at hx
  dsimp only at hx
  rcases List.mem_append.mp hx with h1 | h1
  · exact h x h1
  · rw [List.mem_singleton] at h1
    rw [h1]; exact hp

theorem allSteps_push (P : SortStep → Prop) (st0 st : SortState) (c : List Nat)
    (s : Option (List Nat)) (hsteps : st0.steps = st.steps) (h : AllSteps P st)
    (hp : P ⟨st0.array, c, s, st0.comparisons, st0.swaps⟩) : AllSteps P (pushStep st0 c s) := by
  apply allSteps_pushStep P st0 c s _ hp
  intro x hx
  rw [hsteps] at hx
  exact h x hx

theorem selectionBody_all (P : SortStep → Prop) (hP : ∀ s, s.sorted = none → P s)
    (s : Nat × SortState) (j : Nat) (h : AllSteps P s.2) :
    AllSteps P (selectionBody s j).2 := by
  unfold selectionBody
  dsimp only
  split <;> exact allSteps_pushStep P _ _ _ h (hP _ rfl)

theorem selectionInner_all (P : SortStep → Prop) (hP : ∀ s, s.sorted = none → P s)
    (l : List Nat) : ∀ s : Nat × SortState, AllSteps P s.2 →
      AllSteps P (l.foldl selectionBody s).2 := by
  induction l with
  | nil => intro s h; exact h
  | cons j l ih =>
    intro s h
    rw [List.foldl_cons]
    exact ih _ (selectionBody_all P hP s j h)

theorem selectionPass_all (P : SortStep → Prop) (hP : ∀ s, s.sorted = none → P s)
    (n : Nat) (st : SortState) (i : Nat) (h : AllSteps P st)
    (hlast : ∀ c w, P ⟨(selectionPass n st i).array, [], some (countUp (i + 1)), c, w⟩) :
    AllSteps P (selectionPass n st i) := by
  have hin : AllSteps P (selectionInner n i st).2 :=
    selectionInner_all P hP _ (i, st) h
  have harr := selectionPass_array n st i
  unfold selectionPass at hlast harr ⊢
  dsimp only at hlast harr ⊢
  split
  · rename_i hc
    rw [if_pos hc] at hlast
    apply allSteps_pushStep
    · exact allSteps_pushStep P _ _ _ hin (hP _ rfl)
    · exact hlast _ _
  · rename_i hc
    rw [if_neg hc] at hlast
    exact allSteps_pushStep P _ _ _ hin (hlast _ _)

theorem selectionOuter_marks (arr : List Int) (k : Nat) (hk : k ≤ arr.length - 1) :
    AllSteps (SelectionMark arr)
      ((List.range k).foldl (selectionPass arr.length) (SortState.init arr)) := by
  induction k with
  | zero =>
    intro s hs
    simp [SortState.init] at hs
  | succ k ih =>
    have ih' := ih (by omega)
    obtain ⟨hlen, hperm, hinv⟩ := selectionOuter_spec arr (k + 1) hk
    rw [List.range_succ, List.foldl_append] at hlen hperm hinv ⊢
    simp only [List.foldl_cons, List.foldl_nil] at hlen hperm hinv ⊢
    generalize ((List.range k).foldl (selectionPass arr.length) (SortState.init arr)) = sb
      at ih' hlen hperm hinv
    apply selectionPass_all (SelectionMark arr) _ arr.length sb k ih'
    · intro c w l hl
      have hl' : l = countUp (k + 1) := by
        simp at hl
        exact hl.symm
      refine ⟨k, by omega, hl', ?_⟩
      intro x hx
      exact prefix_final arr _ (k + 1) hperm (by omega)
        (fun p q hp hpq hq => hinv p q hp hpq (by omega)) x (by omega)
    · intro s hs l hl
      rw [hs] at hl
      simp at hl

theorem heapCheck_all (P : SortStep → Prop) (hP : ∀ s, s.sorted = none → P s)
    (n child largest : Nat) (st : SortState) (h : AllSteps P st) :
    AllSteps P (heapCheck n child largest st).2 := by
  unfold heapCheck
  split
  · dsimp only
    split <;> exact allSteps_pushStep P _ _ _ h (hP _ rfl)
  · exact h

theorem heapify_all (P : SortStep → Prop) (hP : ∀ s, s.sorted = none → P s) (n : Nat)
    (fuel : Nat) : ∀ (i : Nat) (st st' : SortState), AllSteps P st →
      heapify n fuel i st = some st' → AllSteps P st' := by
  induction fuel with
  | zero =>
    intro i st st' _ e
    simp [heapify] at e
  | succ fuel ih =>
    intro i st st' h e
    have hc : AllSteps P (heapCheck n (2 * i + 2) (heapCheck n (2 * i + 1) i st).1
        (heapCheck n (2 * i + 1) i st).2).2 :=
      heapCheck_all P hP _ _ _ _ (heapCheck_all P hP _ _ _ _ h)
    rw [heapify] at e
    dsimp only at e
    split at e
    · refine ih _ _ st' ?_ e
      refine allSteps_push P _ _ _ _ ?_ hc (hP _ rfl)
      rfl
    · injection e with e
      rw [← e]; exact hc

theorem heapBuild_all (P : SortStep → Prop) (hP : ∀ s, s.sorted = none → P s) (n : Nat)
    (l : List Nat) : ∀ st st' : SortState, AllSteps P st →
      l.foldlM (heapBuildBody n) st = some st' → AllSteps P st' := by
  induction l with
  | nil =>
    intro st st' h e
    simp at e
    rw [← e]; exact h
  | cons i l ih =>
    intro st st' h e
    rw [List.foldlM_cons] at e
    cases hb : heapBuildBody n st i with
    | none => rw [hb] at e; simp at e
    | some st1 =>
      rw [hb] at e
      exact ih st1 st' (heapify_all P hP n _ i st st1 h hb) e

theorem heapMark_none (arr : List Int) : ∀ s : SortStep, s.sorted = none → HeapMark arr s := by
  intro s hs l hl
  rw [hs] at hl
  simp at hl

/-- The second loop of `heap` pushes, with each `sorted`, an array whose entries at the
indices of `sorted` are final. -/
theorem heapExtract_marks (arr : List Int) (k : Nat) : ∀ st st' : SortState,
    st.array.length = arr.length → k + 1 ≤ arr.length → st.array.Perm arr →
    (∀ x, x < k + 1 → HeapAt st.array (k + 1) x) →
    (∀ p q, p ≤ q → k + 1 ≤ q → q < arr.length → rd st.array p ≤ rd st.array q) →
    AllSteps (HeapMark arr) st →
    (List.range' 1 k).reverse.foldlM (heapExtractBody arr.length) st = some st' →
    AllSteps (HeapMark arr) st' := by
  induction k with
  | zero =>
    intro st st' _ _ _ _ _ hall e
    simp at e
    rw [← e]; exact hall
  | succ k ih =>
    intro st st' hl hk hperm hheap hs hall e
    rw [List.range'_1_concat, List.reverse_append, List.reverse_singleton,
      List.singleton_append, List.foldlM_cons] at e
    have h0 : 0 < st.array.length := by omega
    have hi : 1 + k < st.array.length := by omega
    have hmax := heap_root_max st.array (k + 1 + 1) hheap
    have hrd : ∀ x, rd (swapAt st.array 0 (1 + k)) x =
        if x = 1 + k then rd st.array 0 else if x = 0 then rd st.array (1 + k)
          else rd st.array x := by
      intro x; exact rd_swapAt _ _ _ _ h0 hi
    have hperm1 : (swapAt st.array 0 (1 + k)).Perm st.array := swapAt_perm _ _ _ h0 hi
    have hlen1 : (swapAt st.array 0 (1 + k)).length = st.array.length := length_swapAt _ _ _
    have hsuf : ∀ p q, p ≤ q → 1 + k ≤ q → q < (swapAt st.array 0 (1 + k)).length →
        rd (swapAt st.array 0 (1 + k)) p ≤ rd (swapAt st.array 0 (1 + k)) q := by
      intro p q hpq hq1 hq2
      rw [hrd, hrd]
      have f1 := hmax p
      have f2 := hmax (1 + k)
      have f3 := hs p q
      have f4 := hs 0 q
      have f5 := hs (1 + k) q
      split_ifs <;> first | contradiction | omega
    have hall1 : AllSteps (HeapMark arr)
        (pushStep { array := swapAt st.array 0 (1 + k), steps := st.steps,
                    comparisons := st.comparisons, swaps := st.swaps + 1 } [0, 1 + k]
          (some (countDown (arr.length - (1 + k)) (arr.length - 1)))) := by
      refine allSteps_push _ _ st _ _ ?_ hall ?_
      · rfl
      intro l hl'
      have hl'' : l = countDown (arr.length - (1 + k)) (arr.length - 1) := by
        simp at hl'
        exact hl'.symm
      refine ⟨1 + k, by omega, by omega, hl'', ?_⟩
      intro x hx1 hx2
      exact suffix_final arr _ (1 + k) (hperm1.trans hperm) hsuf x hx1 (by omega)
    have e1 : heapExtractBody arr.length st (1 + k) = heapify (1 + k) (arr.length + 1) 0
        (pushStep { array := swapAt st.array 0 (1 + k), steps := st.steps,
                    comparisons := st.comparisons, swaps := st.swaps + 1 } [0, 1 + k]
          (some (countDown (arr.length - (1 + k)) (arr.length - 1)))) := rfl
    obtain ⟨st2, e2, r1, r2, r3, r4, r5, _⟩ := heapify_spec (1 + k) 0 (arr.length + 1) 0
      (pushStep { array := swapAt st.array 0 (1 + k), steps := st.steps,
                  comparisons := st.comparisons, swaps := st.swaps + 1 } [0, 1 + k]
        (some (countDown (arr.length - (1 + k)) (arr.length - 1))))
      (by omega) (le_refl _) (by omega) (by rw [pushStep_array]; dsimp only; omega)
      (by
        intro x _ hx1 hx2
        have hx := hheap x (by omega)
        unfold HeapAt at hx ⊢
        rw [pushStep_array]
        dsimp only
        rw [hrd, hrd, hrd]
        constructor
        · intro h
          have := hx.1 (by omega)
          split_ifs <;> first | contradiction | omega
        · intro h
          have := hx.2 (by omega)
          split_ifs <;> first | contradiction | omega)
      (fun p _ h2 => by omega)
    rw [pushStep_array] at r1 r2 r3 r4
    dsimp only at r1 r2 r3 r4
    have hall2 : AllSteps (HeapMark arr) st2 :=
      heapify_all _ (heapMark_none arr) _ _ _ _ st2 hall1 e2
    rw [e1, e2] at e
    refine ih st2 st' (by omega) (by omega) ((r2.trans hperm1).trans hperm) ?_ ?_ hall2 e
    · intro x hx
      have := r5 x (Nat.zero_le _) (by omega)
      rw [show k + 1 = 1 + k by omega]
      exact this
    · intro p q hpq hq1 hq2
      have hq : rd st2.array q = rd (swapAt st.array 0 (1 + k)) q := r3 q (by omega)
      rw [hq]
      by_cases hp : p < 1 + k
      · obtain ⟨p', u1, u2⟩ := r4 p hp
        rw [u2]
        exact hsuf p' q (by omega) (by omega) (by omega)
      · rw [r3 p (by omega)]
        exact hsuf p q hpq (by omega) (by omega)

theorem mem_countDown (n i x : Nat) (h1 : 1 ≤ i) (h2 : i < n) :
    x ∈ countDown (n - i) (n - 1) ↔ i ≤ x ∧ x < n := by
  unfold countDown
  rw [List.mem_map]
  constructor
  · rintro ⟨idx, hidx, e⟩
    rw [List.mem_range] at hidx
    omega
  · intro h
    exact ⟨n - 1 - x, by rw [List.mem_range]; omega, by omega⟩

/-- C32: for every input, in every step of `selection` that carries `sorted` the set is
the prefix `0..i` of a pass `i`, in every step of `heap` (which returns) that carries
`sorted` the set is the suffix `i..n-1` of an index `i >= 1`, and in both every index of
the set holds in the step's `array` the value it has in the sorted array. -/
theorem selection_heap_sorted_markers (arr : List Int) :
    (∀ step ∈ (selection arr).steps, ∀ l, step.sorted = some l →
      ∃ i, i + 1 < arr.length ∧ l = List.range (i + 1) ∧
        ∀ x ∈ l, rd step.array x = rd (sortAsc arr) x) ∧
    (∃ r, heap arr = some r ∧ ∀ step ∈ r.steps, ∀ l, step.sorted = some l →
      ∃ i, 1 ≤ i ∧ i < arr.length ∧ (∀ x, x ∈ l ↔ i ≤ x ∧ x < arr.length) ∧
        ∀ x ∈ l, rd step.array x = rd (sortAsc arr) x) := by
  constructor
  · intro step hstep l hl
    obtain ⟨i, h1, h2, h3⟩ :=
      selectionOuter_marks arr (arr.length - 1) (le_refl _) step hstep l hl
    refine ⟨i, h1, h2, ?_⟩
    intro x hx
    rw [h2, List.mem_range] at hx
    exact h3 x (by omega)
  · obtain ⟨st1, e1, b1, b2, b3⟩ := heapBuild_spec arr.length (arr.length / 2)
      (SortState.init arr) (le_refl _) (by omega)
      (by
        intro k hk1 hk2
        unfold HeapAt
        constructor <;> intro h' <;> omega)
    have b1' : st1.array.length = arr.length := b1
    have b2' : st1.array.Perm arr := b2
    have hall1 : AllSteps (HeapMark arr) st1 :=
      heapBuild_all _ (heapMark_none arr) _ _ _ st1
        (by intro s hs; simp [SortState.init] at hs) e1
    by_cases hn : arr.length = 0
    · have harr : arr = [] := List.length_eq_zero.mp hn
      subst harr
      refine ⟨{ steps := [], comparisons := 0, swaps := 0 }, rfl, ?_⟩
      intro step hs
      simp at hs
    · have hheap : ∀ x, x < arr.length - 1 + 1 → HeapAt st1.array (arr.length - 1 + 1) x := by
        intro x hx
        have := b3 x (by omega)
        rw [show arr.length - 1 + 1 = arr.length by omega]
        exact this
      obtain ⟨st2, e2, _⟩ := heapExtract_spec arr.length (arr.length - 1) st1
        b1' (by omega) hheap (by intro p q _ h1 h2; omega)
      have hall2 := heapExtract_marks arr (arr.length - 1) st1 st2 b1' (by omega) b2' hheap
        (by intro p q _ h1 h2; omega) hall1 e2
      have hrun : heap arr = some st2.result := by
        unfold heap heapRun
        dsimp only
        rw [e1]
        dsimp only
        rw [e2]
        rfl
      refine ⟨st2.result, hrun, ?_⟩
      intro step hstep l hl
      obtain ⟨i, h1, h2, h3, h4⟩ := hall2 step hstep l hl
      refine ⟨i, h1, h2, fun x => by rw [h3]; exact mem_countDown arr.length i x h1 h2, ?_⟩
      intro x hx
      rw [h3] at hx
      have := (mem_countDown arr.length i x h1 h2).mp hx
      exact h4 x this.1 this.2

end AlgoViz
